import Mathlib

/-!
# wfmash: disjoint sets, chain merging, the index, the L1 and L2 regions, the filters and the
wavefront kernels

A shallow embedding of

* `src/common/dset64-gccAtomic.hpp` : `dsets::DisjointSets`
* `src/map/include/computeMap.hpp`  : `mergeMappingsInRange`, `processChainWithSplits`,
  `processMappingFragment`, `adjustConsecutiveMappings`, `computeChainStatistics`,
  `mappingBoundarySanityCheck`, `computeL1CandidateRegions`, `computeL2MappedRegions`,
  `filterWeakMappings`, `filterMaximallyMerged`, `filterFalseHighIdentity`,
  `filterFailedSubMappings`, `sparsifyMappings`, `getRefGroup`, `setProbs`, `mapModule`,
  `getSeedIntervalPoints`, `doL2Mapping`
* `src/map/include/winSketch.hpp`   : `Sketch::buildHandleThreadOutput`, `Sketch::build`,
  `Sketch::reader_thread`, `Sketch::writeIndex`, `Sketch::readIndex` and the functions they call
* `src/common/wflign/deps/WFAv2/WFA/wavefront/wavefront_penalties.c` :
  `wavefronts_penalties_set_affine2p`
* `src/common/wflign/deps/wflambdav2/wflambda/wavefront/wavefront_compute_affine2p.c` :
  `wavefront_compute_affine2p_idm_unbounded`,
  `wavefront_compute_affine2p_idm_piggyback_unbounded`

followed by the properties proved about them.

Conventions of the embedding.

* `uint64_t` ids and ranks are `Nat`; the only arithmetic on them is the rank bump `r2 + 1`,
  which is taken modulo `2 ^ 64`.
* `offset_t`, `seqno_t`, `strand_t`, `int` and `int64_t` values are `Int`; `/` on them is
  `Int.tdiv` (C++ truncation).  Coordinates are 64-bit values taken to be far from the ends of
  the 64-bit range, so sums and differences of two of them do not wrap; where such a value is
  stored in an `int` (the gaps, the midpoints and the threshold of `adjustConsecutiveMappings`)
  it is reduced to 32 bits (`toInt`).
* A 128-bit word of the union-find array is the pair of its two 64-bit halves.
* Execution is sequential: a compare-and-swap is a comparison followed by a store.
* Loops whose number of rounds is not syntactically bounded (`find`, `unite`, `same`, the outer
  loops of the two passes of `computeL1CandidateRegions`, the binary searches, the inner loop
  of `computeL2MappedRegions`) carry a fuel argument and return `none` when it runs out; the
  theorems show that they return.
* `float` fields are exact rationals, and arithmetic on them is exact where the code rounds in
  floating point (`approxMatches`, the averaged identities); no property below states a value
  computed that way.  The doubles of the chaining scan are `DBL_MAX` or the square root of an
  integer and are compared through that integer (type `Score`).
* `computeMap.hpp` includes the single-threaded `common/dset64.hpp`, which is not among the
  sources; the class `dsets::DisjointSets` is taken from `dset64-gccAtomic.hpp`, run
  sequentially.
* A vector is a list; a function that updates a range in place returns the range after the
  call.  An iterator into a vector is the list of the elements from the iterator to the end.
* A hash map with `operator[]` is a function from keys to values, an absent key having the
  value `operator[]` creates (the empty vector, `0`); a map that is iterated (the index file)
  is the list of its entries.
* A `std::string` is the list of its characters.
* Classes and functions that are not among the sources (`SlideMapper`, the orders of
  `MinmerInfo`, `IntervalPoint` and `boundPtr`, `MappingResult::hash`, the hypergeometric
  functions, the functions of `Stat`) are arbitrary parameters.
* A heap whose order of equal elements is not fixed by the sources (`doL2Mapping`,
  `getSeedIntervalPoints`) is the list of its elements with a parameter that picks its front.
* A call `exit(1)` of the C sources is the result `none`.
* A variable read before it is assigned (`prevPos` in `computeL1CandidateRegions`) holds an
  arbitrary value, passed as an argument.
-/

namespace dsets

/-- The type `Aint` (`__uint128_t`): `parent` is the 64 least significant bits (`parentMask`),
`rank` the 64 most significant ones (`rankMask`). -/
structure Aint where
  rank : Nat
  parent : Nat
deriving DecidableEq, Repr

/-- The class `DisjointSets`: the caller-owned array `mData` and its size `n`. -/
structure DisjointSets where
  mData : List Aint
  n : Nat
deriving DecidableEq, Repr

namespace DisjointSets

/-- The constructor `DisjointSets(mData, size)`: `mData[i] = Aint(i)` for every `i < size`. -/
def create (size : Nat) : DisjointSets :=
  ⟨(List.range size).map (fun i => ⟨0, i⟩), size⟩

/-- The word `mData[id]`. -/
def cell (d : DisjointSets) (id : Nat) : Aint :=
  d.mData.getD id ⟨0, 0⟩

/-- The method `rank(id)`: `(uint64_t) (mData[id] >> 64)`. -/
def rank (d : DisjointSets) (id : Nat) : Nat :=
  (d.cell id).rank

/-- The method `parent(id)`: `(uint64_t) mData[id]`. -/
def parent (d : DisjointSets) (id : Nat) : Nat :=
  (d.cell id).parent

/-- The method `size()`. -/
def size (d : DisjointSets) : Nat :=
  d.n

/-- The store `mData[id] = entry`. -/
def store (d : DisjointSets) (id : Nat) (entry : Aint) : DisjointSets :=
  ⟨d.mData.set id entry, d.n⟩

/-- Sequential `__sync_bool_compare_and_swap(&mData[id], oldEntry, newEntry)`: store `newEntry`
when the word equals `oldEntry`, and report whether the store happened. -/
def compareAndSwap (d : DisjointSets) (id : Nat) (oldEntry newEntry : Aint) :
    DisjointSets × Bool :=
  if d.cell id = oldEntry then (d.store id newEntry, true) else (d, false)

/-- The loop of `find`: while `id != parent(id)`, replace the parent of `id` by its grandparent
(keeping the rank bits) and continue from that grandparent. -/
def findLoop : Nat → DisjointSets → Nat → Option (DisjointSets × Nat)
  | 0, _, _ => none
  | fuel + 1, d, id =>
    if id ≠ d.parent id then
      let value := d.cell id
      let new_parent := d.parent value.parent
      let new_value : Aint := ⟨value.rank, new_parent⟩
      let d1 := if value ≠ new_value then (d.compareAndSwap id value new_value).1 else d
      findLoop fuel d1 new_parent
    else
      some (d, id)

/-- The method `find(id)`.  The loop condition is evaluated at most `n` times. -/
def find (d : DisjointSets) (id : Nat) : Option (DisjointSets × Nat) :=
  findLoop d.n d id

/-- The loop of `same`. -/
def sameLoop : Nat → DisjointSets → Nat → Nat → Option (DisjointSets × Bool)
  | 0, _, _, _ => none
  | fuel + 1, d, id1, id2 =>
    match d.find id1 with
    | none => none
    | some (d1, id1) =>
      match d1.find id2 with
      | none => none
      | some (d2, id2) =>
        if id1 = id2 then some (d2, true)
        else if d2.parent id1 = id1 then some (d2, false)
        else sameLoop fuel d2 id1 id2

/-- The method `same(id1, id2)`. -/
def same (d : DisjointSets) (id1 id2 : Nat) : Option (DisjointSets × Bool) :=
  sameLoop (d.n + 1) d id1 id2

/-- The loop of `unite`: find both roots, order them by `(rank, id)`, hang the lower one under
the other with a compare-and-swap (retrying from the start when it fails), and bump the rank of
the survivor when the ranks were equal. -/
def uniteLoop : Nat → DisjointSets → Nat → Nat → Option (DisjointSets × Nat)
  | 0, _, _, _ => none
  | fuel + 1, d, id1, id2 =>
    match d.find id1 with
    | none => none
    | some (d1, id1) =>
      match d1.find id2 with
      | none => none
      | some (d2, id2) =>
        if id1 = id2 then some (d2, id1)
        else
          let r1 := d2.rank id1
          let r2 := d2.rank id2
          let swap : Bool := decide (r1 > r2 ∨ (r1 = r2 ∧ id1 < id2))
          let r1s := if swap then r2 else r1
          let r2s := if swap then r1 else r2
          let id1s := if swap then id2 else id1
          let id2s := if swap then id1 else id2
          let res := d2.compareAndSwap id1s ⟨r1s, id1s⟩ ⟨r1s, id2s⟩
          if res.2 = false then uniteLoop fuel res.1 id1s id2s
          else
            let d4 :=
              if r1s = r2s then
                (res.1.compareAndSwap id2s ⟨r2s, id2s⟩ ⟨(r2s + 1) % 2 ^ 64, id2s⟩).1
              else res.1
            some (d4, id2s)

/-- The method `unite(id1, id2)`. -/
def unite (d : DisjointSets) (id1 id2 : Nat) : Option (DisjointSets × Nat) :=
  uniteLoop (d.n + 1) d id1 id2

end DisjointSets

end dsets


namespace dsets

/-- `ClimbsTo p i r`: following the parent map `p` from `i` ends in `r`, and `r` is a root
(`p r = r`). -/
inductive ClimbsTo (p : Nat → Nat) : Nat → Nat → Prop
  | root {r : Nat} : p r = r → ClimbsTo p r r
  | step {i r : Nat} : p i ≠ i → ClimbsTo p (p i) r → ClimbsTo p i r

namespace DisjointSets

/-- The root of `i` in the forest stored in `d` is `r`. -/
def RootOf (d : DisjointSets) (i r : Nat) : Prop :=
  ClimbsTo d.parent i r

/-- Two elements lie in the same set of `d`: they have a common root. -/
def SameSet (d : DisjointSets) (x y : Nat) : Prop :=
  ∃ r, d.RootOf x r ∧ d.RootOf y r

/-- The weight of an element: its rank, plus one when it is a root. -/
def weight (d : DisjointSets) (i : Nat) : Nat :=
  d.rank i + if d.parent i = i then 1 else 0

/-- The well-formedness of a state in sequential use: the array has `n` words, `n` fits a
`uint64_t`, parents are ids, ranks grow strictly towards the roots, and the ranks together with
the number of roots do not exceed `n`. -/
structure Inv (d : DisjointSets) : Prop where
  length_eq : d.mData.length = d.n
  n_lt : d.n < 2 ^ 64
  parent_lt : ∀ i, i < d.n → d.parent i < d.n
  rank_parent : ∀ i, i < d.n → d.parent i ≠ i → d.rank i < d.rank (d.parent i)
  weight_le : (Finset.range d.n).sum d.weight ≤ d.n

/-- `Preserves d e`: `e` is a well-formed state over the same ids as `d`, with the same ranks,
the same roots and the same root for every element (what path compression leaves intact). -/
structure Preserves (d e : DisjointSets) : Prop where
  n_eq : e.n = d.n
  rank_eq : ∀ i, e.rank i = d.rank i
  root_iff : ∀ i, e.parent i = i ↔ d.parent i = i
  rootOf_iff : ∀ i r, e.RootOf i r ↔ d.RootOf i r

/-- `Loses d l w`: of the two roots, `l` is the one `unite` hangs under `w`. -/
def Loses (d : DisjointSets) (l w : Nat) : Prop :=
  d.rank l < d.rank w ∨ (d.rank l = d.rank w ∧ w < l)

/-- The state after hanging the root `l` under the root `w`, with the rank bump of `w` when the
two ranks are equal. -/
def linked (d : DisjointSets) (l w : Nat) : DisjointSets :=
  if d.rank l = d.rank w then
    (d.store l ⟨d.rank l, w⟩).store w ⟨(d.rank w + 1) % 2 ^ 64, w⟩
  else d.store l ⟨d.rank l, w⟩

/-- One call of the interface: `find`, `same` or `unite`. -/
inductive Op where
  | find (x : Nat)
  | same (x y : Nat)
  | unite (x y : Nat)
deriving DecidableEq, Repr

/-- The ids of an operation are below `n`. -/
def Op.InRange (n : Nat) : Op → Prop
  | .find x => x < n
  | .same x y => x < n ∧ y < n
  | .unite x y => x < n ∧ y < n

/-- The state after one operation (its return value dropped). -/
def applyOp (d : DisjointSets) : Op → Option DisjointSets
  | .find x => (d.find x).map Prod.fst
  | .same x y => (d.same x y).map Prod.fst
  | .unite x y => (d.unite x y).map Prod.fst

/-- The state after a sequence of operations executed one after the other. -/
def run : List Op → DisjointSets → Option DisjointSets
  | [], d => some d
  | op :: ops, d => (d.applyOp op).bind (run ops)

/-- The state after the calls `unite(a, b)` for the pairs of `pairs`, in order. -/
def uniteAll : List (Nat × Nat) → DisjointSets → Option DisjointSets
  | [], d => some d
  | (a, b) :: pairs, d => (d.unite a b).bind (fun res => uniteAll pairs res.1)

/-- A state reachable from the constructor by sequential calls with ids below `n`. -/
inductive Reachable (n : Nat) : DisjointSets → Prop
  | create : Reachable n (create n)
  | step {d e : DisjointSets} (op : Op) : Reachable n d → op.InRange n → d.applyOp op = some e →
      Reachable n e

end DisjointSets

end dsets

namespace skch

/-- Modelled from the spec: the strand constants `strnd::FWD` and `strnd::REV` of
`base_types.hpp` (not among the sources), the signed sentinels `+1` and `-1` of the spec's data
model. -/
def strnd.FWD : Int := 1

/-- Modelled from the spec: see `strnd.FWD`. -/
def strnd.REV : Int := -1

/-- A `double` of the chaining scan.  The scan only ever holds `DBL_MAX`
(`std::numeric_limits<double>::max()`) and values `std::sqrt(q * q + r * r)` for two integer
gaps `q`, `r`; the latter is kept as the integer under the root.  On exact arguments `std::sqrt`
is strictly increasing, so the comparisons of the scan are comparisons of these integers (this
is the behaviour of the doubles as long as `q * q + r * r < 2 ^ 51`). -/
inductive Score where
  | dblMax
  | sqrt (s : Nat)
deriving DecidableEq, Repr

/-- The comparison `a < b` of two doubles of the scan. -/
def Score.lt : Score → Score → Bool
  | .sqrt a, .sqrt b => decide (a < b)
  | .sqrt _, .dblMax => true
  | .dblMax, _ => false

/-- The comparison `a < m` of a double of the scan with an `int` converted to `double`. -/
def Score.ltInt : Score → Int → Bool
  | .sqrt a, m => decide (0 < m ∧ (a : Int) < m * m)
  | .dblMax, _ => false

/-- Modelled from the spec: the record `MappingResult` of `base_types.hpp` (not among the
sources), with the fields of the spec's data model and the flag `overlapped` written by
`mergeMappingsInRange`.  Integer fields are `Int`, the `float` fields are exact rationals (no
property below depends on how they round), `chainPairScore` is a `Score`. -/
structure MappingResult where
  queryLen : Int
  refStartPos : Int
  refEndPos : Int
  queryStartPos : Int
  queryEndPos : Int
  refSeqId : Int
  querySeqId : Int
  blockLength : Int
  approxMatches : Int
  n_merged : Int
  conservedSketches : Int
  nucIdentity : ℚ
  nucIdentityUpperBound : ℚ
  sketchSize : Int
  kmerComplexity : ℚ
  strand : Int
  splitMappingId : Int
  discard : Int
  overlapped : Bool
  chainPairScore : Score
  chainPairId : Int
  blockNucIdentity : ℚ
deriving DecidableEq

/-- A mapping with the given query range, reference range, strand and reference sequence, on
a query of length 1000, with identity 1; used for concrete instances. -/
def MappingResult.sample (queryStartPos queryEndPos refStartPos refEndPos strand refSeqId : Int) :
    MappingResult :=
  { queryLen := 1000
    refStartPos := refStartPos
    refEndPos := refEndPos
    queryStartPos := queryStartPos
    queryEndPos := queryEndPos
    refSeqId := refSeqId
    querySeqId := 0
    blockLength := max (refEndPos - refStartPos) (queryEndPos - queryStartPos)
    approxMatches := 0
    n_merged := 1
    conservedSketches := 1
    nucIdentity := 1
    nucIdentityUpperBound := 1
    sketchSize := 1
    kmerComplexity := 1
    strand := strand
    splitMappingId := 0
    discard := 0
    overlapped := false
    chainPairScore := Score.dblMax
    chainPairId := 0
    blockNucIdentity := 1 }

/-- The fields of `skch::Parameters` read by the chain merger, and the two limits
`std::numeric_limits<offset_t>::max()` and `::min()` of the type `offset_t`, which is declared
outside the sources. -/
structure Parameters where
  segLength : Int
  max_mapping_length : Int
  offset_max : Int
  offset_min : Int
deriving DecidableEq, Repr

/-- Concrete parameters: segments of 100 bases, chains cut from 50 bases on, `offset_t` of 64
bits. -/
def Parameters.sample : Parameters :=
  ⟨100, 50, 2 ^ 63 - 1, -(2 ^ 63)⟩

/-- Two forward mappings of 100 bases each on reference sequence 0, the second starting where
the first ends on both axes. -/
def MappingResult.samplePair : List MappingResult :=
  [MappingResult.sample 0 100 0 100 1 0, MappingResult.sample 100 200 100 200 1 0]

/-- `IsMinOf v l`: `v` is the smallest element of `l`. -/
def IsMinOf (v : Int) (l : List Int) : Prop :=
  v ∈ l ∧ ∀ x ∈ l, v ≤ x

/-- `IsMaxOf v l`: `v` is the largest element of `l`. -/
def IsMaxOf (v : Int) (l : List Int) : Prop :=
  v ∈ l ∧ ∀ x ∈ l, x ≤ v

/-- The function `std::round` on an exact value: to the nearest integer, halves away from
zero. -/
def stdRound (x : ℚ) : Int :=
  if 0 ≤ x then Rat.floor (x + 1 / 2) else -Rat.floor (-x + 1 / 2)

/-- The conversion of a signed 64-bit value to `uint64_t`. -/
def toU64 (v : Int) : Nat :=
  (v % 2 ^ 64).toNat

/-- The conversion of a `uint64_t` to a signed 64-bit value. -/
def ofU64 (v : Nat) : Int :=
  if v < 2 ^ 63 then (v : Int) else (v : Int) - 2 ^ 64

/-- The algorithm `std::sort` with the comparator `lt`: the result is ordered by `lt` and is a
permutation of the input (elements that `lt` does not separate keep their order here). -/
def stdSort {α : Type} (lt : α → α → Bool) (l : List α) : List α :=
  l.insertionSort (fun a b => lt b a = false)

/-- The block `reference start pos` of `mappingBoundarySanityCheck`; `len` is
`refSketch.metadata[e.refSeqId].len`. -/
def sanitizeRefStart (len : Int) (e : MappingResult) : MappingResult :=
  let e := if e.refStartPos < 0 then { e with refStartPos := 0 } else e
  if e.refStartPos ≥ len then { e with refStartPos := len - 1 } else e

/-- The block `reference end pos` of `mappingBoundarySanityCheck`. -/
def sanitizeRefEnd (len : Int) (e : MappingResult) : MappingResult :=
  let e := if e.refEndPos < e.refStartPos then { e with refEndPos := e.refStartPos } else e
  if e.refEndPos ≥ len then { e with refEndPos := len - 1 } else e

/-- The block `query start pos` of `mappingBoundarySanityCheck`; `len` is `input->len`. -/
def sanitizeQueryStart (len : Int) (e : MappingResult) : MappingResult :=
  let e := if e.queryStartPos < 0 then { e with queryStartPos := 0 } else e
  if e.queryStartPos ≥ len then { e with queryStartPos := len } else e

/-- The block `query end pos` of `mappingBoundarySanityCheck`. -/
def sanitizeQueryEnd (len : Int) (e : MappingResult) : MappingResult :=
  let e := if e.queryEndPos < e.queryStartPos then { e with queryEndPos := e.queryStartPos }
    else e
  if e.queryEndPos ≥ len then { e with queryEndPos := len } else e

/-- The body of the loop of `mappingBoundarySanityCheck` for one mapping `e`: its four blocks
in order; `refLen` is `refSketch.metadata[.].len` and `inputLen` is `input->len`. -/
def boundarySanityCheck (refLen : Int → Int) (inputLen : Int) (e : MappingResult) :
    MappingResult :=
  sanitizeQueryEnd inputLen (sanitizeQueryStart inputLen
    (sanitizeRefEnd (refLen e.refSeqId) (sanitizeRefStart (refLen e.refSeqId) e)))

/-- The function `mappingBoundarySanityCheck(input, readMappings)`. -/
def mappingBoundarySanityCheck (refLen : Int → Int) (inputLen : Int)
    (readMappings : List MappingResult) : List MappingResult :=
  readMappings.map (boundarySanityCheck refLen inputLen)

/-- One round of the first loop of `processMappingFragment`: `fragment` takes the smaller start
and the larger end of itself and `it`, on both axes. -/
def fragmentExtend (fragment it : MappingResult) : MappingResult :=
  { fragment with
    queryStartPos := min fragment.queryStartPos it.queryStartPos
    refStartPos := min fragment.refStartPos it.refStartPos
    queryEndPos := max fragment.queryEndPos it.queryEndPos
    refEndPos := max fragment.refEndPos it.refEndPos }

/-- The function `processMappingFragment(start, end)` on the range `[start, end)` given as a
list; the result is the range after the call.  The first mapping is the fragment that is
updated, the others are flagged `discard = 1`.  (The call sites pass a non-empty range.)  The
product behind `approxMatches` is taken exactly, where the code rounds it in floating point; no
property below states `approxMatches`. -/
def processMappingFragment : List MappingResult → List MappingResult
  | [] => []
  | first :: rest =>
    let fragment := (first :: rest).foldl fragmentExtend first
    let blockLength := max (fragment.refEndPos - fragment.refStartPos)
      (fragment.queryEndPos - fragment.queryStartPos)
    let approxMatches := stdRound (fragment.nucIdentity * blockLength / 100)
    let n_merged : Int := (first :: rest).length
    let nucIdentity :=
      (first :: rest).foldl (fun (sum : ℚ) (e : MappingResult) => sum + e.nucIdentity) 0
        / n_merged
    let kmerComplexity :=
      (first :: rest).foldl (fun (sum : ℚ) (e : MappingResult) => sum + e.kmerComplexity) 0
        / n_merged
    { fragment with
      blockLength := blockLength
      approxMatches := approxMatches
      n_merged := n_merged
      nucIdentity := nucIdentity
      kmerComplexity := kmerComplexity } :: rest.map (fun e => { e with discard := 1 })

/-- The conversion of a 64-bit value to `int`: the value modulo `2 ^ 32` in the range of a
32-bit two's complement integer. -/
def toInt (v : Int) : Int :=
  (v + 2 ^ 31) % 2 ^ 32 - 2 ^ 31

/-- The mapping `prev` after the midpoint adjustment of `adjustConsecutiveMappings` against
`curr`: its end moves to the two midpoints, which are stored in the `int` variables `query_mid`
and `ref_mid`; `blockLength` and `approxMatches` follow. -/
def adjustedPrev (prev curr : MappingResult) : MappingResult :=
  let query_mid := toInt ((prev.queryEndPos + curr.queryStartPos).tdiv 2)
  let ref_mid := toInt ((prev.refEndPos + curr.refStartPos).tdiv 2)
  let blockLength := max (ref_mid - prev.refStartPos) (query_mid - prev.queryStartPos)
  { prev with
    queryEndPos := query_mid
    refEndPos := ref_mid
    blockLength := blockLength
    approxMatches := stdRound (prev.nucIdentity * blockLength / 100) }

/-- The mapping `curr` after the midpoint adjustment of `adjustConsecutiveMappings` against
`prev`: its start moves to the two midpoints, which are stored in the `int` variables
`query_mid` and `ref_mid`; `blockLength` and `approxMatches` follow. -/
def adjustedCurr (prev curr : MappingResult) : MappingResult :=
  let query_mid := toInt ((prev.queryEndPos + curr.queryStartPos).tdiv 2)
  let ref_mid := toInt ((prev.refEndPos + curr.refStartPos).tdiv 2)
  let blockLength := max (curr.refEndPos - ref_mid) (curr.queryEndPos - query_mid)
  { curr with
    queryStartPos := query_mid
    refStartPos := ref_mid
    blockLength := blockLength
    approxMatches := stdRound (curr.nucIdentity * blockLength / 100) }

/-- The loop of `adjustConsecutiveMappings`, at the pair `prev`, `curr` with `curr` the head of
the second argument; `prev` carries the changes of the round before.  The two gaps are stored in
the `int` variables `query_gap` and `ref_gap`; `threshold` is the value of the `int`
parameter. -/
def adjustLoop (threshold : Int) : MappingResult → List MappingResult → List MappingResult
  | prev, [] => [prev]
  | prev, curr :: rest =>
    if prev.refSeqId ≠ curr.refSeqId ∨ prev.strand ≠ curr.strand then
      prev :: adjustLoop threshold curr rest
    else if toInt (curr.queryStartPos - prev.queryEndPos) > 0 ∧
        toInt (curr.refStartPos - prev.refEndPos) > 0 ∧
        toInt (curr.queryStartPos - prev.queryEndPos) ≤ threshold ∧
        toInt (curr.refStartPos - prev.refEndPos) ≤ threshold then
      adjustedPrev prev curr :: adjustLoop threshold (adjustedCurr prev curr) rest
    else
      prev :: adjustLoop threshold curr rest

/-- The function `adjustConsecutiveMappings(begin, end, threshold)`; the argument is converted
to the `const int` parameter `threshold`. -/
def adjustConsecutiveMappings (threshold : Int) : List MappingResult → List MappingResult
  | [] => []
  | prev :: rest => adjustLoop (toInt threshold) prev rest

/-- The function `computeChainStatistics(begin, end)`. -/
def computeChainStatistics (param : Parameters) (chain : List MappingResult) :
    List MappingResult :=
  let chain_start_query := chain.foldl (fun (acc : Int) (it : MappingResult) => min acc it.queryStartPos) param.offset_max
  let chain_end_query := chain.foldl (fun (acc : Int) (it : MappingResult) => max acc it.queryEndPos) param.offset_min
  let chain_start_ref := chain.foldl (fun (acc : Int) (it : MappingResult) => min acc it.refStartPos) param.offset_max
  let chain_end_ref := chain.foldl (fun (acc : Int) (it : MappingResult) => max acc it.refEndPos) param.offset_min
  let accumulate_nuc_identity := chain.foldl (fun (acc : ℚ) (it : MappingResult) => acc + it.nucIdentity) 0
  let n_in_full_chain : Int := chain.length
  let chain_nuc_identity := accumulate_nuc_identity / n_in_full_chain
  let block_length := max (chain_end_query - chain_start_query) (chain_end_ref - chain_start_ref)
  chain.map (fun it =>
    { it with
      n_merged := n_in_full_chain
      blockLength := block_length
      blockNucIdentity := chain_nuc_identity })

/-- The first loop of `processChainWithSplits`: `it` is the head of the second argument, at
index `i` of the chain, `prev` the mapping before it; a gap of more than `segLength / 5` on
either axis clears `is_cuttable` at both. -/
def markCuttable (param : Parameters) :
    MappingResult → List MappingResult → Nat → List Bool → List Bool
  | _, [], _, is_cuttable => is_cuttable
  | prev, it :: rest, i, is_cuttable =>
    if it.queryStartPos - prev.queryEndPos > param.segLength.tdiv 5 ∨
        it.refStartPos - prev.refEndPos > param.segLength.tdiv 5 then
      markCuttable param it rest (i + 1) ((is_cuttable.set (i - 1) false).set i false)
    else
      markCuttable param it rest (i + 1) is_cuttable

/-- The vector `is_cuttable` of `processChainWithSplits` after its first loop. -/
def isCuttable (param : Parameters) : List MappingResult → List Bool
  | [] => []
  | first :: rest => markCuttable param first rest 1 (List.replicate (rest.length + 1) true)

/-- The second loop of `processChainWithSplits` with its final `if`: the first argument is the
rest of the chain from `it` on, each mapping with its `is_cuttable` flag, `fragment` is the range
`[fragment_start, it)`.  The result lists, in order, the ranges given to
`processMappingFragment`, each as that call leaves it. -/
def splitLoop (param : Parameters) :
    List (MappingResult × Bool) → List MappingResult → Int → List (List MappingResult)
  | [], fragment, _ => if fragment ≠ [] then [processMappingFragment fragment] else []
  | (it, cuttable) :: rest, fragment, accumulate_length =>
    let accumulate_length := accumulate_length + (it.queryEndPos - it.queryStartPos)
    if accumulate_length ≥ param.max_mapping_length ∧ cuttable = true then
      processMappingFragment (fragment ++ [it]) :: splitLoop param rest [] 0
    else
      splitLoop param rest (fragment ++ [it]) accumulate_length

/-- The fragments of a chain: the ranges `processChainWithSplits` gives to
`processMappingFragment`, as those calls leave them. -/
def chainFragments (param : Parameters) (chain : List MappingResult) :
    List (List MappingResult) :=
  splitLoop param ((adjustConsecutiveMappings param.segLength chain).zip
    (isCuttable param chain)) [] 0

/-- The function `processChainWithSplits(begin, end)`. -/
def processChainWithSplits (param : Parameters) (chain : List MappingResult) :
    List MappingResult :=
  if chain = [] then []
  else computeChainStatistics param (chainFragments param chain).flatten

/-- The comparator of the first `std::sort` of `mergeMappingsInRange`:
`std::tie(queryStartPos, refSeqId, refStartPos)` in lexicographic order. -/
def queryRefLess (a b : MappingResult) : Bool :=
  decide (a.queryStartPos < b.queryStartPos ∨ (a.queryStartPos = b.queryStartPos ∧
    (a.refSeqId < b.refSeqId ∨ (a.refSeqId = b.refSeqId ∧ a.refStartPos < b.refStartPos))))

/-- The comparator of the second `std::sort` of `mergeMappingsInRange`:
`std::tie(splitMappingId, queryStartPos, refSeqId, refStartPos)` in lexicographic order. -/
def chainQueryRefLess (a b : MappingResult) : Bool :=
  decide (a.splitMappingId < b.splitMappingId ∨
    (a.splitMappingId = b.splitMappingId ∧ queryRefLess a b = true))

/-- The loop that assigns `splitMappingId`, `discard`, `chainPairScore` and `chainPairId`;
`i` is the index of the head of the list. -/
def assignIds : List MappingResult → Nat → List MappingResult
  | [], _ => []
  | it :: rest, i =>
    { it with
      splitMappingId := (i : Int)
      discard := 0
      chainPairScore := Score.dblMax
      chainPairId := -(2 ^ 63) } :: assignIds rest (i + 1)

/-- The value `query_dist` of the chaining scan for `it` and a later mapping `it2`: the query
gap between them. -/
def query_dist (it it2 : MappingResult) : Int :=
  it2.queryStartPos - it.queryEndPos

/-- The value `ref_dist` of the chaining scan for `it` and a later mapping `it2`: the
strand-oriented reference gap between them. -/
def ref_dist (it it2 : MappingResult) : Int :=
  if it.strand = strnd.FWD then it2.refStartPos - it.refEndPos
  else it.refStartPos - it2.refEndPos

/-- The double `dist` of the chaining scan for `it` and `it2`:
`std::sqrt(std::pow(query_dist, 2) + std::pow(ref_dist, 2))`. -/
def dist (it it2 : MappingResult) : Score :=
  Score.sqrt (query_dist it it2 * query_dist it it2 + ref_dist it it2 * ref_dist it it2).toNat

/-- `Chained param max_dist a b`: the conditions under which the chaining scan accepts `b` as
a successor of `a`. -/
structure Chained (param : Parameters) (max_dist : Int) (a b : MappingResult) : Prop where
  refSeqId_eq : b.refSeqId = a.refSeqId
  strand_eq : b.strand = a.strand
  query_ne : b.queryStartPos ≠ a.queryStartPos
  query_ge : 0 ≤ query_dist a b
  query_le : query_dist a b ≤ max_dist
  ref_ge : -(param.segLength.tdiv 5) ≤ ref_dist a b
  ref_le : ref_dist a b ≤ max_dist
  near : query_dist a b * query_dist a b + ref_dist a b * ref_dist a b < max_dist * max_dist

/-- `HasPredecessor ms k j`: the mapping at index `k` of `ms` has a recorded predecessor
(`chainPairScore` is not `DBL_MAX`), and it is the mapping of sorted index `j`
(`chainPairId == j`). -/
def HasPredecessor (ms : List MappingResult) (k j : Nat) : Prop :=
  ∃ b, ms[k]? = some b ∧ b.chainPairScore ≠ Score.dblMax ∧ b.chainPairId = (j : Int)

/-- A mapping without the two fields the chaining scan writes. -/
def MappingResult.static (m : MappingResult) : MappingResult :=
  { m with chainPairScore := Score.dblMax, chainPairId := 0 }

/-- A mapping without the four fields the labelling part of `mergeMappingsInRange` writes. -/
def MappingResult.core (m : MappingResult) : MappingResult :=
  { m with splitMappingId := 0, discard := 0, chainPairScore := Score.dblMax, chainPairId := 0 }

/-- The fields of a mapping that the chain processing after the labelling never writes:
`splitMappingId`, `refSeqId`, `strand`, `chainPairId` and `chainPairScore`. -/
def MappingResult.tag (m : MappingResult) : Int × Int × Int × Int × Score :=
  (m.splitMappingId, m.refSeqId, m.strand, m.chainPairId, m.chainPairScore)

/-- The four coordinates of a mapping are values of the type `offset_t`. -/
def MappingResult.InRange (param : Parameters) (m : MappingResult) : Prop :=
  (param.offset_min ≤ m.queryStartPos ∧ m.queryStartPos ≤ param.offset_max) ∧
  (param.offset_min ≤ m.queryEndPos ∧ m.queryEndPos ≤ param.offset_max) ∧
  (param.offset_min ≤ m.refStartPos ∧ m.refStartPos ≤ param.offset_max) ∧
  (param.offset_min ≤ m.refEndPos ∧ m.refEndPos ≤ param.offset_max)

/-- `Covers h x`: `h` is not discarded and its query and reference ranges contain those of
`x`. -/
def Covers (h x : MappingResult) : Prop :=
  h.discard = 0 ∧ h.queryStartPos ≤ x.queryStartPos ∧ x.queryEndPos ≤ h.queryEndPos ∧
    h.refStartPos ≤ x.refStartPos ∧ x.refEndPos ≤ h.refEndPos

/-- The inner loop of the chaining scan for the mapping `it`: the list holds the mappings from
`it2` on, `j` is the index of `it2`; the result is `best_score` and the index `best_it2` (`none`
for `readMappings.end()`). -/
def chainInner (param : Parameters) (max_dist : Int) (it : MappingResult) :
    List MappingResult → Nat → Score → Option Nat → Score × Option Nat
  | [], _, best_score, best_it2 => (best_score, best_it2)
  | it2 :: rest, j, best_score, best_it2 =>
    if it2.refSeqId ≠ it.refSeqId then
      chainInner param max_dist it rest (j + 1) best_score best_it2
    else if it2.queryStartPos = it.queryStartPos then
      chainInner param max_dist it rest (j + 1) best_score best_it2
    else if it2.queryStartPos > it.queryEndPos + max_dist then
      (best_score, best_it2)
    else if it2.strand = it.strand then
      if query_dist it it2 ≥ 0 ∧ ref_dist it it2 ≥ (-param.segLength).tdiv 5 ∧
          ref_dist it it2 ≤ max_dist then
        if (dist it it2).ltInt max_dist = true ∧ (dist it it2).lt best_score = true ∧
            (dist it it2).lt it2.chainPairScore = true then
          chainInner param max_dist it rest (j + 1) (dist it it2) (some j)
        else
          chainInner param max_dist it rest (j + 1) best_score best_it2
      else
        chainInner param max_dist it rest (j + 1) best_score best_it2
    else
      chainInner param max_dist it rest (j + 1) best_score best_it2

/-- The assignment to `*best_it2` at the end of one round of the chaining scan. -/
def recordPair (readMappings : List MappingResult) (best_it2 : Option Nat) (best_score : Score)
    (id : Int) : List MappingResult :=
  match best_it2 with
  | none => readMappings
  | some j =>
    match readMappings[j]? with
    | none => readMappings
    | some b => readMappings.set j { b with chainPairScore := best_score, chainPairId := id }

/-- The chaining scan of `mergeMappingsInRange` from the mapping at index `i` on, with
`remaining` mappings still to visit: unite `it` with its recorded predecessor, look for the
best successor of `it`, record `it` there. -/
def chainOuter (param : Parameters) (max_dist : Int) :
    Nat → Nat → List MappingResult → dsets.DisjointSets →
      Option (List MappingResult × dsets.DisjointSets)
  | 0, _, readMappings, disjoint_sets => some (readMappings, disjoint_sets)
  | remaining + 1, i, readMappings, disjoint_sets =>
    match readMappings[i]? with
    | none => some (readMappings, disjoint_sets)
    | some it =>
      let united :=
        if it.chainPairScore ≠ Score.dblMax then
          (disjoint_sets.unite (toU64 it.splitMappingId) (toU64 it.chainPairId)).map Prod.fst
        else some disjoint_sets
      match united with
      | none => none
      | some disjoint_sets =>
        let best := chainInner param max_dist it (readMappings.drop (i + 1)) (i + 1)
          Score.dblMax none
        chainOuter param max_dist remaining (i + 1)
          (recordPair readMappings best.2 best.1 it.splitMappingId) disjoint_sets

/-- The loop `it->splitMappingId = disjoint_sets.find(it->splitMappingId)`. -/
def relabel : List MappingResult → dsets.DisjointSets →
    Option (List MappingResult × dsets.DisjointSets)
  | [], disjoint_sets => some ([], disjoint_sets)
  | it :: rest, disjoint_sets =>
    match disjoint_sets.find (toU64 it.splitMappingId) with
    | none => none
    | some (disjoint_sets, r) =>
      match relabel rest disjoint_sets with
      | none => none
      | some (rest, disjoint_sets) =>
        some ({ it with splitMappingId := ofU64 r } :: rest, disjoint_sets)

/-- The state of the chaining scan before the round of index `i`, over `n` mappings: the
mappings are numbered by their index, every recorded predecessor is an earlier mapping already
visited that the later one may follow, with their distance as score, and the sets of the
union-find are the classes generated by the recorded pairs of the mappings already visited. -/
structure ScanInv (param : Parameters) (max_dist : Int) (n i : Nat) (ms : List MappingResult)
    (d : dsets.DisjointSets) : Prop where
  len : ms.length = n
  dinv : d.Inv
  dn : d.n = n
  ids : ∀ (k : Nat) (m : MappingResult), ms[k]? = some m → m.splitMappingId = (k : Int)
  links : ∀ (k : Nat) (b : MappingResult), ms[k]? = some b →
    b.chainPairScore ≠ Score.dblMax →
    ∃ (j : Nat) (a : MappingResult), j < k ∧ j < i ∧ b.chainPairId = (j : Int) ∧ ms[j]? = some a ∧
      Chained param max_dist a b ∧ b.chainPairScore = dist a b
  part : ∀ x y, x < n → y < n →
    (d.SameSet x y ↔ Relation.EqvGen (fun u v => u < i ∧ HasPredecessor ms u v) x y)

/-- The first part of `mergeMappingsInRange` (up to the loop that assigns the merged mapping
ids): sort, number, scan and relabel.  The result is `readMappings` in the order of the first
sort, each mapping with its `chainPairId`, `chainPairScore` and final `splitMappingId`. -/
def labelChains (param : Parameters) (readMappings : List MappingResult) (max_dist : Int) :
    Option (List MappingResult) :=
  let sorted := assignIds (stdSort queryRefLess readMappings) 0
  let disjoint_sets := dsets.DisjointSets.create sorted.length
  match chainOuter param max_dist sorted.length 0 sorted disjoint_sets with
  | none => none
  | some (scanned, disjoint_sets) => (relabel scanned disjoint_sets).map Prod.fst

/-- The buckets `[it, it_end)` of the two chain loops of `mergeMappingsInRange`: `it_end` is the
first mapping from `it` on whose `splitMappingId` differs from that of `it`.  The first argument
is the bucket being collected, the second the mappings not yet looked at. -/
def chainBuckets : List MappingResult → List MappingResult → List (List MappingResult)
  | [], [] => []
  | it :: bucket, [] => [it :: bucket]
  | [], e :: rest => chainBuckets [e] rest
  | it :: bucket, e :: rest =>
    if e.splitMappingId ≠ it.splitMappingId then
      (it :: bucket) :: chainBuckets [e] rest
    else
      chainBuckets (it :: bucket ++ [e]) rest

/-- The body of the loop that creates `maximallyMergedMappings`, for the bucket `[it, it_end)`
(`last` is `std::prev(it_end)`). -/
def mergedMapping (it last : MappingResult) (bucket : List MappingResult) : MappingResult :=
  let queryStartPos := it.queryStartPos
  let queryEndPos := last.queryEndPos
  let refStartPos := it.refStartPos
  let refEndPos := last.refEndPos
  let blockLength := max (refEndPos - refStartPos) (queryEndPos - queryStartPos)
  let n_merged : Int := bucket.length
  let totalNucIdentity :=
    bucket.foldl (fun (acc : ℚ) (e : MappingResult) => acc + e.nucIdentity) 0
  let totalKmerComplexity :=
    bucket.foldl (fun (acc : ℚ) (e : MappingResult) => acc + e.kmerComplexity) 0
  let totalConservedSketches :=
    bucket.foldl (fun (acc : Int) (e : MappingResult) => acc + e.conservedSketches) 0
  let totalSketchSize :=
    bucket.foldl (fun (acc : Int) (e : MappingResult) => acc + e.sketchSize) 0
  let nucIdentity := totalNucIdentity / n_merged
  { it with
    queryStartPos := queryStartPos
    queryEndPos := queryEndPos
    refStartPos := refStartPos
    refEndPos := refEndPos
    blockLength := blockLength
    n_merged := n_merged
    nucIdentity := nucIdentity
    kmerComplexity := totalKmerComplexity / n_merged
    conservedSketches := totalConservedSketches
    sketchSize := totalSketchSize
    blockNucIdentity := nucIdentity
    approxMatches := stdRound (nucIdentity * blockLength / 100)
    discard := 0
    overlapped := false
    chainPairScore := Score.dblMax
    chainPairId := -(2 ^ 63) }

/-- The vector `maximallyMergedMappings`: one merged mapping for each bucket. -/
def maximallyMerged (readMappings : List MappingResult) : List MappingResult :=
  (chainBuckets [] readMappings).filterMap (fun bucket =>
    match bucket.head?, bucket.getLast? with
    | some it, some last => some (mergedMapping it last bucket)
    | _, _ => none)

/-- The function `mergeMappingsInRange(readMappings, max_dist)`: the first component of the
result is `readMappings` after the call, the second the returned vector. -/
def mergeMappingsInRange (param : Parameters) (readMappings : List MappingResult)
    (max_dist : Int) : Option (List MappingResult × List MappingResult) :=
  if readMappings.length < 2 then some (readMappings, readMappings)
  else
    match labelChains param readMappings max_dist with
    | none => none
    | some labelled =>
      let sorted := stdSort chainQueryRefLess labelled
      let maximallyMergedMappings := maximallyMerged sorted
      let processed :=
        ((chainBuckets [] sorted).map (processChainWithSplits param)).flatten
      some (processed.filter (fun e => decide (e.discard ≠ 1)), maximallyMergedMappings)

end skch

/-!
## `winSketch.hpp`: the positional index

`Sketch::buildHandleThreadOutput` (and the identical loop of `Sketch::writer_thread`).  The map
`minmerPosLookupIndex` is a function from hashes to vectors: `operator[]` on an absent key
yields the empty vector.
-/

namespace skch

/-- Modelled from the spec: the two values `side::OPEN` and `side::CLOSE` of `base_types.hpp`
(not among the sources). -/
inductive side where
  | OPEN
  | CLOSE
deriving DecidableEq, Repr

/-- Modelled from the spec: the record `IntervalPoint` of `base_types.hpp` (not among the
sources), with the fields in the order of the initialisers
`IntervalPoint {mi.wpos, mi.hash, mi.seqId, side::OPEN}` of `winSketch.hpp`. -/
structure IntervalPoint where
  pos : Int
  hash : Nat
  seqId : Int
  side : side
deriving DecidableEq, Repr

/-- Modelled from the spec: the record `MinmerInfo` of `base_types.hpp` (not among the
sources), with the fields in the order of the initialiser
`MinmerInfo {hash, start, end, seqId, strand}` of `winSketch.hpp`. -/
structure MinmerInfo where
  hash : Nat
  wpos : Int
  wpos_end : Int
  seqId : Int
  strand : Int
deriving DecidableEq, Repr

/-- The two members of the class `Sketch` written by `buildHandleThreadOutput`. -/
structure Sketch where
  minmerPosLookupIndex : Nat → List IntervalPoint
  minmerIndex : List MinmerInfo

/-- The members of a `Sketch` before the first sequence is handled. -/
def Sketch.empty : Sketch :=
  ⟨fun _ => [], []⟩

/-- The assignment `v.back().pos = pos` on a vector. -/
def setBackPos (v : List IntervalPoint) (pos : Int) : List IntervalPoint :=
  match v.getLast? with
  | none => v
  | some back => v.dropLast ++ [{ back with pos := pos }]

/-- The body of the loop of `buildHandleThreadOutput`, for one window `mi`. -/
def handleMinmer (index : Nat → List IntervalPoint) (mi : MinmerInfo) :
    Nat → List IntervalPoint :=
  let v := index mi.hash
  let fresh : Bool :=
    match v.getLast? with
    | none => true
    | some back => decide (back.hash ≠ mi.hash ∨ back.pos ≠ mi.wpos)
  if fresh then
    Function.update index mi.hash
      (v ++ [⟨mi.wpos, mi.hash, mi.seqId, side.OPEN⟩, ⟨mi.wpos_end, mi.hash, mi.seqId, side.CLOSE⟩])
  else
    Function.update index mi.hash (setBackPos v mi.wpos_end)

/-- The method `buildHandleThreadOutput(contigMinmerIndex)`. -/
def buildHandleThreadOutput (s : Sketch) (contigMinmerIndex : List MinmerInfo) : Sketch :=
  ⟨contigMinmerIndex.foldl handleMinmer s.minmerPosLookupIndex,
    s.minmerIndex ++ contigMinmerIndex⟩

/-- The vector made of the windows `ws`, each one its opening point followed by its closing
point. -/
def windowPoints (ws : List (IntervalPoint × IntervalPoint)) : List IntervalPoint :=
  ws.flatMap (fun w => [w.1, w.2])

/-- A window of the vector of the hash `h`: an `OPEN` and a `CLOSE` of that hash and of one
sequence, the `CLOSE` not before the `OPEN`. -/
def IsWindowOf (h : Nat) (w : IntervalPoint × IntervalPoint) : Prop :=
  w.1.side = side.OPEN ∧ w.2.side = side.CLOSE ∧ w.1.hash = h ∧ w.2.hash = h ∧
    w.2.seqId = w.1.seqId ∧ w.1.pos ≤ w.2.pos

/-- The vector of the hash `h` is made of windows of `h`. -/
def WellPaired (h : Nat) (v : List IntervalPoint) : Prop :=
  ∃ ws, v = windowPoints ws ∧ ∀ w ∈ ws, IsWindowOf h w

/-- Two calls on windows of the hash `7`: two abutting windows of sequence `0`, then one window
of sequence `1`. -/
def MinmerInfo.sampleCalls : List (List MinmerInfo) :=
  [[⟨7, 5, 10, 0, 1⟩, ⟨7, 10, 12, 0, 1⟩], [⟨7, 3, 4, 1, 1⟩]]

end skch

/-!
## `computeMap.hpp`: the candidate regions of stage L1

`Map::computeL1CandidateRegions`.  The two iterators `trailingIt` and `leadingIt` are the lists
of the points from the iterator to `ip_end`.  The map `hash_to_freq` is a function from hashes
to counts (`operator[]` on an absent key yields `0`).  The sweep also keeps, next to
`overlapCount`, the list of the values `overlapCount` has taken (field `history`, most recent
first); nothing in the source corresponds to it and no value computed by the function depends
on it.
-/

namespace skch

/-- The record `Map::L1_candidateLocus_t`. -/
structure L1_candidateLocus_t where
  seqId : Int
  rangeStartPos : Int
  rangeEndPos : Int
  intersectionSize : Int
deriving DecidableEq, Repr

/-- Modelled from the spec: the record `SeqCoord` of `base_types.hpp` (not among the sources),
with the fields in the order of the initialiser `SeqCoord{leadingIt->seqId, leadingIt->pos}`. -/
structure SeqCoord where
  seqId : Int
  pos : Int
deriving DecidableEq, Repr

/-- The two members of the template parameter `Q_Info` read by `computeL1CandidateRegions`. -/
structure Q_Info where
  len : Int
  sketchSize : Int
deriving DecidableEq, Repr

/-- The counters of a sweep: `hash_to_freq`, `overlapCount`, and the values `overlapCount` has
taken so far. -/
structure Sweep where
  hash_to_freq : Nat → Int
  overlapCount : Int
  history : List Int

/-- The counters at the start of a sweep. -/
def Sweep.start : Sweep :=
  ⟨fun _ => 0, 0, [0]⟩

/-- The condition of the loop that catches the trailing iterator up. -/
def trailingBehind (windowLen : Int) (trailing leading : IntervalPoint) : Bool :=
  decide ((trailing.seqId = leading.seqId ∧ trailing.pos ≤ leading.pos - windowLen) ∨
    trailing.seqId < leading.seqId)

/-- The body of the trailing loop on a point whose side is `CLOSE`. -/
def closePoint (windowLen : Int) (p : IntervalPoint) (s : Sweep) : Sweep :=
  let freq := if windowLen ≠ 0 then
    Function.update s.hash_to_freq p.hash (s.hash_to_freq p.hash - 1) else s.hash_to_freq
  if windowLen = 0 ∨ freq p.hash = 0 then
    ⟨freq, s.overlapCount - 1, (s.overlapCount - 1) :: s.history⟩
  else ⟨freq, s.overlapCount, s.history⟩

/-- The body of the leading loop on a point whose side is `OPEN`. -/
def openPoint (windowLen : Int) (p : IntervalPoint) (s : Sweep) : Sweep :=
  let count := if windowLen = 0 ∨ s.hash_to_freq p.hash = 0 then s.overlapCount + 1
    else s.overlapCount
  let history := if windowLen = 0 ∨ s.hash_to_freq p.hash = 0 then
    (s.overlapCount + 1) :: s.history else s.history
  let freq := if windowLen ≠ 0 then
    Function.update s.hash_to_freq p.hash (s.hash_to_freq p.hash + 1) else s.hash_to_freq
  ⟨freq, count, history⟩

/-- The loop `while (trailingIt != ip_end && ...)` of either pass: the trailing iterator and the
counters when the loop is left. -/
def trailingLoop (windowLen : Int) (leading : IntervalPoint) :
    List IntervalPoint → Sweep → List IntervalPoint × Sweep
  | [], s => ([], s)
  | t :: rest, s =>
    if trailingBehind windowLen t leading then
      trailingLoop windowLen leading rest (if t.side = side.CLOSE then closePoint windowLen t s else s)
    else (t :: rest, s)

/-- The loop `while (leadingIt != ip_end && leadingIt->pos == currentPos)` of either pass: the
leading iterator and the counters when the loop is left. -/
def leadingLoop (windowLen : Int) (currentPos : Int) :
    List IntervalPoint → Sweep → List IntervalPoint × Sweep
  | [], s => ([], s)
  | p :: rest, s =>
    if p.pos = currentPos then
      leadingLoop windowLen currentPos rest (if p.side = side.OPEN then openPoint windowLen p s else s)
    else (p :: rest, s)

/-- The variables of the first pass at the head of its outer loop. -/
structure FirstPass where
  trailingIt : List IntervalPoint
  leadingIt : List IntervalPoint
  sweep : Sweep
  bestIntersectionSize : Int

/-- One round of the outer loop of the first pass, `p` being the point `*leadingIt`. -/
def firstPassRound (windowLen : Int) (st : FirstPass) (p : IntervalPoint) : FirstPass :=
  let r1 := trailingLoop windowLen p st.trailingIt st.sweep
  let currentPos := p.pos
  let r2 := leadingLoop windowLen currentPos st.leadingIt r1.2
  ⟨r1.1, r2.1, r2.2, max st.bestIntersectionSize r2.2.overlapCount⟩

/-- The outer loop of the first pass: the final `bestIntersectionSize` and the values
`overlapCount` has taken. -/
def firstPassLoop (windowLen : Int) : Nat → FirstPass → Option (Int × List Int)
  | 0, st =>
    match st.leadingIt with
    | [] => some (st.bestIntersectionSize, st.sweep.history)
    | _ :: _ => none
  | fuel + 1, st =>
    match st.leadingIt with
    | [] => some (st.bestIntersectionSize, st.sweep.history)
    | p :: _ => firstPassLoop windowLen fuel (firstPassRound windowLen st p)

/-- The variables of the second pass that describe the locus under construction. -/
structure Candidate where
  in_candidate : Bool
  l1_out : L1_candidateLocus_t
  localOpts : List L1_candidateLocus_t
deriving DecidableEq, Repr

/-- The statement `if (prevOverlap >= minimumHits) ... else ...` that ends a round of the
second pass. -/
def recordOverlap (windowLen minimumHits : Int) (stage2_full_scan : Bool) (prevOverlap : Int)
    (prevPos : SeqCoord) (c : Candidate) : Candidate :=
  if prevOverlap ≥ minimumHits then
    let c1 : Candidate :=
      if c.l1_out.seqId ≠ prevPos.seqId ∧ c.in_candidate = true then
        ⟨false, ⟨0, 0, 0, 0⟩, c.localOpts ++ [c.l1_out]⟩
      else c
    if c1.in_candidate = false then
      ⟨true, ⟨prevPos.seqId, prevPos.pos - windowLen, prevPos.pos - windowLen, prevOverlap⟩,
        c1.localOpts⟩
    else if stage2_full_scan then
      ⟨true, ⟨c1.l1_out.seqId, c1.l1_out.rangeStartPos, prevPos.pos - windowLen,
        max c1.l1_out.intersectionSize prevOverlap⟩, c1.localOpts⟩
    else if c1.l1_out.intersectionSize < prevOverlap then
      ⟨true, ⟨c1.l1_out.seqId, prevPos.pos - windowLen, prevPos.pos - windowLen, prevOverlap⟩,
        c1.localOpts⟩
    else c1
  else if c.in_candidate then ⟨false, ⟨0, 0, 0, 0⟩, c.localOpts ++ [c.l1_out]⟩
  else ⟨false, c.l1_out, c.localOpts⟩

/-- The variables of the second pass at the head of its outer loop. -/
structure SecondPass where
  trailingIt : List IntervalPoint
  leadingIt : List IntervalPoint
  sweep : Sweep
  prevPos : SeqCoord
  currentPos : SeqCoord
  cand : Candidate

/-- One round of the outer loop of the second pass, `p` being the point `*leadingIt`. -/
def secondPassRound (windowLen minimumHits : Int) (stage2_full_scan : Bool) (st : SecondPass)
    (p : IntervalPoint) : SecondPass :=
  let prevOverlap := st.sweep.overlapCount
  let r1 := trailingLoop windowLen p st.trailingIt st.sweep
  let prevPos := if p.pos ≠ st.currentPos.pos then st.currentPos else st.prevPos
  let currentPos : SeqCoord :=
    if p.pos ≠ st.currentPos.pos then ⟨p.seqId, p.pos⟩ else st.currentPos
  let r2 := leadingLoop windowLen currentPos.pos st.leadingIt r1.2
  ⟨r1.1, r2.1, r2.2, prevPos, currentPos,
    recordOverlap windowLen minimumHits stage2_full_scan prevOverlap prevPos st.cand⟩

/-- The vector `localOpts` after the statement `if (in_candidate)` that follows the outer loop
of the second pass. -/
def SecondPass.localOpts (st : SecondPass) : List L1_candidateLocus_t :=
  if st.cand.in_candidate then st.cand.localOpts ++ [st.cand.l1_out] else st.cand.localOpts

/-- The outer loop of the second pass and the statement `if (in_candidate)` after it: the final
`localOpts` and the values `overlapCount` has taken. -/
def secondPassLoop (windowLen minimumHits : Int) (stage2_full_scan : Bool) :
    Nat → SecondPass → Option (List L1_candidateLocus_t × List Int)
  | 0, st =>
    match st.leadingIt with
    | [] => some (st.localOpts, st.sweep.history)
    | _ :: _ => none
  | fuel + 1, st =>
    match st.leadingIt with
    | [] => some (st.localOpts, st.sweep.history)
    | p :: _ =>
      secondPassLoop windowLen minimumHits stage2_full_scan fuel
        (secondPassRound windowLen minimumHits stage2_full_scan st p)

/-- The body of the loop that joins proximal local optima. -/
def joinLocus (clusterLen : Int) (l1Mappings : List L1_candidateLocus_t)
    (l1_out : L1_candidateLocus_t) : List L1_candidateLocus_t :=
  match l1Mappings.getLast? with
  | none => l1Mappings ++ [l1_out]
  | some back =>
    if l1_out.seqId ≠ back.seqId ∨ l1_out.rangeStartPos > back.rangeEndPos + clusterLen then
      l1Mappings ++ [l1_out]
    else
      l1Mappings.dropLast ++ [⟨back.seqId, back.rangeStartPos, l1_out.rangeEndPos,
        max l1_out.intersectionSize back.intersectionSize⟩]

/-- The value `windowLen` of `computeL1CandidateRegions`. -/
def windowLenOf (param : Parameters) (Q : Q_Info) : Int :=
  max 0 (Q.len - param.segLength)

/-- The first pass of `computeL1CandidateRegions`: `bestIntersectionSize` when the loop is left,
with the values `overlapCount` has taken. -/
def firstPass (param : Parameters) (Q : Q_Info) (ip : List IntervalPoint) :
    Option (Int × List Int) :=
  firstPassLoop (windowLenOf param Q) ip.length ⟨ip, ip, Sweep.start, 0⟩

/-- The second pass of `computeL1CandidateRegions` with the threshold `minimumHits`: the vector
`localOpts` before the joining loop, with the values `overlapCount` has taken.  The function
reads `*ip_begin` before the loop, so the range has to hold a point.  `prevPos` is declared
without an initial value; `prevPos0` is the value it holds until the first assignment. -/
def secondPass (param : Parameters) (stage2_full_scan : Bool) (Q : Q_Info) (prevPos0 : SeqCoord)
    (ip : List IntervalPoint) (minimumHits : Int) :
    Option (List L1_candidateLocus_t × List Int) :=
  match ip with
  | [] => none
  | p :: _ =>
    secondPassLoop (windowLenOf param Q) minimumHits stage2_full_scan ip.length
      ⟨ip, ip, Sweep.start, prevPos0, ⟨p.seqId, p.pos⟩, ⟨false, ⟨0, 0, 0, 0⟩, []⟩⟩

/-- The threshold of the second pass once the first pass has found `bestIntersectionSize`.
`cutoff x` is the entry `sketchCutoffs[int(x / std::max<double>(1, param.sketchSize /
skch::fixed::ss_table_max))]` of the table built by the constructor, for
`x = std::min(bestIntersectionSize, Q.sketchSize)`. -/
def refinedMinimumHits (cutoff : Int → Int) (Q : Q_Info) (bestIntersectionSize minimumHits : Int) :
    Int :=
  max (cutoff (min bestIntersectionSize Q.sketchSize)) minimumHits

/-- The function `computeL1CandidateRegions(Q, ip_begin, ip_end, minimumHits, l1Mappings)`:
`l1Mappings` after the call, with the values `overlapCount` has taken in the passes that were
run. -/
def computeL1CandidateRegions (param : Parameters) (stage1_topANI_filter stage2_full_scan : Bool)
    (cutoff : Int → Int) (Q : Q_Info) (prevPos0 : SeqCoord) (ip : List IntervalPoint)
    (minimumHits : Int) (l1Mappings : List L1_candidateLocus_t) :
    Option (List L1_candidateLocus_t × List Int) :=
  if stage1_topANI_filter then
    match firstPass param Q ip with
    | none => none
    | some (bestIntersectionSize, h1) =>
      if bestIntersectionSize < minimumHits then some (l1Mappings, h1)
      else
        match secondPass param stage2_full_scan Q prevPos0 ip
            (refinedMinimumHits cutoff Q bestIntersectionSize minimumHits) with
        | none => none
        | some (localOpts, h2) =>
          some (localOpts.foldl (joinLocus param.segLength) l1Mappings, h2 ++ h1)
  else
    match secondPass param stage2_full_scan Q prevPos0 ip minimumHits with
    | none => none
    | some (localOpts, h2) => some (localOpts.foldl (joinLocus param.segLength) l1Mappings, h2)

/-- The order of the interval points on `(seqId, pos)`. -/
def coordLE (a b : IntervalPoint) : Prop :=
  a.seqId < b.seqId ∨ (a.seqId = b.seqId ∧ a.pos ≤ b.pos)

instance (a b : IntervalPoint) : Decidable (coordLE a b) := by
  unfold coordLE
  infer_instance

/-- Six points of sequence `0`: the windows `[10, 30)` of hash `1`, `[20, 40)` of hash `2` and
`[25, 60)` of hash `3`, in the order of `(seqId, pos)`. -/
def IntervalPoint.samplePoints : List IntervalPoint :=
  [⟨10, 1, 0, side.OPEN⟩, ⟨20, 2, 0, side.OPEN⟩, ⟨25, 3, 0, side.OPEN⟩,
    ⟨30, 1, 0, side.CLOSE⟩, ⟨40, 2, 0, side.CLOSE⟩, ⟨60, 3, 0, side.CLOSE⟩]

/-- Two consecutive loci of `l1Mappings` on one sequence are more than `clusterLen` apart. -/
def Separated (clusterLen : Int) (a b : L1_candidateLocus_t) : Prop :=
  a.seqId = b.seqId → b.rangeStartPos > a.rangeEndPos + clusterLen

/-- The locus `a` stands for the run `g` of local optima: they lie on the sequence of `a`, `a`
starts where the first starts and ends where the last ends, and `intersectionSize` of `a` is
the largest of theirs. -/
def JoinedFrom (g : List L1_candidateLocus_t) (a : L1_candidateLocus_t) : Prop :=
  (∀ b ∈ g, b.seqId = a.seqId) ∧
    (∃ first last, g.head? = some first ∧ g.getLast? = some last ∧
      a.rangeStartPos = first.rangeStartPos ∧ a.rangeEndPos = last.rangeEndPos) ∧
    IsMaxOf a.intersectionSize (g.map L1_candidateLocus_t.intersectionSize)

/-- The invariant of the joining loop started on an empty vector: the loci stand for
consecutive runs of the local optima read so far, and consecutive loci are separated. -/
def JoinInv (clusterLen : Int) (done out : List L1_candidateLocus_t) : Prop :=
  List.Chain' (Separated clusterLen) out ∧
    ∃ joined : List (List L1_candidateLocus_t × L1_candidateLocus_t),
      out = joined.map Prod.snd ∧ done = (joined.map Prod.fst).flatten ∧
        ∀ ga ∈ joined, JoinedFrom ga.1 ga.2

/-- Both ends of the locus `a` are positions of interval points of the sequence of `a`, moved
back by `windowLen`. -/
def FromPoints (windowLen : Int) (ip : List IntervalPoint) (a : L1_candidateLocus_t) : Prop :=
  ∃ p ∈ ip, ∃ q ∈ ip, p.seqId = a.seqId ∧ q.seqId = a.seqId ∧
    a.rangeStartPos = p.pos - windowLen ∧ a.rangeEndPos = q.pos - windowLen

/-- The locus `a` starts at or before the point `q` moved back by `windowLen`, in the order of
`(seqId, pos)`. -/
def LocusBefore (windowLen : Int) (a : L1_candidateLocus_t) (q : IntervalPoint) : Prop :=
  a.seqId < q.seqId ∨ (a.seqId = q.seqId ∧ a.rangeStartPos + windowLen ≤ q.pos)

/-- Of two loci of one sequence the first starts at or before the second. -/
def StartsOrdered (a b : L1_candidateLocus_t) : Prop :=
  a.seqId = b.seqId → a.rangeStartPos ≤ b.rangeStartPos

/-- The shape of the loci of the second pass when `currentPos` is at the point `q`: each has
its ends in order and at points of its sequence, starts at or before `q`, and the loci of one
sequence are in the order of their starts. -/
structure CandInv (windowLen : Int) (ip : List IntervalPoint) (q : IntervalPoint)
    (c : Candidate) : Prop where
  good : ∀ a ∈ c.localOpts,
    a.rangeStartPos ≤ a.rangeEndPos ∧ FromPoints windowLen ip a ∧ LocusBefore windowLen a q
  good_out : c.in_candidate = true →
    c.l1_out.rangeStartPos ≤ c.l1_out.rangeEndPos ∧ FromPoints windowLen ip c.l1_out ∧
      LocusBefore windowLen c.l1_out q
  ordered : c.localOpts.Pairwise StartsOrdered
  ordered_out : c.in_candidate = true → ∀ a ∈ c.localOpts, StartsOrdered a c.l1_out

/-- The invariant of the outer loop of the second pass on points in the order of
`(seqId, pos)`, with a threshold of at least one: `currentPos` is at a point `q` that no
remaining point precedes, the loci have the shape `CandInv`, and the leading iterator has left
the position of `currentPos` unless no round has been run. -/
structure SecondPassInv (windowLen : Int) (ip : List IntervalPoint) (st : SecondPass)
    (q : IntervalPoint) : Prop where
  mem : q ∈ ip
  current : st.currentPos = ⟨q.seqId, q.pos⟩
  before : ∀ x ∈ st.leadingIt, coordLE q x
  sorted : st.leadingIt.Pairwise coordLE
  sub : ∀ x ∈ st.leadingIt, x ∈ ip
  cand : CandInv windowLen ip q st.cand
  moved : st.sweep.overlapCount = 0 ∨ ∀ y ∈ st.leadingIt.head?, y.pos ≠ st.currentPos.pos

/-- The points `ip` are well formed for the windows `ws`: they are the opening and closing
points of the windows, in the order of `(seqId, pos)`; every window has an `OPEN` and a `CLOSE`
of one hash and one sequence, the `CLOSE` at a larger position; two windows of one hash on one
sequence do not overlap. -/
structure WellFormedPoints (ip : List IntervalPoint)
    (ws : List (IntervalPoint × IntervalPoint)) : Prop where
  perm : ip.Perm (windowPoints ws)
  sorted : ip.Pairwise coordLE
  window : ∀ w ∈ ws, w.1.side = side.OPEN ∧ w.2.side = side.CLOSE ∧ w.2.hash = w.1.hash ∧
    w.2.seqId = w.1.seqId ∧ w.1.pos < w.2.pos
  disjoint : ws.Pairwise (fun a b => a.1.hash = b.1.hash → a.1.seqId = b.1.seqId →
    a.2.pos ≤ b.1.pos ∨ b.2.pos ≤ a.1.pos)

/-- The distinct hashes of the points. -/
def sketchHashes (ip : List IntervalPoint) : List Nat :=
  (ip.map IntervalPoint.hash).dedup

/-- The windows whose `OPEN` is among the points `cl` the leading iterator has passed and whose
`CLOSE` is not among the points `ct` the trailing iterator has passed. -/
def activeWindows (ws : List (IntervalPoint × IntervalPoint)) (cl ct : List IntervalPoint) :
    List (IntervalPoint × IntervalPoint) :=
  ws.filter (fun w => decide (w.1 ∈ cl ∧ w.2 ∉ ct))

/-- The invariant of a sweep with `windowLen != 0`: `overlapCount` is the number of hashes
whose count in `hash_to_freq` is positive, and the values it has taken lie between `0` and the
number of distinct hashes. -/
structure SweepInvN (ip : List IntervalPoint) (s : Sweep) : Prop where
  count : s.overlapCount =
    ((sketchHashes ip).filter (fun h => decide (0 < s.hash_to_freq h))).length
  hist : ∀ v ∈ s.history, 0 ≤ v ∧ v ≤ (sketchHashes ip).length

/-- The invariant of a sweep with `windowLen == 0`, the trailing iterator having passed the
points `ct` and the leading iterator the points `cl`: `overlapCount` is the number of active
windows, a window whose `CLOSE` has been passed had its `OPEN` passed, no `CLOSE` still ahead
of the trailing iterator lies behind a point passed by the leading iterator, and the values
`overlapCount` has taken lie between `0` and the number of distinct hashes. -/
structure SweepInv0 (ip : List IntervalPoint) (ws : List (IntervalPoint × IntervalPoint))
    (ct trailing cl leading : List IntervalPoint) (s : Sweep) : Prop where
  split_t : ip = ct ++ trailing
  split_l : ip = cl ++ leading
  count : s.overlapCount = (activeWindows ws cl ct).length
  closed : ∀ w ∈ ws, w.2 ∈ ct → w.1 ∈ cl
  apart : ∀ w ∈ ws, w.2 ∈ trailing → ∀ o ∈ cl, trailingBehind 0 w.2 o = false
  hist : ∀ v ∈ s.history, 0 ≤ v ∧ v ≤ (sketchHashes ip).length

/-- The invariant of a sweep, for either value of `windowLen`. -/
def SweepInv (windowLen : Int) (ip : List IntervalPoint)
    (ws : List (IntervalPoint × IntervalPoint)) (trailing leading : List IntervalPoint)
    (s : Sweep) : Prop :=
  (windowLen ≠ 0 ∧ SweepInvN ip s ∧ (∀ x ∈ trailing, x ∈ ip) ∧ ∀ x ∈ leading, x ∈ ip) ∨
    (windowLen = 0 ∧ ∃ ct cl, SweepInv0 ip ws ct trailing cl leading s)

/-- The three windows of `IntervalPoint.samplePoints`. -/
def IntervalPoint.sampleWindows : List (IntervalPoint × IntervalPoint) :=
  [(⟨10, 1, 0, side.OPEN⟩, ⟨30, 1, 0, side.CLOSE⟩), (⟨20, 2, 0, side.OPEN⟩, ⟨40, 2, 0, side.CLOSE⟩),
    (⟨25, 3, 0, side.OPEN⟩, ⟨60, 3, 0, side.CLOSE⟩)]

end skch

/-!
## `computeMap.hpp`: the filters on mappings

`filterWeakMappings`, `filterFalseHighIdentity`, `filterFailedSubMappings`, `sparsifyMappings`
and the first statement of `filterMaximallyMerged`.  The fields `block_length`,
`percentageIdentity` and `sparsity_hash_threshold` of `param` are passed as arguments.
-/

namespace skch

/-- The idiom `v.erase(std::remove_if(v.begin(), v.end(), pred), v.end())`: the elements for
which `pred` is false, in their order. -/
def eraseRemoveIf {α : Type} (pred : α → Bool) (v : List α) : List α :=
  v.filter (fun e => !pred e)

/-- The function `filterWeakMappings(readMappings, min_count)`; `block_length` is
`param.block_length`. -/
def filterWeakMappings (block_length : Int) (readMappings : List MappingResult)
    (min_count : Int) : List MappingResult :=
  eraseRemoveIf (fun e => decide (e.blockLength < block_length ∨ e.n_merged < min_count))
    readMappings

/-- The first statement of `filterMaximallyMerged`:
`filterWeakMappings(readMappings, std::floor(param.block_length / param.segLength))`.  Both
fields are integers, so `/` is the integer division and `std::floor` returns its argument. -/
def filterMaximallyMergedWeak (param : Parameters) (block_length : Int)
    (readMappings : List MappingResult) : List MappingResult :=
  filterWeakMappings block_length readMappings (Int.tdiv block_length param.segLength)

/-- The value `len_id_bound` of the predicate of `filterFalseHighIdentity`.  (For
`q_l + r_l == 0` the source divides by zero in floating point; the value here is only meant
for `q_l + r_l != 0`.) -/
def len_id_bound (e : MappingResult) : ℚ :=
  let q_l : Int := e.queryEndPos - e.queryStartPos
  let r_l : Int := e.refEndPos - e.refStartPos
  let delta : Nat := (r_l - q_l).natAbs
  1 - (delta : ℚ) / (((q_l : ℚ) + (r_l : ℚ)) / 2)

/-- The function `filterFalseHighIdentity(readMappings)`; `percentageIdentity` is
`param.percentageIdentity`, and `0.7` is the rational `7 / 10`. -/
def filterFalseHighIdentity (percentageIdentity : ℚ) (readMappings : List MappingResult) :
    List MappingResult :=
  eraseRemoveIf (fun e => decide (len_id_bound e < min (7 / 10) (percentageIdentity ^ 3)))
    readMappings

/-- The function `filterFailedSubMappings(readMappings, kept_chains)`; the set `kept_chains` is
the list of its elements. -/
def filterFailedSubMappings (readMappings : List MappingResult) (kept_chains : List Int) :
    List MappingResult :=
  eraseRemoveIf (fun e => decide (kept_chains.count e.splitMappingId = 0)) readMappings

/-- The function `sparsifyMappings(readMappings)`; `sparsity_hash_threshold` is
`param.sparsity_hash_threshold`, and `hash` is the method `MappingResult::hash()`, which is
declared outside the sources. -/
def sparsifyMappings (hash : MappingResult → Nat) (sparsity_hash_threshold : Nat)
    (readMappings : List MappingResult) : List MappingResult :=
  if sparsity_hash_threshold < 2 ^ 64 - 1 then
    eraseRemoveIf (fun e => decide (hash e > sparsity_hash_threshold)) readMappings
  else readMappings

/-- A mapping with the given `blockLength` and `n_merged` (the other fields as in
`MappingResult.sample 0 100 0 100 1 0`). -/
def MappingResult.sampleBlock (blockLength n_merged : Int) : MappingResult :=
  { MappingResult.sample 0 100 0 100 1 0 with blockLength := blockLength, n_merged := n_merged }

/-- Three mappings: one that passes the weak-mapping filter for a threshold of 250 bases on
segments of 100, one that is too short, one merged from too few mappings. -/
def MappingResult.sampleBlocks : List MappingResult :=
  [MappingResult.sampleBlock 300 2, MappingResult.sampleBlock 200 5,
    MappingResult.sampleBlock 300 1]

end skch

/-! ## `computeMap.hpp`: reference groups and sketch cut-offs; `winSketch.hpp`: short sequences

A `std::string` is the list of its characters.  The function `Map::prefix` is called `prefixOf`
here.  The hypergeometric probabilities behind `distDiff` are computed by a numerical library in
floating point; `distDiff` is an arbitrary Boolean function of its two arguments. -/

namespace skch

/-- The member `std::string::find_last_of(c)`: the position of the last `c` in `s`, and `none`
for `npos`. -/
def find_last_of : List Char → Char → Option Nat
  | [], _ => none
  | x :: s, c =>
    match find_last_of s c with
    | some i => some (i + 1)
    | none => if x = c then some 0 else none

/-- The member `std::string::substr(pos, count)`; the count `npos` is `none`. -/
def substr (s : List Char) (pos : Nat) (count : Option Nat) : List Char :=
  match count with
  | some n => (s.drop pos).take n
  | none => s.drop pos

/-- The function `prefix(s, c)`: `s.substr(0, s.find_last_of(c))`. -/
def prefixOf (s : List Char) (c : Char) : List Char :=
  substr s 0 (find_last_of s c)

/-- The loop of `getRefGroup` from position `i` on; `metadata` holds the names
`refSketch.metadata[i].name` from `i` on, and a read of `refIdGroup` outside the vector gives
`none`. -/
def getRefGroupFrom (prefix_delim : Char) (refIdGroup : List Int) (queryPrefix : List Char) :
    Nat → List (List Char) → Option Int
  | _, [] => some (-1)
  | i, name :: metadata =>
    if queryPrefix = prefixOf name prefix_delim then refIdGroup[i]?
    else getRefGroupFrom prefix_delim refIdGroup queryPrefix (i + 1) metadata

/-- The function `getRefGroup(seqName)`; `metadata` is the list of the names of
`refSketch.metadata`. -/
def getRefGroup (prefix_delim : Char) (metadata : List (List Char)) (refIdGroup : List Int)
    (seqName : List Char) : Option Int :=
  getRefGroupFrom prefix_delim refIdGroup (prefixOf seqName prefix_delim) 0 metadata

/-- The record `InputSeqContainer(seq, seq_name, seqId)`. -/
structure InputSeqContainer where
  seq : List Char
  seq_name : List Char
  seqId : Int
deriving DecidableEq, Repr

/-- The callback of `reader_thread` for one sequence of a reference file; the state is the
content of `input_queue`.  The length, a `size_t`, is compared with `param.segLength` as unsigned
values. -/
def readerVisit (param : Parameters) (getSequenceId : List Char → Int)
    (input_queue : List InputSeqContainer) (seq_name seq : List Char) : List InputSeqContainer :=
  if seq.length ≥ toU64 param.segLength then
    input_queue ++ [⟨seq, seq_name, getSequenceId seq_name⟩]
  else input_queue

/-- The function `reader_thread`; `seqs` are the pairs `(seq_name, seq)` that
`for_each_seq_in_file` visits, over all reference files. -/
def reader_thread (param : Parameters) (getSequenceId : List Char → Int)
    (seqs : List (List Char × List Char)) : List InputSeqContainer :=
  seqs.foldl (fun q s => readerVisit param getSequenceId q s.1 s.2) []

/-- The state of the sequence loop of `build`: the records handed to the thread pool (the
sketcher `buildHelper`), the two counters, `shortestSeqLength`, and the names of the warnings
written. -/
structure BuildLoop where
  submitted : List InputSeqContainer
  totalSeqProcessed : Nat
  totalSeqSkipped : Nat
  shortestSeqLength : Nat
  warnings : List (List Char)
deriving DecidableEq, Repr

/-- The state of `build` before the first sequence. -/
def BuildLoop.start : BuildLoop :=
  ⟨[], 0, 0, 2 ^ 64 - 1, []⟩

/-- The callback of `build` for one sequence of a reference file (the collection of finished
sketches is not part of the state). -/
def buildVisit (param : Parameters) (getSequenceId : List Char → Int) (st : BuildLoop)
    (seq_name seq : List Char) : BuildLoop :=
  if seq.length ≥ toU64 param.segLength then
    { st with
      submitted := st.submitted ++ [⟨seq, seq_name, getSequenceId seq_name⟩]
      totalSeqProcessed := st.totalSeqProcessed + 1
      shortestSeqLength := min st.shortestSeqLength seq.length }
  else
    { st with
      totalSeqSkipped := st.totalSeqSkipped + 1
      warnings := st.warnings ++ [seq_name] }

/-- The sequence loop of `build` over the pairs `(seq_name, seq)` that `for_each_seq_in_file`
visits. -/
def build (param : Parameters) (getSequenceId : List Char → Int)
    (seqs : List (List Char × List Char)) : BuildLoop :=
  seqs.foldl (fun st s => buildVisit param getSequenceId st s.1 s.2) BuildLoop.start

/-- The loop of `std::upper_bound(first, first + len, value, comp)` on the range `ss_range`,
whose element at position `i` is `i`, as a binary search: `comp i` is `comp(value, i)`. -/
def upperBoundLoop (comp : Int → Bool) : Nat → Nat → Nat → Option Nat
  | _, first, 0 => some first
  | 0, _, _ + 1 => none
  | fuel + 1, first, len + 1 =>
    let half := (len + 1) / 2
    if comp ((first + half : Nat) : Int) then upperBoundLoop comp fuel first half
    else upperBoundLoop comp fuel (first + half + 1) (len + 1 - half - 1)

/-- The call `std::upper_bound(ss_range.begin(), ss_range.begin() + ss, false, comp)` followed by
`std::distance(ss_range.begin(), ...)`. -/
def upper_bound (comp : Int → Bool) (ss : Nat) : Option Nat :=
  upperBoundLoop comp ss 0 ss

/-- The value `ss` of `setProbs`: `std::min<double>(param.sketchSize, ss_table_max)`. -/
def ssOf (sketchSize ss_table_max : Int) : Int :=
  min sketchSize ss_table_max

/-- The initial `sketchCutoffs` of the constructor of `Map`: `ss + 1` entries equal to `1`. -/
def sketchCutoffsInit (sketchSize ss_table_max : Int) : List Int :=
  List.replicate ((ssOf sketchSize ss_table_max + 1).toNat) 1

/-- One round of the loop over `cmax` in `setProbs`. -/
def setProbsRound (distDiff : Int → Int → Bool) (ss : Int) (sketchCutoffs : List Int)
    (cmax : Int) : Option (List Int) :=
  match upper_bound (fun ci => distDiff cmax ci) ss.toNat with
  | none => none
  | some ci =>
    let sketchCutoffs := sketchCutoffs.set cmax.toNat (ci : Int)
    some (if sketchCutoffs[cmax.toNat]? = some 0 then sketchCutoffs.set cmax.toNat 1
      else sketchCutoffs)

/-- The loop `for (auto cmax = 1; cmax <= ss; cmax++)` of `setProbs` over the values `cmaxs`
that are left. -/
def setProbsLoop (distDiff : Int → Int → Bool) (ss : Int) :
    List Int → List Int → Option (List Int)
  | sketchCutoffs, [] => some sketchCutoffs
  | sketchCutoffs, cmax :: cmaxs =>
    match setProbsRound distDiff ss sketchCutoffs cmax with
    | none => none
    | some sketchCutoffs => setProbsLoop distDiff ss sketchCutoffs cmaxs

/-- The function `setProbs()`, as far as it writes `sketchCutoffs`. -/
def setProbs (distDiff : Int → Int → Bool) (sketchSize ss_table_max : Int)
    (sketchCutoffs : List Int) : Option (List Int) :=
  let ss := ssOf sketchSize ss_table_max
  setProbsLoop distDiff ss sketchCutoffs ((List.range ss.toNat).map (fun i => (i : Int) + 1))

/-- The member `sketchCutoffs` after the constructor of `Map`: the initial table, and
`setProbs()` when `stage1_topANI_filter` is set. -/
def Map.sketchCutoffs (distDiff : Int → Int → Bool) (stage1_topANI_filter : Bool)
    (sketchSize ss_table_max : Int) : Option (List Int) :=
  if stage1_topANI_filter then
    setProbs distDiff sketchSize ss_table_max (sketchCutoffsInit sketchSize ss_table_max)
  else some (sketchCutoffsInit sketchSize ss_table_max)

/-- Sample reference sequences: one of 120 bases and one of 50 bases. -/
def BuildLoop.sampleSeqs : List (List Char × List Char) :=
  [(['l', 'o', 'n', 'g'], List.replicate 120 'A'),
    (['s', 'h', 'o', 'r', 't'], List.replicate 50 'C')]

end skch

/-! ## `winSketch.hpp`: writing and reading the index file

The layouts of `MinmerInfo` and `IntervalPoint` are not part of these sources, so a stream is the
list of the objects written, in order; a `read` of one type takes the next object when it is of
that type, and a stream that holds something else at that place is outside what is described
(`ReadError.malformed`).  A call `exit(1)` is `ReadError.exit1`.  Where a map is iterated it is
the list of its entries in iteration order, with `operator[]` inserting a new key at the end. -/

namespace skch

/-- One object of an index stream. -/
inductive StreamObject where
  | u64 (v : Nat)
  | chr (c : Char)
  | parameter (v : Int)
  | minmer (mi : MinmerInfo)
  | point (ip : IntervalPoint)
deriving DecidableEq, Repr

/-- How a read of the index ends when it does not load the index. -/
inductive ReadError where
  | exit1
  | malformed
  | undefined
deriving DecidableEq, Repr

/-- The members `segLength`, `sketchSize` and `kmerSize` of `param`. -/
structure IndexParameters where
  segLength : Int
  sketchSize : Int
  kmerSize : Int
deriving DecidableEq, Repr

/-- The members `minmerIndex` and `minmerPosLookupIndex` of a `Sketch`, the map as the list of
its entries. -/
structure SketchIndex where
  minmerIndex : List MinmerInfo
  minmerPosLookupIndex : List (Nat × List IntervalPoint)
deriving DecidableEq, Repr

/-- An empty `Sketch`. -/
def SketchIndex.empty : SketchIndex :=
  ⟨[], []⟩

/-- The value of the map at `hash`, when the key is present. -/
def SketchIndex.find (s : SketchIndex) (hash : Nat) : Option (List IntervalPoint) :=
  s.minmerPosLookupIndex.lookup hash

/-- The constant `0xDEADBEEFCAFEBABE`. -/
def magic_number : Nat := 0xDEADBEEFCAFEBABE

/-- The function `writeSketchBinary`. -/
def writeSketchBinary (s : SketchIndex) : List StreamObject :=
  StreamObject.u64 s.minmerIndex.length :: s.minmerIndex.map StreamObject.minmer

/-- What `writePosListBinary` writes for one entry of the map. -/
def writePosListEntry (e : Nat × List IntervalPoint) : List StreamObject :=
  StreamObject.u64 e.1 :: StreamObject.u64 e.2.length :: e.2.map StreamObject.point

/-- The function `writePosListBinary`. -/
def writePosListBinary (s : SketchIndex) : List StreamObject :=
  StreamObject.u64 s.minmerPosLookupIndex.length ::
    s.minmerPosLookupIndex.flatMap writePosListEntry

/-- The function `writeParameters`. -/
def writeParameters (param : IndexParameters) : List StreamObject :=
  [StreamObject.parameter param.segLength, StreamObject.parameter param.sketchSize,
    StreamObject.parameter param.kmerSize]

/-- What `writeSubIndexHeader` writes for one name. -/
def writeName (seqName : List Char) : List StreamObject :=
  StreamObject.u64 seqName.length :: seqName.map StreamObject.chr

/-- What `writeSubIndexHeader` writes after the magic number. -/
def writeNames (target_subset : List (List Char)) : List StreamObject :=
  StreamObject.u64 target_subset.length :: target_subset.flatMap writeName

/-- The function `writeSubIndexHeader`. -/
def writeSubIndexHeader (target_subset : List (List Char)) : List StreamObject :=
  StreamObject.u64 magic_number :: writeNames target_subset

/-- The function `writeIndex`: what it appends to the file. -/
def writeIndex (param : IndexParameters) (s : SketchIndex) (target_subset : List (List Char)) :
    List StreamObject :=
  writeSubIndexHeader target_subset ++ writeParameters param ++ writeSketchBinary s ++
    writePosListBinary s

/-- A complete sub-index stream: a leading `uint64_t`, then the name list, the parameters, the
window list and the positional map in the layout of `writeIndex`. -/
def subIndexStream (magic : Nat) (names : List (List Char)) (stored : IndexParameters)
    (s : SketchIndex) : List StreamObject :=
  StreamObject.u64 magic :: writeNames names ++ writeParameters stored ++ writeSketchBinary s ++
    writePosListBinary s

/-- A `read` of one `uint64_t` (or `size_type`). -/
def readU64 : List StreamObject → Except ReadError (Nat × List StreamObject)
  | StreamObject.u64 v :: rest => Except.ok (v, rest)
  | _ => Except.error ReadError.malformed

/-- A `read` of one parameter. -/
def readParameter : List StreamObject → Except ReadError (Int × List StreamObject)
  | StreamObject.parameter v :: rest => Except.ok (v, rest)
  | _ => Except.error ReadError.malformed

/-- A `read` of `n` objects of one type into an array of `n` elements; `get` recognises the
type. -/
def readArray {α : Type} (get : StreamObject → Option α) :
    Nat → List StreamObject → Except ReadError (List α × List StreamObject)
  | 0, s => Except.ok ([], s)
  | _ + 1, [] => Except.error ReadError.malformed
  | n + 1, o :: s =>
    match get o with
    | none => Except.error ReadError.malformed
    | some a =>
      match readArray get n s with
      | Except.ok (l, rest) => Except.ok (a :: l, rest)
      | Except.error e => Except.error e

/-- The characters among the stream objects. -/
def StreamObject.chr? : StreamObject → Option Char
  | StreamObject.chr c => some c
  | _ => none

/-- The `MinmerInfo` records among the stream objects. -/
def StreamObject.minmer? : StreamObject → Option MinmerInfo
  | StreamObject.minmer mi => some mi
  | _ => none

/-- The `IntervalPoint` records among the stream objects. -/
def StreamObject.point? : StreamObject → Option IntervalPoint
  | StreamObject.point ip => some ip
  | _ => none

/-- The loop of `readSubIndexHeader` with `n` rounds to go (`num_sequences - i`). -/
def readNames : Nat → List (List Char) → List StreamObject →
    Except ReadError (List (List Char) × List StreamObject)
  | 0, sequenceNames, s => Except.ok (sequenceNames, s)
  | n + 1, sequenceNames, s =>
    match readU64 s with
    | Except.error e => Except.error e
    | Except.ok (name_length, s) =>
      match readArray StreamObject.chr? name_length s with
      | Except.error e => Except.error e
      | Except.ok (seqName, s) => readNames n (sequenceNames ++ [seqName]) s

/-- The function `readSubIndexHeader`. -/
def readSubIndexHeader (targetSequenceNames : List (List Char)) (s : List StreamObject) :
    Except ReadError (Bool × List StreamObject) :=
  match readU64 s with
  | Except.error e => Except.error e
  | Except.ok (magic, s) =>
    if magic ≠ magic_number then Except.error ReadError.exit1
    else
      match readU64 s with
      | Except.error e => Except.error e
      | Except.ok (num_sequences, s) =>
        match readNames num_sequences [] s with
        | Except.error e => Except.error e
        | Except.ok (sequenceNames, s) =>
          Except.ok (decide (sequenceNames = targetSequenceNames), s)

/-- The function `readParameters`. -/
def readParameters (param : IndexParameters) (s : List StreamObject) :
    Except ReadError (List StreamObject) :=
  match readParameter s with
  | Except.error e => Except.error e
  | Except.ok (index_segLength, s) =>
    match readParameter s with
    | Except.error e => Except.error e
    | Except.ok (index_sketchSize, s) =>
      match readParameter s with
      | Except.error e => Except.error e
      | Except.ok (index_kmerSize, s) =>
        if param.segLength ≠ index_segLength ∨ param.sketchSize ≠ index_sketchSize ∨
            param.kmerSize ≠ index_kmerSize then Except.error ReadError.exit1
        else Except.ok s

/-- The function `readSketchBinary`: `minmerIndex` is resized to `size` and overwritten by the
`size` records read. -/
def readSketchBinary (s : List StreamObject) :
    Except ReadError (List MinmerInfo × List StreamObject) :=
  match readU64 s with
  | Except.error e => Except.error e
  | Except.ok (size, s) => readArray StreamObject.minmer? size s

/-- The statements `minmerPosLookupIndex[key].resize(size)` and the read of `size` points into
that vector: the entry of `key`, created at the end when absent, becomes the points read. -/
def assignEntry (m : List (Nat × List IntervalPoint)) (key : Nat) (v : List IntervalPoint) :
    List (Nat × List IntervalPoint) :=
  if m.lookup key = none then m ++ [(key, v)]
  else m.map (fun e => if e.1 = key then (key, v) else e)

/-- The loop `for (auto idx = 0; idx < numKeys; idx++)` of `readPosListBinary` with `n` rounds
to go (`numKeys - idx`); `idx` is an `int`, and `idx++` at `2^31 - 1` is undefined. -/
def readPosListLoop : Nat → Int → List (Nat × List IntervalPoint) → List StreamObject →
    Except ReadError (List (Nat × List IntervalPoint) × List StreamObject)
  | 0, _, m, s => Except.ok (m, s)
  | n + 1, idx, m, s =>
    match readU64 s with
    | Except.error e => Except.error e
    | Except.ok (key, s) =>
      match readU64 s with
      | Except.error e => Except.error e
      | Except.ok (size, s) =>
        match readArray StreamObject.point? size s with
        | Except.error e => Except.error e
        | Except.ok (v, s) =>
          if idx + 1 > 2 ^ 31 - 1 then Except.error ReadError.undefined
          else readPosListLoop n (idx + 1) (assignEntry m key v) s

/-- The function `readPosListBinary`. -/
def readPosListBinary (m : List (Nat × List IntervalPoint)) (s : List StreamObject) :
    Except ReadError (List (Nat × List IntervalPoint) × List StreamObject) :=
  match readU64 s with
  | Except.error e => Except.error e
  | Except.ok (numKeys, s) => readPosListLoop numKeys 0 m s

/-- The function `readIndex` on a `Sketch` with the members `sk`: the members afterwards and the
rest of the stream. -/
def readIndex (param : IndexParameters) (sk : SketchIndex)
    (targetSequenceNames : List (List Char)) (s : List StreamObject) :
    Except ReadError (SketchIndex × List StreamObject) :=
  match readSubIndexHeader targetSequenceNames s with
  | Except.error e => Except.error e
  | Except.ok (same, s) =>
    if !same then Except.error ReadError.exit1
    else
      match readParameters param s with
      | Except.error e => Except.error e
      | Except.ok s =>
        match readSketchBinary s with
        | Except.error e => Except.error e
        | Except.ok (minmerIndex, s) =>
          match readPosListBinary sk.minmerPosLookupIndex s with
          | Except.error e => Except.error e
          | Except.ok (minmerPosLookupIndex, s) =>
            Except.ok (⟨minmerIndex, minmerPosLookupIndex⟩, s)

/-- A sample index: two windows and the positional map of two hashes. -/
def SketchIndex.sample : SketchIndex :=
  ⟨[⟨7, 5, 10, 0, 1⟩, ⟨9, 6, 12, 0, 1⟩],
    [(7, [⟨5, 7, 0, side.OPEN⟩, ⟨10, 7, 0, side.CLOSE⟩]),
      (9, [⟨6, 9, 0, side.OPEN⟩, ⟨12, 9, 0, side.CLOSE⟩])]⟩

end skch

/-! ## `computeMap.hpp`: the L2 regions of a candidate

The class `SlideMapper` is not among the sources: it is a state of an arbitrary type with the two
operations and the three members that `computeL2MappedRegions` uses.  The order `operator<` of
`MinmerInfo` is the parameter `lt`.  The iterator `windowIt` is the list of the windows from its
position on, together with the window before it, which `std::prev` reads.  The vector
`slidingWindow`, a heap by `heap_cmp`, is the list of its elements in the order they were pushed;
its front is a window with the least `wpos_end`, the one pushed first among several (the inner
loop removes all of them in the same run, so only the order of the calls of `delete_minmer`
depends on that choice).  The list `evaluated` records the value of
`slideMap.sharedSketchElements` at every comparison with `bestSketchSize`; the leading windows
of these comparisons and the `slideMap` at each of them are also given on their own, by
`comparedSlideMaps`, which follows the windows only. -/

namespace skch

/-- The class `SlideMapper<Q_Info>` as far as `computeL2MappedRegions` uses it: the constructor,
`insert_minmer`, `delete_minmer`, and the members `sharedSketchElements`, `intersectionSize` and
`strand_votes`. -/
structure SlideMapper (σ : Type) where
  create : Q_Info → σ
  insert_minmer : σ → MinmerInfo → σ
  delete_minmer : σ → MinmerInfo → σ
  sharedSketchElements : σ → Int
  intersectionSize : σ → Int
  strand_votes : σ → Int

/-- The record `L2_mapLocus_t`. -/
structure L2_mapLocus_t where
  seqId : Int
  meanOptimalPos : Int
  optimalStart : Int
  optimalEnd : Int
  sharedSketchSize : Int
  strand : Int
deriving DecidableEq, Repr

/-- The value-initialised record `L2_mapLocus_t()`. -/
def L2_mapLocus_t.zero : L2_mapLocus_t :=
  ⟨0, 0, 0, 0, 0, 0⟩

/-- The loop of `std::lower_bound(first, first + len, value)` on `minmerIndex`, as a binary
search with the order `lt`. -/
def lowerBoundLoop (lt : MinmerInfo → MinmerInfo → Bool) (minmerIndex : List MinmerInfo)
    (value : MinmerInfo) : Nat → Nat → Nat → Option Nat
  | _, first, 0 => some first
  | 0, _, _ + 1 => none
  | fuel + 1, first, len + 1 =>
    let half := (len + 1) / 2
    match minmerIndex[first + half]? with
    | none => none
    | some middle =>
      if lt middle value then
        lowerBoundLoop lt minmerIndex value fuel (first + half + 1) (len + 1 - half - 1)
      else lowerBoundLoop lt minmerIndex value fuel first half

/-- The call `std::lower_bound(minmerIndex.begin(), minmerIndex.end(), value)`: the position
found. -/
def lower_bound (lt : MinmerInfo → MinmerInfo → Bool) (minmerIndex : List MinmerInfo)
    (value : MinmerInfo) : Option Nat :=
  lowerBoundLoop lt minmerIndex value minmerIndex.length 0 minmerIndex.length

/-- The member `slidingWindow.front()` of the heap by `heap_cmp`: a window with the least
`wpos_end`; `none` when the vector is empty. -/
def heapFront : List MinmerInfo → Option MinmerInfo
  | [] => none
  | e :: es =>
    match heapFront es with
    | none => some e
    | some f => if f.wpos_end < e.wpos_end then some f else some e

/-- The variables of `computeL2MappedRegions`, and the values of
`slideMap.sharedSketchElements` compared with `bestSketchSize` so far. -/
structure L2Sweep (σ : Type) where
  slidingWindow : List MinmerInfo
  hash_to_freq : Nat → Int
  slideMap : σ
  bestSketchSize : Int
  bestIntersectionSize : Int
  in_candidate : Bool
  l2_out : L2_mapLocus_t
  l2_vec_out : List L2_mapLocus_t
  evaluated : List Int

/-- The variables before the first loop. -/
def L2Sweep.start {σ : Type} (M : SlideMapper σ) (Q : Q_Info)
    (l2_vec_out : List L2_mapLocus_t) : L2Sweep σ :=
  ⟨[], fun _ => 0, M.create Q, 1, 0, false, L2_mapLocus_t.zero, l2_vec_out, []⟩

/-- The statements of either loop that count the window `w` in `hash_to_freq` and, when it is
the only open window of its hash (or `windowLen == 0`), push it on the heap and insert it into
`slideMap`; the Boolean tells whether it was pushed. -/
def openWindow {σ : Type} (M : SlideMapper σ) (windowLen : Int) (st : L2Sweep σ)
    (w : MinmerInfo) : L2Sweep σ × Bool :=
  let freq := if windowLen > 0 then
    Function.update st.hash_to_freq w.hash (st.hash_to_freq w.hash + 1) else st.hash_to_freq
  if windowLen = 0 ∨ freq w.hash = 1 then
    ({ st with
        hash_to_freq := freq
        slidingWindow := st.slidingWindow ++ [w]
        slideMap := M.insert_minmer st.slideMap w }, true)
  else ({ st with hash_to_freq := freq }, false)

/-- The loop `Set up the window`: the variables, the window before `windowIt` and the windows
from `windowIt` on when it is left. -/
def setUpLoop {σ : Type} (M : SlideMapper σ) (candidateLocus : L1_candidateLocus_t)
    (windowLen : Int) :
    L2Sweep σ → Option MinmerInfo → List MinmerInfo →
      L2Sweep σ × Option MinmerInfo × List MinmerInfo
  | st, before, [] => (st, before, [])
  | st, before, w :: ws =>
    if w.seqId = candidateLocus.seqId ∧ w.wpos < candidateLocus.rangeStartPos then
      setUpLoop M candidateLocus windowLen
        (if w.wpos_end > candidateLocus.rangeStartPos then (openWindow M windowLen st w).1
          else st)
        (some w) ws
    else (st, before, w :: ws)

/-- The inner loop of the main loop, which removes the windows that end at or before
`bound = windowIt->wpos - windowLen`. -/
def expireLoop {σ : Type} (M : SlideMapper σ) (windowLen bound : Int) :
    Nat → L2Sweep σ → Option (L2Sweep σ)
  | 0, st =>
    match heapFront st.slidingWindow with
    | none => some st
    | some front => if front.wpos_end ≤ bound then none else some st
  | fuel + 1, st =>
    match heapFront st.slidingWindow with
    | none => some st
    | some front =>
      if front.wpos_end ≤ bound then
        let freq := if windowLen > 0 then
          Function.update st.hash_to_freq front.hash (st.hash_to_freq front.hash - 1)
          else st.hash_to_freq
        if windowLen = 0 ∨ freq front.hash = 0 then
          expireLoop M windowLen bound fuel
            { st with
              hash_to_freq := freq
              slideMap := M.delete_minmer st.slideMap front
              slidingWindow := st.slidingWindow.erase front }
        else expireLoop M windowLen bound fuel { st with hash_to_freq := freq }
      else some st

/-- The statements `Save and reset` that put `l2_out` into `l2_vec_out`: a new element, or the
end of the last element moved. -/
def saveLocus (segLength : Int) (l2_vec_out : List L2_mapLocus_t) (l2_out : L2_mapLocus_t) :
    List L2_mapLocus_t :=
  match l2_vec_out.getLast? with
  | none => [l2_out]
  | some back =>
    if back.optimalEnd + segLength < l2_out.optimalStart then l2_vec_out ++ [l2_out]
    else
      l2_vec_out.dropLast ++
        [{ back with
            optimalEnd := l2_out.optimalEnd
            meanOptimalPos := Int.tdiv (back.optimalStart + l2_out.optimalEnd) 2 }]

/-- The record `l2_out` with `meanOptimalPos`, `seqId` and `strand` set from the votes. -/
def closeLocus (l2_out : L2_mapLocus_t) (seqId votes : Int) : L2_mapLocus_t :=
  { l2_out with
    meanOptimalPos := Int.tdiv (l2_out.optimalStart + l2_out.optimalEnd) 2
    seqId := seqId
    strand := if votes ≥ 0 then strnd.FWD else strnd.REV }

/-- The part of the body of the main loop after the window `w` was pushed: the comparison of
`slideMap.sharedSketchElements` with `bestSketchSize`. -/
def compareBest {σ : Type} (M : SlideMapper σ) (param : Parameters) (windowLen : Int)
    (prev_strand_votes : Int) (st : L2Sweep σ) (w : MinmerInfo) : L2Sweep σ :=
  let shared := M.sharedSketchElements st.slideMap
  let st := { st with
    bestIntersectionSize := max st.bestIntersectionSize (M.intersectionSize st.slideMap)
    evaluated := st.evaluated ++ [shared] }
  if shared > st.bestSketchSize then
    { st with
      l2_vec_out := []
      in_candidate := true
      bestSketchSize := shared
      l2_out := { st.l2_out with
        sharedSketchSize := shared
        optimalStart := w.wpos - windowLen
        optimalEnd := w.wpos - windowLen } }
  else if shared = st.bestSketchSize then
    let l2_out := if st.in_candidate then st.l2_out
      else { st.l2_out with sharedSketchSize := shared, optimalStart := w.wpos - windowLen }
    { st with
      in_candidate := true
      l2_out := { l2_out with optimalEnd := w.wpos - windowLen } }
  else if st.in_candidate then
    { st with
      l2_vec_out := saveLocus param.segLength st.l2_vec_out
        (closeLocus st.l2_out w.seqId prev_strand_votes)
      l2_out := L2_mapLocus_t.zero
      in_candidate := false }
  else { st with in_candidate := false }

/-- The main loop: the variables and the window before `windowIt` when it is left; `fuel` bounds
the rounds of each run of the inner loop. -/
def mainLoop {σ : Type} (M : SlideMapper σ) (param : Parameters)
    (candidateLocus : L1_candidateLocus_t) (windowLen : Int) (fuel : Nat) :
    L2Sweep σ → Option MinmerInfo → List MinmerInfo → Option (L2Sweep σ × Option MinmerInfo)
  | st, before, [] => some (st, before)
  | st, before, w :: ws =>
    if w.seqId = candidateLocus.seqId ∧
        w.wpos ≤ candidateLocus.rangeEndPos + windowLen then
      let prev_strand_votes := M.strand_votes st.slideMap
      match expireLoop M windowLen (w.wpos - windowLen) fuel st with
      | none => none
      | some st =>
        if (openWindow M windowLen st w).2 then
          mainLoop M param candidateLocus windowLen fuel
            (compareBest M param windowLen prev_strand_votes (openWindow M windowLen st w).1 w)
            (some w) ws
        else
          mainLoop M param candidateLocus windowLen fuel (openWindow M windowLen st w).1
            (some w) ws
    else some (st, before)

/-- The window before the position `i` of `minmerIndex`. -/
def windowBefore (minmerIndex : List MinmerInfo) (i : Nat) : Option MinmerInfo :=
  if i = 0 then none else minmerIndex[i - 1]?

/-- The function `computeL2MappedRegions(Q, candidateLocus, l2_vec_out)`: the vector
`l2_vec_out` afterwards, with the values of `slideMap.sharedSketchElements` that were compared
with `bestSketchSize`. -/
def computeL2MappedRegions {σ : Type} (M : SlideMapper σ) (param : Parameters)
    (lt : MinmerInfo → MinmerInfo → Bool) (minmerIndex : List MinmerInfo) (Q : Q_Info)
    (candidateLocus : L1_candidateLocus_t) (l2_vec_out : List L2_mapLocus_t) :
    Option (List L2_mapLocus_t × List Int) :=
  let first_minmer : MinmerInfo :=
    ⟨0, candidateLocus.rangeStartPos - param.segLength - 1, 0, candidateLocus.seqId, 0⟩
  match lower_bound lt minmerIndex first_minmer with
  | none => none
  | some firstOpenIt =>
    let windowLen : Int := max 0 (Q.len - param.segLength)
    let r := setUpLoop M candidateLocus windowLen (L2Sweep.start M Q l2_vec_out)
      (windowBefore minmerIndex firstOpenIt) (minmerIndex.drop firstOpenIt)
    match mainLoop M param candidateLocus windowLen minmerIndex.length r.1 r.2.1 r.2.2 with
    | none => none
    | some (st, before) =>
      if st.in_candidate then
        match before with
        | none => none
        | some w =>
          some (saveLocus param.segLength st.l2_vec_out
            (closeLocus st.l2_out w.seqId (M.strand_votes st.slideMap)), st.evaluated)
      else some (st.l2_vec_out, st.evaluated)

/-- The main loop without the statements on `bestSketchSize`, `in_candidate`, `l2_out` and
`l2_vec_out`: the leading windows at which `slideMap.sharedSketchElements` is compared with
`bestSketchSize` (those pushed on the heap), each with the `slideMap` of that moment. -/
def windowLoop {σ : Type} (M : SlideMapper σ) (candidateLocus : L1_candidateLocus_t)
    (windowLen : Int) (fuel : Nat) :
    L2Sweep σ → List MinmerInfo → Option (List (MinmerInfo × σ))
  | _, [] => some []
  | st, w :: ws =>
    if w.seqId = candidateLocus.seqId ∧
        w.wpos ≤ candidateLocus.rangeEndPos + windowLen then
      match expireLoop M windowLen (w.wpos - windowLen) fuel st with
      | none => none
      | some st =>
        match windowLoop M candidateLocus windowLen fuel (openWindow M windowLen st w).1 ws with
        | none => none
        | some compared =>
          if (openWindow M windowLen st w).2 then
            some ((w, (openWindow M windowLen st w).1.slideMap) :: compared)
          else some compared
    else some []

/-- The evaluated leading positions of `computeL2MappedRegions(Q, candidateLocus, ...)`: the
windows at which the main loop compares `slideMap.sharedSketchElements` with `bestSketchSize`,
in order, each with the `slideMap` it compares; the windows of the index are inserted and
deleted as in `computeL2MappedRegions`, and nothing else of it is followed. -/
def comparedSlideMaps {σ : Type} (M : SlideMapper σ) (param : Parameters)
    (lt : MinmerInfo → MinmerInfo → Bool) (minmerIndex : List MinmerInfo) (Q : Q_Info)
    (candidateLocus : L1_candidateLocus_t) : Option (List (MinmerInfo × σ)) :=
  let first_minmer : MinmerInfo :=
    ⟨0, candidateLocus.rangeStartPos - param.segLength - 1, 0, candidateLocus.seqId, 0⟩
  match lower_bound lt minmerIndex first_minmer with
  | none => none
  | some firstOpenIt =>
    let windowLen : Int := max 0 (Q.len - param.segLength)
    let r := setUpLoop M candidateLocus windowLen (L2Sweep.start M Q [])
      (windowBefore minmerIndex firstOpenIt) (minmerIndex.drop firstOpenIt)
    windowLoop M candidateLocus windowLen minmerIndex.length r.1 r.2.2

/-- A sample `SlideMapper`: the state is the list of the windows inserted, and the shared sketch
elements are the windows whose hash is below `10`. -/
def SlideMapper.sample : SlideMapper (List MinmerInfo) :=
  { create := fun _ => []
    insert_minmer := fun s w => s ++ [w]
    delete_minmer := fun s w => s.erase w
    sharedSketchElements := fun s => ((s.filter (fun w => decide (w.hash < 10))).length : Int)
    intersectionSize := fun s => (s.length : Int)
    strand_votes := fun s => (s.map (fun w => w.strand)).sum }

end skch
namespace skch

/-- The invariant of `computeL2MappedRegions` on the loci: every locus of `l2_vec_out`, and
`l2_out` while `in_candidate` holds, has `sharedSketchSize == bestSketchSize`; `bestSketchSize`
is the larger of `1` and the values compared so far; and a locus exists exactly when
`bestSketchSize` is one of the values compared. -/
def L2Inv {σ : Type} (st : L2Sweep σ) : Prop :=
  (∀ l ∈ st.l2_vec_out, l.sharedSketchSize = st.bestSketchSize) ∧
  (st.in_candidate = true → st.l2_out.sharedSketchSize = st.bestSketchSize) ∧
  1 ≤ st.bestSketchSize ∧
  (∀ v ∈ st.evaluated, v ≤ st.bestSketchSize) ∧
  (st.bestSketchSize = 1 ∨ st.bestSketchSize ∈ st.evaluated) ∧
  ((st.in_candidate = true ∨ st.l2_vec_out ≠ []) ↔ st.bestSketchSize ∈ st.evaluated)

/-- The invariant of `computeL2MappedRegions` on the heap after at most `n` windows were
counted: it holds at most `n` windows, and for `windowLen > 0` its windows have distinct hashes,
each with a positive frequency, and the frequencies of its hashes add up to at most `n`. -/
def HeapInv {σ : Type} (windowLen : Int) (n : Nat) (st : L2Sweep σ) : Prop :=
  st.slidingWindow.length ≤ n ∧
  (0 < windowLen →
    (st.slidingWindow.map (fun e => e.hash)).Nodup ∧
    (∀ e ∈ st.slidingWindow, 1 ≤ st.hash_to_freq e.hash) ∧
    (st.slidingWindow.map (fun e => st.hash_to_freq e.hash)).sum ≤ (n : Int))

/-- Two states with the same heap, frequencies and `slideMap`. -/
def SameWindow {σ : Type} (st st2 : L2Sweep σ) : Prop :=
  st2.slidingWindow = st.slidingWindow ∧ st2.hash_to_freq = st.hash_to_freq ∧
  st2.slideMap = st.slideMap

/-- Two states with the same variables of the comparison with `bestSketchSize`. -/
def SameLoci {σ : Type} (st st2 : L2Sweep σ) : Prop :=
  st2.bestSketchSize = st.bestSketchSize ∧ st2.in_candidate = st.in_candidate ∧
  st2.l2_out = st.l2_out ∧ st2.l2_vec_out = st.l2_vec_out ∧ st2.evaluated = st.evaluated

end skch

/-! ## `wavefront_penalties.c` and `wavefront_compute_affine2p.c`

An `int` penalty and a `wf_offset_t` (`int32_t`) are `Int`; the offsets are taken to be far
enough from the ends of the range of `int32_t` that `+ 1` does not leave it.  A k-centered array
(`offsets`, `bt_pcigar`, `bt_prev`) is a function of the diagonal `k`.  The out wavefronts are
fields of their own, so an out array is never one of the in arrays.  A call `exit(1)` is
`none`. -/

namespace wfa

/-- The record `affine2p_penalties_t`; the member `match` is called `match_` here. -/
structure affine2p_penalties_t where
  match_ : Int
  mismatch : Int
  gap_opening1 : Int
  gap_extension1 : Int
  gap_opening2 : Int
  gap_extension2 : Int
deriving DecidableEq, Repr

/-- The record `wavefronts_penalties_t`. -/
structure wavefronts_penalties_t where
  mismatch : Int
  gap_opening1 : Int
  gap_extension1 : Int
  gap_opening2 : Int
  gap_extension2 : Int
deriving DecidableEq, Repr

/-- The enumeration `wf_penalties_strategy_type`. -/
inductive wf_penalties_strategy_type where
  | wavefronts_penalties_force_zero_match
  | wavefronts_penalties_shifted_penalties
deriving DecidableEq, Repr

/-- The function `wavefronts_penalties_shift`. -/
def wavefronts_penalties_shift (wavefronts_penalties : wavefronts_penalties_t)
    (match_ : Int) : wavefronts_penalties_t :=
  { mismatch := wavefronts_penalties.mismatch - match_
    gap_opening1 := wavefronts_penalties.gap_opening1 - match_
    gap_extension1 := wavefronts_penalties.gap_extension1 - match_
    gap_opening2 := wavefronts_penalties.gap_opening2 - match_
    gap_extension2 := wavefronts_penalties.gap_extension2 - match_ }

/-- The function `wavefronts_penalties_set_affine2p`: the record `*wavefronts_penalties`
afterwards, `none` when the function calls `exit(1)`. -/
def wavefronts_penalties_set_affine2p (wavefronts_penalties : wavefronts_penalties_t)
    (affine2p_penalties : affine2p_penalties_t)
    (penalties_strategy : wf_penalties_strategy_type) : Option wavefronts_penalties_t :=
  if affine2p_penalties.match_ > 0 then none
  else if affine2p_penalties.mismatch ≤ 0 ∨ affine2p_penalties.gap_opening1 ≤ 0 ∨
      affine2p_penalties.gap_extension1 ≤ 0 ∨ affine2p_penalties.gap_opening2 ≤ 0 ∨
      affine2p_penalties.gap_extension2 ≤ 0 then none
  else
    let wavefronts_penalties : wavefronts_penalties_t :=
      { wavefronts_penalties with
        mismatch := affine2p_penalties.mismatch
        gap_opening1 := affine2p_penalties.gap_opening1
        gap_extension1 := affine2p_penalties.gap_extension1
        gap_opening2 := affine2p_penalties.gap_opening2
        gap_extension2 := affine2p_penalties.gap_extension2 }
    if affine2p_penalties.match_ > 0 ∧ penalties_strategy =
        wf_penalties_strategy_type.wavefronts_penalties_shifted_penalties then
      some (wavefronts_penalties_shift wavefronts_penalties affine2p_penalties.match_)
    else some wavefronts_penalties

end wfa

namespace wflambda

/-- Modelled from the spec: the macro `MAX` of `commons.h` (not among the sources), the larger
of its two arguments. -/
def MAX (a b : Int) : Int :=
  if a ≥ b then a else b

/-- The macro `PCIGAR_PUSH_BACK(pcigar, operation)` on a 64-bit `pcigar_t`. -/
def PCIGAR_PUSH_BACK (pcigar operation : Nat) : Nat :=
  ((pcigar <<< 2) % 2 ^ 64) ||| operation

/-- The macro `PCIGAR_PUSH_BACK_INS`. -/
def PCIGAR_PUSH_BACK_INS (pcigar : Nat) : Nat :=
  PCIGAR_PUSH_BACK pcigar 3

/-- The macro `PCIGAR_PUSH_BACK_DEL`. -/
def PCIGAR_PUSH_BACK_DEL (pcigar : Nat) : Nat :=
  PCIGAR_PUSH_BACK pcigar 1

/-- The macro `PCIGAR_PUSH_BACK_MISMS`. -/
def PCIGAR_PUSH_BACK_MISMS (pcigar : Nat) : Nat :=
  PCIGAR_PUSH_BACK pcigar 2

/-- The arrays of a `wavefront_t` that the compute kernels read and write. -/
structure wavefront_t where
  offsets : Int → Int
  bt_pcigar : Int → Nat
  bt_prev : Int → Nat

/-- The record `wavefront_set_t`. -/
structure wavefront_set_t where
  in_mwavefront_sub : wavefront_t
  in_mwavefront_gap1 : wavefront_t
  in_mwavefront_gap2 : wavefront_t
  in_i1wavefront_ext : wavefront_t
  in_i2wavefront_ext : wavefront_t
  in_d1wavefront_ext : wavefront_t
  in_d2wavefront_ext : wavefront_t
  out_mwavefront : wavefront_t
  out_i1wavefront : wavefront_t
  out_i2wavefront : wavefront_t
  out_d1wavefront : wavefront_t
  out_d2wavefront : wavefront_t

/-- The loop `for (k = lo; k <= hi; ++k)` with `n` rounds to go, `k` the next diagonal. -/
def kernelLoop (body : wavefront_set_t → Int → wavefront_set_t) :
    Nat → Int → wavefront_set_t → wavefront_set_t
  | 0, _, s => s
  | n + 1, k, s => kernelLoop body n (k + 1) (body s k)

/-- The assignment `wavefront->offsets[k] = v`. -/
def wavefront_t.setOffset (w : wavefront_t) (k v : Int) : wavefront_t :=
  { w with offsets := Function.update w.offsets k v }

/-- The assignments `wavefront->bt_pcigar[k] = pcigar` and `wavefront->bt_prev[k] = prev`. -/
def wavefront_t.setBt (w : wavefront_t) (k : Int) (pcigar prev : Nat) : wavefront_t :=
  { w with
    bt_pcigar := Function.update w.bt_pcigar k pcigar
    bt_prev := Function.update w.bt_prev k prev }

/-- The body of the loop of `wavefront_compute_affine2p_idm_unbounded` at the diagonal `k`. -/
def idmUnboundedRound (s : wavefront_set_t) (k : Int) : wavefront_set_t :=
  let ins1_o := s.in_mwavefront_gap1.offsets (k - 1)
  let ins1_e := s.in_i1wavefront_ext.offsets (k - 1)
  let ins1 := MAX ins1_o ins1_e + 1
  let ins2_o := s.in_mwavefront_gap2.offsets (k - 1)
  let ins2_e := s.in_i2wavefront_ext.offsets (k - 1)
  let ins2 := MAX ins2_o ins2_e + 1
  let ins := MAX ins1 ins2
  let del1_o := s.in_mwavefront_gap1.offsets (k + 1)
  let del1_e := s.in_d1wavefront_ext.offsets (k + 1)
  let del1 := MAX del1_o del1_e
  let del2_o := s.in_mwavefront_gap2.offsets (k + 1)
  let del2_e := s.in_d2wavefront_ext.offsets (k + 1)
  let del2 := MAX del2_o del2_e
  let del := MAX del1 del2
  let sub := s.in_mwavefront_sub.offsets k + 1
  { s with
    out_i1wavefront := s.out_i1wavefront.setOffset k ins1
    out_i2wavefront := s.out_i2wavefront.setOffset k ins2
    out_d1wavefront := s.out_d1wavefront.setOffset k del1
    out_d2wavefront := s.out_d2wavefront.setOffset k del2
    out_mwavefront := s.out_mwavefront.setOffset k (MAX del (MAX sub ins)) }

/-- The function `wavefront_compute_affine2p_idm_unbounded`: the wavefront set afterwards. -/
def wavefront_compute_affine2p_idm_unbounded (wavefront_set : wavefront_set_t) (lo hi : Int) :
    wavefront_set_t :=
  kernelLoop idmUnboundedRound (hi + 1 - lo).toNat lo wavefront_set

/-- One of the four blocks `Update I1`, `Update I2`, `Update D1`, `Update D2` of the piggyback
kernel: the wavefront `out` after the block; `o` and `e` are the two in wavefronts (`m_open`
and the extension), `j` is `k - 1` or `k + 1`, `inc` is `1` for an insertion and `0` for a
deletion, and `push` is `PCIGAR_PUSH_BACK_INS` or `PCIGAR_PUSH_BACK_DEL`. -/
def piggybackGap (out o e : wavefront_t) (k j inc : Int) (push : Nat → Nat) : wavefront_t :=
  if e.offsets j ≥ o.offsets j then
    ((out.setBt k (push (e.bt_pcigar j)) (e.bt_prev j)).setOffset k (e.offsets j + inc))
  else
    ((out.setBt k (push (o.bt_pcigar j)) (o.bt_prev j)).setOffset k (o.offsets j + inc))

/-- One statement `if (max == v) { out_m_bt_pcigar[k] = ...; out_m_bt_prev[k] = ...; }` of the
block `Update M`, with the source wavefront `w` read at `k`. -/
def piggybackPick (out_m : wavefront_t) (k max v : Int) (w : wavefront_t) : wavefront_t :=
  if max = v then out_m.setBt k (w.bt_pcigar k) (w.bt_prev k) else out_m

/-- The body of the loop of `wavefront_compute_affine2p_idm_piggyback_unbounded` at the
diagonal `k`. -/
def idmPiggybackRound (s : wavefront_set_t) (k : Int) : wavefront_set_t :=
  let out_i1 := piggybackGap s.out_i1wavefront s.in_mwavefront_gap1 s.in_i1wavefront_ext k
    (k - 1) 1 PCIGAR_PUSH_BACK_INS
  let ins1 := out_i1.offsets k
  let out_i2 := piggybackGap s.out_i2wavefront s.in_mwavefront_gap2 s.in_i2wavefront_ext k
    (k - 1) 1 PCIGAR_PUSH_BACK_INS
  let ins2 := out_i2.offsets k
  let ins := MAX ins1 ins2
  let out_d1 := piggybackGap s.out_d1wavefront s.in_mwavefront_gap1 s.in_d1wavefront_ext k
    (k + 1) 0 PCIGAR_PUSH_BACK_DEL
  let del1 := out_d1.offsets k
  let out_d2 := piggybackGap s.out_d2wavefront s.in_mwavefront_gap2 s.in_d2wavefront_ext k
    (k + 1) 0 PCIGAR_PUSH_BACK_DEL
  let del2 := out_d2.offsets k
  let del := MAX del1 del2
  let sub := s.in_mwavefront_sub.offsets k + 1
  let max := MAX del (MAX sub ins)
  let out_m := piggybackPick s.out_mwavefront k max ins1 out_i1
  let out_m := piggybackPick out_m k max ins2 out_i2
  let out_m := piggybackPick out_m k max del1 out_d1
  let out_m := piggybackPick out_m k max del2 out_d2
  let out_m := piggybackPick out_m k max sub s.in_mwavefront_sub
  let out_m := out_m.setBt k (PCIGAR_PUSH_BACK_MISMS (out_m.bt_pcigar k)) (out_m.bt_prev k)
  { s with
    out_i1wavefront := out_i1
    out_i2wavefront := out_i2
    out_d1wavefront := out_d1
    out_d2wavefront := out_d2
    out_mwavefront := out_m.setOffset k max }

/-- The function `wavefront_compute_affine2p_idm_piggyback_unbounded`: the wavefront set
afterwards. -/
def wavefront_compute_affine2p_idm_piggyback_unbounded (wavefront_set : wavefront_set_t)
    (lo hi : Int) : wavefront_set_t :=
  kernelLoop idmPiggybackRound (hi + 1 - lo).toNat lo wavefront_set

/-- A sample wavefront: offset `3 * k + c` on the diagonal `k`. -/
def wavefront_t.sample (c : Int) : wavefront_t :=
  ⟨fun k => 3 * k + c, fun _ => 0, fun _ => 0⟩

end wflambda

namespace wflambda

/-- Two wavefront sets with the same in wavefronts and the same offsets in the out
wavefronts. -/
def SameOffsets (s t : wavefront_set_t) : Prop :=
  (t.in_mwavefront_sub = s.in_mwavefront_sub ∧ t.in_mwavefront_gap1 = s.in_mwavefront_gap1 ∧
    t.in_mwavefront_gap2 = s.in_mwavefront_gap2 ∧ t.in_i1wavefront_ext = s.in_i1wavefront_ext ∧
    t.in_i2wavefront_ext = s.in_i2wavefront_ext ∧ t.in_d1wavefront_ext = s.in_d1wavefront_ext ∧
    t.in_d2wavefront_ext = s.in_d2wavefront_ext) ∧
  t.out_mwavefront.offsets = s.out_mwavefront.offsets ∧
  t.out_i1wavefront.offsets = s.out_i1wavefront.offsets ∧
  t.out_i2wavefront.offsets = s.out_i2wavefront.offsets ∧
  t.out_d1wavefront.offsets = s.out_d1wavefront.offsets ∧
  t.out_d2wavefront.offsets = s.out_d2wavefront.offsets

/-- The offsets that one round of either kernel stores at the diagonal `k`, as functions of the
in wavefronts: `out_i1`, `out_i2`, `out_d1`, `out_d2` and `out_m`. -/
def nextOffsets (s : wavefront_set_t) (k : Int) : Int × Int × Int × Int × Int :=
  let ins1 :=
    MAX (s.in_mwavefront_gap1.offsets (k - 1)) (s.in_i1wavefront_ext.offsets (k - 1)) + 1
  let ins2 :=
    MAX (s.in_mwavefront_gap2.offsets (k - 1)) (s.in_i2wavefront_ext.offsets (k - 1)) + 1
  let del1 := MAX (s.in_mwavefront_gap1.offsets (k + 1)) (s.in_d1wavefront_ext.offsets (k + 1))
  let del2 := MAX (s.in_mwavefront_gap2.offsets (k + 1)) (s.in_d2wavefront_ext.offsets (k + 1))
  (ins1, ins2, del1, del2,
    MAX (MAX del1 del2) (MAX (s.in_mwavefront_sub.offsets k + 1) (MAX ins1 ins2)))

/-- The wavefront set with `nextOffsets` stored at the diagonal `k` of the five out
wavefronts. -/
def storeNext (s : wavefront_set_t) (k : Int) : wavefront_set_t :=
  { s with
    out_i1wavefront := s.out_i1wavefront.setOffset k (nextOffsets s k).1
    out_i2wavefront := s.out_i2wavefront.setOffset k (nextOffsets s k).2.1
    out_d1wavefront := s.out_d1wavefront.setOffset k (nextOffsets s k).2.2.1
    out_d2wavefront := s.out_d2wavefront.setOffset k (nextOffsets s k).2.2.2.1
    out_mwavefront := s.out_mwavefront.setOffset k (nextOffsets s k).2.2.2.2 }

/-- A sample wavefront set. -/
def wavefront_set_t.sample : wavefront_set_t :=
  ⟨wavefront_t.sample 0, wavefront_t.sample 1, wavefront_t.sample 2, wavefront_t.sample 3,
    wavefront_t.sample 4, wavefront_t.sample 5, wavefront_t.sample 6, wavefront_t.sample 0,
    wavefront_t.sample 0, wavefront_t.sample 0, wavefront_t.sample 0, wavefront_t.sample 0⟩

end wflambda

/-! ## `computeMap.hpp`: the fragments of a query

The function `mapModule` is followed as far as it cuts the query: each call of
`mapSingleQueryFrag` is recorded as the offset of `Q.seq` in `input->seq` and `Q.len`, which are
also the `queryStartPos` and the length `queryEndPos - queryStartPos` it gives to the mappings of
that call. -/

namespace skch

/-- The fragments that `mapModule` maps for an input of `len` bases, in the order of the calls
of `mapSingleQueryFrag`; `split` is `param.split`. -/
def mapModuleFragments (param : Parameters) (split : Bool) (len : Int) : List (Int × Int) :=
  if split = false ∨ len ≤ param.segLength then [(0, len)]
  else
    let noOverlapFragmentCount := Int.tdiv len param.segLength
    (List.range noOverlapFragmentCount.toNat).map
        (fun i : Nat => ((i : Int) * param.segLength, param.segLength)) ++
      (if noOverlapFragmentCount ≥ 1 ∧ Int.tmod len param.segLength ≠ 0 then
        [(len - param.segLength, param.segLength)]
      else [])

end skch

namespace skch

/-- The two tests of the loop of `adjustConsecutiveMappings` on the pair `prev`, `curr`, on the
gaps as integers (before they are stored in an `int`): same reference sequence and strand, and
both gaps `> 0` and `<= threshold`. -/
def Adjusts (threshold : Int) (prev curr : MappingResult) : Prop :=
  ¬ (prev.refSeqId ≠ curr.refSeqId ∨ prev.strand ≠ curr.strand) ∧
  (curr.queryStartPos - prev.queryEndPos > 0 ∧ curr.refStartPos - prev.refEndPos > 0 ∧
    curr.queryStartPos - prev.queryEndPos ≤ threshold ∧
    curr.refStartPos - prev.refEndPos ≤ threshold)

/-- The field `blockLength` is the larger of the span on the reference and the span on the
query. -/
def BlockLengthOfSpans (m : MappingResult) : Prop :=
  m.blockLength = max (m.refEndPos - m.refStartPos) (m.queryEndPos - m.queryStartPos)

/-- The four coordinates of a mapping are non-negative values of an `int`. -/
def MappingResult.InInt (m : MappingResult) : Prop :=
  (0 ≤ m.queryStartPos ∧ m.queryStartPos < 2 ^ 31) ∧
  (0 ≤ m.queryEndPos ∧ m.queryEndPos < 2 ^ 31) ∧
  (0 ≤ m.refStartPos ∧ m.refStartPos < 2 ^ 31) ∧
  (0 ≤ m.refEndPos ∧ m.refEndPos < 2 ^ 31)

/-- Two forward mappings of 100 bases around position 3000000000 of the query and of reference
sequence 0, with a gap of 10 bases between them on both axes. -/
def MappingResult.sampleFar : List MappingResult :=
  [MappingResult.sample 2999999900 3000000000 2999999900 3000000000 1 0,
    MappingResult.sample 3000000010 3000000110 3000000010 3000000110 1 0]

/-- Two forward mappings of 100 bases on reference sequence 0, with a gap of `2 ^ 32 + 5` bases
on the query and of 5 bases on the reference. -/
def MappingResult.sampleFarGap : List MappingResult :=
  [MappingResult.sample 0 100 0 100 1 0,
    MappingResult.sample 4294967401 4294967501 105 205 1 0]

/-- Three consecutive mappings with gaps of 10 bases between them. -/
def MappingResult.sampleGapped : List MappingResult :=
  [MappingResult.sample 0 100 0 100 1 0, MappingResult.sample 110 200 110 200 1 0,
    MappingResult.sample 210 300 210 300 1 0]

end skch

namespace skch

/-- Three forward mappings on reference sequence 0; the second starts 30 bases after the end of
the first on both axes, the third where the second ends. -/
def MappingResult.sampleWide : List MappingResult :=
  [MappingResult.sample 0 100 0 100 1 0, MappingResult.sample 130 200 130 200 1 0,
    MappingResult.sample 200 300 200 300 1 0]

/-- Two reverse-strand mappings of 100 bases on reference sequence 0: the second follows the
first on the query and lies 100 bases before it on the reference. -/
def MappingResult.sampleReverse : List MappingResult :=
  [MappingResult.sample 0 100 1000 1100 (-1) 0, MappingResult.sample 100 200 800 900 (-1) 0]

end skch

/-! ## Concrete inputs of the L2 sweep -/

namespace skch

/-- Three windows of reference sequence 0: two of hash 7, at `[0, 10)` and `[12, 25)`, and one
of hash 8 at `[30, 40)`. -/
def MinmerInfo.sampleRepeat : List MinmerInfo :=
  [⟨7, 0, 10, 0, 1⟩, ⟨7, 12, 25, 0, 1⟩, ⟨8, 30, 40, 0, 1⟩]

/-- An order of the windows by `(seqId, wpos)`, for concrete instances. -/
def MinmerInfo.sampleLt (a b : MinmerInfo) : Bool :=
  decide (a.seqId < b.seqId ∨ (a.seqId = b.seqId ∧ a.wpos < b.wpos))

end skch

/-! ## `computeMap.hpp`: the unions of the chaining scan -/

namespace skch

/-- The calls of `disjoint_sets.unite` that the chaining scan of `mergeMappingsInRange` makes
from the mapping at index `i` on, in order, each as the pair of its arguments; the scan is that
of `chainOuter`. -/
def chainOuterUnions (param : Parameters) (max_dist : Int) :
    Nat → Nat → List MappingResult → List (Nat × Nat)
  | 0, _, _ => []
  | remaining + 1, i, readMappings =>
    match readMappings[i]? with
    | none => []
    | some it =>
      let best := chainInner param max_dist it (readMappings.drop (i + 1)) (i + 1)
        Score.dblMax none
      (if it.chainPairScore ≠ Score.dblMax then
          [(toU64 it.splitMappingId, toU64 it.chainPairId)] else []) ++
        chainOuterUnions param max_dist remaining (i + 1)
          (recordPair readMappings best.2 best.1 it.splitMappingId)

/-- The recorded predecessor link of the mapping at index `k`: the pair of `k` and its
`chainPairId`, when its `chainPairScore` is not `DBL_MAX`. -/
def recordedLink (ms : List MappingResult) (k : Nat) : Option (Nat × Nat) :=
  match ms[k]? with
  | none => none
  | some b => if b.chainPairScore ≠ Score.dblMax then some (k, toU64 b.chainPairId) else none

/-- Whether the mapping at index `k` has the `splitMappingId` `c`. -/
def inChain (ms : List MappingResult) (c : Int) (k : Nat) : Bool :=
  decide (ms[k]?.map (fun m => m.splitMappingId) = some c)

end skch

/-! ## `computeMap.hpp`: the walk of `doL2Mapping` over the L1 candidates

The functions of `Stat`, the constant `skch::fixed::confidence_interval` and the conversion of a
`double` to `float` are not among the sources: they are the fields of the parameter `Stat`, on
exact rationals (a division by `Q.sketchSize == 0` gives `0` here; no property below depends on
the values).  With `param.stage1_topANI_filter` the range `[l1_begin, l1_end)` is a heap by
`L1_locus_intersection_cmp` (made by `std::make_heap` in `mapSingleQueryFrag`): it is the list of
its elements, `*l1_begin` is the element `top` picks from it, and `std::pop_heap` with `l1_end--`
erases that element.  The mappings pushed to `l2Mappings` are followed as the loci they are made
from; the list `refined` records the candidates given to `computeL2MappedRegions`. -/

namespace skch

/-- The functions of `Stat` used by `doL2Mapping`, the constant `confidence_interval`, and the
conversion to `float`. -/
structure Stat where
  j2md : ℚ → Int → ℚ
  md2j : ℚ → Int → ℚ
  md_lower_bound : ℚ → Int → Int → ℚ → ℚ
  confidence_interval : ℚ
  toFloat : ℚ → ℚ

/-- The fields of `skch::Parameters` read by `doL2Mapping` itself. -/
structure L2Parameters where
  stage1_topANI_filter : Bool
  kmerSize : Int
  ANIDiff : ℚ
  keep_low_pct_id : Bool
  percentageIdentity : ℚ

/-- The variables of `doL2Mapping`: the range `[loc_iterator, l1_end)`, `bestJaccardNumerator`,
the loci whose mapping was pushed to `l2Mappings`, and the candidates given to
`computeL2MappedRegions` so far. -/
structure L2Walk where
  range : List L1_candidateLocus_t
  bestJaccardNumerator : ℚ
  accepted : List L2_mapLocus_t
  refined : List L1_candidateLocus_t

/-- The test `double(candidateLocus.intersectionSize) / Q.sketchSize < cutoff_j` of the top-ANI
filter. -/
def belowCutoff (S : Stat) (p2 : L2Parameters) (Q : Q_Info) (bestJaccardNumerator : ℚ)
    (candidateLocus : L1_candidateLocus_t) : Bool :=
  let cutoff_ani : ℚ :=
    max 0 ((1 - S.j2md (bestJaccardNumerator / Q.sketchSize) p2.kmerSize) - p2.ANIDiff)
  let cutoff_j := S.md2j (1 - cutoff_ani) p2.kmerSize
  decide ((candidateLocus.intersectionSize : ℚ) / Q.sketchSize < cutoff_j)

/-- The body of the loop `for (auto& l2 : l2_vec)`: the locus is reported when it passes the
identity threshold, and then `bestJaccardNumerator` follows its `sharedSketchSize`. -/
def reportLocus (S : Stat) (p2 : L2Parameters) (Q : Q_Info) (st : L2Walk)
    (l2 : L2_mapLocus_t) : L2Walk :=
  let mash_dist := S.toFloat (S.j2md (1 * (l2.sharedSketchSize : ℚ) / Q.sketchSize) p2.kmerSize)
  let nucIdentity := S.toFloat (1 - mash_dist)
  let nucIdentityUpperBound := S.toFloat
    (1 - S.md_lower_bound mash_dist Q.sketchSize p2.kmerSize S.confidence_interval)
  if (p2.keep_low_pct_id = true ∧ nucIdentityUpperBound ≥ p2.percentageIdentity) ∨
      nucIdentity ≥ p2.percentageIdentity then
    { st with
      bestJaccardNumerator := max st.bestJaccardNumerator (l2.sharedSketchSize : ℚ)
      accepted := st.accepted ++ [l2] }
  else st

/-- The loop `while (loc_iterator != l1_end)` of `doL2Mapping` with at most `remaining` rounds
to go: the variables when it is left, and the candidate at which the `break` of the top-ANI
filter left it. -/
def doL2Loop {σ : Type} (M : SlideMapper σ) (param : Parameters) (p2 : L2Parameters)
    (S : Stat) (lt : MinmerInfo → MinmerInfo → Bool) (minmerIndex : List MinmerInfo)
    (Q : Q_Info) (top : List L1_candidateLocus_t → Option L1_candidateLocus_t) :
    Nat → L2Walk → Option (L2Walk × Option L1_candidateLocus_t)
  | 0, st => if st.range = [] then some (st, none) else none
  | remaining + 1, st =>
    match (if p2.stage1_topANI_filter then top st.range else st.range.head?) with
    | none => some (st, none)
    | some candidateLocus =>
      if p2.stage1_topANI_filter = true ∧
          belowCutoff S p2 Q st.bestJaccardNumerator candidateLocus = true then
        some (st, some candidateLocus)
      else
        match computeL2MappedRegions M param lt minmerIndex Q candidateLocus [] with
        | none => none
        | some (l2_vec, _) =>
          let st := l2_vec.foldl (reportLocus S p2 Q) st
          doL2Loop M param p2 S lt minmerIndex Q top remaining
            { st with
              range := if p2.stage1_topANI_filter then st.range.erase candidateLocus
                else st.range.tail
              refined := st.refined ++ [candidateLocus] }

/-- The function `doL2Mapping(Q, l1_begin, l1_end, l2Mappings)` on the range `l1`. -/
def doL2Mapping {σ : Type} (M : SlideMapper σ) (param : Parameters) (p2 : L2Parameters)
    (S : Stat) (lt : MinmerInfo → MinmerInfo → Bool) (minmerIndex : List MinmerInfo)
    (Q : Q_Info) (top : List L1_candidateLocus_t → Option L1_candidateLocus_t)
    (l1 : List L1_candidateLocus_t) : Option (L2Walk × Option L1_candidateLocus_t) :=
  doL2Loop M param p2 S lt minmerIndex Q top l1.length ⟨l1, 0, [], []⟩

/-- A choice of `*l1_begin` in a heap by `L1_locus_intersection_cmp`: the first candidate of
the greatest `intersectionSize`; `none` for the empty range. -/
def heapTop : List L1_candidateLocus_t → Option L1_candidateLocus_t
  | [] => none
  | e :: es =>
    match heapTop es with
    | none => some e
    | some f => if e.intersectionSize < f.intersectionSize then some f else some e

/-- `IsHeapTop top`: `top` picks from every non-empty range one of its candidates, which no
candidate of the range exceeds in `intersectionSize`. -/
def IsHeapTop (top : List L1_candidateLocus_t → Option L1_candidateLocus_t) : Prop :=
  ∀ l, (top l = none ↔ l = []) ∧
    ∀ c, top l = some c → c ∈ l ∧ ∀ x ∈ l, x.intersectionSize ≤ c.intersectionSize

/-- A sample `Stat`: the distance is `1 - j`, without rounding. -/
def Stat.sample : Stat :=
  ⟨fun j _ => 1 - j, fun d _ => 1 - d, fun d _ _ _ => d, 0, fun x => x⟩

/-- Sample parameters of `doL2Mapping`: the top-ANI filter is on. -/
def L2Parameters.sample : L2Parameters :=
  ⟨true, 15, 0, false, 0⟩

/-- Three candidates on reference sequence 0 with the intersection sizes 1, 3 and 2. -/
def L1_candidateLocus_t.sampleRange : List L1_candidateLocus_t :=
  [⟨0, 0, 50, 1⟩, ⟨0, 100, 150, 3⟩, ⟨0, 200, 250, 2⟩]

end skch

/-! ## `computeMap.hpp`: the seed interval points of a query

The operators `<` of `IntervalPoint` and `boundPtr` are not among the sources: they are the
parameters `lt` and `ptrLt`.  A cursor `boundPtr {it, end}` is the list of the points
from `it` up to `end`.  The vector `pq`, a heap by `heap_cmp`, is the list of its cursors;
`pq.front()` is the cursor `front` picks from it, and `std::pop_heap` followed by `pop_back` or
by `push_heap` of the advanced cursor erases that cursor and appends the advanced one.  The map
`minmerPosLookupIndex` is the function `find` (`none` for `end()`); the vectors
`refSketch.metadata` and `refIdGroup` are functions of the sequence id.  The dereference of a
cursor that stands at its end is `none`. -/

namespace skch

/-- What `getSeedIntervalPoints` reads besides the sketch of the query and the index: the three
flags of `param`, the members `seqName`, `refGroup` and `seqCounter` of `Q`, the names of
`refSketch.metadata`, and `refIdGroup`. -/
structure SeedFilter where
  skip_self : Bool
  skip_prefix : Bool
  lower_triangular : Bool
  seqName : List Char
  refGroup : Int
  seqCounter : Int
  refName : Int → List Char
  refIdGroup : Int → Int

/-- The flag `skip_mapping` for the point `*ip_it`. -/
def skip_mapping (F : SeedFilter) (ip_it : IntervalPoint) : Bool :=
  let skip_mapping := false
  let skip_mapping :=
    if F.skip_self = true ∧ F.seqName = F.refName ip_it.seqId then true else skip_mapping
  let skip_mapping :=
    if F.skip_prefix = true ∧ F.refIdGroup ip_it.seqId = F.refGroup then true
    else skip_mapping
  if F.lower_triangular = true ∧ F.seqCounter ≤ ip_it.seqId then true else skip_mapping

/-- The loop `while (!pq.empty())` of `getSeedIntervalPoints` with at most `remaining` rounds
to go: the vector `intervalPoints` when it is left. -/
def drainLoop (F : SeedFilter)
    (front : List (List IntervalPoint) → Option (List IntervalPoint)) :
    Nat → List (List IntervalPoint) → List IntervalPoint → Option (List IntervalPoint)
  | 0, pq, intervalPoints => if pq = [] then some intervalPoints else none
  | remaining + 1, pq, intervalPoints =>
    match front pq with
    | none => some intervalPoints
    | some [] => none
    | some (ip :: rest) =>
      drainLoop F front remaining
        (if rest = [] then pq.erase (ip :: rest) else pq.erase (ip :: rest) ++ [rest])
        (if skip_mapping F ip = false then intervalPoints ++ [ip] else intervalPoints)

/-- The function `getSeedIntervalPoints(Q, intervalPoints)`: the vector `intervalPoints`
afterwards; `minmerTableQuery` is `Q.minmerTableQuery`. -/
def getSeedIntervalPoints (F : SeedFilter)
    (front : List (List IntervalPoint) → Option (List IntervalPoint))
    (find : Nat → Option (List IntervalPoint)) (minmerTableQuery : List MinmerInfo)
    (intervalPoints : List IntervalPoint) : Option (List IntervalPoint) :=
  if minmerTableQuery.length = 0 then some intervalPoints
  else
    let pq := minmerTableQuery.filterMap (fun it => find it.hash)
    drainLoop F front (pq.map List.length).sum pq intervalPoints

/-- `IsHeapFront ptrLt front`, for the order `ptrLt` of the cursors: `front` picks from every non-empty heap one of its cursors, and in
a heap of cursors that do not stand at their end no cursor is `<` the one picked (`heap_cmp`
puts it below no other). -/
def IsHeapFront (ptrLt : List IntervalPoint → List IntervalPoint → Bool)
    (front : List (List IntervalPoint) → Option (List IntervalPoint)) : Prop :=
  ∀ pq, (front pq = none ↔ pq = []) ∧
    ∀ c, front pq = some c → c ∈ pq ∧
      ((∀ d ∈ pq, d ≠ []) → ∀ d ∈ pq, ptrLt d c = false)

/-- An order of the cursors by the point they stand at, for concrete instances. -/
def IntervalPoint.cursorLt (lt : IntervalPoint → IntervalPoint → Bool) :
    List IntervalPoint → List IntervalPoint → Bool
  | a :: _, b :: _ => lt a b
  | _, _ => false

/-- An order of `IntervalPoint` by `(seqId, pos, side)`, with `OPEN` before `CLOSE`, for
concrete instances. -/
def IntervalPoint.lexLt (a b : IntervalPoint) : Bool :=
  decide (a.seqId < b.seqId ∨ (a.seqId = b.seqId ∧ (a.pos < b.pos ∨
    (a.pos = b.pos ∧ a.side = side.OPEN ∧ b.side = side.CLOSE))))

/-- A choice of `pq.front()`: the first cursor that no cursor of the heap is `<`. -/
def firstFront (lt : IntervalPoint → IntervalPoint → Bool) :
    List (List IntervalPoint) → Option (List IntervalPoint)
  | [] => none
  | c :: cs =>
    match firstFront lt cs with
    | none => some c
    | some f => if IntervalPoint.cursorLt lt f c then some f else some c

/-- A sample filter: all three flags are set, the query is sequence 1 of group 0 and the
reference sequences have the names `a`, of group 0, and `b`, of group 1. -/
def SeedFilter.sample : SeedFilter :=
  ⟨true, true, true, ['b'], 0, 1, fun i => if i = 0 then ['a'] else ['b'],
    fun i => if i = 0 then 0 else 1⟩

end skch

namespace skch

/-- A sample index: the vectors of the hashes 7 and 9, each with the two points of a window. -/
def IntervalPoint.sampleFind (hash : Nat) : Option (List IntervalPoint) :=
  if hash = 7 then some [⟨5, 7, 0, side.OPEN⟩, ⟨10, 7, 0, side.CLOSE⟩]
  else if hash = 9 then some [⟨6, 9, 0, side.OPEN⟩, ⟨12, 9, 0, side.CLOSE⟩]
  else none

end skch

/-! ## Properties of the disjoint-set union -/

namespace dsets

theorem ClimbsTo.isRoot {p : Nat → Nat} {i r : Nat} (h : ClimbsTo p i r) : p r = r := by
  induction h with
  | root h => exact h
  | step _ _ ih => exact ih

theorem ClimbsTo.eq_of_root {p : Nat → Nat} {i r : Nat} (h : ClimbsTo p i r) (hi : p i = i) :
    r = i := by
  cases h with
  | root _ => rfl
  | step hne _ => exact absurd hi hne

theorem ClimbsTo.unique {p : Nat → Nat} {i r s : Nat} (h : ClimbsTo p i r)
    (h2 : ClimbsTo p i s) : r = s := by
  induction h with
  | root hr => exact (h2.eq_of_root hr).symm
  | step hne _ ih =>
    cases h2 with
    | root hs => exact absurd hs hne
    | step _ h3 => exact ih h3

/-- Replacing the parent of a non-root by its grandparent keeps every root. -/
theorem ClimbsTo.compress {p q : Nat → Nat} {id : Nat} (hid : p id ≠ id) (hgp : p (p id) ≠ id)
    (hq : ∀ j, q j = if j = id then p (p id) else p j) {i r : Nat} :
    ClimbsTo q i r ↔ ClimbsTo p i r := by
  constructor
  · intro h
    induction h with
    | @root r hr =>
      by_cases e : r = id
      · subst e; rw [hq, if_pos rfl] at hr; exact absurd hr hgp
      · rw [hq, if_neg e] at hr; exact ClimbsTo.root hr
    | @step j r hne _ ih =>
      by_cases e : j = id
      · subst e
        rw [hq, if_pos rfl] at ih
        by_cases hr : p (p j) = p j
        · rw [hr] at ih; exact ClimbsTo.step hid ih
        · exact ClimbsTo.step hid (ClimbsTo.step hr ih)
      · rw [hq, if_neg e] at ih hne
        exact ClimbsTo.step hne ih
  · intro h
    have key : ClimbsTo q i r ∧ ClimbsTo q (p i) r := by
      induction h with
      | @root r hr =>
        have e : r ≠ id := fun e => hid (e ▸ hr)
        have : ClimbsTo q r r := ClimbsTo.root (by rw [hq, if_neg e]; exact hr)
        exact ⟨this, by rw [hr]; exact this⟩
      | @step j r hne _ ih =>
        refine ⟨?_, ih.1⟩
        by_cases e : j = id
        · subst e
          exact ClimbsTo.step (by rw [hq, if_pos rfl]; exact hgp)
            (by rw [hq, if_pos rfl]; exact ih.2)
        · exact ClimbsTo.step (by rw [hq, if_neg e]; exact hne)
            (by rw [hq, if_neg e]; exact ih.1)
    exact key.1

/-- Hanging the root `r1` under the root `r2` sends the elements of `r1` to `r2` and keeps the
root of every other element. -/
theorem ClimbsTo.link {p q : Nat → Nat} {r1 r2 : Nat} (h1 : p r1 = r1) (h2 : p r2 = r2)
    (hne : r1 ≠ r2) (hq : ∀ j, q j = if j = r1 then r2 else p j) {i r : Nat}
    (h : ClimbsTo p i r) : ClimbsTo q i (if r = r1 then r2 else r) := by
  have top : ClimbsTo q r2 r2 := ClimbsTo.root (by rw [hq, if_neg (Ne.symm hne)]; exact h2)
  induction h with
  | @root r hr =>
    by_cases e : r = r1
    · subst e
      rw [if_pos rfl]
      exact ClimbsTo.step (by rw [hq, if_pos rfl]; exact Ne.symm hne)
        (by rw [hq, if_pos rfl]; exact top)
    · rw [if_neg e]
      exact ClimbsTo.root (by rw [hq, if_neg e]; exact hr)
  | @step j r hne2 _ ih =>
    have e : j ≠ r1 := fun e => hne2 (e ▸ h1)
    exact ClimbsTo.step (by rw [hq, if_neg e]; exact hne2) (by rw [hq, if_neg e]; exact ih)

end dsets

namespace dsets
namespace DisjointSets

theorem cell_store (d : DisjointSets) (id : Nat) (c : Aint) (h : id < d.mData.length) (j : Nat) :
    (d.store id c).cell j = if j = id then c else d.cell j := by
  unfold store cell
  simp only [List.getD_eq_getElem?_getD, List.getElem?_set]
  by_cases e : j = id
  · subst e; simp [h]
  · have e2 : ¬ id = j := fun x => e x.symm
    simp [e, e2]

theorem parent_store (d : DisjointSets) (id : Nat) (c : Aint) (h : id < d.mData.length) (j : Nat) :
    (d.store id c).parent j = if j = id then c.parent else d.parent j := by
  unfold parent; rw [cell_store d id c h]; split <;> rfl

theorem rank_store (d : DisjointSets) (id : Nat) (c : Aint) (h : id < d.mData.length) (j : Nat) :
    (d.store id c).rank j = if j = id then c.rank else d.rank j := by
  unfold rank; rw [cell_store d id c h]; split <;> rfl

theorem n_store (d : DisjointSets) (id : Nat) (c : Aint) : (d.store id c).n = d.n := rfl

theorem length_store (d : DisjointSets) (id : Nat) (c : Aint) :
    (d.store id c).mData.length = d.mData.length := by
  simp [store]

theorem cell_eq (d : DisjointSets) (id : Nat) : d.cell id = ⟨d.rank id, d.parent id⟩ := rfl

theorem cell_create (n i : Nat) (h : i < n) : (create n).cell i = ⟨0, i⟩ := by
  simp [create, cell, List.getD_eq_getElem?_getD, h]

theorem parent_create (n i : Nat) (h : i < n) : (create n).parent i = i := by
  simp [parent, cell_create n i h]

theorem rank_create (n i : Nat) (h : i < n) : (create n).rank i = 0 := by
  simp [rank, cell_create n i h]

theorem inv_create (n : Nat) (hn : n < 2 ^ 64) : (create n).Inv where
  length_eq := by simp [create]
  n_lt := hn
  parent_lt := fun i hi => by
    have hi2 : i < n := hi
    rw [parent_create n i hi2]; exact hi
  rank_parent := fun i hi hne => by
    have hi2 : i < n := hi
    exact absurd (parent_create n i hi2) hne
  weight_le := by
    have : ∀ i ∈ Finset.range (create n).n, (create n).weight i = 1 := by
      intro i hi
      have hi2 : i < n := Finset.mem_range.mp hi
      simp [weight, parent_create n i hi2, rank_create n i hi2]
    rw [Finset.sum_congr rfl this]
    simp [create]

/-- Every rank is below `n`: the element of largest rank is a root, and a root weighs its rank
plus one. -/
theorem Inv.rank_lt_n {d : DisjointSets} (hd : d.Inv) (i : Nat) (hi : i < d.n) : d.rank i < d.n := by
  obtain ⟨m, hm, hmax⟩ := Finset.exists_max_image (Finset.range d.n) d.rank
    ⟨i, Finset.mem_range.mpr hi⟩
  have hmn : m < d.n := Finset.mem_range.mp hm
  have hroot : d.parent m = m := by
    by_contra hne
    have h1 := hd.rank_parent m hmn hne
    have h2 := hmax (d.parent m) (Finset.mem_range.mpr (hd.parent_lt m hmn))
    omega
  have hw : d.weight m ≤ (Finset.range d.n).sum d.weight :=
    Finset.single_le_sum (fun _ _ => Nat.zero_le _) hm
  have hwm : d.weight m = d.rank m + 1 := by simp [weight, hroot]
  have := hmax i (Finset.mem_range.mpr hi)
  have := hd.weight_le
  omega

/-- Two distinct roots weigh at most `n` together. -/
theorem Inv.rank_add_rank {d : DisjointSets} (hd : d.Inv) {a b : Nat} (ha : a < d.n) (hb : b < d.n)
    (hab : a ≠ b) (hra : d.parent a = a) (hrb : d.parent b = b) :
    d.rank a + d.rank b + 2 ≤ d.n := by
  have hsub : ({a, b} : Finset Nat) ⊆ Finset.range d.n := by
    intro x hx
    simp only [Finset.mem_insert, Finset.mem_singleton] at hx
    rcases hx with rfl | rfl <;> simpa using ‹_›
  have h1 : ({a, b} : Finset Nat).sum d.weight ≤ (Finset.range d.n).sum d.weight :=
    Finset.sum_le_sum_of_subset hsub
  rw [Finset.sum_pair hab] at h1
  have hwa : d.weight a = d.rank a + 1 := by simp [weight, hra]
  have hwb : d.weight b = d.rank b + 1 := by simp [weight, hrb]
  have := hd.weight_le
  omega

theorem Inv.exists_root {d : DisjointSets} (hd : d.Inv) :
    ∀ (k i : Nat), i < d.n → d.n ≤ k + d.rank i → ∃ r, r < d.n ∧ d.RootOf i r := by
  intro k
  induction k with
  | zero =>
    intro i hi hk
    have := hd.rank_lt_n i hi
    omega
  | succ k ih =>
    intro i hi hk
    by_cases hroot : d.parent i = i
    · exact ⟨i, hi, ClimbsTo.root hroot⟩
    · have h1 := hd.rank_parent i hi hroot
      obtain ⟨r, hr, hcl⟩ := ih (d.parent i) (hd.parent_lt i hi) (by omega)
      exact ⟨r, hr, ClimbsTo.step hroot hcl⟩

theorem Inv.root_exists {d : DisjointSets} (hd : d.Inv) (i : Nat) (hi : i < d.n) :
    ∃ r, r < d.n ∧ d.RootOf i r :=
  hd.exists_root d.n i hi (Nat.le_add_right _ _)

theorem Preserves.same (d : DisjointSets) : d.Preserves d :=
  ⟨rfl, fun _ => rfl, fun _ => Iff.rfl, fun _ _ => Iff.rfl⟩

theorem Preserves.comp {d e f : DisjointSets} (h1 : d.Preserves e) (h2 : e.Preserves f) :
    d.Preserves f :=
  ⟨h2.n_eq.trans h1.n_eq, fun i => (h2.rank_eq i).trans (h1.rank_eq i),
    fun i => (h2.root_iff i).trans (h1.root_iff i),
    fun i r => (h2.rootOf_iff i r).trans (h1.rootOf_iff i r)⟩

theorem Preserves.sameSet_iff {d e : DisjointSets} (h : d.Preserves e) (x y : Nat) :
    e.SameSet x y ↔ d.SameSet x y := by
  unfold SameSet
  constructor
  · rintro ⟨r, h1, h2⟩; exact ⟨r, (h.rootOf_iff x r).mp h1, (h.rootOf_iff y r).mp h2⟩
  · rintro ⟨r, h1, h2⟩; exact ⟨r, (h.rootOf_iff x r).mpr h1, (h.rootOf_iff y r).mpr h2⟩

/-- One round of path compression: the parent of a non-root becomes its grandparent. -/
theorem compress_step {d : DisjointSets} (hd : d.Inv) {id : Nat} (hid : id < d.n)
    (hne : d.parent id ≠ id) :
    (d.store id ⟨d.rank id, d.parent (d.parent id)⟩).Inv ∧
      d.Preserves (d.store id ⟨d.rank id, d.parent (d.parent id)⟩) := by
  have hlen : id < d.mData.length := by rw [hd.length_eq]; exact hid
  have hp1 : d.parent id < d.n := hd.parent_lt id hid
  have hr1 : d.rank id < d.rank (d.parent id) := hd.rank_parent id hid hne
  have hr2 : d.rank (d.parent id) ≤ d.rank (d.parent (d.parent id)) := by
    by_cases h : d.parent (d.parent id) = d.parent id
    · rw [h]
    · exact Nat.le_of_lt (hd.rank_parent _ hp1 h)
  have hgp : d.parent (d.parent id) ≠ id := by
    intro h; rw [h] at hr2; omega
  have hpar : ∀ j, (d.store id ⟨d.rank id, d.parent (d.parent id)⟩).parent j =
      if j = id then d.parent (d.parent id) else d.parent j := fun j => by
    rw [parent_store d id _ hlen]
  have hrank : ∀ j, (d.store id ⟨d.rank id, d.parent (d.parent id)⟩).rank j = d.rank j := by
    intro j
    rw [rank_store d id _ hlen]
    split
    · rename_i h; rw [h]
    · rfl
  have hroot : ∀ j, (d.store id ⟨d.rank id, d.parent (d.parent id)⟩).parent j = j ↔
      d.parent j = j := by
    intro j
    rw [hpar]
    by_cases e : j = id
    · subst e; simp [hgp, hne]
    · simp [e]
  refine ⟨⟨?_, hd.n_lt, ?_, ?_, ?_⟩, ⟨rfl, hrank, hroot, ?_⟩⟩
  · rw [length_store]; exact hd.length_eq
  · intro j hj
    rw [hpar]
    split
    · exact hd.parent_lt _ hp1
    · exact hd.parent_lt j hj
  · intro j hj hnej
    rw [hrank, hrank, hpar]
    rw [hpar] at hnej
    by_cases e : j = id
    · subst e
      rw [if_pos rfl]; omega
    · rw [if_neg e] at hnej ⊢
      exact hd.rank_parent j hj hnej
  · have : ∀ j ∈ Finset.range d.n,
        (d.store id ⟨d.rank id, d.parent (d.parent id)⟩).weight j = d.weight j := by
      intro j _
      unfold weight
      rw [hrank]
      by_cases h : d.parent j = j
      · rw [if_pos h, if_pos ((hroot j).mpr h)]
      · rw [if_neg h, if_neg (fun x => h ((hroot j).mp x))]
    show (Finset.range d.n).sum _ ≤ d.n
    rw [Finset.sum_congr rfl this]
    exact hd.weight_le
  · intro i r
    exact ClimbsTo.compress hne hgp hpar

end DisjointSets
end dsets

namespace dsets
namespace DisjointSets

theorem findLoop_root (fuel : Nat) (d : DisjointSets) (id : Nat) (h : d.parent id = id) :
    d.findLoop (fuel + 1) id = some (d, id) := by
  simp [findLoop, h]

theorem findLoop_flat (fuel : Nat) (d : DisjointSets) (id : Nat) (h : d.parent id ≠ id)
    (hg : d.parent (d.parent id) = d.parent id) :
    d.findLoop (fuel + 1) id = d.findLoop fuel (d.parent id) := by
  have hc : (d.cell id).parent = d.parent id := rfl
  have hv : d.cell id = ⟨(d.cell id).rank, d.parent (d.parent id)⟩ := by
    rw [hg]; rfl
  rw [findLoop, if_pos (Ne.symm h)]
  simp only [hc]
  rw [if_neg (not_not.mpr hv), hg]

theorem findLoop_compress (fuel : Nat) (d : DisjointSets) (id : Nat) (h : d.parent id ≠ id)
    (hg : d.parent (d.parent id) ≠ d.parent id) :
    d.findLoop (fuel + 1) id =
      (d.store id ⟨d.rank id, d.parent (d.parent id)⟩).findLoop fuel (d.parent (d.parent id)) := by
  have hc : (d.cell id).parent = d.parent id := rfl
  have hr : (d.cell id).rank = d.rank id := rfl
  have hv : d.cell id ≠ ⟨d.rank id, d.parent (d.parent id)⟩ := by
    intro e
    have := congrArg Aint.parent e
    exact hg this.symm
  rw [findLoop, if_pos (Ne.symm h)]
  simp only [hc, hr]
  rw [if_pos hv]
  simp [compareAndSwap]

theorem findLoop_spec : ∀ (fuel : Nat) (d : DisjointSets) (id : Nat), d.Inv → id < d.n →
    d.n ≤ fuel + d.rank id →
    ∃ e r, d.findLoop fuel id = some (e, r) ∧ e.Inv ∧ d.Preserves e ∧ d.RootOf id r ∧
      r < d.n := by
  intro fuel
  induction fuel with
  | zero =>
    intro d id hd hid hf
    have := hd.rank_lt_n id hid
    omega
  | succ fuel ih =>
    intro d id hd hid hf
    by_cases hroot : d.parent id = id
    · exact ⟨d, id, findLoop_root fuel d id hroot, hd, Preserves.same d,
        ClimbsTo.root hroot, hid⟩
    · have hp1 := hd.parent_lt id hid
      have hr1 := hd.rank_parent id hid hroot
      by_cases hg : d.parent (d.parent id) = d.parent id
      · obtain ⟨e, r, h1, h2, h3, h4, h5⟩ := ih d (d.parent id) hd hp1 (by omega)
        exact ⟨e, r, (findLoop_flat fuel d id hroot hg).trans h1, h2, h3,
          ClimbsTo.step hroot h4, h5⟩
      · obtain ⟨hinv, hpres⟩ := compress_step hd hid hroot
        have hr2 := hd.rank_parent _ hp1 hg
        have hp2 := hd.parent_lt _ hp1
        obtain ⟨e, r, h1, h2, h3, h4, h5⟩ := ih _ (d.parent (d.parent id)) hinv hp2
          (by rw [hpres.rank_eq]; show d.n ≤ _; omega)
        refine ⟨e, r, (findLoop_compress fuel d id hroot hg).trans h1, h2, hpres.comp h3,
          ?_, h5⟩
        exact ClimbsTo.step hroot (ClimbsTo.step hg ((hpres.rootOf_iff _ _).mp h4))

/-- A call of `find` returns: it yields the root of `id`, and only compresses paths. -/
theorem find_spec {d : DisjointSets} (hd : d.Inv) {id : Nat} (hid : id < d.n) :
    ∃ e r, d.find id = some (e, r) ∧ e.Inv ∧ d.Preserves e ∧ d.RootOf id r ∧ r < d.n :=
  findLoop_spec d.n d id hd hid (Nat.le_add_right _ _)

theorem linked_facts {d : DisjointSets} (hd : d.Inv) {l w : Nat} (hl : l < d.n) (hw : w < d.n)
    (hne : l ≠ w) (hrl : d.parent l = l) (hrw : d.parent w = w) (hle : d.rank l ≤ d.rank w) :
    (d.linked l w).n = d.n ∧ (d.linked l w).mData.length = d.n ∧
    (∀ j, (d.linked l w).parent j = if j = l then w else d.parent j) ∧
    (∀ j, (d.linked l w).rank j =
      if j = w ∧ d.rank l = d.rank w then d.rank w + 1 else d.rank j) := by
  have hlen : l < d.mData.length := by rw [hd.length_eq]; exact hl
  have hlen2 : w < d.mData.length := by rw [hd.length_eq]; exact hw
  have hlen3 : w < (d.store l ⟨d.rank l, w⟩).mData.length := by rw [length_store]; exact hlen2
  have hmod : (d.rank w + 1) % 2 ^ 64 = d.rank w + 1 := by
    apply Nat.mod_eq_of_lt
    have := hd.rank_add_rank hl hw hne hrl hrw
    have := hd.n_lt
    omega
  unfold linked
  by_cases he : d.rank l = d.rank w
  · rw [if_pos he]
    refine ⟨rfl, ?_, ?_, ?_⟩
    · rw [length_store, length_store]; exact hd.length_eq
    · intro j
      rw [parent_store _ _ _ hlen3, parent_store _ _ _ hlen]
      by_cases e1 : j = w
      · subst e1; simp [Ne.symm hne, hrw]
      · simp [e1]
    · intro j
      rw [rank_store _ _ _ hlen3, rank_store _ _ _ hlen, hmod]
      by_cases e1 : j = w
      · subst e1; simp [he]
      · simp only [e1, if_false, false_and]
        split
        · rename_i h; rw [h]
        · rfl
  · rw [if_neg he]
    refine ⟨rfl, ?_, ?_, ?_⟩
    · rw [length_store]; exact hd.length_eq
    · intro j
      rw [parent_store _ _ _ hlen]
    · intro j
      rw [rank_store _ _ _ hlen]
      simp only [he, and_false, if_false]
      split
      · rename_i h; rw [h]
      · rfl

end DisjointSets
end dsets

namespace dsets
namespace DisjointSets

theorem linked_inv {d : DisjointSets} (hd : d.Inv) {l w : Nat} (hl : l < d.n) (hw : w < d.n)
    (hne : l ≠ w) (hrl : d.parent l = l) (hrw : d.parent w = w) (hle : d.rank l ≤ d.rank w) :
    (d.linked l w).Inv := by
  obtain ⟨hn, hlen, hpar, hrank⟩ := linked_facts hd hl hw hne hrl hrw hle
  have hrank_le : ∀ j, d.rank j ≤ (d.linked l w).rank j := by
    intro j; rw [hrank]; split
    · rename_i h; rw [h.1]; omega
    · exact Nat.le_refl _
  refine ⟨by rw [hlen, hn], by rw [hn]; exact hd.n_lt, ?_, ?_, ?_⟩
  · intro j hj
    rw [hn] at hj ⊢
    rw [hpar]
    split
    · exact hw
    · exact hd.parent_lt j hj
  · intro j hj hnej
    rw [hn] at hj
    rw [hpar] at hnej ⊢
    by_cases e : j = l
    · subst e
      rw [if_pos rfl, hrank, hrank, if_neg (fun h => hne h.1)]
      by_cases he : d.rank j = d.rank w
      · rw [if_pos ⟨rfl, he⟩]; omega
      · rw [if_neg (fun h => he h.2)]; omega
    · rw [if_neg e] at hnej ⊢
      have hjw : j ≠ w := fun h => hnej (h ▸ hrw)
      have h1 := hd.rank_parent j hj hnej
      have h2 := hrank_le (d.parent j)
      have h3 : (d.linked l w).rank j = d.rank j := by
        rw [hrank, if_neg (fun h => hjw h.1)]
      omega
  · rw [hn]
    have hpt : ∀ j ∈ Finset.range d.n,
        (d.linked l w).weight j + (if j = l then 1 else 0) ≤
          d.weight j + (if j = w then 1 else 0) := by
      intro j _
      unfold weight
      rw [hpar, hrank]
      by_cases e1 : j = l
      · subst e1
        simp [hne, Ne.symm hne, hrl]
      · by_cases e2 : j = w
        · subst e2
          simp only [e1, if_false, hrw, if_true, true_and]
          split <;> omega
        · simp [e1, e2]
    have hsum := Finset.sum_le_sum hpt
    rw [Finset.sum_add_distrib, Finset.sum_add_distrib, Finset.sum_ite_eq', Finset.sum_ite_eq',
      if_pos (Finset.mem_range.mpr hl), if_pos (Finset.mem_range.mpr hw)] at hsum
    have hwl : ∑ x ∈ Finset.range d.n, d.weight x ≤ d.n := hd.weight_le
    show ∑ x ∈ Finset.range d.n, (d.linked l w).weight x ≤ d.n
    omega

theorem linked_rootOf {d : DisjointSets} (hd : d.Inv) {l w : Nat} (hl : l < d.n) (hw : w < d.n)
    (hne : l ≠ w) (hrl : d.parent l = l) (hrw : d.parent w = w) (hle : d.rank l ≤ d.rank w)
    {i s : Nat} (h : d.RootOf i s) : (d.linked l w).RootOf i (if s = l then w else s) :=
  ClimbsTo.link hrl hrw hne (linked_facts hd hl hw hne hrl hrw hle).2.2.1 h

theorem uniteLoop_same (fuel : Nat) (d : DisjointSets) (a b : Nat) {d1 d2 : DisjointSets}
    {ra : Nat} (h1 : d.find a = some (d1, ra)) (h2 : d1.find b = some (d2, ra)) :
    d.uniteLoop (fuel + 1) a b = some (d2, ra) := by
  simp [uniteLoop, h1, h2]

theorem uniteLoop_link (fuel : Nat) (d : DisjointSets) (a b : Nat) {d1 d2 : DisjointSets}
    {ra rb : Nat} (h1 : d.find a = some (d1, ra)) (h2 : d1.find b = some (d2, rb))
    (hne : ra ≠ rb) (hra : d2.parent ra = ra) (hrb : d2.parent rb = rb)
    (hla : ra < d2.mData.length) (hlb : rb < d2.mData.length) :
    d.uniteLoop (fuel + 1) a b =
      if d2.rank ra > d2.rank rb ∨ (d2.rank ra = d2.rank rb ∧ ra < rb) then
        some (d2.linked rb ra, ra)
      else some (d2.linked ra rb, rb) := by
  have ca : d2.cell ra = ⟨d2.rank ra, ra⟩ := by rw [cell_eq, hra]
  have cb : d2.cell rb = ⟨d2.rank rb, rb⟩ := by rw [cell_eq, hrb]
  rw [uniteLoop, h1]
  simp only [h2, if_neg hne]
  by_cases hs : d2.rank ra > d2.rank rb ∨ (d2.rank ra = d2.rank rb ∧ ra < rb)
  · simp only [hs, decide_True, if_true]
    have c2 : (d2.store rb ⟨d2.rank rb, ra⟩).cell ra = ⟨d2.rank ra, ra⟩ := by
      rw [cell_store _ _ _ hlb, if_neg hne, ca]
    simp only [compareAndSwap, cb, if_true, linked]
    by_cases he : d2.rank rb = d2.rank ra
    · simp [he, c2, he ▸ c2]
    · simp [he]
  · simp only [hs, decide_False, Bool.false_eq_true, if_false]
    have c2 : (d2.store ra ⟨d2.rank ra, rb⟩).cell rb = ⟨d2.rank rb, rb⟩ := by
      rw [cell_store _ _ _ hla, if_neg (Ne.symm hne), cb]
    simp only [compareAndSwap, ca, if_true, linked]
    by_cases he : d2.rank ra = d2.rank rb
    · simp [he, c2, he ▸ c2]
    · simp [he]

end DisjointSets
end dsets

namespace dsets
namespace DisjointSets

theorem sameSet_iff_of_roots {d : DisjointSets} {x y sx sy : Nat} (hx : d.RootOf x sx)
    (hy : d.RootOf y sy) : d.SameSet x y ↔ sx = sy := by
  constructor
  · rintro ⟨r, h1, h2⟩
    exact (ClimbsTo.unique hx h1).trans (ClimbsTo.unique h2 hy)
  · intro h
    exact ⟨sx, hx, h ▸ hy⟩

theorem SameSet.symm_set {d : DisjointSets} {x y : Nat} (h : d.SameSet x y) : d.SameSet y x := by
  obtain ⟨r, h1, h2⟩ := h
  exact ⟨r, h2, h1⟩

theorem SameSet.trans_set {d : DisjointSets} {x y z : Nat} (h : d.SameSet x y) (h2 : d.SameSet y z) :
    d.SameSet x z := by
  obtain ⟨r, a1, a2⟩ := h
  obtain ⟨s, b1, b2⟩ := h2
  have : r = s := ClimbsTo.unique a2 b1
  exact ⟨r, a1, this ▸ b2⟩

theorem Inv.sameSet_refl {d : DisjointSets} (hd : d.Inv) {x : Nat} (hx : x < d.n) :
    d.SameSet x x := by
  obtain ⟨r, _, h⟩ := hd.root_exists x hx
  exact ⟨r, h, h⟩

/-- The body of `unite` in a well-formed state: both `find`s return, the compare-and-swap
succeeds, and the loop is left in its first round. -/
theorem uniteLoop_spec (fuel : Nat) {d : DisjointSets} (hd : d.Inv) {a b : Nat} (ha : a < d.n)
    (hb : b < d.n) :
    ∃ m ra rb, m.Inv ∧ d.Preserves m ∧ d.RootOf a ra ∧ d.RootOf b rb ∧ ra < d.n ∧ rb < d.n ∧
      ((ra = rb ∧ d.uniteLoop (fuel + 1) a b = some (m, ra)) ∨
       (ra ≠ rb ∧ ∃ l w, ((l = ra ∧ w = rb) ∨ (l = rb ∧ w = ra)) ∧ d.Loses l w ∧
          d.uniteLoop (fuel + 1) a b = some (m.linked l w, w))) := by
  obtain ⟨d1, ra, h1, hd1, hp1, hra, hran⟩ := find_spec hd ha
  have hb1 : b < d1.n := by rw [hp1.n_eq]; exact hb
  obtain ⟨d2, rb, h2, hd2, hp2, hrb, hrbn⟩ := find_spec hd1 hb1
  have hrb2 : d.RootOf b rb := (hp1.rootOf_iff _ _).mp hrb
  have hp : d.Preserves d2 := hp1.comp hp2
  rw [hp1.n_eq] at hrbn
  refine ⟨d2, ra, rb, hd2, hp, hra, hrb2, hran, hrbn, ?_⟩
  by_cases e : ra = rb
  · left
    subst e
    exact ⟨rfl, uniteLoop_same fuel d a b h1 h2⟩
  · right
    refine ⟨e, ?_⟩
    have hroota : d2.parent ra = ra := (hp.root_iff ra).mpr (ClimbsTo.isRoot hra)
    have hrootb : d2.parent rb = rb := (hp.root_iff rb).mpr (ClimbsTo.isRoot hrb2)
    have hla : ra < d2.mData.length := by rw [hd2.length_eq, hp.n_eq]; exact hran
    have hlb : rb < d2.mData.length := by rw [hd2.length_eq, hp.n_eq]; exact hrbn
    have hu := uniteLoop_link fuel d a b h1 h2 e hroota hrootb hla hlb
    by_cases hs : d2.rank ra > d2.rank rb ∨ (d2.rank ra = d2.rank rb ∧ ra < rb)
    · rw [if_pos hs] at hu
      refine ⟨rb, ra, Or.inr ⟨rfl, rfl⟩, ?_, hu⟩
      rw [hp.rank_eq, hp.rank_eq] at hs
      unfold Loses
      rcases hs with h | ⟨h, h3⟩
      · left; exact h
      · right; exact ⟨h.symm, h3⟩
    · rw [if_neg hs] at hu
      refine ⟨ra, rb, Or.inl ⟨rfl, rfl⟩, ?_, hu⟩
      rw [hp.rank_eq, hp.rank_eq] at hs
      unfold Loses
      have : ra < rb ∨ rb < ra := Nat.lt_or_gt_of_ne e
      by_cases h : d.rank ra < d.rank rb
      · left; exact h
      · right
        constructor
        · by_contra h3; exact hs (Or.inl (by omega))
        · rcases this with h4 | h4
          · exact absurd (Or.inr ⟨by by_contra h3; exact hs (Or.inl (by omega)), h4⟩) hs
          · exact h4

/-- The effect of one `unite(a, b)` on the partition. -/
theorem unite_sound {d : DisjointSets} (hd : d.Inv) {a b : Nat} (ha : a < d.n) (hb : b < d.n) :
    ∃ e r, d.unite a b = some (e, r) ∧ e.Inv ∧ e.n = d.n ∧ r < d.n ∧ e.parent r = r ∧
      e.RootOf a r ∧ e.RootOf b r ∧
      (∀ x y, x < d.n → y < d.n →
        (e.SameSet x y ↔
          d.SameSet x y ∨ (d.SameSet x a ∧ d.SameSet b y) ∨ (d.SameSet x b ∧ d.SameSet a y))) ∧
      (d.SameSet a b → d.RootOf a r ∧ d.Preserves e) := by
  obtain ⟨m, ra, rb, hm, hp, hra, hrb, hran, hrbn, hcase⟩ := uniteLoop_spec d.n hd ha hb
  rcases hcase with ⟨e, hu⟩ | ⟨e, l, w, hlw, hlose, hu⟩
  · subst e
    refine ⟨m, ra, hu, hm, hp.n_eq, hran, (hp.root_iff ra).mpr (ClimbsTo.isRoot hra),
      (hp.rootOf_iff _ _).mpr hra, (hp.rootOf_iff _ _).mpr hrb, ?_, fun _ => ⟨hra, hp⟩⟩
    intro x y _ _
    rw [hp.sameSet_iff]
    have hab : d.SameSet a b := ⟨ra, hra, hrb⟩
    constructor
    · exact Or.inl
    · rintro (h | ⟨h1, h2⟩ | ⟨h1, h2⟩)
      · exact h
      · exact (h1.trans_set hab).trans_set h2
      · exact (h1.trans_set hab.symm_set).trans_set h2
  · have hmn : m.n = d.n := hp.n_eq
    have hl : l < m.n := by rcases hlw with ⟨h, _⟩ | ⟨h, _⟩ <;> rw [h, hmn] <;> assumption
    have hw : w < m.n := by rcases hlw with ⟨_, h⟩ | ⟨_, h⟩ <;> rw [h, hmn] <;> assumption
    have hne : l ≠ w := by
      rcases hlw with ⟨h1, h2⟩ | ⟨h1, h2⟩
      · rw [h1, h2]; exact e
      · rw [h1, h2]; exact Ne.symm e
    have hrl : m.parent l = l := by
      rcases hlw with ⟨h, _⟩ | ⟨h, _⟩ <;> rw [h, hp.root_iff]
      · exact ClimbsTo.isRoot hra
      · exact ClimbsTo.isRoot hrb
    have hrw : m.parent w = w := by
      rcases hlw with ⟨_, h⟩ | ⟨_, h⟩ <;> rw [h, hp.root_iff]
      · exact ClimbsTo.isRoot hrb
      · exact ClimbsTo.isRoot hra
    have hle : m.rank l ≤ m.rank w := by
      rw [hp.rank_eq, hp.rank_eq]
      rcases hlose with h | ⟨h, _⟩ <;> omega
    obtain ⟨hn, _, hpar, _⟩ := linked_facts hm hl hw hne hrl hrw hle
    have hinv := linked_inv hm hl hw hne hrl hrw hle
    have hmap : ∀ i s, d.RootOf i s → (m.linked l w).RootOf i (if s = l then w else s) :=
      fun i s h => linked_rootOf hm hl hw hne hrl hrw hle ((hp.rootOf_iff _ _).mpr h)
    have hroota : (m.linked l w).RootOf a w := by
      have := hmap a ra hra
      rcases hlw with ⟨h1, h2⟩ | ⟨h1, h2⟩ <;> subst h1 <;> subst h2
      · simpa using this
      · simpa [hne, Ne.symm hne] using this
    have hrootb : (m.linked l w).RootOf b w := by
      have := hmap b rb hrb
      rcases hlw with ⟨h1, h2⟩ | ⟨h1, h2⟩ <;> subst h1 <;> subst h2
      · simpa [hne, Ne.symm hne] using this
      · simpa using this
    refine ⟨m.linked l w, w, hu, hinv, hn.trans hmn, hmn ▸ hw, ?_, hroota, hrootb, ?_, ?_⟩
    · rw [hpar, if_neg (Ne.symm hne)]; exact hrw
    · intro x y hx hy
      obtain ⟨sx, _, hsx⟩ := hd.root_exists x hx
      obtain ⟨sy, _, hsy⟩ := hd.root_exists y hy
      rw [sameSet_iff_of_roots (hmap x sx hsx) (hmap y sy hsy),
        sameSet_iff_of_roots hsx hsy, sameSet_iff_of_roots hsx hra,
        sameSet_iff_of_roots hrb hsy, sameSet_iff_of_roots hsx hrb,
        sameSet_iff_of_roots hra hsy]
      rcases hlw with ⟨h1, h2⟩ | ⟨h1, h2⟩ <;> subst h1 <;> subst h2
      · by_cases c1 : sx = l <;> by_cases c2 : sy = l <;> simp [c1, c2] <;> tauto
      · by_cases c1 : sx = l <;> by_cases c2 : sy = l <;> simp [c1, c2] <;> tauto
    · intro hab
      exact absurd ((sameSet_iff_of_roots hra hrb).mp hab) e

end DisjointSets
end dsets

namespace dsets
namespace DisjointSets

/-- One `unite(a, b)` adds the pair `(a, b)` to the relation whose closure the partition is. -/
theorem unite_eqvGen {d : DisjointSets} (hd : d.Inv) {a b : Nat} (ha : a < d.n) (hb : b < d.n)
    (R : Nat → Nat → Prop) (hRn : ∀ u v, R u v → u < d.n ∧ v < d.n)
    (hR : ∀ x y, x < d.n → y < d.n → (d.SameSet x y ↔ Relation.EqvGen R x y)) :
    ∃ e r, d.unite a b = some (e, r) ∧ e.Inv ∧ e.n = d.n ∧
      ∀ x y, x < d.n → y < d.n →
        (e.SameSet x y ↔ Relation.EqvGen (fun u v => R u v ∨ (u = a ∧ v = b)) x y) := by
  obtain ⟨e, r, hu, he, hn, _, _, hra, hrb, hiff, _⟩ := unite_sound hd ha hb
  refine ⟨e, r, hu, he, hn, ?_⟩
  have hmono : ∀ u v, Relation.EqvGen R u v →
      Relation.EqvGen (fun u v => R u v ∨ (u = a ∧ v = b)) u v :=
    fun u v h => Relation.EqvGen.mono (fun _ _ h => Or.inl h) h
  have hedge : Relation.EqvGen (fun u v => R u v ∨ (u = a ∧ v = b)) a b :=
    Relation.EqvGen.rel _ _ (Or.inr ⟨rfl, rfl⟩)
  have key : ∀ x y, Relation.EqvGen (fun u v => R u v ∨ (u = a ∧ v = b)) x y →
      x = y ∨ (x < d.n ∧ y < d.n ∧ e.SameSet x y) := by
    intro x y h
    induction h with
    | rel u v huv =>
      right
      rcases huv with h | ⟨h1, h2⟩
      · obtain ⟨hu, hv⟩ := hRn u v h
        exact ⟨hu, hv, (hiff u v hu hv).mpr
          (Or.inl ((hR u v hu hv).mpr (Relation.EqvGen.rel _ _ h)))⟩
      · subst h1; subst h2
        exact ⟨ha, hb, ⟨r, hra, hrb⟩⟩
    | refl u => exact Or.inl rfl
    | symm u v _ ih =>
      rcases ih with h | ⟨h1, h2, h3⟩
      · exact Or.inl h.symm
      · exact Or.inr ⟨h2, h1, h3.symm_set⟩
    | trans u v w _ _ ih1 ih2 =>
      rcases ih1 with h | ⟨h1, h2, h3⟩
      · subst h; exact ih2
      · rcases ih2 with h | ⟨k1, k2, k3⟩
        · subst h; exact Or.inr ⟨h1, h2, h3⟩
        · exact Or.inr ⟨h1, k2, h3.trans_set k3⟩
  intro x y hx hy
  constructor
  · intro h
    rcases (hiff x y hx hy).mp h with h | ⟨h1, h2⟩ | ⟨h1, h2⟩
    · exact hmono _ _ ((hR x y hx hy).mp h)
    · exact Relation.EqvGen.trans _ _ _ (hmono _ _ ((hR x a hx ha).mp h1))
        (Relation.EqvGen.trans _ _ _ hedge (hmono _ _ ((hR b y hb hy).mp h2)))
    · exact Relation.EqvGen.trans _ _ _ (hmono _ _ ((hR x b hx hb).mp h1))
        (Relation.EqvGen.trans _ _ _ (Relation.EqvGen.symm _ _ hedge)
          (hmono _ _ ((hR a y ha hy).mp h2)))
  · intro h
    rcases key x y h with h | ⟨_, _, h⟩
    · subst h
      exact he.sameSet_refl (by rw [hn]; exact hx)
    · exact h

theorem sameSet_create (n : Nat) {x y : Nat} (hx : x < n) (hy : y < n) :
    (create n).SameSet x y ↔ x = y :=
  sameSet_iff_of_roots (ClimbsTo.root (parent_create n x hx)) (ClimbsTo.root (parent_create n y hy))

theorem eqvGen_false_iff (x y : Nat) : Relation.EqvGen (fun _ _ : Nat => False) x y ↔ x = y := by
  constructor
  · intro h
    induction h with
    | rel _ _ h => exact absurd h id
    | refl _ => rfl
    | symm _ _ _ ih => exact ih.symm
    | trans _ _ _ _ _ ih1 ih2 => exact ih1.trans ih2
  · intro h
    subst h
    exact Relation.EqvGen.refl _

theorem uniteAll_spec : ∀ (pairs : List (Nat × Nat)) (d : DisjointSets), d.Inv →
    (∀ p ∈ pairs, p.1 < d.n ∧ p.2 < d.n) →
    ∀ (R : Nat → Nat → Prop), (∀ u v, R u v → u < d.n ∧ v < d.n) →
    (∀ x y, x < d.n → y < d.n → (d.SameSet x y ↔ Relation.EqvGen R x y)) →
    ∃ e, uniteAll pairs d = some e ∧ e.Inv ∧ e.n = d.n ∧
      ∀ x y, x < d.n → y < d.n →
        (e.SameSet x y ↔ Relation.EqvGen (fun u v => R u v ∨ (u, v) ∈ pairs) x y) := by
  intro pairs
  induction pairs with
  | nil =>
    intro d hd _ R _ hR
    refine ⟨d, rfl, hd, rfl, ?_⟩
    intro x y hx hy
    rw [hR x y hx hy]
    constructor
    · exact Relation.EqvGen.mono (fun _ _ h => Or.inl h)
    · exact Relation.EqvGen.mono (fun _ _ h => by simpa using h)
  | cons p ps ih =>
    intro d hd hps R hRn hR
    obtain ⟨a, b⟩ := p
    have hab := hps (a, b) (List.mem_cons_self _ _)
    obtain ⟨e, r, hu, he, hn, hiff⟩ := unite_eqvGen hd hab.1 hab.2 R hRn hR
    have hps2 : ∀ p ∈ ps, p.1 < e.n ∧ p.2 < e.n := by
      intro p hp; rw [hn]; exact hps p (List.mem_cons_of_mem _ hp)
    have hRn2 : ∀ u v, R u v ∨ (u = a ∧ v = b) → u < e.n ∧ v < e.n := by
      intro u v h
      rw [hn]
      rcases h with h | ⟨h1, h2⟩
      · exact hRn u v h
      · rw [h1, h2]; exact hab
    obtain ⟨f, hf, hfinv, hfn, hfiff⟩ := ih e he hps2 _ hRn2
      (fun x y hx hy => hiff x y (hn ▸ hx) (hn ▸ hy))
    refine ⟨f, ?_, hfinv, hfn.trans hn, ?_⟩
    · simp [uniteAll, hu, hf]
    · intro x y hx hy
      rw [hfiff x y (hn ▸ hx) (hn ▸ hy)]
      constructor
      · apply Relation.EqvGen.mono
        rintro u v ((h | ⟨h1, h2⟩) | h)
        · exact Or.inl h
        · exact Or.inr (by rw [h1, h2]; exact List.mem_cons_self _ _)
        · exact Or.inr (List.mem_cons_of_mem _ h)
      · apply Relation.EqvGen.mono
        rintro u v (h | h)
        · exact Or.inl (Or.inl h)
        · rcases List.mem_cons.mp h with h | h
          · exact Or.inl (Or.inr ⟨congrArg Prod.fst h, congrArg Prod.snd h⟩)
          · exact Or.inr h

end DisjointSets

/-- C1. For a `DisjointSets` over `n` elements and any sequence of sequentially executed
`unite(a, b)` calls with `a, b < n`, all calls return, and afterwards `find(x) == find(y)` holds
if and only if `x` and `y` are related by the reflexive-symmetric-transitive closure of the
united pairs; with zero unions `find(i) == i`. -/
theorem find_eq_iff_united (n : Nat) (hn : n < 2 ^ 64) (pairs : List (Nat × Nat))
    (hpairs : ∀ p ∈ pairs, p.1 < n ∧ p.2 < n) (x y : Nat) (hx : x < n) (hy : y < n) :
    ∃ d d1 rx d2 ry, DisjointSets.uniteAll pairs (DisjointSets.create n) = some d ∧
      d.find x = some (d1, rx) ∧ d1.find y = some (d2, ry) ∧
      (rx = ry ↔ Relation.EqvGen (fun a b => (a, b) ∈ pairs) x y) ∧
      (pairs = [] → rx = x ∧ ry = y) := by
  have hc := DisjointSets.inv_create n hn
  obtain ⟨d, hd, hinv, hdn, hiff⟩ := DisjointSets.uniteAll_spec pairs (DisjointSets.create n) hc
    hpairs (fun _ _ => False) (fun _ _ h => absurd h id)
    (fun x y hx hy => by
      rw [DisjointSets.sameSet_create n hx hy, DisjointSets.eqvGen_false_iff])
  have hdn2 : d.n = n := hdn
  obtain ⟨d1, rx, h1, hd1, hp1, hrx, _⟩ := DisjointSets.find_spec hinv (hdn2.symm ▸ hx)
  have hy1 : y < d1.n := by rw [hp1.n_eq, hdn2]; exact hy
  obtain ⟨d2, ry, h2, _, _, hry, _⟩ := DisjointSets.find_spec hd1 hy1
  have hry2 : d.RootOf y ry := (hp1.rootOf_iff _ _).mp hry
  refine ⟨d, d1, rx, d2, ry, hd, h1, h2, ?_, ?_⟩
  · rw [← DisjointSets.sameSet_iff_of_roots hrx hry2, hiff x y hx hy]
    constructor
    · exact Relation.EqvGen.mono (fun _ _ h => by simpa using h)
    · exact Relation.EqvGen.mono (fun _ _ h => Or.inr h)
  · intro hnil
    subst hnil
    have hdc : d = DisjointSets.create n := by
      simpa [DisjointSets.uniteAll] using hd.symm
    subst hdc
    exact ⟨ClimbsTo.eq_of_root hrx (DisjointSets.parent_create n x hx),
      ClimbsTo.eq_of_root hry2 (DisjointSets.parent_create n y hy)⟩

theorem find_eq_iff_united_witness :
    ∃ d d1 rx d2 ry, DisjointSets.uniteAll [(0, 1), (2, 3), (1, 3)] (DisjointSets.create 5) = some d ∧
      d.find 0 = some (d1, rx) ∧ d1.find 2 = some (d2, ry) ∧
      (rx = ry ↔ Relation.EqvGen (fun a b => (a, b) ∈ [(0, 1), (2, 3), (1, 3)]) 0 2) ∧
      (([(0, 1), (2, 3), (1, 3)] : List (Nat × Nat)) = [] → rx = 0 ∧ ry = 2) :=
  find_eq_iff_united 5 (by norm_num) [(0, 1), (2, 3), (1, 3)] (by decide) 0 2 (by decide)
    (by decide)

end dsets

namespace dsets
namespace DisjointSets

/-- A call of `same` returns in its first round, tells whether the two roots coincide, and only
compresses paths. -/
theorem same_spec {d : DisjointSets} (hd : d.Inv) {a b : Nat} (ha : a < d.n) (hb : b < d.n) :
    ∃ e ra rb, d.same a b = some (e, decide (ra = rb)) ∧ e.Inv ∧ d.Preserves e ∧
      d.RootOf a ra ∧ d.RootOf b rb := by
  obtain ⟨d1, ra, h1, hd1, hp1, hra, _⟩ := find_spec hd ha
  have hb1 : b < d1.n := by rw [hp1.n_eq]; exact hb
  obtain ⟨d2, rb, h2, hd2, hp2, hrb, _⟩ := find_spec hd1 hb1
  have hp : d.Preserves d2 := hp1.comp hp2
  refine ⟨d2, ra, rb, ?_, hd2, hp, hra, (hp1.rootOf_iff _ _).mp hrb⟩
  have hroot : d2.parent ra = ra := (hp.root_iff ra).mpr (ClimbsTo.isRoot hra)
  unfold same
  rw [sameLoop, h1]
  simp only [h2]
  by_cases e : ra = rb
  · simp [e]
  · simp [e, hroot]

theorem applyOp_inv {d : DisjointSets} (hd : d.Inv) {op : Op} (hop : op.InRange d.n) :
    ∃ e, d.applyOp op = some e ∧ e.Inv ∧ e.n = d.n := by
  cases op with
  | find x =>
    obtain ⟨e, r, h, he, hp, _⟩ := find_spec hd (show x < d.n from hop)
    exact ⟨e, by simp [applyOp, h], he, hp.n_eq⟩
  | same x y =>
    obtain ⟨e, ra, rb, h, he, hp, _⟩ := same_spec hd hop.1 hop.2
    exact ⟨e, by simp [applyOp, h], he, hp.n_eq⟩
  | unite x y =>
    obtain ⟨e, r, h, he, hn, _⟩ := unite_sound hd hop.1 hop.2
    exact ⟨e, by simp [applyOp, h], he, hn⟩

/-- Every sequentially reachable state is well formed. -/
theorem Reachable.inv {n : Nat} (hn : n < 2 ^ 64) {d : DisjointSets} (h : Reachable n d) :
    d.Inv ∧ d.n = n := by
  induction h with
  | create => exact ⟨inv_create n hn, rfl⟩
  | @step d e op _ hop happ ih =>
    obtain ⟨f, hf, hfinv, hfn⟩ := applyOp_inv ih.1 (ih.2.symm ▸ hop)
    have : e = f := by rw [happ] at hf; exact Option.some.inj hf
    subst this
    exact ⟨hfinv, hfn.trans ih.2⟩

/-- In a well-formed state `find` of an element whose root is `r` returns `r`. -/
theorem find_of_rootOf {d : DisjointSets} (hd : d.Inv) {x r : Nat} (hx : x < d.n)
    (hr : d.RootOf x r) : ∃ e, d.find x = some (e, r) ∧ e.Inv ∧ d.Preserves e := by
  obtain ⟨e, s, h, he, hp, hs, _⟩ := find_spec hd hx
  have : s = r := ClimbsTo.unique hs hr
  subst this
  exact ⟨e, h, he, hp⟩

end DisjointSets

/-- C10. For all `x, y < n` in any sequentially reachable state, `r = unite(x, y)` is the
surviving representative: the call returns, immediately afterwards `parent(r) == r`,
`find(x) == r` and `find(y) == r`; if `x` and `y` were already in the same set, `r` is their
existing root and no set is merged. -/
theorem unite_returns_representative (n : Nat) (hn : n < 2 ^ 64) (d : DisjointSets)
    (hd : DisjointSets.Reachable n d) (x y : Nat) (hx : x < n) (hy : y < n) :
    ∃ e r, d.unite x y = some (e, r) ∧ e.parent r = r ∧
      (∃ e1 e2, e.find x = some (e1, r) ∧ e1.find y = some (e2, r)) ∧
      (∃ e3, e.find y = some (e3, r)) ∧
      (d.SameSet x y →
        d.RootOf x r ∧ d.RootOf y r ∧ ∀ u v, e.SameSet u v ↔ d.SameSet u v) := by
  obtain ⟨hinv, hdn⟩ := hd.inv hn
  subst hdn
  obtain ⟨e, r, hu, he, hen, _, hroot, hrx, hry, _, hsame⟩ :=
    DisjointSets.unite_sound hinv hx hy
  have hx2 : x < e.n := by rw [hen]; exact hx
  have hy2 : y < e.n := by rw [hen]; exact hy
  obtain ⟨e1, h1, he1, hp1⟩ := DisjointSets.find_of_rootOf he hx2 hrx
  obtain ⟨e2, h2, _, _⟩ := DisjointSets.find_of_rootOf he1 (by rw [hp1.n_eq]; exact hy2)
    ((hp1.rootOf_iff _ _).mpr hry)
  obtain ⟨e3, h3, _, _⟩ := DisjointSets.find_of_rootOf he hy2 hry
  refine ⟨e, r, hu, hroot, ⟨e1, e2, h1, h2⟩, ⟨e3, h3⟩, ?_⟩
  intro hs
  obtain ⟨hxr, hp⟩ := hsame hs
  obtain ⟨s, hs1, hs2⟩ := hs
  have : s = r := ClimbsTo.unique hs1 hxr
  subst this
  exact ⟨hxr, hs2, fun u v => hp.sameSet_iff u v⟩

theorem unite_returns_representative_witness :
    ∃ e r, (DisjointSets.create 3).unite 2 1 = some (e, r) ∧ e.parent r = r ∧
      (∃ e1 e2, e.find 2 = some (e1, r) ∧ e1.find 1 = some (e2, r)) ∧
      (∃ e3, e.find 1 = some (e3, r)) ∧
      ((DisjointSets.create 3).SameSet 2 1 →
        (DisjointSets.create 3).RootOf 2 r ∧ (DisjointSets.create 3).RootOf 1 r ∧
          ∀ u v, e.SameSet u v ↔ (DisjointSets.create 3).SameSet u v) :=
  unite_returns_representative 3 (by norm_num) (DisjointSets.create 3)
    DisjointSets.Reachable.create 2 1 (by decide) (by decide)

end dsets

namespace dsets
namespace DisjointSets

/-- The state and the value returned by `unite(x, y)` when the two roots differ: the loser `l`
hangs under the winner `w`, whose rank grows by one when the two ranks were equal; nothing else
changes in the ranks. -/
theorem unite_link_facts {d : DisjointSets} (hd : d.Inv) {x y a b : Nat} (hx : x < d.n)
    (hy : y < d.n) (ha : d.RootOf x a) (hb : d.RootOf y b) (hab : a ≠ b) :
    ∃ e l w, d.unite x y = some (e, w) ∧ ((l = a ∧ w = b) ∨ (l = b ∧ w = a)) ∧ d.Loses l w ∧
      e.parent l = w ∧ e.parent w = w ∧
      (∀ j, e.rank j = if j = w ∧ d.rank l = d.rank w then d.rank w + 1 else d.rank j) := by
  obtain ⟨m, ra, rb, hm, hp, hra, hrb, hran, hrbn, hcase⟩ := uniteLoop_spec d.n hd hx hy
  have e1 : ra = a := ClimbsTo.unique hra ha
  have e2 : rb = b := ClimbsTo.unique hrb hb
  subst e1 e2
  rcases hcase with ⟨e, _⟩ | ⟨_, l, w, hlw, hlose, hu⟩
  · exact absurd e hab
  · have hroots : d.parent l = l ∧ d.parent w = w ∧ l < d.n ∧ w < d.n ∧ l ≠ w := by
      rcases hlw with ⟨h1, h2⟩ | ⟨h1, h2⟩
      · subst h1 h2
        exact ⟨ClimbsTo.isRoot hra, ClimbsTo.isRoot hrb, hran, hrbn, hab⟩
      · subst h1 h2
        exact ⟨ClimbsTo.isRoot hrb, ClimbsTo.isRoot hra, hrbn, hran, fun h => hab h.symm⟩
    obtain ⟨hl, hw, hln, hwn, hne⟩ := hroots
    have hle : m.rank l ≤ m.rank w := by
      rw [hp.rank_eq, hp.rank_eq]
      rcases hlose with h | h
      · exact Nat.le_of_lt h
      · exact Nat.le_of_eq h.1
    obtain ⟨_, _, hpar, hrk⟩ := linked_facts hm (by rw [hp.n_eq]; exact hln)
      (by rw [hp.n_eq]; exact hwn) hne ((hp.root_iff l).mpr hl) ((hp.root_iff w).mpr hw) hle
    refine ⟨m.linked l w, l, w, hu, hlw, hlose, ?_, ?_, ?_⟩
    · rw [hpar]; simp
    · rw [hpar, if_neg (fun h => hne h.symm)]; exact (hp.root_iff w).mpr hw
    · intro j
      rw [hrk, hp.rank_eq, hp.rank_eq, hp.rank_eq]

/-- In a well-formed state rank never decreases from an element to its parent. -/
theorem Inv.rank_le_parent {d : DisjointSets} (hd : d.Inv) {i : Nat} (hi : i < d.n) :
    d.rank i ≤ d.rank (d.parent i) := by
  by_cases h : d.parent i = i
  · rw [h]
  · exact Nat.le_of_lt (hd.rank_parent i hi h)

theorem Inv.iterate_parent_lt {d : DisjointSets} (hd : d.Inv) {i : Nat} (hi : i < d.n) (k : Nat) :
    d.parent^[k] i < d.n := by
  induction k with
  | zero => exact hi
  | succ k ih =>
    rw [Function.iterate_succ_apply']
    exact hd.parent_lt _ ih

theorem Inv.rank_le_iterate {d : DisjointSets} (hd : d.Inv) {i : Nat} (hi : i < d.n) (k : Nat) :
    d.rank i ≤ d.rank (d.parent^[k] i) := by
  induction k with
  | zero => exact Nat.le_refl _
  | succ k ih =>
    rw [Function.iterate_succ_apply']
    exact Nat.le_trans ih (hd.rank_le_parent (hd.iterate_parent_lt hi k))

/-- In a well-formed state the parent pointers have no cycle but the self-loops of the roots. -/
theorem Inv.no_cycle {d : DisjointSets} (hd : d.Inv) {i : Nat} (hi : i < d.n) (k : Nat)
    (hk : 0 < k) (hc : d.parent^[k] i = i) : d.parent i = i := by
  by_contra hne
  obtain ⟨k, rfl⟩ : ∃ j, k = j + 1 := ⟨k - 1, by omega⟩
  rw [Function.iterate_succ_apply] at hc
  have h1 := hd.rank_parent i hi hne
  have h2 := hd.rank_le_iterate (hd.parent_lt i hi) k
  rw [hc] at h2
  omega

end DisjointSets

/-- C11. When `unite(x, y)` joins two distinct roots `a` and `b`: if the ranks differ, the root
of lower rank becomes a child of the root of higher rank and no rank changes; if the ranks are
equal, the root with the larger id becomes a child of the root with the smaller id and the rank
of the surviving root grows by exactly one.  In both cases the survivor is returned and stays a
root. -/
theorem unite_attaches_by_rank_then_id (n : Nat) (hn : n < 2 ^ 64) (d : DisjointSets)
    (hd : DisjointSets.Reachable n d) (x y a b : Nat) (hx : x < n) (hy : y < n)
    (ha : d.RootOf x a) (hb : d.RootOf y b) (hab : a ≠ b) :
    ∃ e r, d.unite x y = some (e, r) ∧ e.parent r = r ∧
      (d.rank a < d.rank b → r = b ∧ e.parent a = b ∧ ∀ j, e.rank j = d.rank j) ∧
      (d.rank b < d.rank a → r = a ∧ e.parent b = a ∧ ∀ j, e.rank j = d.rank j) ∧
      (d.rank a = d.rank b → r = min a b ∧ e.parent (max a b) = min a b ∧
        e.rank (min a b) = d.rank (min a b) + 1 ∧ ∀ j, j ≠ min a b → e.rank j = d.rank j) := by
  obtain ⟨hinv, hdn⟩ := hd.inv hn
  subst hdn
  obtain ⟨e, l, w, hu, hlw, hlose, hpl, hpw, hrk⟩ :=
    DisjointSets.unite_link_facts hinv hx hy ha hb hab
  refine ⟨e, w, hu, hpw, ?_, ?_, ?_⟩
  · intro hlt
    have hl : l = a ∧ w = b := by
      rcases hlw with h | ⟨h1, h2⟩
      · exact h
      · subst h1 h2
        rcases hlose with h | h <;> omega
    obtain ⟨h1, h2⟩ := hl
    subst h1 h2
    refine ⟨rfl, hpl, fun j => ?_⟩
    rw [hrk, if_neg (fun h => absurd h.2 (Nat.ne_of_lt hlt))]
  · intro hlt
    have hl : l = b ∧ w = a := by
      rcases hlw with ⟨h1, h2⟩ | h
      · subst h1 h2
        rcases hlose with h | h <;> omega
      · exact h
    obtain ⟨h1, h2⟩ := hl
    subst h1 h2
    refine ⟨rfl, hpl, fun j => ?_⟩
    rw [hrk, if_neg (fun h => absurd h.2 (Nat.ne_of_lt hlt))]
  · intro heq
    have hwl : w < l ∧ d.rank l = d.rank w := by
      rcases hlose with h | h
      · rcases hlw with ⟨h1, h2⟩ | ⟨h1, h2⟩ <;> subst h1 h2 <;> omega
      · exact ⟨h.2, h.1⟩
    have hmin : min a b = w ∧ max a b = l := by
      rcases hlw with ⟨h1, h2⟩ | ⟨h1, h2⟩ <;> subst h1 h2
      · exact ⟨min_eq_right (Nat.le_of_lt hwl.1), max_eq_left (Nat.le_of_lt hwl.1)⟩
      · exact ⟨min_eq_left (Nat.le_of_lt hwl.1), max_eq_right (Nat.le_of_lt hwl.1)⟩
    rw [hmin.1, hmin.2]
    refine ⟨rfl, hpl, ?_, fun j hj => ?_⟩
    · rw [hrk, if_pos ⟨rfl, hwl.2⟩]
    · rw [hrk, if_neg (fun h => hj h.1)]

theorem unite_attaches_by_rank_then_id_witness :
    ∃ e, (DisjointSets.create 2).unite 0 1 = some (e, 0) ∧ e.parent 0 = 0 ∧ e.parent 1 = 0 ∧
      e.rank 0 = 1 ∧ e.rank 1 = 0 := by
  obtain ⟨e, r, hu, hr, _, _, h⟩ :=
    unite_attaches_by_rank_then_id 2 (by norm_num) (DisjointSets.create 2)
      DisjointSets.Reachable.create 0 1 0 1 (by decide) (by decide)
      (ClimbsTo.root (by decide)) (ClimbsTo.root (by decide)) (by decide)
  obtain ⟨h1, h2, h3, h4⟩ := h (by decide)
  have e0 : min 0 1 = 0 := by decide
  have e1 : max 0 1 = 1 := by decide
  rw [e0] at h1 h3 h4
  rw [e0, e1] at h2
  subst h1
  exact ⟨e, hu, hr, h2, h3, h4 1 (by decide)⟩

/-- C12. In every sequentially reachable state and for every `x < n`, `find` is idempotent:
`find(x)` returns a value `r`, `find(r)` then returns `r`, and a second call `find(x)` returns
`r` again. -/
theorem find_idempotent (n : Nat) (hn : n < 2 ^ 64) (d : DisjointSets)
    (hd : DisjointSets.Reachable n d) (x : Nat) (hx : x < n) :
    ∃ e r, d.find x = some (e, r) ∧ (∃ e1, e.find r = some (e1, r)) ∧
      (∃ e2, e.find x = some (e2, r)) := by
  obtain ⟨hinv, hdn⟩ := hd.inv hn
  subst hdn
  obtain ⟨e, r, h, he, hp, hr, hrn⟩ := DisjointSets.find_spec hinv hx
  have hroot : e.RootOf r r :=
    ClimbsTo.root ((hp.root_iff r).mpr (ClimbsTo.isRoot hr))
  obtain ⟨e1, h1, _, _⟩ := DisjointSets.find_of_rootOf he (by rw [hp.n_eq]; exact hrn) hroot
  obtain ⟨e2, h2, _, _⟩ := DisjointSets.find_of_rootOf he (by rw [hp.n_eq]; exact hx)
    ((hp.rootOf_iff x r).mpr hr)
  exact ⟨e, r, h, ⟨e1, h1⟩, ⟨e2, h2⟩⟩

theorem find_idempotent_witness :
    ∃ e r, (DisjointSets.create 3).find 2 = some (e, r) ∧ (∃ e1, e.find r = some (e1, r)) ∧
      (∃ e2, e.find 2 = some (e2, r)) :=
  find_idempotent 3 (by norm_num) (DisjointSets.create 3) DisjointSets.Reachable.create 2
    (by decide)

/-- C13. In every state reachable from construction by sequential `find`/`same`/`unite` calls
with ids below `n`, the parent pointers contain no cycle other than the self-loops of the
roots, and `find(x)` returns for every `x < n` (with any bound of at least `n` on the rounds of
its loop), and what it returns is the root of the set of `x`. -/
theorem find_terminates_at_root (n : Nat) (hn : n < 2 ^ 64) (d : DisjointSets)
    (hd : DisjointSets.Reachable n d) (x : Nat) (hx : x < n) :
    (∀ i k, i < n → 0 < k → d.parent^[k] i = i → d.parent i = i) ∧
    ∃ r, d.RootOf x r ∧ d.parent r = r ∧ r < n ∧ d.SameSet x r ∧
      (∃ e, d.find x = some (e, r)) ∧
      ∀ fuel, n ≤ fuel → ∃ e, d.findLoop fuel x = some (e, r) := by
  obtain ⟨hinv, hdn⟩ := hd.inv hn
  subst hdn
  refine ⟨fun i k hi hk hc => hinv.no_cycle hi k hk hc, ?_⟩
  obtain ⟨e, r, h, _, _, hr, hrn⟩ := DisjointSets.find_spec hinv hx
  refine ⟨r, hr, ClimbsTo.isRoot hr, hrn, ⟨r, hr, ClimbsTo.root (ClimbsTo.isRoot hr)⟩,
    ⟨e, h⟩, fun fuel hf => ?_⟩
  obtain ⟨e1, r1, h1, _, _, hr1, _⟩ :=
    DisjointSets.findLoop_spec fuel d x hinv hx (Nat.le_trans hf (Nat.le_add_right _ _))
  have : r1 = r := ClimbsTo.unique hr1 hr
  subst this
  exact ⟨e1, h1⟩

theorem find_terminates_at_root_witness :
    (∀ i k, i < 3 → 0 < k → (DisjointSets.create 3).parent^[k] i = i →
      (DisjointSets.create 3).parent i = i) ∧
    ∃ r, (DisjointSets.create 3).RootOf 1 r ∧ (DisjointSets.create 3).parent r = r ∧ r < 3 ∧
      (DisjointSets.create 3).SameSet 1 r ∧
      (∃ e, (DisjointSets.create 3).find 1 = some (e, r)) ∧
      ∀ fuel, 3 ≤ fuel → ∃ e, (DisjointSets.create 3).findLoop fuel 1 = some (e, r) :=
  find_terminates_at_root 3 (by norm_num) (DisjointSets.create 3) DisjointSets.Reachable.create 1
    (by decide)

/-- C14. For every single operation (`find`, `same` or `unite`) with ids below `n` on a
sequentially reachable state, the operation returns and the rank of every element afterwards is
at least its rank before; `find` and `same` leave every rank unchanged. -/
theorem rank_non_decreasing (n : Nat) (hn : n < 2 ^ 64) (d : DisjointSets)
    (hd : DisjointSets.Reachable n d) (op : DisjointSets.Op) (hop : op.InRange n) :
    ∃ e, d.applyOp op = some e ∧ (∀ i, d.rank i ≤ e.rank i) ∧
      ((∀ x y, op ≠ DisjointSets.Op.unite x y) → ∀ i, e.rank i = d.rank i) := by
  obtain ⟨hinv, hdn⟩ := hd.inv hn
  subst hdn
  cases op with
  | find x =>
    obtain ⟨e, r, h, _, hp, _⟩ := DisjointSets.find_spec hinv (show x < d.n from hop)
    exact ⟨e, by simp [DisjointSets.applyOp, h], fun i => Nat.le_of_eq (hp.rank_eq i).symm,
      fun _ i => hp.rank_eq i⟩
  | same x y =>
    obtain ⟨e, ra, rb, h, _, hp, _⟩ := DisjointSets.same_spec hinv hop.1 hop.2
    exact ⟨e, by simp [DisjointSets.applyOp, h], fun i => Nat.le_of_eq (hp.rank_eq i).symm,
      fun _ i => hp.rank_eq i⟩
  | unite x y =>
    obtain ⟨a, _, ha⟩ := hinv.root_exists x hop.1
    obtain ⟨b, _, hb⟩ := hinv.root_exists y hop.2
    by_cases hab : a = b
    · subst hab
      obtain ⟨e, r, hu, _, _, _, _, _, _, _, hsame⟩ := DisjointSets.unite_sound hinv hop.1 hop.2
      obtain ⟨_, hp⟩ := hsame ⟨a, ha, hb⟩
      exact ⟨e, by simp [DisjointSets.applyOp, hu],
        fun i => Nat.le_of_eq (hp.rank_eq i).symm, fun h => absurd rfl (h x y)⟩
    · obtain ⟨e, l, w, hu, _, _, _, _, hrk⟩ :=
        DisjointSets.unite_link_facts hinv hop.1 hop.2 ha hb hab
      refine ⟨e, by simp [DisjointSets.applyOp, hu], fun i => ?_, fun h => absurd rfl (h x y)⟩
      rw [hrk]
      split_ifs with hc
      · rw [hc.1]; exact Nat.le_succ _
      · exact Nat.le_refl _

theorem rank_non_decreasing_witness :
    ∃ e, (DisjointSets.create 2).applyOp (DisjointSets.Op.unite 0 1) = some e ∧
      (∀ i, (DisjointSets.create 2).rank i ≤ e.rank i) ∧
      ((∀ x y, DisjointSets.Op.unite 0 1 ≠ DisjointSets.Op.unite x y) →
        ∀ i, e.rank i = (DisjointSets.create 2).rank i) :=
  rank_non_decreasing 2 (by norm_num) (DisjointSets.create 2) DisjointSets.Reachable.create
    (DisjointSets.Op.unite 0 1) ⟨by decide, by decide⟩

end dsets

/-! ## Properties of the chain merger -/

namespace skch

theorem sanitizeRefStart_spec (len : Int) (e : MappingResult) (h : 1 ≤ len) :
    0 ≤ (sanitizeRefStart len e).refStartPos ∧ (sanitizeRefStart len e).refStartPos ≤ len - 1 ∧
    (sanitizeRefStart len e).refEndPos = e.refEndPos ∧
    (sanitizeRefStart len e).queryStartPos = e.queryStartPos ∧
    (sanitizeRefStart len e).queryEndPos = e.queryEndPos := by
  unfold sanitizeRefStart
  by_cases h1 : e.refStartPos < 0
  · simp only [h1, if_true]
    split <;> (try dsimp only) <;> omega
  · simp only [h1, if_false]
    split <;> (try dsimp only) <;> omega

theorem sanitizeRefEnd_spec (len : Int) (e : MappingResult) (h : e.refStartPos ≤ len - 1) :
    (sanitizeRefEnd len e).refStartPos = e.refStartPos ∧
    e.refStartPos ≤ (sanitizeRefEnd len e).refEndPos ∧
    (sanitizeRefEnd len e).refEndPos ≤ len - 1 ∧
    (sanitizeRefEnd len e).queryStartPos = e.queryStartPos ∧
    (sanitizeRefEnd len e).queryEndPos = e.queryEndPos := by
  unfold sanitizeRefEnd
  by_cases h1 : e.refEndPos < e.refStartPos
  · simp only [h1, if_true]
    split <;> (try dsimp only) <;> omega
  · simp only [h1, if_false]
    split <;> (try dsimp only) <;> omega

theorem sanitizeQueryStart_spec (len : Int) (e : MappingResult) (h : 0 ≤ len) :
    (sanitizeQueryStart len e).refStartPos = e.refStartPos ∧
    (sanitizeQueryStart len e).refEndPos = e.refEndPos ∧
    0 ≤ (sanitizeQueryStart len e).queryStartPos ∧
    (sanitizeQueryStart len e).queryStartPos ≤ len ∧
    (sanitizeQueryStart len e).queryEndPos = e.queryEndPos := by
  unfold sanitizeQueryStart
  by_cases h1 : e.queryStartPos < 0
  · simp only [h1, if_true]
    split <;> (try dsimp only) <;> omega
  · simp only [h1, if_false]
    split <;> (try dsimp only) <;> omega

theorem sanitizeQueryEnd_spec (len : Int) (e : MappingResult) (h : e.queryStartPos ≤ len) :
    (sanitizeQueryEnd len e).refStartPos = e.refStartPos ∧
    (sanitizeQueryEnd len e).refEndPos = e.refEndPos ∧
    (sanitizeQueryEnd len e).queryStartPos = e.queryStartPos ∧
    e.queryStartPos ≤ (sanitizeQueryEnd len e).queryEndPos ∧
    (sanitizeQueryEnd len e).queryEndPos ≤ len := by
  unfold sanitizeQueryEnd
  by_cases h1 : e.queryEndPos < e.queryStartPos
  · simp only [h1, if_true]
    split <;> (try dsimp only) <;> omega
  · simp only [h1, if_false]
    split <;> (try dsimp only) <;> omega

theorem boundarySanityCheck_bounds (refLen : Int → Int) (inputLen : Int) (e : MappingResult)
    (href : 1 ≤ refLen e.refSeqId) (hq : 0 ≤ inputLen) :
    0 ≤ (boundarySanityCheck refLen inputLen e).queryStartPos ∧
    (boundarySanityCheck refLen inputLen e).queryStartPos ≤
      (boundarySanityCheck refLen inputLen e).queryEndPos ∧
    (boundarySanityCheck refLen inputLen e).queryEndPos ≤ inputLen ∧
    0 ≤ (boundarySanityCheck refLen inputLen e).refStartPos ∧
    (boundarySanityCheck refLen inputLen e).refStartPos ≤
      (boundarySanityCheck refLen inputLen e).refEndPos ∧
    (boundarySanityCheck refLen inputLen e).refEndPos ≤ refLen e.refSeqId := by
  unfold boundarySanityCheck
  obtain ⟨a1, a2, _, _, _⟩ := sanitizeRefStart_spec (refLen e.refSeqId) e href
  obtain ⟨b1, b2, b3, _, _⟩ := sanitizeRefEnd_spec (refLen e.refSeqId) _ a2
  obtain ⟨c1, c2, c3, c4, _⟩ := sanitizeQueryStart_spec inputLen
    (sanitizeRefEnd (refLen e.refSeqId) (sanitizeRefStart (refLen e.refSeqId) e)) hq
  obtain ⟨d1, d2, d3, d4, d5⟩ := sanitizeQueryEnd_spec inputLen _ c4
  omega

/-- C3. For every mapping with arbitrary (possibly negative or out-of-range) coordinates, every
reference length `>= 1` and every query length `>= 0`, after `mappingBoundarySanityCheck` the
mapping satisfies `0 <= queryStartPos <= queryEndPos <= query length` and
`0 <= refStartPos <= refEndPos <= reference length`. -/
theorem mappingBoundarySanityCheck_bounds (refLen : Int → Int) (inputLen : Int)
    (readMappings : List MappingResult) (href : ∀ m ∈ readMappings, 1 ≤ refLen m.refSeqId)
    (hq : 0 ≤ inputLen) (i : Nat) (hi : i < readMappings.length) :
    ∃ e, (mappingBoundarySanityCheck refLen inputLen readMappings)[i]? = some e ∧
      0 ≤ e.queryStartPos ∧ e.queryStartPos ≤ e.queryEndPos ∧ e.queryEndPos ≤ inputLen ∧
      0 ≤ e.refStartPos ∧ e.refStartPos ≤ e.refEndPos ∧
      e.refEndPos ≤ refLen (readMappings[i]).refSeqId := by
  refine ⟨boundarySanityCheck refLen inputLen readMappings[i], ?_, ?_⟩
  · simp [mappingBoundarySanityCheck, hi]
  · exact boundarySanityCheck_bounds refLen inputLen _
      (href _ (List.getElem_mem _)) hq

end skch

namespace skch

theorem foldl_min_spec {α : Type} (g : α → Int) (l : List α) (a : Int) :
    l.foldl (fun acc m => min acc (g m)) a ≤ a ∧
    (∀ m ∈ l, l.foldl (fun acc m => min acc (g m)) a ≤ g m) ∧
    (l.foldl (fun acc m => min acc (g m)) a = a ∨
      ∃ m ∈ l, l.foldl (fun acc m => min acc (g m)) a = g m) := by
  induction l generalizing a with
  | nil => simp
  | cons x xs ih =>
    simp only [List.foldl_cons]
    obtain ⟨h1, h2, h3⟩ := ih (min a (g x))
    refine ⟨by omega, ?_, ?_⟩
    · intro m hm
      rcases List.mem_cons.mp hm with rfl | hm
      · omega
      · exact h2 m hm
    · rcases h3 with h | ⟨m, hm, h⟩
      · rcases min_choice a (g x) with h4 | h4
        · left; omega
        · right; exact ⟨x, List.mem_cons_self _ _, by omega⟩
      · right; exact ⟨m, List.mem_cons_of_mem _ hm, h⟩

theorem foldl_max_spec {α : Type} (g : α → Int) (l : List α) (a : Int) :
    a ≤ l.foldl (fun acc m => max acc (g m)) a ∧
    (∀ m ∈ l, g m ≤ l.foldl (fun acc m => max acc (g m)) a) ∧
    (l.foldl (fun acc m => max acc (g m)) a = a ∨
      ∃ m ∈ l, l.foldl (fun acc m => max acc (g m)) a = g m) := by
  induction l generalizing a with
  | nil => simp
  | cons x xs ih =>
    simp only [List.foldl_cons]
    obtain ⟨h1, h2, h3⟩ := ih (max a (g x))
    refine ⟨by omega, ?_, ?_⟩
    · intro m hm
      rcases List.mem_cons.mp hm with rfl | hm
      · omega
      · exact h2 m hm
    · rcases h3 with h | ⟨m, hm, h⟩
      · rcases max_choice a (g x) with h4 | h4
        · left; omega
        · right; exact ⟨x, List.mem_cons_self _ _, by omega⟩
      · right; exact ⟨m, List.mem_cons_of_mem _ hm, h⟩

/-- The first loop of `processMappingFragment` computes four folds and touches nothing else. -/
theorem foldl_fragmentExtend (l : List MappingResult) (f : MappingResult) :
    l.foldl fragmentExtend f =
      { f with
        queryStartPos := l.foldl (fun acc m => min acc m.queryStartPos) f.queryStartPos
        refStartPos := l.foldl (fun acc m => min acc m.refStartPos) f.refStartPos
        queryEndPos := l.foldl (fun acc m => max acc m.queryEndPos) f.queryEndPos
        refEndPos := l.foldl (fun acc m => max acc m.refEndPos) f.refEndPos } := by
  induction l generalizing f with
  | nil => rfl
  | cons x xs ih =>
    simp only [List.foldl_cons]
    rw [ih]
    rfl

theorem isMinOf_foldl (g : MappingResult → Int) (first : MappingResult)
    (rest : List MappingResult) :
    IsMinOf ((first :: rest).foldl (fun acc m => min acc (g m)) (g first))
      ((first :: rest).map g) := by
  obtain ⟨h1, h2, h3⟩ := foldl_min_spec g (first :: rest) (g first)
  constructor
  · rcases h3 with h | ⟨m, hm, h⟩
    · rw [h]; simp
    · rw [h]; exact List.mem_map_of_mem g hm
  · intro x hx
    obtain ⟨m, hm, rfl⟩ := List.mem_map.mp hx
    exact h2 m hm

theorem isMaxOf_foldl (g : MappingResult → Int) (first : MappingResult)
    (rest : List MappingResult) :
    IsMaxOf ((first :: rest).foldl (fun acc m => max acc (g m)) (g first))
      ((first :: rest).map g) := by
  obtain ⟨h1, h2, h3⟩ := foldl_max_spec g (first :: rest) (g first)
  constructor
  · rcases h3 with h | ⟨m, hm, h⟩
    · rw [h]; simp
    · rw [h]; exact List.mem_map_of_mem g hm
  · intro x hx
    obtain ⟨m, hm, rfl⟩ := List.mem_map.mp hx
    exact h2 m hm

/-- The first mapping of a non-empty range after `processMappingFragment`: its coordinates are
the four folds of the first loop, its `discard` flag is untouched; the other mappings only get
`discard = 1`. -/
theorem processMappingFragment_head (first : MappingResult) (rest : List MappingResult) :
    ∃ fragment, processMappingFragment (first :: rest) =
        fragment :: rest.map (fun e => { e with discard := 1 }) ∧
      fragment.queryStartPos =
        (first :: rest).foldl (fun acc m => min acc m.queryStartPos) first.queryStartPos ∧
      fragment.refStartPos =
        (first :: rest).foldl (fun acc m => min acc m.refStartPos) first.refStartPos ∧
      fragment.queryEndPos =
        (first :: rest).foldl (fun acc m => max acc m.queryEndPos) first.queryEndPos ∧
      fragment.refEndPos =
        (first :: rest).foldl (fun acc m => max acc m.refEndPos) first.refEndPos ∧
      fragment.discard = first.discard := by
  refine ⟨_, rfl, ?_, ?_, ?_, ?_, ?_⟩ <;> simp only [foldl_fragmentExtend]

/-- C8. For every non-empty range `[start, end)` of mappings, `processMappingFragment` sets the
first mapping's `queryStartPos` and `refStartPos` to the minimum and its `queryEndPos` and
`refEndPos` to the maximum of the corresponding coordinates over the whole range, flags every
other mapping of the range with `discard = 1`, and does not flag the first mapping. -/
theorem processMappingFragment_range (first : MappingResult) (rest : List MappingResult) :
    ∃ fragment others, processMappingFragment (first :: rest) = fragment :: others ∧
      IsMinOf fragment.queryStartPos ((first :: rest).map (fun m => m.queryStartPos)) ∧
      IsMinOf fragment.refStartPos ((first :: rest).map (fun m => m.refStartPos)) ∧
      IsMaxOf fragment.queryEndPos ((first :: rest).map (fun m => m.queryEndPos)) ∧
      IsMaxOf fragment.refEndPos ((first :: rest).map (fun m => m.refEndPos)) ∧
      others = rest.map (fun e => { e with discard := 1 }) ∧
      (∀ e ∈ others, e.discard = 1) ∧
      fragment.discard = first.discard := by
  obtain ⟨fragment, heq, h1, h2, h3, h4, h5⟩ := processMappingFragment_head first rest
  refine ⟨fragment, _, heq, ?_, ?_, ?_, ?_, rfl, ?_, h5⟩
  · rw [h1]; exact isMinOf_foldl (fun m => m.queryStartPos) first rest
  · rw [h2]; exact isMinOf_foldl (fun m => m.refStartPos) first rest
  · rw [h3]; exact isMaxOf_foldl (fun m => m.queryEndPos) first rest
  · rw [h4]; exact isMaxOf_foldl (fun m => m.refEndPos) first rest
  · intro e he
    obtain ⟨m, _, rfl⟩ := List.mem_map.mp he
    rfl

end skch

namespace skch

theorem length_adjustLoop (threshold : Int) (rest : List MappingResult) (prev : MappingResult) :
    (adjustLoop threshold prev rest).length = rest.length + 1 := by
  induction rest generalizing prev with
  | nil => rfl
  | cons curr rest ih =>
    unfold adjustLoop
    split_ifs <;> simp [ih]

theorem length_adjustConsecutiveMappings (threshold : Int) (chain : List MappingResult) :
    (adjustConsecutiveMappings threshold chain).length = chain.length := by
  cases chain with
  | nil => rfl
  | cons prev rest => exact length_adjustLoop _ rest prev

theorem length_markCuttable (param : Parameters) (rest : List MappingResult)
    (prev : MappingResult) (i : Nat) (cut : List Bool) :
    (markCuttable param prev rest i cut).length = cut.length := by
  induction rest generalizing prev i cut with
  | nil => rfl
  | cons it rest ih =>
    unfold markCuttable
    split_ifs <;> simp [ih]

theorem length_isCuttable (param : Parameters) (chain : List MappingResult) :
    (isCuttable param chain).length = chain.length := by
  cases chain with
  | nil => rfl
  | cons first rest => simp [isCuttable, length_markCuttable]

theorem length_processMappingFragment (range : List MappingResult) :
    (processMappingFragment range).length = range.length := by
  cases range with
  | nil => rfl
  | cons first rest => simp [processMappingFragment]

theorem length_splitLoop (param : Parameters) (l : List (MappingResult × Bool))
    (fragment : List MappingResult) (acc : Int) :
    ((splitLoop param l fragment acc).map List.length).sum = fragment.length + l.length := by
  induction l generalizing fragment acc with
  | nil =>
    unfold splitLoop
    split_ifs with h
    · simp [length_processMappingFragment]
    · simp at h; simp [h]
  | cons x rest ih =>
    obtain ⟨it, cut⟩ := x
    unfold splitLoop
    simp only []
    split_ifs
    · simp [ih, length_processMappingFragment]; omega
    · simp [ih]; omega

theorem length_chainFragments (param : Parameters) (chain : List MappingResult) :
    ((chainFragments param chain).map List.length).sum = chain.length := by
  unfold chainFragments
  rw [length_splitLoop]
  simp [length_adjustConsecutiveMappings, length_isCuttable]

theorem length_flatten_chainFragments (param : Parameters) (chain : List MappingResult) :
    (chainFragments param chain).flatten.length = chain.length := by
  rw [List.length_flatten]
  exact length_chainFragments param chain

theorem computeChainStatistics_n_merged (param : Parameters) (chain : List MappingResult) :
    ∀ m ∈ computeChainStatistics param chain, m.n_merged = chain.length := by
  intro m hm
  unfold computeChainStatistics at hm
  obtain ⟨x, _, rfl⟩ := List.mem_map.mp hm
  rfl

/-- C9, as the code has it. After `processChainWithSplits` on a chain, every mapping of the
chain, so also the surviving mapping of each fragment, has `n_merged` equal to the number of
members of the whole chain, which is the sum of the sizes of its fragments. -/
theorem processChainWithSplits_n_merged (param : Parameters) (chain : List MappingResult) :
    ((chainFragments param chain).map List.length).sum = chain.length ∧
    ∀ m ∈ processChainWithSplits param chain, m.n_merged = chain.length := by
  refine ⟨length_chainFragments param chain, ?_⟩
  intro m hm
  unfold processChainWithSplits at hm
  split_ifs at hm with h
  · simp at hm
  · rw [computeChainStatistics_n_merged param _ m hm, length_flatten_chainFragments]

/-- C9 fails as stated: a chain of two mappings that is cut into two fragments of one member
each leaves both survivors with `n_merged = 2`. -/
theorem processChainWithSplits_n_merged_counterexample :
    (chainFragments Parameters.sample MappingResult.samplePair).map List.length = [1, 1] ∧
    (processChainWithSplits Parameters.sample MappingResult.samplePair).map
      (fun m => (m.discard, m.n_merged)) = [(0, 2), (0, 2)] := by
  decide

end skch

namespace skch

theorem toU64_natCast (k : Nat) (h : k < 2 ^ 64) : toU64 (k : Int) = k := by
  unfold toU64
  have : ((k : Int) % 2 ^ 64) = (k : Int) := Int.emod_eq_of_lt (by omega) (by omega)
  rw [this]
  simp

theorem ofU64_of_lt (r : Nat) (h : r < 2 ^ 63) : ofU64 r = (r : Int) := by
  unfold ofU64
  rw [if_pos h]

theorem length_assignIds (l : List MappingResult) (i : Nat) :
    (assignIds l i).length = l.length := by
  induction l generalizing i with
  | nil => rfl
  | cons x xs ih => simp [assignIds, ih]

theorem getElem?_assignIds (l : List MappingResult) (i k : Nat) :
    (assignIds l i)[k]? = (l[k]?).map (fun it =>
      { it with
        splitMappingId := ((i + k : Nat) : Int)
        discard := 0
        chainPairScore := Score.dblMax
        chainPairId := -(2 ^ 63) }) := by
  induction l generalizing i k with
  | nil => simp [assignIds]
  | cons x xs ih =>
    cases k with
    | zero => simp [assignIds]
    | succ k =>
      simp only [assignIds, List.getElem?_cons_succ, ih]
      have : i + 1 + k = i + (k + 1) := by omega
      rw [this]

theorem length_recordPair (ms : List MappingResult) (o : Option Nat) (s : Score) (id : Int) :
    (recordPair ms o s id).length = ms.length := by
  unfold recordPair
  cases o with
  | none => rfl
  | some j =>
    simp only []
    cases h : ms[j]? with
    | none => rfl
    | some b => simp

theorem getElem?_recordPair_ne (ms : List MappingResult) (j : Nat) (s : Score) (id : Int)
    (k : Nat) (hk : k ≠ j) : (recordPair ms (some j) s id)[k]? = ms[k]? := by
  unfold recordPair
  simp only []
  cases h : ms[j]? with
  | none => rfl
  | some b =>
    simp only []
    rw [List.getElem?_set]
    rw [if_neg (Ne.symm hk)]

theorem getElem?_recordPair_eq (ms : List MappingResult) (j : Nat) (s : Score) (id : Int)
    (b : MappingResult) (hb : ms[j]? = some b) :
    (recordPair ms (some j) s id)[j]? = some { b with chainPairScore := s, chainPairId := id } := by
  unfold recordPair
  simp only [hb]
  rw [List.getElem?_set]
  have : j < ms.length := by
    by_contra h
    rw [List.getElem?_eq_none (by omega)] at hb
    exact absurd hb (by simp)
  simp [this]

theorem map_static_recordPair (ms : List MappingResult) (o : Option Nat) (s : Score) (id : Int) :
    (recordPair ms o s id).map MappingResult.static = ms.map MappingResult.static := by
  apply List.ext_getElem?
  intro k
  cases o with
  | none => rfl
  | some j =>
    by_cases hk : k = j
    · subst hk
      cases hb : ms[k]? with
      | none =>
        simp [recordPair, hb]
      | some b =>
        rw [List.getElem?_map, getElem?_recordPair_eq ms k s id b hb, List.getElem?_map, hb]
        rfl
    · rw [List.getElem?_map, getElem?_recordPair_ne ms j s id k hk, List.getElem?_map]

end skch

namespace skch

/-- What the inner loop of the chaining scan holds in `best_score`, `best_it2`: nothing, or a
later mapping that may follow `it`, with its distance, which beats the score recorded there. -/
theorem chainInner_spec (param : Parameters) (max_dist : Int) (ms : List MappingResult) (i : Nat)
    (it : MappingResult) :
    ∀ (l : List MappingResult) (j : Nat) (bs : Score) (bi : Option Nat), i < j →
      (∀ k b, l[k]? = some b → ms[j + k]? = some b) →
      ((bi = none ∧ bs = Score.dblMax) ∨ ∃ j2 b, bi = some j2 ∧ i < j2 ∧ ms[j2]? = some b ∧
        Chained param max_dist it b ∧ bs = dist it b ∧ bs.lt b.chainPairScore = true) →
      (((chainInner param max_dist it l j bs bi).2 = none ∧
          (chainInner param max_dist it l j bs bi).1 = Score.dblMax) ∨
        ∃ j2 b, (chainInner param max_dist it l j bs bi).2 = some j2 ∧ i < j2 ∧
          ms[j2]? = some b ∧ Chained param max_dist it b ∧
          (chainInner param max_dist it l j bs bi).1 = dist it b ∧
          (chainInner param max_dist it l j bs bi).1.lt b.chainPairScore = true) := by
  intro l
  induction l with
  | nil =>
    intro j bs bi _ _ h
    exact h
  | cons it2 rest ih =>
    intro j bs bi hij hl h
    have hrest : ∀ k b, rest[k]? = some b → ms[j + 1 + k]? = some b := by
      intro k b hk
      have := hl (k + 1) b (by simpa using hk)
      rw [show j + 1 + k = j + (k + 1) by omega]
      exact this
    have hit2 : ms[j]? = some it2 := hl 0 it2 (by simp)
    have hnext := fun bs bi h => ih (j + 1) bs bi (by omega) hrest h
    unfold chainInner
    split_ifs with c1 c2 c3 c4 c5 c6
    · exact hnext bs bi h
    · exact hnext bs bi h
    · exact h
    · apply hnext
      right
      refine ⟨j, it2, rfl, hij, hit2, ?_, rfl, c6.2.2⟩
      have hlt := c6.1
      have hnn : 0 ≤ query_dist it it2 * query_dist it it2 + ref_dist it it2 * ref_dist it it2 := by
        exact add_nonneg (mul_self_nonneg _) (mul_self_nonneg _)
      simp only [dist, Score.ltInt, decide_eq_true_eq] at hlt
      rw [Int.toNat_of_nonneg hnn] at hlt
      rw [Int.neg_tdiv] at c5
      exact ⟨not_not.mp c1, c4, c2, c5.1, by unfold query_dist; omega, c5.2.1, c5.2.2, hlt.2⟩
    · exact hnext bs bi h
    · exact hnext bs bi h
    · exact hnext bs bi h

end skch

namespace skch

theorem static_eq_of_map {ms ms2 : List MappingResult}
    (h : ms2.map MappingResult.static = ms.map MappingResult.static) {k : Nat}
    {m : MappingResult} (hm : ms2[k]? = some m) :
    ∃ m0, ms[k]? = some m0 ∧ m.static = m0.static := by
  have h1 := congrArg (fun l => l[k]?) h
  simp only [List.getElem?_map, hm, Option.map_some'] at h1
  cases h0 : ms[k]? with
  | none => rw [h0] at h1; simp at h1
  | some m0 =>
    rw [h0] at h1
    simp only [Option.map_some', Option.some.injEq] at h1
    exact ⟨m0, rfl, h1⟩

theorem splitMappingId_of_static {m m0 : MappingResult} (h : m.static = m0.static) :
    m.splitMappingId = m0.splitMappingId := by
  show m.static.splitMappingId = m0.static.splitMappingId
  rw [h]

theorem hasPredecessor_congr {ms ms2 : List MappingResult} {u : Nat} (h : ms2[u]? = ms[u]?)
    (v : Nat) : HasPredecessor ms2 u v ↔ HasPredecessor ms u v := by
  unfold HasPredecessor
  rw [h]

/-- One round of the chaining scan keeps the scan invariant. -/
theorem chainOuter_step (param : Parameters) (max_dist : Int) {n i : Nat}
    {ms : List MappingResult} {d : dsets.DisjointSets} (hinv : ScanInv param max_dist n i ms d)
    (hi : i < n) :
    ∃ ms2 d2, (∀ remaining, chainOuter param max_dist (remaining + 1) i ms d =
        chainOuter param max_dist remaining (i + 1) ms2 d2) ∧
      ScanInv param max_dist n (i + 1) ms2 d2 ∧
      ms2.map MappingResult.static = ms.map MappingResult.static := by
  have hlen := hinv.len
  have hit : ms[i]? = some ms[i] := List.getElem?_eq_getElem (by omega)
  generalize ms[i] = it at hit
  have hid : it.splitMappingId = (i : Int) := hinv.ids i it hit
  have hn64 : n < 2 ^ 64 := hinv.dn ▸ hinv.dinv.n_lt
  -- the union with the recorded predecessor
  have hunite : ∃ d2, (if it.chainPairScore ≠ Score.dblMax then
        (d.unite (toU64 it.splitMappingId) (toU64 it.chainPairId)).map Prod.fst
        else some d) = some d2 ∧ d2.Inv ∧ d2.n = n ∧
      ∀ x y, x < n → y < n → (d2.SameSet x y ↔
        Relation.EqvGen (fun u v => (u < i ∧ HasPredecessor ms u v) ∨
          (u = i ∧ HasPredecessor ms u v)) x y) := by
    by_cases hs : it.chainPairScore = Score.dblMax
    · refine ⟨d, by simp [hs], hinv.dinv, hinv.dn, ?_⟩
      intro x y hx hy
      rw [hinv.part x y hx hy]
      constructor
      · exact Relation.EqvGen.mono (fun _ _ h => Or.inl h)
      · apply Relation.EqvGen.mono
        rintro u v (h | ⟨h1, b, hb, hb2, _⟩)
        · exact h
        · subst h1
          rw [hit] at hb
          cases hb
          exact absurd hs hb2
    · obtain ⟨j, a, hji, _, hcp, _, _, _⟩ := hinv.links i it hit hs
      have h1 : toU64 it.splitMappingId = i := by rw [hid]; exact toU64_natCast i (by omega)
      have h2 : toU64 it.chainPairId = j := by rw [hcp]; exact toU64_natCast j (by omega)
      obtain ⟨e, r, hu, he, hen, hiff⟩ := dsets.DisjointSets.unite_eqvGen hinv.dinv
        (a := i) (b := j) (by rw [hinv.dn]; exact hi) (by rw [hinv.dn]; omega)
        (fun u v => u < i ∧ HasPredecessor ms u v)
        (by
          rintro u v ⟨hu, b, hb, hb2, hb3⟩
          obtain ⟨j2, _, hj2, _, hcp2, _⟩ := hinv.links u b hb hb2
          rw [hinv.dn]
          have : (v : Int) = (j2 : Int) := hb3.symm.trans hcp2
          have : v = j2 := by exact_mod_cast this
          exact ⟨by omega, by omega⟩)
        (by rw [hinv.dn]; exact hinv.part)
      refine ⟨e, by simp [hs, h1, h2, hu], he, hen.trans hinv.dn, ?_⟩
      intro x y hx hy
      rw [hiff x y (by rw [hinv.dn]; exact hx) (by rw [hinv.dn]; exact hy)]
      constructor
      · apply Relation.EqvGen.mono
        rintro u v (h | ⟨h3, h4⟩)
        · exact Or.inl h
        · exact Or.inr ⟨h3, it, by rw [h3]; exact hit, hs, by rw [h4]; exact hcp⟩
      · apply Relation.EqvGen.mono
        rintro u v (h | ⟨h3, b, hb, _, hb3⟩)
        · exact Or.inl h
        · subst h3
          rw [hit] at hb
          cases hb
          have : (v : Int) = (j : Int) := hb3.symm.trans hcp
          exact Or.inr ⟨rfl, by exact_mod_cast this⟩
  obtain ⟨d2, hd2, hd2inv, hd2n, hpart⟩ := hunite
  -- the best successor
  have hbest := chainInner_spec param max_dist ms i it (ms.drop (i + 1)) (i + 1)
    Score.dblMax none (by omega)
    (by intro k b hk; rw [List.getElem?_drop] at hk; exact hk)
    (Or.inl ⟨rfl, rfl⟩)
  generalize hbd : chainInner param max_dist it (ms.drop (i + 1)) (i + 1) Score.dblMax none =
    best at hbest
  have hsame : ∀ u, u ≤ i → (recordPair ms best.2 best.1 it.splitMappingId)[u]? = ms[u]? := by
    intro u hu
    rcases hbest with ⟨h, _⟩ | ⟨j2, b, h, hj2, _⟩
    · rw [h]; rfl
    · rw [h]; exact getElem?_recordPair_ne ms j2 _ _ u (by omega)
  have hstatic := map_static_recordPair ms best.2 best.1 it.splitMappingId
  refine ⟨recordPair ms best.2 best.1 it.splitMappingId, d2, ?_, ?_, hstatic⟩
  · intro remaining
    rw [chainOuter]
    simp only [hit, hd2, hbd]
  · refine ⟨by rw [length_recordPair]; exact hlen, hd2inv, hd2n, ?_, ?_, ?_⟩
    · intro k m hm
      obtain ⟨m0, hm0, hst⟩ := static_eq_of_map hstatic hm
      rw [splitMappingId_of_static hst]
      exact hinv.ids k m0 hm0
    · intro k b hb hbs
      have hold : ms[k]? = some b → ∃ j a, j < k ∧ j < i + 1 ∧ b.chainPairId = (j : Int) ∧
          (recordPair ms best.2 best.1 it.splitMappingId)[j]? = some a ∧
          Chained param max_dist a b ∧ b.chainPairScore = dist a b := by
        intro hb0
        obtain ⟨j, a, h1, h2, h3, h4, h5, h6⟩ := hinv.links k b hb0 hbs
        exact ⟨j, a, h1, by omega, h3, by rw [hsame j (by omega)]; exact h4, h5, h6⟩
      rcases hbest with ⟨h, _⟩ | ⟨j2, b2, h, hj2, hb2, hch, hsc, _⟩
      · rw [h] at hb
        exact hold hb
      · rw [h] at hb
        by_cases hk : k = j2
        · subst hk
          rw [getElem?_recordPair_eq ms k _ _ b2 hb2] at hb
          cases hb
          refine ⟨i, it, hj2, by omega, hid, by rw [hsame i (Nat.le_refl _)]; exact hit, ?_, ?_⟩
          · exact ⟨hch.refSeqId_eq, hch.strand_eq, hch.query_ne, hch.query_ge, hch.query_le,
              hch.ref_ge, hch.ref_le, hch.near⟩
          · exact hsc
        · rw [getElem?_recordPair_ne ms j2 _ _ k hk] at hb
          exact hold hb
    · intro x y hx hy
      rw [hpart x y hx hy]
      constructor
      · apply Relation.EqvGen.mono
        rintro u v (⟨h1, h2⟩ | ⟨h1, h2⟩)
        · exact ⟨by omega, (hasPredecessor_congr (hsame u (by omega)) v).mpr h2⟩
        · exact ⟨by omega, (hasPredecessor_congr (hsame u (by omega)) v).mpr h2⟩
      · apply Relation.EqvGen.mono
        rintro u v ⟨h1, h2⟩
        have h3 := (hasPredecessor_congr (hsame u (by omega)) v).mp h2
        by_cases hu : u < i
        · exact Or.inl ⟨hu, h3⟩
        · exact Or.inr ⟨by omega, h3⟩

/-- The chaining scan returns, and ends in a state that satisfies the scan invariant at
`i = n`. -/
theorem chainOuter_spec (param : Parameters) (max_dist : Int) (n : Nat) :
    ∀ (remaining i : Nat) (ms : List MappingResult) (d : dsets.DisjointSets),
      ScanInv param max_dist n i ms d → i + remaining = n →
      ∃ ms2 d2, chainOuter param max_dist remaining i ms d = some (ms2, d2) ∧
        ScanInv param max_dist n n ms2 d2 ∧
        ms2.map MappingResult.static = ms.map MappingResult.static := by
  intro remaining
  induction remaining with
  | zero =>
    intro i ms d hinv hi
    have : i = n := by omega
    subst this
    exact ⟨ms, d, rfl, hinv, rfl⟩
  | succ remaining ih =>
    intro i ms d hinv hi
    obtain ⟨ms1, d1, hstep, hinv1, hst1⟩ := chainOuter_step param max_dist hinv (by omega)
    obtain ⟨ms2, d2, hrun, hinv2, hst2⟩ := ih (i + 1) ms1 d1 hinv1 (by omega)
    exact ⟨ms2, d2, (hstep remaining).trans hrun, hinv2, hst2.trans hst1⟩

end skch

namespace skch

theorem scanInv_init (param : Parameters) (max_dist : Int) (l : List MappingResult)
    (hl : l.length < 2 ^ 64) :
    ScanInv param max_dist l.length 0 (assignIds l 0) (dsets.DisjointSets.create l.length) := by
  refine ⟨length_assignIds l 0, dsets.DisjointSets.inv_create _ hl, rfl, ?_, ?_, ?_⟩
  · intro k m hm
    rw [getElem?_assignIds] at hm
    cases h : l[k]? with
    | none => rw [h] at hm; simp at hm
    | some x =>
      rw [h] at hm
      simp only [Option.map_some', Option.some.injEq] at hm
      subst hm
      simp
  · intro k b hb hbs
    rw [getElem?_assignIds] at hb
    cases h : l[k]? with
    | none => rw [h] at hb; simp at hb
    | some x =>
      rw [h] at hb
      simp only [Option.map_some', Option.some.injEq] at hb
      subst hb
      exact absurd rfl hbs
  · intro x y hx hy
    rw [dsets.DisjointSets.sameSet_create _ hx hy, ← dsets.DisjointSets.eqvGen_false_iff]
    constructor
    · exact Relation.EqvGen.mono (fun _ _ h => absurd h id)
    · exact Relation.EqvGen.mono (fun _ _ h => absurd h.1 (Nat.not_lt_zero _))

/-- The relabelling loop returns and gives every mapping the root of its id. -/
theorem relabel_spec : ∀ (l : List MappingResult) (d : dsets.DisjointSets), d.Inv →
    (∀ m ∈ l, toU64 m.splitMappingId < d.n) →
    ∃ out d2, relabel l d = some (out, d2) ∧ out.length = l.length ∧
      ∀ (k : Nat) (m : MappingResult), l[k]? = some m →
        ∃ r, r < d.n ∧ d.RootOf (toU64 m.splitMappingId) r ∧
          out[k]? = some { m with splitMappingId := ofU64 r } := by
  intro l
  induction l with
  | nil =>
    intro d _ _
    exact ⟨[], d, rfl, rfl, fun k m h => by simp at h⟩
  | cons it rest ih =>
    intro d hd hl
    obtain ⟨d1, r, hf, hd1, hp, hr, hrn⟩ :=
      dsets.DisjointSets.find_spec hd (hl it (List.mem_cons_self _ _))
    obtain ⟨out, d2, hrel, hlen, hout⟩ := ih d1 hd1
      (fun m hm => by rw [hp.n_eq]; exact hl m (List.mem_cons_of_mem _ hm))
    refine ⟨{ it with splitMappingId := ofU64 r } :: out, d2, ?_, by simp [hlen], ?_⟩
    · simp [relabel, hf, hrel]
    · intro k m hm
      cases k with
      | zero =>
        simp only [List.getElem?_cons_zero, Option.some.injEq] at hm
        subst hm
        exact ⟨r, hrn, hr, by simp⟩
      | succ k =>
        simp only [List.getElem?_cons_succ] at hm
        obtain ⟨r2, h1, h2, h3⟩ := hout k m hm
        exact ⟨r2, by rw [← hp.n_eq]; exact h1, (hp.rootOf_iff _ _).mp h2, by simpa using h3⟩

/-- The first part of `mergeMappingsInRange` returns: the scan ends in a state `scanned`, `d`
that satisfies the scan invariant, and every mapping is relabelled with the root of its index. -/
theorem labelChains_spec (param : Parameters) (readMappings : List MappingResult)
    (max_dist : Int) (hlen : readMappings.length < 2 ^ 63) :
    ∃ scanned d labelled, labelChains param readMappings max_dist = some labelled ∧
      ScanInv param max_dist readMappings.length readMappings.length scanned d ∧
      scanned.map MappingResult.static =
        (assignIds (stdSort queryRefLess readMappings) 0).map MappingResult.static ∧
      labelled.length = readMappings.length ∧
      ∀ (k : Nat) (m : MappingResult), scanned[k]? = some m →
        ∃ r, r < readMappings.length ∧ d.RootOf k r ∧
          labelled[k]? = some { m with splitMappingId := (r : Int) } := by
  have hsl : (stdSort queryRefLess readMappings).length = readMappings.length := by
    unfold stdSort
    exact List.length_insertionSort _ _
  have h0 := scanInv_init param max_dist (stdSort queryRefLess readMappings)
    (by rw [hsl]; omega)
  rw [hsl] at h0
  obtain ⟨scanned, d, hscan, hinv, hst⟩ := chainOuter_spec param max_dist readMappings.length
    readMappings.length 0 _ _ h0 (by omega)
  have hids : ∀ (k : Nat) (m : MappingResult), scanned[k]? = some m →
      toU64 m.splitMappingId = k ∧ k < readMappings.length := by
    intro k m hm
    have hk : k < readMappings.length := by
      by_contra h
      rw [List.getElem?_eq_none (by rw [hinv.len]; omega)] at hm
      simp at hm
    rw [hinv.ids k m hm]
    exact ⟨toU64_natCast k (by omega), hk⟩
  obtain ⟨labelled, d2, hrel, hll, hout⟩ := relabel_spec scanned d hinv.dinv (by
    intro m hm
    obtain ⟨k, hk⟩ := List.getElem?_of_mem hm
    rw [(hids k m hk).1, hinv.dn]
    exact (hids k m hk).2)
  refine ⟨scanned, d, labelled, ?_, hinv, hst, hll.trans hinv.len, ?_⟩
  · unfold labelChains
    simp only [length_assignIds, hsl, hscan, hrel, Option.map_some']
  · intro k m hm
    obtain ⟨r, hr, hroot, hlab⟩ := hout k m hm
    rw [hinv.dn] at hr
    rw [(hids k m hm).1] at hroot
    rw [ofU64_of_lt r (by omega)] at hlab
    exact ⟨r, hr, hroot, hlab⟩

end skch

namespace skch

theorem chained_core {param : Parameters} {max_dist : Int} {a a0 b b0 : MappingResult}
    (ha : a.core = a0.core) (hb : b.core = b0.core) (h : Chained param max_dist a b) :
    Chained param max_dist a0 b0 := by
  have h1 : Chained param max_dist a.core b.core :=
    ⟨h.refSeqId_eq, h.strand_eq, h.query_ne, h.query_ge, h.query_le, h.ref_ge, h.ref_le, h.near⟩
  rw [ha, hb] at h1
  exact ⟨h1.refSeqId_eq, h1.strand_eq, h1.query_ne, h1.query_ge, h1.query_le, h1.ref_ge,
    h1.ref_le, h1.near⟩

/-- What the first part of `mergeMappingsInRange` leaves: the mappings in the order of the
first sort, unchanged apart from the four fields of the labelling, with `discard = 0`; two
mappings carry the same `splitMappingId` exactly when recorded predecessor links connect them;
and every recorded predecessor is an earlier mapping that the later one may follow. -/
theorem labelChains_links (param : Parameters) (readMappings : List MappingResult)
    (max_dist : Int) (hlen : readMappings.length < 2 ^ 63) :
    ∃ labelled, labelChains param readMappings max_dist = some labelled ∧
      labelled.length = readMappings.length ∧
      (∀ (k : Nat) (m : MappingResult), labelled[k]? = some m →
        ∃ m0, (stdSort queryRefLess readMappings)[k]? = some m0 ∧ m.core = m0.core ∧
          m.discard = 0) ∧
      (∀ (x y : Nat) (a b : MappingResult), labelled[x]? = some a → labelled[y]? = some b →
        (a.splitMappingId = b.splitMappingId ↔
          Relation.EqvGen (HasPredecessor labelled) x y)) ∧
      (∀ (k : Nat) (b : MappingResult), labelled[k]? = some b →
        b.chainPairScore ≠ Score.dblMax →
        ∃ (j : Nat) (a : MappingResult), j < k ∧ b.chainPairId = (j : Int) ∧
          labelled[j]? = some a ∧ Chained param max_dist a b ∧
          b.chainPairScore = dist a b) := by
  obtain ⟨scanned, d, labelled, hlab, hinv, hst, hll, hout⟩ :=
    labelChains_spec param readMappings max_dist hlen
  -- every labelled mapping is a scanned mapping with a new id
  have hback : ∀ (k : Nat) (m : MappingResult), labelled[k]? = some m →
      ∃ s r, scanned[k]? = some s ∧ r < readMappings.length ∧ d.RootOf k r ∧
        m = { s with splitMappingId := (r : Int) } := by
    intro k m hm
    have hk : k < scanned.length := by
      by_contra h
      rw [List.getElem?_eq_none (by rw [hll, ← hinv.len]; omega)] at hm
      simp at hm
    obtain ⟨r, hr, hroot, hl2⟩ := hout k scanned[k] (List.getElem?_eq_getElem hk)
    rw [hm] at hl2
    exact ⟨scanned[k], r, List.getElem?_eq_getElem hk, hr, hroot, Option.some.inj hl2⟩
  have hpred : ∀ u v, HasPredecessor labelled u v ↔ HasPredecessor scanned u v := by
    intro u v
    constructor
    · rintro ⟨b, hb, h1, h2⟩
      obtain ⟨s, r, hs, _, _, rfl⟩ := hback u b hb
      exact ⟨s, hs, h1, h2⟩
    · rintro ⟨s, hs, h1, h2⟩
      obtain ⟨r, _, _, hl2⟩ := hout u s hs
      exact ⟨_, hl2, h1, h2⟩
  refine ⟨labelled, hlab, hll, ?_, ?_, ?_⟩
  · intro k m hm
    obtain ⟨s, r, hs, _, _, rfl⟩ := hback k m hm
    obtain ⟨a, ha, hsa⟩ := static_eq_of_map hst hs
    rw [getElem?_assignIds] at ha
    cases h0 : (stdSort queryRefLess readMappings)[k]? with
    | none => rw [h0] at ha; simp at ha
    | some m0 =>
      rw [h0] at ha
      simp only [Option.map_some', Option.some.injEq] at ha
      subst ha
      refine ⟨m0, rfl, ?_, ?_⟩
      · have := congrArg MappingResult.core hsa
        exact this
      · have := congrArg MappingResult.discard hsa
        exact this
  · intro x y a b ha hb
    obtain ⟨sa, ra, hsa, hra, hroota, rfl⟩ := hback x a ha
    obtain ⟨sb, rb, hsb, hrb, hrootb, rfl⟩ := hback y b hb
    have hx : x < readMappings.length := by
      by_contra h
      rw [List.getElem?_eq_none (by rw [hinv.len]; omega)] at hsa
      simp at hsa
    have hy : y < readMappings.length := by
      by_contra h
      rw [List.getElem?_eq_none (by rw [hinv.len]; omega)] at hsb
      simp at hsb
    show (ra : Int) = (rb : Int) ↔ _
    rw [Nat.cast_inj, ← dsets.DisjointSets.sameSet_iff_of_roots hroota hrootb,
      hinv.part x y hx hy]
    constructor
    · exact Relation.EqvGen.mono (fun u v h => (hpred u v).mpr h.2)
    · apply Relation.EqvGen.mono
      intro u v h
      refine ⟨?_, (hpred u v).mp h⟩
      obtain ⟨b, hb, _⟩ := h
      by_contra hu
      rw [List.getElem?_eq_none (by rw [hll]; omega)] at hb
      simp at hb
  · intro k b hb hbs
    obtain ⟨s, r, hs, _, _, rfl⟩ := hback k b hb
    obtain ⟨j, a, h1, _, h3, h4, h5, h6⟩ := hinv.links k s hs hbs
    obtain ⟨r2, _, _, hl2⟩ := hout j a h4
    exact ⟨j, _, h1, h3, hl2,
      ⟨h5.refSeqId_eq, h5.strand_eq, h5.query_ne, h5.query_ge, h5.query_le, h5.ref_ge,
        h5.ref_le, h5.near⟩, h6⟩

end skch

namespace skch

theorem chainQueryRefLess_total (a b : MappingResult) :
    chainQueryRefLess b a = false ∨ chainQueryRefLess a b = false := by
  unfold chainQueryRefLess queryRefLess
  simp only [decide_eq_false_iff_not, decide_eq_true_eq]
  omega

theorem chainQueryRefLess_trans (a b c : MappingResult) (h1 : chainQueryRefLess b a = false)
    (h2 : chainQueryRefLess c b = false) : chainQueryRefLess c a = false := by
  unfold chainQueryRefLess queryRefLess at *
  simp only [decide_eq_false_iff_not, decide_eq_true_eq] at *
  omega

theorem sorted_stdSort_chainQueryRefLess (l : List MappingResult) :
    (stdSort chainQueryRefLess l).Pairwise (fun a b => a.splitMappingId ≤ b.splitMappingId) := by
  unfold stdSort
  haveI : IsTotal MappingResult (fun a b => chainQueryRefLess b a = false) :=
    ⟨fun a b => chainQueryRefLess_total a b⟩
  haveI : IsTrans MappingResult (fun a b => chainQueryRefLess b a = false) :=
    ⟨fun a b c h1 h2 => chainQueryRefLess_trans a b c h1 h2⟩
  have h := List.sorted_insertionSort (fun a b => chainQueryRefLess b a = false) l
  refine List.Pairwise.imp ?_ h
  intro a b hab
  unfold chainQueryRefLess at hab
  simp only [decide_eq_false_iff_not] at hab
  omega

theorem perm_stdSort {α : Type} (lt : α → α → Bool) (l : List α) : (stdSort lt l).Perm l := by
  unfold stdSort
  exact List.perm_insertionSort _ l

/-- The buckets of `chainBuckets` are the collected bucket followed by the rest of the list, cut
into pieces. -/
theorem flatten_chainBuckets : ∀ (rest cur : List MappingResult),
    (chainBuckets cur rest).flatten = cur ++ rest := by
  intro rest
  induction rest with
  | nil =>
    intro cur
    cases cur <;> simp [chainBuckets]
  | cons e rest ih =>
    intro cur
    cases cur with
    | nil => simp [chainBuckets, ih]
    | cons it bucket =>
      unfold chainBuckets
      split_ifs
      · simp [ih]
      · rw [ih]; simp

/-- On a list sorted by `splitMappingId`, the buckets have one id each, and the ids of later
buckets are larger. -/
theorem chainBuckets_sorted : ∀ (rest cur : List MappingResult),
    (cur ++ rest).Pairwise (fun a b => a.splitMappingId ≤ b.splitMappingId) →
    (∀ a ∈ cur, ∀ b ∈ cur, a.splitMappingId = b.splitMappingId) →
    (∀ B ∈ chainBuckets cur rest, ∀ a ∈ B, ∀ b ∈ B, a.splitMappingId = b.splitMappingId) ∧
    (chainBuckets cur rest).Pairwise
      (fun B1 B2 => ∀ a ∈ B1, ∀ b ∈ B2, a.splitMappingId < b.splitMappingId) := by
  intro rest
  induction rest with
  | nil =>
    intro cur _ hcur
    cases cur with
    | nil => simp [chainBuckets]
    | cons it bucket =>
      simp only [chainBuckets, List.mem_singleton, forall_eq, List.pairwise_singleton, and_true]
      exact hcur
  | cons e rest ih =>
    intro cur hs hcur
    cases cur with
    | nil =>
      simp only [chainBuckets]
      exact ih [e] (by simpa using hs) (by simp)
    | cons it bucket =>
      unfold chainBuckets
      have hle : ∀ x ∈ it :: bucket, ∀ y ∈ e :: rest, x.splitMappingId ≤ y.splitMappingId :=
        fun x hx y hy => (List.pairwise_append.mp hs).2.2 x hx y hy
      split_ifs with hne
      · have hs2 : ([e] ++ rest).Pairwise (fun a b => a.splitMappingId ≤ b.splitMappingId) :=
          (List.pairwise_append.mp hs).2.1
        obtain ⟨h1, h2⟩ := ih [e] hs2 (by simp)
        constructor
        · intro B hB
          rcases List.mem_cons.mp hB with rfl | hB
          · exact hcur
          · exact h1 B hB
        · rw [List.pairwise_cons]
          refine ⟨?_, h2⟩
          intro B hB a ha b hb
          have hb2 : b ∈ e :: rest := by
            have : b ∈ (chainBuckets [e] rest).flatten := List.mem_flatten.mpr ⟨B, hB, hb⟩
            rw [flatten_chainBuckets] at this
            simpa using this
          have h3 : a.splitMappingId = it.splitMappingId :=
            hcur a ha it (List.mem_cons_self _ _)
          have h4 := hle it (List.mem_cons_self _ _) e (List.mem_cons_self _ _)
          have h5 : e.splitMappingId ≤ b.splitMappingId := by
            rcases List.mem_cons.mp hb2 with rfl | hb3
            · exact le_refl _
            · exact List.rel_of_pairwise_cons hs2 hb3
          omega
      · have he : e.splitMappingId = it.splitMappingId := not_not.mp hne
        apply ih (it :: bucket ++ [e])
        · simpa using hs
        · intro a ha b hb
          have ha2 : a.splitMappingId = it.splitMappingId := by
            rcases List.mem_append.mp ha with h | h
            · exact hcur a h it (List.mem_cons_self _ _)
            · rw [List.mem_singleton.mp h]; exact he
          have hb2 : b.splitMappingId = it.splitMappingId := by
            rcases List.mem_append.mp hb with h | h
            · exact hcur b h it (List.mem_cons_self _ _)
            · rw [List.mem_singleton.mp h]; exact he
          rw [ha2, hb2]

end skch

namespace skch

theorem map_tag_adjustLoop (threshold : Int) (rest : List MappingResult) (prev : MappingResult) :
    (adjustLoop threshold prev rest).map MappingResult.tag =
      (prev :: rest).map MappingResult.tag := by
  induction rest generalizing prev with
  | nil => rfl
  | cons curr rest ih =>
    unfold adjustLoop
    split_ifs
    · simp [ih]
    · simp only [List.map_cons, ih]
      rfl
    · simp [ih]

theorem map_tag_adjustConsecutiveMappings (threshold : Int) (chain : List MappingResult) :
    (adjustConsecutiveMappings threshold chain).map MappingResult.tag =
      chain.map MappingResult.tag := by
  cases chain with
  | nil => rfl
  | cons prev rest => exact map_tag_adjustLoop _ rest prev

theorem map_tag_processMappingFragment (range : List MappingResult) :
    (processMappingFragment range).map MappingResult.tag = range.map MappingResult.tag := by
  cases range with
  | nil => rfl
  | cons first rest =>
    simp only [processMappingFragment, foldl_fragmentExtend, List.map_cons, List.map_map]
    congr 1

theorem flatten_map_tag_splitLoop (param : Parameters) (l : List (MappingResult × Bool))
    (fragment : List MappingResult) (acc : Int) :
    (splitLoop param l fragment acc).flatten.map MappingResult.tag =
      (fragment ++ l.map Prod.fst).map MappingResult.tag := by
  induction l generalizing fragment acc with
  | nil =>
    unfold splitLoop
    split_ifs with h
    · simp [map_tag_processMappingFragment]
    · simp at h; simp [h]
  | cons x rest ih =>
    obtain ⟨it, cut⟩ := x
    unfold splitLoop
    simp only []
    split_ifs
    · simp [ih, map_tag_processMappingFragment]
    · simp [ih]

theorem map_fst_zip_isCuttable (param : Parameters) (chain : List MappingResult) :
    ((adjustConsecutiveMappings param.segLength chain).zip (isCuttable param chain)).map
      Prod.fst = adjustConsecutiveMappings param.segLength chain := by
  apply List.map_fst_zip
  rw [length_adjustConsecutiveMappings, length_isCuttable]

theorem map_tag_chainFragments (param : Parameters) (chain : List MappingResult) :
    (chainFragments param chain).flatten.map MappingResult.tag = chain.map MappingResult.tag := by
  unfold chainFragments
  rw [flatten_map_tag_splitLoop, map_fst_zip_isCuttable, List.nil_append,
    map_tag_adjustConsecutiveMappings]

theorem map_tag_computeChainStatistics (param : Parameters) (chain : List MappingResult) :
    (computeChainStatistics param chain).map MappingResult.tag = chain.map MappingResult.tag := by
  unfold computeChainStatistics
  simp only [List.map_map]
  congr 1

/-- The chain processing keeps, mapping by mapping, the chain id, the reference sequence, the
strand and the recorded predecessor. -/
theorem map_tag_processChainWithSplits (param : Parameters) (chain : List MappingResult) :
    (processChainWithSplits param chain).map MappingResult.tag = chain.map MappingResult.tag := by
  unfold processChainWithSplits
  split_ifs with h
  · rw [h]
  · rw [map_tag_computeChainStatistics, map_tag_chainFragments]

/-- After `computeChainStatistics` all mappings of the chain carry the same statistics. -/
theorem computeChainStatistics_uniform (param : Parameters) (chain : List MappingResult) :
    ∀ a ∈ computeChainStatistics param chain, ∀ b ∈ computeChainStatistics param chain,
      a.blockLength = b.blockLength ∧ a.blockNucIdentity = b.blockNucIdentity ∧
        a.n_merged = b.n_merged := by
  intro a ha b hb
  unfold computeChainStatistics at ha hb
  obtain ⟨x, _, rfl⟩ := List.mem_map.mp ha
  obtain ⟨y, _, rfl⟩ := List.mem_map.mp hb
  exact ⟨rfl, rfl, rfl⟩

theorem processChainWithSplits_uniform (param : Parameters) (chain : List MappingResult) :
    ∀ a ∈ processChainWithSplits param chain, ∀ b ∈ processChainWithSplits param chain,
      a.blockLength = b.blockLength ∧ a.blockNucIdentity = b.blockNucIdentity ∧
        a.n_merged = b.n_merged := by
  unfold processChainWithSplits
  split_ifs with h
  · intro a ha; simp at ha
  · exact computeChainStatistics_uniform param _

/-- Every mapping of a processed chain has the tag of a mapping of the chain. -/
theorem tag_mem_of_mem_processChainWithSplits (param : Parameters) {chain : List MappingResult}
    {a : MappingResult} (ha : a ∈ processChainWithSplits param chain) :
    ∃ a0 ∈ chain, a0.tag = a.tag := by
  have h1 : a.tag ∈ (processChainWithSplits param chain).map MappingResult.tag :=
    List.mem_map_of_mem _ ha
  rw [map_tag_processChainWithSplits] at h1
  obtain ⟨a0, h2, h3⟩ := List.mem_map.mp h1
  exact ⟨a0, h2, h3⟩

end skch

namespace skch

/-- With at least two mappings `mergeMappingsInRange` returns: it labels the chains, sorts by
chain, processes every bucket and drops the discarded mappings. -/
theorem mergeMappingsInRange_eq (param : Parameters) (readMappings : List MappingResult)
    (max_dist : Int) (h2 : 2 ≤ readMappings.length) {labelled : List MappingResult}
    (hlab : labelChains param readMappings max_dist = some labelled) :
    mergeMappingsInRange param readMappings max_dist =
      some ((((chainBuckets [] (stdSort chainQueryRefLess labelled)).map
          (processChainWithSplits param)).flatten.filter (fun e => decide (e.discard ≠ 1))),
        maximallyMerged (stdSort chainQueryRefLess labelled)) := by
  unfold mergeMappingsInRange
  rw [if_neg (by omega)]
  simp only [hlab]

/-- A mapping that remains after the chain loop comes out of one bucket. -/
theorem mem_processed_buckets (param : Parameters) {sorted : List MappingResult}
    {a : MappingResult}
    (ha : a ∈ ((chainBuckets [] sorted).map (processChainWithSplits param)).flatten.filter
      (fun e => decide (e.discard ≠ 1))) :
    ∃ B ∈ chainBuckets [] sorted, a ∈ processChainWithSplits param B ∧ a.discard ≠ 1 := by
  obtain ⟨h1, h2⟩ := List.mem_filter.mp ha
  obtain ⟨P, hP, haP⟩ := List.mem_flatten.mp h1
  obtain ⟨B, hB, rfl⟩ := List.mem_map.mp hP
  exact ⟨B, hB, haP, by simpa using h2⟩

/-- Two buckets of a list sorted by `splitMappingId` that share an id are the same bucket. -/
theorem bucket_eq_of_id {sorted : List MappingResult}
    (hs : sorted.Pairwise (fun a b => a.splitMappingId ≤ b.splitMappingId))
    {B1 B2 : List MappingResult} (h1 : B1 ∈ chainBuckets [] sorted)
    (h2 : B2 ∈ chainBuckets [] sorted) {a b : MappingResult} (ha : a ∈ B1) (hb : b ∈ B2)
    (hab : a.splitMappingId = b.splitMappingId) : B1 = B2 := by
  obtain ⟨_, hpw⟩ := chainBuckets_sorted sorted [] (by simpa using hs) (by simp)
  have hpw2 : (chainBuckets [] sorted).Pairwise
      (fun B1 B2 => ∀ a ∈ B1, ∀ b ∈ B2, a.splitMappingId ≠ b.splitMappingId) := by
    refine List.Pairwise.imp ?_ hpw
    intro X Y h x hx y hy
    exact ne_of_lt (h x hx y hy)
  by_contra hne
  have hsym : Symmetric (fun B1 B2 : List MappingResult =>
      ∀ a ∈ B1, ∀ b ∈ B2, a.splitMappingId ≠ b.splitMappingId) := by
    intro X Y h x hx y hy
    exact (h y hy x hx).symm
  exact (hpw2.forall hsym h1 h2 hne) a ha b hb hab

/-- C5. After `mergeMappingsInRange` on at least 2 mappings, any two surviving mappings with
the same `splitMappingId` have identical `blockLength`, identical `blockNucIdentity` and
identical `n_merged`. -/
theorem mergeMappingsInRange_chain_statistics (param : Parameters)
    (readMappings : List MappingResult) (max_dist : Int) (h2 : 2 ≤ readMappings.length)
    (hlen : readMappings.length < 2 ^ 63) :
    ∃ out, mergeMappingsInRange param readMappings max_dist = some out ∧
      ∀ a ∈ out.1, ∀ b ∈ out.1, a.splitMappingId = b.splitMappingId →
        a.blockLength = b.blockLength ∧ a.blockNucIdentity = b.blockNucIdentity ∧
          a.n_merged = b.n_merged := by
  obtain ⟨labelled, hlab, _⟩ := labelChains_links param readMappings max_dist hlen
  refine ⟨_, mergeMappingsInRange_eq param readMappings max_dist h2 hlab, ?_⟩
  intro a ha b hb hab
  obtain ⟨B1, hB1, ha1, _⟩ := mem_processed_buckets param ha
  obtain ⟨B2, hB2, hb1, _⟩ := mem_processed_buckets param hb
  obtain ⟨a0, ha0, hta⟩ := tag_mem_of_mem_processChainWithSplits param ha1
  obtain ⟨b0, hb0, htb⟩ := tag_mem_of_mem_processChainWithSplits param hb1
  have hid : a0.splitMappingId = b0.splitMappingId := by
    have h3 : a0.splitMappingId = a.splitMappingId := congrArg Prod.fst hta
    have h4 : b0.splitMappingId = b.splitMappingId := congrArg Prod.fst htb
    rw [h3, h4, hab]
  have hB : B1 = B2 :=
    bucket_eq_of_id (sorted_stdSort_chainQueryRefLess labelled) hB1 hB2 ha0 hb0 hid
  subst hB
  exact processChainWithSplits_uniform param B1 a ha1 b hb1

end skch

namespace skch

/-- C2. For every input list of at least 2 mappings, the labelling part of
`mergeMappingsInRange` returns and afterwards two mappings carry the same `splitMappingId` if
and only if they are connected by a path of recorded predecessor links (`b.chainPairId` is the
sorted index of `a`); in particular every mapping with a recorded predecessor ends with the same
`splitMappingId` as that predecessor.  Here `labelled` is the list after the relabelling loop, in
the order of the first sort; every mapping that `mergeMappingsInRange` leaves in `readMappings`
is one of its mappings, with the same `splitMappingId` and the same recorded predecessor. -/
theorem mergeMappingsInRange_same_id_iff_linked (param : Parameters)
    (readMappings : List MappingResult) (max_dist : Int) (h2 : 2 ≤ readMappings.length)
    (hlen : readMappings.length < 2 ^ 63) :
    ∃ labelled out, labelChains param readMappings max_dist = some labelled ∧
      mergeMappingsInRange param readMappings max_dist = some out ∧
      (∀ (k : Nat) (m : MappingResult), labelled[k]? = some m →
        ∃ m0, (stdSort queryRefLess readMappings)[k]? = some m0 ∧ m.core = m0.core) ∧
      (∀ (x y : Nat) (a b : MappingResult), labelled[x]? = some a → labelled[y]? = some b →
        (a.splitMappingId = b.splitMappingId ↔
          Relation.EqvGen (HasPredecessor labelled) x y)) ∧
      (∀ (k j : Nat) (a b : MappingResult), labelled[k]? = some b → labelled[j]? = some a →
        HasPredecessor labelled k j → b.splitMappingId = a.splitMappingId) ∧
      (∀ m ∈ out.1, ∃ m0 ∈ labelled, m0.tag = m.tag) := by
  obtain ⟨labelled, hlab, _, hcore, hiff, _⟩ :=
    labelChains_links param readMappings max_dist hlen
  refine ⟨labelled, _, hlab, mergeMappingsInRange_eq param readMappings max_dist h2 hlab, ?_,
    hiff, ?_, ?_⟩
  · intro k m hm
    obtain ⟨m0, h1, h2, _⟩ := hcore k m hm
    exact ⟨m0, h1, h2⟩
  · intro k j a b hb ha hkj
    exact (hiff k j b a hb ha).mpr (Relation.EqvGen.rel _ _ hkj)
  · intro m hm
    obtain ⟨B, hB, hmB, _⟩ := mem_processed_buckets param hm
    obtain ⟨m0, hm0, ht⟩ := tag_mem_of_mem_processChainWithSplits param hmB
    refine ⟨m0, ?_, ht⟩
    have h3 : m0 ∈ (chainBuckets [] (stdSort chainQueryRefLess labelled)).flatten :=
      List.mem_flatten.mpr ⟨B, hB, hm0⟩
    rw [flatten_chainBuckets, List.nil_append] at h3
    exact (perm_stdSort chainQueryRefLess labelled).mem_iff.mp h3

end skch

namespace skch

/-- Mappings connected by recorded predecessor links lie on one reference sequence and one
strand. -/
theorem eqvGen_hasPredecessor_ref_strand {param : Parameters} {max_dist : Int}
    {labelled : List MappingResult}
    (hlinks : ∀ (k : Nat) (b : MappingResult), labelled[k]? = some b →
      b.chainPairScore ≠ Score.dblMax →
      ∃ (j : Nat) (a : MappingResult), j < k ∧ b.chainPairId = (j : Int) ∧
        labelled[j]? = some a ∧ Chained param max_dist a b ∧ b.chainPairScore = dist a b)
    {x y : Nat} (h : Relation.EqvGen (HasPredecessor labelled) x y) :
    (labelled[x]?).map (fun m => (m.refSeqId, m.strand)) =
      (labelled[y]?).map (fun m => (m.refSeqId, m.strand)) := by
  induction h with
  | rel u v huv =>
    obtain ⟨b, hb, hs, hcp⟩ := huv
    obtain ⟨j, a, _, hcp2, ha, hch, _⟩ := hlinks u b hb hs
    have hj : v = j := by
      have : (v : Int) = (j : Int) := hcp.symm.trans hcp2
      exact_mod_cast this
    subst hj
    rw [hb, ha]
    simp [hch.refSeqId_eq, hch.strand_eq]
  | refl u => rfl
  | symm u v _ ih => exact ih.symm
  | trans u v w _ _ ih1 ih2 => exact ih1.trans ih2

theorem tag_splitMappingId {a b : MappingResult} (h : a.tag = b.tag) :
    a.splitMappingId = b.splitMappingId :=
  congrArg Prod.fst h

theorem tag_refSeqId {a b : MappingResult} (h : a.tag = b.tag) : a.refSeqId = b.refSeqId :=
  congrArg (fun t => t.2.1) h

theorem tag_strand {a b : MappingResult} (h : a.tag = b.tag) : a.strand = b.strand :=
  congrArg (fun t => t.2.2.1) h

/-- Every maximally merged mapping is built from one bucket and carries the chain id, the
reference sequence and the strand of the first mapping of that bucket. -/
theorem mem_maximallyMerged {sorted : List MappingResult} {m : MappingResult}
    (hm : m ∈ maximallyMerged sorted) :
    ∃ B ∈ chainBuckets [] sorted, ∃ it ∈ B, ∃ last ∈ B, m = mergedMapping it last B := by
  unfold maximallyMerged at hm
  obtain ⟨B, hB, h⟩ := List.mem_filterMap.mp hm
  cases h1 : B.head? with
  | none => rw [h1] at h; simp at h
  | some it =>
    cases h2 : B.getLast? with
    | none => rw [h1, h2] at h; simp at h
    | some last =>
      rw [h1, h2] at h
      simp only [Option.some.injEq] at h
      exact ⟨B, hB, it, List.mem_of_mem_head? h1, last, List.mem_of_mem_getLast? h2, h.symm⟩

/-- C6. After `mergeMappingsInRange`, any two mappings that carry the same `splitMappingId`
have the same `refSeqId` and the same `strand`, in `readMappings` and in the returned vector of
maximally merged mappings. -/
theorem mergeMappingsInRange_chain_ref_strand (param : Parameters)
    (readMappings : List MappingResult) (max_dist : Int)
    (hlen : readMappings.length < 2 ^ 63) :
    ∃ out, mergeMappingsInRange param readMappings max_dist = some out ∧
      (∀ a ∈ out.1, ∀ b ∈ out.1, a.splitMappingId = b.splitMappingId →
        a.refSeqId = b.refSeqId ∧ a.strand = b.strand) ∧
      (∀ a ∈ out.2, ∀ b ∈ out.2, a.splitMappingId = b.splitMappingId →
        a.refSeqId = b.refSeqId ∧ a.strand = b.strand) := by
  by_cases h2 : 2 ≤ readMappings.length
  swap
  · refine ⟨(readMappings, readMappings), ?_, ?_⟩
    · unfold mergeMappingsInRange
      rw [if_pos (by omega)]
    · have hone : ∀ a ∈ readMappings, ∀ b ∈ readMappings, a = b := by
        intro a ha b hb
        match readMappings, h2, ha, hb with
        | [x], _, ha, hb =>
          rw [List.mem_singleton.mp ha, List.mem_singleton.mp hb]
        | _ :: _ :: _, h2, _, _ => simp at h2
      exact ⟨fun a ha b hb _ => by rw [hone a ha b hb]; exact ⟨rfl, rfl⟩,
        fun a ha b hb _ => by rw [hone a ha b hb]; exact ⟨rfl, rfl⟩⟩
  obtain ⟨labelled, hlab, _, _, hiff, hlinks⟩ :=
    labelChains_links param readMappings max_dist hlen
  refine ⟨_, mergeMappingsInRange_eq param readMappings max_dist h2 hlab, ?_, ?_⟩
  swap
  · intro a ha b hb hab
    obtain ⟨B1, hB1, it1, hit1, last1, _, rfl⟩ := mem_maximallyMerged ha
    obtain ⟨B2, hB2, it2, hit2, last2, _, rfl⟩ := mem_maximallyMerged hb
    have hB : B1 = B2 :=
      bucket_eq_of_id (sorted_stdSort_chainQueryRefLess labelled) hB1 hB2 hit1 hit2 hab
    subst hB
    obtain ⟨huni, _⟩ := chainBuckets_sorted (stdSort chainQueryRefLess labelled) []
      (by simpa using sorted_stdSort_chainQueryRefLess labelled) (by simp)
    have hid := huni B1 hB1 it1 hit1 it2 hit2
    have hx := (flatten_chainBuckets (stdSort chainQueryRefLess labelled) []) ▸
      (List.mem_flatten.mpr ⟨B1, hB1, hit1⟩)
    have hy := (flatten_chainBuckets (stdSort chainQueryRefLess labelled) []) ▸
      (List.mem_flatten.mpr ⟨B1, hB1, hit2⟩)
    rw [List.nil_append] at hx hy
    obtain ⟨x, hx2⟩ := List.getElem?_of_mem
      ((perm_stdSort chainQueryRefLess labelled).mem_iff.mp hx)
    obtain ⟨y, hy2⟩ := List.getElem?_of_mem
      ((perm_stdSort chainQueryRefLess labelled).mem_iff.mp hy)
    have hrs := eqvGen_hasPredecessor_ref_strand hlinks ((hiff x y it1 it2 hx2 hy2).mp hid)
    rw [hx2, hy2] at hrs
    simp only [Option.map_some', Option.some.injEq, Prod.mk.injEq] at hrs
    exact hrs
  have hback : ∀ m ∈ ((chainBuckets [] (stdSort chainQueryRefLess labelled)).map
      (processChainWithSplits param)).flatten.filter (fun e => decide (e.discard ≠ 1)),
      ∃ (x : Nat) (m0 : MappingResult), labelled[x]? = some m0 ∧ m0.tag = m.tag := by
    intro m hm
    obtain ⟨B, hB, hmB, _⟩ := mem_processed_buckets param hm
    obtain ⟨m0, hm0, ht⟩ := tag_mem_of_mem_processChainWithSplits param hmB
    have h3 : m0 ∈ (chainBuckets [] (stdSort chainQueryRefLess labelled)).flatten :=
      List.mem_flatten.mpr ⟨B, hB, hm0⟩
    rw [flatten_chainBuckets, List.nil_append] at h3
    obtain ⟨x, hx⟩ := List.getElem?_of_mem
      ((perm_stdSort chainQueryRefLess labelled).mem_iff.mp h3)
    exact ⟨x, m0, hx, ht⟩
  intro a ha b hb hab
  obtain ⟨x, a0, hx, hta⟩ := hback a ha
  obtain ⟨y, b0, hy, htb⟩ := hback b hb
  have hid : a0.splitMappingId = b0.splitMappingId := by
    rw [tag_splitMappingId hta, tag_splitMappingId htb, hab]
  have hrs := eqvGen_hasPredecessor_ref_strand hlinks ((hiff x y a0 b0 hx hy).mp hid)
  rw [hx, hy] at hrs
  simp only [Option.map_some', Option.some.injEq, Prod.mk.injEq] at hrs
  rw [← tag_refSeqId hta, ← tag_refSeqId htb, ← tag_strand hta, ← tag_strand htb]
  exact hrs

end skch

namespace skch

theorem tdiv_two_mid {a b : Int} (h : a < b) : a ≤ (a + b).tdiv 2 ∧ (a + b).tdiv 2 ≤ b := by
  by_cases hs : 0 ≤ a + b
  · rw [Int.tdiv_eq_ediv hs (by norm_num)]
    omega
  · have h1 : (a + b).tdiv 2 = -((-(a + b)).tdiv 2) := by
      rw [Int.neg_tdiv, neg_neg]
    rw [h1, Int.tdiv_eq_ediv (by omega) (by norm_num)]
    omega

theorem adjustedPrev_fields (prev curr : MappingResult) :
    (adjustedPrev prev curr).queryStartPos = prev.queryStartPos ∧
    (adjustedPrev prev curr).queryEndPos =
      toInt ((prev.queryEndPos + curr.queryStartPos).tdiv 2) ∧
    (adjustedPrev prev curr).refStartPos = prev.refStartPos ∧
    (adjustedPrev prev curr).refEndPos = toInt ((prev.refEndPos + curr.refStartPos).tdiv 2) ∧
    (adjustedPrev prev curr).discard = prev.discard :=
  ⟨rfl, rfl, rfl, rfl, rfl⟩

theorem adjustedCurr_fields (prev curr : MappingResult) :
    (adjustedCurr prev curr).queryStartPos =
      toInt ((prev.queryEndPos + curr.queryStartPos).tdiv 2) ∧
    (adjustedCurr prev curr).queryEndPos = curr.queryEndPos ∧
    (adjustedCurr prev curr).refStartPos = toInt ((prev.refEndPos + curr.refStartPos).tdiv 2) ∧
    (adjustedCurr prev curr).refEndPos = curr.refEndPos ∧
    (adjustedCurr prev curr).discard = curr.discard :=
  ⟨rfl, rfl, rfl, rfl, rfl⟩

/-- The midpoint adjustment keeps the `discard` flags, the start of the first mapping and the
end of the last one. -/
theorem adjustLoop_ends (threshold : Int) (rest : List MappingResult) :
    ∀ prev : MappingResult, prev.discard = 0 → (∀ m ∈ rest, m.discard = 0) →
      (∀ m ∈ adjustLoop threshold prev rest, m.discard = 0) ∧
      (∃ x ∈ adjustLoop threshold prev rest,
        x.queryStartPos = prev.queryStartPos ∧ x.refStartPos = prev.refStartPos) ∧
      (∃ y ∈ adjustLoop threshold prev rest, ∃ c ∈ prev :: rest,
        y.queryEndPos = c.queryEndPos ∧ y.refEndPos = c.refEndPos) := by
  induction rest with
  | nil =>
    intro prev hp _
    simp only [adjustLoop, List.mem_singleton]
    exact ⟨fun m hm => by rw [hm]; exact hp, ⟨prev, rfl, rfl, rfl⟩,
      ⟨prev, rfl, prev, rfl, rfl, rfl⟩⟩
  | cons curr rest ih =>
    intro prev hp hr
    have hc := hr curr (List.mem_cons_self _ _)
    have hrest : ∀ m ∈ rest, m.discard = 0 := fun m hm => hr m (List.mem_cons_of_mem _ hm)
    have keep : ∀ (p c : MappingResult), p.discard = 0 → c.discard = 0 →
        p.queryStartPos = prev.queryStartPos → p.refStartPos = prev.refStartPos →
        c.queryEndPos = curr.queryEndPos → c.refEndPos = curr.refEndPos →
        (∀ m ∈ p :: adjustLoop threshold c rest, m.discard = 0) ∧
        (∃ x ∈ p :: adjustLoop threshold c rest,
          x.queryStartPos = prev.queryStartPos ∧ x.refStartPos = prev.refStartPos) ∧
        (∃ y ∈ p :: adjustLoop threshold c rest, ∃ c2 ∈ prev :: curr :: rest,
          y.queryEndPos = c2.queryEndPos ∧ y.refEndPos = c2.refEndPos) := by
      intro p c hpd hcd e1 e2 e3 e4
      obtain ⟨i1, _, ⟨y, hy, c2, hc2, e5, e6⟩⟩ := ih c hcd hrest
      refine ⟨?_, ⟨p, List.mem_cons_self _ _, e1, e2⟩, ?_⟩
      · intro m hm
        rcases List.mem_cons.mp hm with rfl | hm
        · exact hpd
        · exact i1 m hm
      · rcases List.mem_cons.mp hc2 with rfl | hc2
        · exact ⟨y, List.mem_cons_of_mem _ hy, curr,
            List.mem_cons_of_mem _ (List.mem_cons_self _ _), e5.trans e3, e6.trans e4⟩
        · exact ⟨y, List.mem_cons_of_mem _ hy, c2,
            List.mem_cons_of_mem _ (List.mem_cons_of_mem _ hc2), e5, e6⟩
    unfold adjustLoop
    split_ifs
    · exact keep prev curr hp hc rfl rfl rfl rfl
    · exact keep (adjustedPrev prev curr) (adjustedCurr prev curr) hp hc rfl rfl rfl rfl
    · exact keep prev curr hp hc rfl rfl rfl rfl

theorem adjustConsecutiveMappings_ends (threshold : Int) (first : MappingResult)
    (rest : List MappingResult) (h : ∀ m ∈ first :: rest, m.discard = 0) :
    (∀ m ∈ adjustConsecutiveMappings threshold (first :: rest), m.discard = 0) ∧
    (∃ x ∈ adjustConsecutiveMappings threshold (first :: rest),
      x.queryStartPos = first.queryStartPos ∧ x.refStartPos = first.refStartPos) ∧
    (∃ y ∈ adjustConsecutiveMappings threshold (first :: rest), ∃ c ∈ first :: rest,
      y.queryEndPos = c.queryEndPos ∧ y.refEndPos = c.refEndPos) :=
  adjustLoop_ends _ rest first (h first (List.mem_cons_self _ _))
    (fun m hm => h m (List.mem_cons_of_mem _ hm))

/-- After `processMappingFragment` the first mapping of the range covers every mapping of the
range, as it was and as it is left. -/
theorem processMappingFragment_covers (first : MappingResult) (rest : List MappingResult)
    (h : ∀ m ∈ first :: rest, m.discard = 0) :
    ∃ fragment others, processMappingFragment (first :: rest) = fragment :: others ∧
      (∀ x ∈ fragment :: others, Covers fragment x) ∧
      (∀ x ∈ others, x.discard = 1) ∧
      (∀ m ∈ first :: rest, fragment.queryStartPos ≤ m.queryStartPos ∧
        m.queryEndPos ≤ fragment.queryEndPos ∧ fragment.refStartPos ≤ m.refStartPos ∧
        m.refEndPos ≤ fragment.refEndPos) := by
  obtain ⟨fragment, heq, g1, g2, g3, g4, h7⟩ := processMappingFragment_head first rest
  have h1 : IsMinOf fragment.queryStartPos ((first :: rest).map (fun m => m.queryStartPos)) := by
    rw [g1]; exact isMinOf_foldl (fun m => m.queryStartPos) first rest
  have h2 : IsMinOf fragment.refStartPos ((first :: rest).map (fun m => m.refStartPos)) := by
    rw [g2]; exact isMinOf_foldl (fun m => m.refStartPos) first rest
  have h3 : IsMaxOf fragment.queryEndPos ((first :: rest).map (fun m => m.queryEndPos)) := by
    rw [g3]; exact isMaxOf_foldl (fun m => m.queryEndPos) first rest
  have h4 : IsMaxOf fragment.refEndPos ((first :: rest).map (fun m => m.refEndPos)) := by
    rw [g4]; exact isMaxOf_foldl (fun m => m.refEndPos) first rest
  generalize hoth0 : rest.map (fun e => { e with discard := 1 }) = others at heq
  have h5 : others = rest.map (fun e => { e with discard := 1 }) := hoth0.symm
  have h6 : ∀ e ∈ others, e.discard = 1 := by
    intro e he
    rw [h5] at he
    obtain ⟨m, _, rfl⟩ := List.mem_map.mp he
    rfl
  have hf := h first (List.mem_cons_self _ _)
  have hoth : ∀ x ∈ others, ∃ m ∈ rest, x.queryStartPos = m.queryStartPos ∧
      x.queryEndPos = m.queryEndPos ∧ x.refStartPos = m.refStartPos ∧
      x.refEndPos = m.refEndPos := by
    intro x hx
    rw [h5] at hx
    obtain ⟨m, hm, rfl⟩ := List.mem_map.mp hx
    exact ⟨m, hm, rfl, rfl, rfl, rfl⟩
  have hself : Covers fragment fragment :=
    ⟨by rw [h7]; exact hf, le_refl _, le_refl _, le_refl _, le_refl _⟩
  have hall : ∀ m ∈ first :: rest, fragment.queryStartPos ≤ m.queryStartPos ∧
      m.queryEndPos ≤ fragment.queryEndPos ∧ fragment.refStartPos ≤ m.refStartPos ∧
      m.refEndPos ≤ fragment.refEndPos := by
    intro m hm2
    exact ⟨h1.2 _ (List.mem_map_of_mem (fun m => m.queryStartPos) hm2),
      h3.2 _ (List.mem_map_of_mem (fun m => m.queryEndPos) hm2),
      h2.2 _ (List.mem_map_of_mem (fun m => m.refStartPos) hm2),
      h4.2 _ (List.mem_map_of_mem (fun m => m.refEndPos) hm2)⟩
  refine ⟨fragment, others, heq, ?_, h6, hall⟩
  intro x hx
  rcases List.mem_cons.mp hx with rfl | hx
  · exact hself
  · obtain ⟨m, hm, e1, e2, e3, e4⟩ := hoth x hx
    obtain ⟨a1, a2, a3, a4⟩ := hall m (List.mem_cons_of_mem _ hm)
    refine ⟨hself.1, ?_, ?_, ?_, ?_⟩
    · rw [e1]; exact a1
    · rw [e2]; exact a2
    · rw [e3]; exact a3
    · rw [e4]; exact a4

end skch

namespace skch

/-- In the fragments of the split loop every mapping is covered by a mapping that is not
discarded, and every mapping given to the loop lies within a mapping of the fragments. -/
theorem splitLoop_covers (param : Parameters) :
    ∀ (l : List (MappingResult × Bool)) (fragment : List MappingResult) (acc : Int),
      (∀ m ∈ fragment, m.discard = 0) →
      (∀ p ∈ l, p.1.discard = 0) →
      (∀ x ∈ (splitLoop param l fragment acc).flatten,
        ∃ h ∈ (splitLoop param l fragment acc).flatten, Covers h x) ∧
      (∀ m, m ∈ fragment ∨ m ∈ l.map Prod.fst →
        ∃ x ∈ (splitLoop param l fragment acc).flatten,
          x.queryStartPos ≤ m.queryStartPos ∧ m.queryEndPos ≤ x.queryEndPos ∧
          x.refStartPos ≤ m.refStartPos ∧ m.refEndPos ≤ x.refEndPos) := by
  have hfrag : ∀ (g : List MappingResult), g ≠ [] →
      (∀ m ∈ g, m.discard = 0) →
      (∀ x ∈ processMappingFragment g, ∃ h ∈ processMappingFragment g, Covers h x) ∧
      (∀ m ∈ g, ∃ x ∈ processMappingFragment g,
        x.queryStartPos ≤ m.queryStartPos ∧ m.queryEndPos ≤ x.queryEndPos ∧
        x.refStartPos ≤ m.refStartPos ∧ m.refEndPos ≤ x.refEndPos) := by
    intro g hg hgood
    cases g with
    | nil => exact absurd rfl hg
    | cons first rest =>
      obtain ⟨fragment, others, heq, h2, _, h4⟩ :=
        processMappingFragment_covers first rest hgood
      rw [heq]
      exact ⟨fun x hx => ⟨fragment, List.mem_cons_self _ _, h2 x hx⟩,
        fun m hm => ⟨fragment, List.mem_cons_self _ _, h4 m hm⟩⟩
  intro l
  induction l with
  | nil =>
    intro fragment acc hf _
    unfold splitLoop
    by_cases h : fragment ≠ []
    · rw [if_pos h]
      simp only [List.flatten_cons, List.flatten_nil, List.append_nil]
      obtain ⟨c1, c2⟩ := hfrag fragment h hf
      refine ⟨c1, ?_⟩
      intro m hm
      rcases hm with hm | hm
      · exact c2 m hm
      · simp at hm
    · rw [if_neg h]
      have hnil : fragment = [] := not_not.mp h
      subst hnil
      refine ⟨fun x hx => by simp at hx, ?_⟩
      intro m hm
      rcases hm with hm | hm <;> simp at hm
  | cons p rest ih =>
    intro fragment acc hf hl
    obtain ⟨it, cut⟩ := p
    have hit := hl (it, cut) (List.mem_cons_self _ _)
    have hrest : ∀ p ∈ rest, p.1.discard = 0 :=
      fun p hp => hl p (List.mem_cons_of_mem _ hp)
    have hfi : ∀ m ∈ fragment ++ [it], m.discard = 0 := by
      intro m hm
      rcases List.mem_append.mp hm with h | h
      · exact hf m h
      · rw [List.mem_singleton.mp h]; exact hit
    unfold splitLoop
    simp only []
    split_ifs with hc
    · obtain ⟨c1, c2⟩ := hfrag (fragment ++ [it]) (by simp) hfi
      obtain ⟨i1, i2⟩ := ih [] 0 (by simp) hrest
      simp only [List.flatten_cons, List.mem_append]
      constructor
      · intro x hx
        rcases hx with hx | hx
        · obtain ⟨h, hh, hcov⟩ := c1 x hx
          exact ⟨h, Or.inl hh, hcov⟩
        · obtain ⟨h, hh, hcov⟩ := i1 x hx
          exact ⟨h, Or.inr hh, hcov⟩
      · intro m hm
        have hm2 : m ∈ fragment ++ [it] ∨ m ∈ rest.map Prod.fst := by
          rcases hm with hm | hm
          · exact Or.inl (List.mem_append_left _ hm)
          · rcases List.mem_cons.mp hm with rfl | hm
            · exact Or.inl (List.mem_append_right _ (List.mem_singleton_self _))
            · exact Or.inr hm
        rcases hm2 with hm2 | hm2
        · obtain ⟨x, hx, hb⟩ := c2 m hm2
          exact ⟨x, Or.inl hx, hb⟩
        · obtain ⟨x, hx, hb⟩ := i2 m (Or.inr hm2)
          exact ⟨x, Or.inr hx, hb⟩
    · obtain ⟨i1, i2⟩ := ih (fragment ++ [it])
        (acc + (it.queryEndPos - it.queryStartPos)) hfi hrest
      refine ⟨i1, ?_⟩
      intro m hm
      apply i2
      rcases hm with hm | hm
      · exact Or.inl (List.mem_append_left _ hm)
      · rcases List.mem_cons.mp hm with rfl | hm
        · exact Or.inl (List.mem_append_right _ (List.mem_singleton_self _))
        · exact Or.inr hm

/-- The block length `computeChainStatistics` writes is the larger of the two extents of the
chain, and both extents are reached by mappings that are not discarded. -/
theorem computeChainStatistics_extents (param : Parameters) (X : List MappingResult)
    (hqs : ∃ x ∈ X, x.queryStartPos ≤ param.offset_max)
    (hqe : ∃ x ∈ X, param.offset_min ≤ x.queryEndPos)
    (hrs : ∃ x ∈ X, x.refStartPos ≤ param.offset_max)
    (hre : ∃ x ∈ X, param.offset_min ≤ x.refEndPos)
    (hc : ∀ x ∈ X, ∃ h ∈ X, Covers h x) :
    ∃ qs qe rs re : Int,
      (∀ y ∈ computeChainStatistics param X, y.blockLength = max (qe - qs) (re - rs)) ∧
      (∀ y ∈ computeChainStatistics param X, qs ≤ y.queryStartPos ∧ y.queryEndPos ≤ qe ∧
        rs ≤ y.refStartPos ∧ y.refEndPos ≤ re) ∧
      (∃ y ∈ computeChainStatistics param X, y.discard = 0 ∧ y.queryStartPos = qs) ∧
      (∃ y ∈ computeChainStatistics param X, y.discard = 0 ∧ y.queryEndPos = qe) ∧
      (∃ y ∈ computeChainStatistics param X, y.discard = 0 ∧ y.refStartPos = rs) ∧
      (∃ y ∈ computeChainStatistics param X, y.discard = 0 ∧ y.refEndPos = re) := by
  obtain ⟨a1, a2, a3⟩ := foldl_min_spec (fun m : MappingResult => m.queryStartPos) X
    param.offset_max
  obtain ⟨b1, b2, b3⟩ := foldl_max_spec (fun m : MappingResult => m.queryEndPos) X
    param.offset_min
  obtain ⟨c1, c2, c3⟩ := foldl_min_spec (fun m : MappingResult => m.refStartPos) X
    param.offset_max
  obtain ⟨d1, d2, d3⟩ := foldl_max_spec (fun m : MappingResult => m.refEndPos) X
    param.offset_min
  -- each fold is reached in `X`
  have a4 : ∃ x ∈ X, X.foldl (fun acc m => min acc m.queryStartPos) param.offset_max =
      x.queryStartPos := by
    rcases a3 with h | h
    · obtain ⟨x0, hx0, hr0⟩ := hqs
      exact ⟨x0, hx0, by have := a2 x0 hx0; simp only [] at this; omega⟩
    · exact h
  have b4 : ∃ x ∈ X, X.foldl (fun acc m => max acc m.queryEndPos) param.offset_min =
      x.queryEndPos := by
    rcases b3 with h | h
    · obtain ⟨x0, hx0, hr0⟩ := hqe
      exact ⟨x0, hx0, by have := b2 x0 hx0; simp only [] at this; omega⟩
    · exact h
  have c4 : ∃ x ∈ X, X.foldl (fun acc m => min acc m.refStartPos) param.offset_max =
      x.refStartPos := by
    rcases c3 with h | h
    · obtain ⟨x0, hx0, hr0⟩ := hrs
      exact ⟨x0, hx0, by have := c2 x0 hx0; simp only [] at this; omega⟩
    · exact h
  have d4 : ∃ x ∈ X, X.foldl (fun acc m => max acc m.refEndPos) param.offset_min =
      x.refEndPos := by
    rcases d3 with h | h
    · obtain ⟨x0, hx0, hr0⟩ := hre
      exact ⟨x0, hx0, by have := d2 x0 hx0; simp only [] at this; omega⟩
    · exact h
  have hmemY : ∀ x ∈ X, ∃ y ∈ computeChainStatistics param X,
      y.discard = x.discard ∧ y.queryStartPos = x.queryStartPos ∧
      y.queryEndPos = x.queryEndPos ∧ y.refStartPos = x.refStartPos ∧
      y.refEndPos = x.refEndPos := by
    intro x hx
    exact ⟨_, List.mem_map_of_mem _ hx, rfl, rfl, rfl, rfl, rfl⟩
  refine ⟨X.foldl (fun acc m => min acc m.queryStartPos) param.offset_max,
    X.foldl (fun acc m => max acc m.queryEndPos) param.offset_min,
    X.foldl (fun acc m => min acc m.refStartPos) param.offset_max,
    X.foldl (fun acc m => max acc m.refEndPos) param.offset_min, ?_, ?_, ?_, ?_, ?_, ?_⟩
  · intro y hy
    unfold computeChainStatistics at hy
    obtain ⟨x, _, rfl⟩ := List.mem_map.mp hy
    rfl
  · intro y hy
    unfold computeChainStatistics at hy
    obtain ⟨x, hx, rfl⟩ := List.mem_map.mp hy
    exact ⟨a2 x hx, b2 x hx, c2 x hx, d2 x hx⟩
  · obtain ⟨x, hx, e⟩ := a4
    obtain ⟨h, hh, hd, h1, _, _, _⟩ := hc x hx
    obtain ⟨y, hy, e0, e1, _, _, _⟩ := hmemY h hh
    have := a2 h hh
    simp only [] at this
    exact ⟨y, hy, by rw [e0]; exact hd, by omega⟩
  · obtain ⟨x, hx, e⟩ := b4
    obtain ⟨h, hh, hd, _, h2, _, _⟩ := hc x hx
    obtain ⟨y, hy, e0, _, e2, _, _⟩ := hmemY h hh
    have := b2 h hh
    simp only [] at this
    exact ⟨y, hy, by rw [e0]; exact hd, by omega⟩
  · obtain ⟨x, hx, e⟩ := c4
    obtain ⟨h, hh, hd, _, _, h3, _⟩ := hc x hx
    obtain ⟨y, hy, e0, _, _, e3, _⟩ := hmemY h hh
    have := c2 h hh
    simp only [] at this
    exact ⟨y, hy, by rw [e0]; exact hd, by omega⟩
  · obtain ⟨x, hx, e⟩ := d4
    obtain ⟨h, hh, hd, _, _, _, h4⟩ := hc x hx
    obtain ⟨y, hy, e0, _, _, _, e4⟩ := hmemY h hh
    have := d2 h hh
    simp only [] at this
    exact ⟨y, hy, by rw [e0]; exact hd, by omega⟩

/-- The statistics of a processed chain: the common block length is the larger extent of the
chain, each extent taken over the mappings of the chain that are not discarded. -/
theorem processChainWithSplits_extents (param : Parameters) (chain : List MappingResult)
    (hne : chain ≠ []) (hgood : ∀ m ∈ chain, m.InRange param ∧ m.discard = 0) :
    ∃ qs qe rs re : Int,
      (∀ y ∈ processChainWithSplits param chain, y.blockLength = max (qe - qs) (re - rs)) ∧
      (∀ y ∈ processChainWithSplits param chain, qs ≤ y.queryStartPos ∧ y.queryEndPos ≤ qe ∧
        rs ≤ y.refStartPos ∧ y.refEndPos ≤ re) ∧
      (∃ y ∈ processChainWithSplits param chain, y.discard = 0 ∧ y.queryStartPos = qs) ∧
      (∃ y ∈ processChainWithSplits param chain, y.discard = 0 ∧ y.queryEndPos = qe) ∧
      (∃ y ∈ processChainWithSplits param chain, y.discard = 0 ∧ y.refStartPos = rs) ∧
      (∃ y ∈ processChainWithSplits param chain, y.discard = 0 ∧ y.refEndPos = re) := by
  cases chain with
  | nil => exact absurd rfl hne
  | cons first rest =>
    obtain ⟨hA, ⟨x0, hx0, s1, s2⟩, ⟨y0, hy0, c, hcm, e1, e2⟩⟩ :=
      adjustConsecutiveMappings_ends param.segLength first rest (fun m hm => (hgood m hm).2)
    have hl : ∀ p ∈ (adjustConsecutiveMappings param.segLength (first :: rest)).zip
        (isCuttable param (first :: rest)), p.1.discard = 0 := by
      intro p hp
      obtain ⟨a, b⟩ := p
      exact hA a (List.of_mem_zip hp).1
    obtain ⟨hcov, hbnd⟩ := splitLoop_covers param _ [] 0 (by simp) hl
    rw [map_fst_zip_isCuttable] at hbnd
    have hf := (hgood first (List.mem_cons_self _ _)).1
    have hcr := (hgood c hcm).1
    unfold MappingResult.InRange at hf hcr
    obtain ⟨xs, hxs, b1, _, b3, _⟩ := hbnd x0 (Or.inr hx0)
    obtain ⟨xe, hxe, _, b2, _, b4⟩ := hbnd y0 (Or.inr hy0)
    have := computeChainStatistics_extents param (chainFragments param (first :: rest)).flatten
      ⟨xs, hxs, by omega⟩ ⟨xe, hxe, by omega⟩ ⟨xs, hxs, by omega⟩ ⟨xe, hxe, by omega⟩ hcov
    unfold processChainWithSplits
    rw [if_neg hne]
    exact this

end skch

namespace skch

theorem inRange_of_core {param : Parameters} {a b : MappingResult} (h : a.core = b.core)
    (hb : b.InRange param) : a.InRange param := by
  have h1 : b.core.InRange param := hb
  rw [← h] at h1
  exact h1

/-- The mappings that share the chain id of a mapping `m` of a processed bucket are the
mappings of that bucket. -/
theorem mem_bucket_of_id (param : Parameters) {sorted : List MappingResult}
    (hs : sorted.Pairwise (fun a b => a.splitMappingId ≤ b.splitMappingId))
    {B : List MappingResult} (hB : B ∈ chainBuckets [] sorted) {m : MappingResult}
    (hm : m ∈ processChainWithSplits param B) :
    (∀ y ∈ processChainWithSplits param B, y.splitMappingId = m.splitMappingId) ∧
    (∀ x ∈ ((chainBuckets [] sorted).map (processChainWithSplits param)).flatten.filter
        (fun e => decide (e.discard ≠ 1)),
      x.splitMappingId = m.splitMappingId → x ∈ processChainWithSplits param B) := by
  obtain ⟨huni, _⟩ := chainBuckets_sorted sorted [] (by simpa using hs) (by simp)
  obtain ⟨m0, hm0, htm⟩ := tag_mem_of_mem_processChainWithSplits param hm
  constructor
  · intro y hy
    obtain ⟨y0, hy0, hty⟩ := tag_mem_of_mem_processChainWithSplits param hy
    rw [← tag_splitMappingId hty, ← tag_splitMappingId htm]
    exact huni B hB y0 hy0 m0 hm0
  · intro x hx hid
    obtain ⟨B2, hB2, hx2, _⟩ := mem_processed_buckets param hx
    obtain ⟨x0, hx0, htx⟩ := tag_mem_of_mem_processChainWithSplits param hx2
    have : B2 = B := bucket_eq_of_id hs hB2 hB hx0 hm0
      (by rw [tag_splitMappingId htx, tag_splitMappingId htm, hid])
    rw [← this]
    exact hx2

/-- C4, as the code has it. Every mapping that remains in `readMappings` after
`mergeMappingsInRange` carries the block length of its whole chain:
`blockLength == max(refEnd - refStart, queryEnd - queryStart)` where `refStart`, `queryStart`
are the smallest start and `refEnd`, `queryEnd` the largest end over the remaining mappings
with its `splitMappingId`; this is its own extent when it is the only remaining mapping of its
chain. -/
theorem mergeMappingsInRange_blockLength (param : Parameters)
    (readMappings : List MappingResult) (max_dist : Int) (h2 : 2 ≤ readMappings.length)
    (hlen : readMappings.length < 2 ^ 63) (hlim : ∀ m ∈ readMappings, m.InRange param) :
    ∃ out, mergeMappingsInRange param readMappings max_dist = some out ∧
      ∀ m ∈ out.1, ∃ qs qe rs re : Int,
        IsMinOf qs ((out.1.filter (fun e => decide (e.splitMappingId = m.splitMappingId))).map
          (fun e => e.queryStartPos)) ∧
        IsMaxOf qe ((out.1.filter (fun e => decide (e.splitMappingId = m.splitMappingId))).map
          (fun e => e.queryEndPos)) ∧
        IsMinOf rs ((out.1.filter (fun e => decide (e.splitMappingId = m.splitMappingId))).map
          (fun e => e.refStartPos)) ∧
        IsMaxOf re ((out.1.filter (fun e => decide (e.splitMappingId = m.splitMappingId))).map
          (fun e => e.refEndPos)) ∧
        m.blockLength = max (re - rs) (qe - qs) ∧
        (out.1.filter (fun e => decide (e.splitMappingId = m.splitMappingId)) = [m] →
          m.blockLength =
            max (m.refEndPos - m.refStartPos) (m.queryEndPos - m.queryStartPos)) := by
  obtain ⟨labelled, hlab, _, hcore, _, _⟩ :=
    labelChains_links param readMappings max_dist hlen
  refine ⟨_, mergeMappingsInRange_eq param readMappings max_dist h2 hlab, ?_⟩
  have hs := sorted_stdSort_chainQueryRefLess labelled
  intro m hm
  obtain ⟨B, hB, hmB, _⟩ := mem_processed_buckets param hm
  have hBne : B ≠ [] := by
    intro h
    rw [h] at hmB
    simp [processChainWithSplits] at hmB
  have hgood : ∀ x ∈ B, x.InRange param ∧ x.discard = 0 := by
    intro x hx
    have h3 : x ∈ (chainBuckets [] (stdSort chainQueryRefLess labelled)).flatten :=
      List.mem_flatten.mpr ⟨B, hB, hx⟩
    rw [flatten_chainBuckets, List.nil_append] at h3
    obtain ⟨k, hk⟩ := List.getElem?_of_mem
      ((perm_stdSort chainQueryRefLess labelled).mem_iff.mp h3)
    obtain ⟨x0, hx0, hc, hd⟩ := hcore k x hk
    have hx1 : x0 ∈ readMappings :=
      (perm_stdSort queryRefLess readMappings).mem_iff.mp (List.getElem?_mem hx0)
    exact ⟨inRange_of_core hc (hlim x0 hx1), hd⟩
  obtain ⟨qs, qe, rs, re, hbl, hext, ⟨y1, hy1, hd1, e1⟩, ⟨y2, hy2, hd2, e2⟩,
    ⟨y3, hy3, hd3, e3⟩, ⟨y4, hy4, hd4, e4⟩⟩ := processChainWithSplits_extents param B hBne hgood
  obtain ⟨hids, hsame⟩ := mem_bucket_of_id param hs hB hmB
  -- the mappings of the bucket that are not discarded remain
  have hkeep : ∀ y ∈ processChainWithSplits param B, y.discard = 0 →
      y ∈ (((chainBuckets [] (stdSort chainQueryRefLess labelled)).map
        (processChainWithSplits param)).flatten.filter (fun e => decide (e.discard ≠ 1))).filter
          (fun e => decide (e.splitMappingId = m.splitMappingId)) := by
    intro y hy hd
    refine List.mem_filter.mpr ⟨List.mem_filter.mpr ⟨?_, ?_⟩, ?_⟩
    · exact List.mem_flatten.mpr ⟨_, List.mem_map_of_mem _ hB, hy⟩
    · rw [hd]; decide
    · simpa using hids y hy
  have hin : ∀ x ∈ (((chainBuckets [] (stdSort chainQueryRefLess labelled)).map
      (processChainWithSplits param)).flatten.filter (fun e => decide (e.discard ≠ 1))).filter
        (fun e => decide (e.splitMappingId = m.splitMappingId)),
      x ∈ processChainWithSplits param B := by
    intro x hx
    obtain ⟨hx1, hx2⟩ := List.mem_filter.mp hx
    exact hsame x hx1 (by simpa using hx2)
  refine ⟨qs, qe, rs, re, ⟨?_, ?_⟩, ⟨?_, ?_⟩, ⟨?_, ?_⟩, ⟨?_, ?_⟩, ?_, ?_⟩
  · exact List.mem_map.mpr ⟨y1, hkeep y1 hy1 hd1, e1⟩
  · intro v hv
    obtain ⟨x, hx, rfl⟩ := List.mem_map.mp hv
    exact (hext x (hin x hx)).1
  · exact List.mem_map.mpr ⟨y2, hkeep y2 hy2 hd2, e2⟩
  · intro v hv
    obtain ⟨x, hx, rfl⟩ := List.mem_map.mp hv
    exact (hext x (hin x hx)).2.1
  · exact List.mem_map.mpr ⟨y3, hkeep y3 hy3 hd3, e3⟩
  · intro v hv
    obtain ⟨x, hx, rfl⟩ := List.mem_map.mp hv
    exact (hext x (hin x hx)).2.2.1
  · exact List.mem_map.mpr ⟨y4, hkeep y4 hy4 hd4, e4⟩
  · intro v hv
    obtain ⟨x, hx, rfl⟩ := List.mem_map.mp hv
    exact (hext x (hin x hx)).2.2.2
  · rw [hbl m hmB, max_comm]
  · intro hone
    have k1 := hkeep y1 hy1 hd1
    have k2 := hkeep y2 hy2 hd2
    have k3 := hkeep y3 hy3 hd3
    have k4 := hkeep y4 hy4 hd4
    rw [hone, List.mem_singleton] at k1 k2 k3 k4
    rw [hbl m hmB, max_comm, ← e1, ← e2, ← e3, ← e4, k1, k2, k3, k4]

/-- C4 fails as stated: two chained mappings of 100 bases each, cut into two fragments, both
remain with the block length 200 of their chain. -/
theorem mergeMappingsInRange_blockLength_counterexample :
    ∃ out, mergeMappingsInRange Parameters.sample MappingResult.samplePair 50 = some out ∧
      ∃ m ∈ out.1, m.blockLength ≠
        max (m.refEndPos - m.refStartPos) (m.queryEndPos - m.queryStartPos) := by
  refine ⟨_, rfl, ?_⟩
  decide

end skch

namespace skch

theorem windowPoints_cons (w : IntervalPoint × IntervalPoint)
    (ws : List (IntervalPoint × IntervalPoint)) :
    windowPoints (w :: ws) = w.1 :: w.2 :: windowPoints ws := by
  simp [windowPoints]

theorem windowPoints_append (ws vs : List (IntervalPoint × IntervalPoint)) :
    windowPoints (ws ++ vs) = windowPoints ws ++ windowPoints vs := by
  simp [windowPoints]

theorem length_windowPoints (ws : List (IntervalPoint × IntervalPoint)) :
    (windowPoints ws).length = 2 * ws.length := by
  induction ws with
  | nil => rfl
  | cons w ws ih => rw [windowPoints_cons]; simp [ih]; omega

theorem getElem?_windowPoints_even : ∀ (ws : List (IntervalPoint × IntervalPoint)) (k : Nat),
    (windowPoints ws)[2 * k]? = ws[k]?.map Prod.fst
  | [], k => by simp [windowPoints]
  | w :: ws, 0 => by simp [windowPoints_cons]
  | w :: ws, k + 1 => by
    rw [windowPoints_cons, show 2 * (k + 1) = 2 * k + 1 + 1 by omega]
    simp only [List.getElem?_cons_succ]
    exact getElem?_windowPoints_even ws k

theorem getElem?_windowPoints_odd : ∀ (ws : List (IntervalPoint × IntervalPoint)) (k : Nat),
    (windowPoints ws)[2 * k + 1]? = ws[k]?.map Prod.snd
  | [], k => by simp [windowPoints]
  | w :: ws, 0 => by simp [windowPoints_cons]
  | w :: ws, k + 1 => by
    rw [windowPoints_cons, show 2 * (k + 1) + 1 = 2 * k + 1 + 1 + 1 by omega]
    simp only [List.getElem?_cons_succ]
    exact getElem?_windowPoints_odd ws k

theorem getLast?_windowPoints_concat (ws : List (IntervalPoint × IntervalPoint))
    (w : IntervalPoint × IntervalPoint) : (windowPoints (ws ++ [w])).getLast? = some w.2 := by
  rw [windowPoints_append]
  simp [windowPoints]

theorem dropLast_windowPoints_concat (ws : List (IntervalPoint × IntervalPoint))
    (w : IntervalPoint × IntervalPoint) :
    (windowPoints (ws ++ [w])).dropLast = windowPoints ws ++ [w.1] := by
  rw [windowPoints_append]
  have : windowPoints [w] = [w.1] ++ [w.2] := by simp [windowPoints]
  rw [this, ← List.append_assoc, List.dropLast_concat]

theorem handleMinmer_of_ne (index : Nat → List IntervalPoint) (mi : MinmerInfo) (h : Nat)
    (hne : h ≠ mi.hash) : handleMinmer index mi h = index h := by
  simp only [handleMinmer]
  split_ifs <;> exact Function.update_noteq hne _ _

/-- What the body of the loop does to the vector of the hash of `mi`: a vector that is empty or
whose last point is not at `mi.wpos` gets the two points of `mi`; otherwise its last point
moves to `mi.wpos_end`, whatever the sequence of that point. -/
theorem handleMinmer_self (index : Nat → List IntervalPoint) (mi : MinmerInfo)
    (hh : ∀ p ∈ index mi.hash, p.hash = mi.hash) :
    handleMinmer index mi mi.hash =
      match (index mi.hash).getLast? with
      | none => [⟨mi.wpos, mi.hash, mi.seqId, side.OPEN⟩,
          ⟨mi.wpos_end, mi.hash, mi.seqId, side.CLOSE⟩]
      | some back =>
        if back.pos = mi.wpos then (index mi.hash).dropLast ++ [{ back with pos := mi.wpos_end }]
        else index mi.hash ++ [⟨mi.wpos, mi.hash, mi.seqId, side.OPEN⟩,
          ⟨mi.wpos_end, mi.hash, mi.seqId, side.CLOSE⟩] := by
  simp only [handleMinmer]
  cases hl : (index mi.hash).getLast? with
  | none =>
    have : index mi.hash = [] := List.getLast?_eq_none_iff.mp hl
    simp [this]
  | some back =>
    have hb : back.hash = mi.hash := hh back (List.mem_of_mem_getLast? (Option.mem_def.mpr hl))
    by_cases hp : back.pos = mi.wpos
    · simp [hb, hp, setBackPos, hl]
    · simp [hb, hp]

theorem wellPaired_handleMinmer (index : Nat → List IntervalPoint) (mi : MinmerInfo)
    (hw : mi.wpos ≤ mi.wpos_end) (hinv : ∀ h, WellPaired h (index h)) (h : Nat) :
    WellPaired h (handleMinmer index mi h) := by
  by_cases hne : h = mi.hash
  swap
  · rw [handleMinmer_of_ne index mi h hne]; exact hinv h
  subst hne
  obtain ⟨ws, hv, hws⟩ := hinv mi.hash
  have hh : ∀ p ∈ index mi.hash, p.hash = mi.hash := by
    intro p hp
    rw [hv] at hp
    simp only [windowPoints, List.mem_flatMap, List.mem_cons, List.mem_singleton,
      List.not_mem_nil, or_false] at hp
    obtain ⟨w, hw1, hp⟩ := hp
    rcases hp with rfl | rfl
    · exact (hws w hw1).2.2.1
    · exact (hws w hw1).2.2.2.1
  rw [handleMinmer_self index mi hh]
  have hnew : IsWindowOf mi.hash
      (⟨mi.wpos, mi.hash, mi.seqId, side.OPEN⟩, ⟨mi.wpos_end, mi.hash, mi.seqId, side.CLOSE⟩) :=
    ⟨rfl, rfl, rfl, rfl, rfl, hw⟩
  rcases List.eq_nil_or_concat ws with rfl | ⟨ws1, w, hc⟩
  swap
  · rw [List.concat_eq_append] at hc
    subst hc
    rw [hv, getLast?_windowPoints_concat]
    dsimp only
    split_ifs with hp
    · refine ⟨ws1 ++ [(w.1, { w.2 with pos := mi.wpos_end })], ?_, ?_⟩
      · rw [dropLast_windowPoints_concat, windowPoints_append, List.append_assoc]
        simp [windowPoints]
      · intro x hx
        rw [List.mem_append, List.mem_singleton] at hx
        rcases hx with hx | rfl
        · exact hws x (List.mem_append_left _ hx)
        · obtain ⟨a1, a2, a3, a4, a5, a6⟩ :=
            hws w (List.mem_append_right _ (List.mem_singleton.mpr rfl))
          exact ⟨a1, a2, a3, a4, a5, by show w.1.pos ≤ mi.wpos_end; omega⟩
    · refine ⟨(ws1 ++ [w]) ++ [(⟨mi.wpos, mi.hash, mi.seqId, side.OPEN⟩,
        ⟨mi.wpos_end, mi.hash, mi.seqId, side.CLOSE⟩)], ?_, ?_⟩
      · rw [windowPoints_append (ws1 ++ [w])]
        simp [windowPoints]
      · intro x hx
        rw [List.mem_append, List.mem_singleton] at hx
        rcases hx with hx | rfl
        · exact hws x hx
        · exact hnew
  · rw [hv]
    refine ⟨[(⟨mi.wpos, mi.hash, mi.seqId, side.OPEN⟩,
      ⟨mi.wpos_end, mi.hash, mi.seqId, side.CLOSE⟩)], ?_, ?_⟩
    · simp [windowPoints]
    · intro x hx
      rw [List.mem_singleton] at hx
      subst hx
      exact hnew

theorem wellPaired_foldl_handleMinmer : ∀ (mis : List MinmerInfo)
    (index : Nat → List IntervalPoint), (∀ mi ∈ mis, mi.wpos ≤ mi.wpos_end) →
    (∀ h, WellPaired h (index h)) → ∀ h, WellPaired h (mis.foldl handleMinmer index h)
  | [], _, _, hinv => hinv
  | mi :: mis, index, hw, hinv => by
    rw [List.foldl_cons]
    exact wellPaired_foldl_handleMinmer mis _ (fun m hm => hw m (List.mem_cons_of_mem _ hm))
      (wellPaired_handleMinmer index mi (hw mi (List.mem_cons_self _ _)) hinv)

theorem wellPaired_foldl_buildHandleThreadOutput : ∀ (calls : List (List MinmerInfo))
    (s : Sketch), (∀ c ∈ calls, ∀ mi ∈ c, mi.wpos ≤ mi.wpos_end) →
    (∀ h, WellPaired h (s.minmerPosLookupIndex h)) →
    ∀ h, WellPaired h ((calls.foldl buildHandleThreadOutput s).minmerPosLookupIndex h)
  | [], _, _, hinv => hinv
  | c :: calls, s, hw, hinv => by
    rw [List.foldl_cons]
    exact wellPaired_foldl_buildHandleThreadOutput calls _
      (fun c1 hc => hw c1 (List.mem_cons_of_mem _ hc))
      (wellPaired_foldl_handleMinmer c _ (hw c (List.mem_cons_self _ _)) hinv)

/-- C20. After any sequence of `buildHandleThreadOutput` calls starting from an empty index, on
windows with `wpos <= wpos_end`, every vector `minmerPosLookupIndex[h]` has even length,
contains only points whose hash is `h`, has an `OPEN` at every even index and a `CLOSE` at every
odd one, and each `OPEN` is immediately followed by a `CLOSE` with the same `seqId` and with
`pos` at least the `pos` of the `OPEN`. -/
theorem buildHandleThreadOutput_open_close_pairs (calls : List (List MinmerInfo))
    (hw : ∀ c ∈ calls, ∀ mi ∈ c, mi.wpos ≤ mi.wpos_end) (h : Nat) :
    ((calls.foldl buildHandleThreadOutput Sketch.empty).minmerPosLookupIndex h).length % 2 = 0 ∧
    (∀ k p, ((calls.foldl buildHandleThreadOutput Sketch.empty).minmerPosLookupIndex h)[k]? =
        some p → p.hash = h ∧ (k % 2 = 0 → p.side = side.OPEN) ∧
          (k % 2 = 1 → p.side = side.CLOSE)) ∧
    (∀ k o, ((calls.foldl buildHandleThreadOutput Sketch.empty).minmerPosLookupIndex h)[k]? =
        some o → o.side = side.OPEN →
      ∃ c, ((calls.foldl buildHandleThreadOutput Sketch.empty).minmerPosLookupIndex h)[k + 1]? =
          some c ∧ c.side = side.CLOSE ∧ c.seqId = o.seqId ∧ o.pos ≤ c.pos) := by
  obtain ⟨ws, hv, hws⟩ := wellPaired_foldl_buildHandleThreadOutput calls Sketch.empty hw
    (fun h => ⟨[], rfl, fun _ hx => absurd hx (List.not_mem_nil _)⟩) h
  rw [hv]
  have hpoint : ∀ k p, (windowPoints ws)[k]? = some p →
      ∃ j w, ws[j]? = some w ∧ ((k = 2 * j ∧ p = w.1) ∨ (k = 2 * j + 1 ∧ p = w.2)) := by
    intro k p hk
    rcases Nat.even_or_odd' k with ⟨j, rfl | rfl⟩
    · rw [getElem?_windowPoints_even] at hk
      cases hj : ws[j]? with
      | none => rw [hj] at hk; exact absurd hk (by simp)
      | some w =>
        rw [hj] at hk
        exact ⟨j, w, hj, Or.inl ⟨rfl, (Option.some.inj hk).symm⟩⟩
    · rw [getElem?_windowPoints_odd] at hk
      cases hj : ws[j]? with
      | none => rw [hj] at hk; exact absurd hk (by simp)
      | some w =>
        rw [hj] at hk
        exact ⟨j, w, hj, Or.inr ⟨rfl, (Option.some.inj hk).symm⟩⟩
  refine ⟨by rw [length_windowPoints]; omega, ?_, ?_⟩
  · intro k p hk
    obtain ⟨j, w, hj, hc⟩ := hpoint k p hk
    obtain ⟨a1, a2, a3, a4, _, _⟩ := hws w (List.getElem?_mem hj)
    rcases hc with ⟨rfl, rfl⟩ | ⟨rfl, rfl⟩
    · exact ⟨a3, fun _ => a1, fun h1 => by omega⟩
    · exact ⟨a4, fun h1 => by omega, fun _ => a2⟩
  · intro k o hk ho
    obtain ⟨j, w, hj, hc⟩ := hpoint k o hk
    obtain ⟨a1, a2, a3, a4, a5, a6⟩ := hws w (List.getElem?_mem hj)
    rcases hc with ⟨rfl, rfl⟩ | ⟨rfl, rfl⟩
    · exact ⟨w.2, by rw [getElem?_windowPoints_odd, hj]; rfl, a2, a5, a6⟩
    · rw [a2] at ho
      exact absurd ho (by decide)

theorem buildHandleThreadOutput_open_close_pairs_witness :
    ((MinmerInfo.sampleCalls.foldl buildHandleThreadOutput
      Sketch.empty).minmerPosLookupIndex 7).length % 2 = 0 ∧
    (∀ k p, ((MinmerInfo.sampleCalls.foldl buildHandleThreadOutput
        Sketch.empty).minmerPosLookupIndex 7)[k]? = some p →
      p.hash = 7 ∧ (k % 2 = 0 → p.side = side.OPEN) ∧ (k % 2 = 1 → p.side = side.CLOSE)) ∧
    (∀ k o, ((MinmerInfo.sampleCalls.foldl buildHandleThreadOutput
        Sketch.empty).minmerPosLookupIndex 7)[k]? = some o → o.side = side.OPEN →
      ∃ c, ((MinmerInfo.sampleCalls.foldl buildHandleThreadOutput
          Sketch.empty).minmerPosLookupIndex 7)[k + 1]? = some c ∧
        c.side = side.CLOSE ∧ c.seqId = o.seqId ∧ o.pos ≤ c.pos) :=
  buildHandleThreadOutput_open_close_pairs MinmerInfo.sampleCalls (by decide) 7

/-- C19. `buildHandleThreadOutput` on a window `mi` whose hash has a last `CLOSE` at `mi.wpos`
that belongs to another sequence: the two points of `mi` are not appended; the `CLOSE` of the
other sequence is moved to `mi.wpos_end` instead, and no point carries `mi.seqId`. -/
theorem buildHandleThreadOutput_extends_other_sequence :
    (buildHandleThreadOutput Sketch.empty [⟨7, 5, 10, 0, 1⟩]).minmerPosLookupIndex 7 =
      [⟨5, 7, 0, side.OPEN⟩, ⟨10, 7, 0, side.CLOSE⟩] ∧
    (buildHandleThreadOutput (buildHandleThreadOutput Sketch.empty [⟨7, 5, 10, 0, 1⟩])
        [⟨7, 10, 15, 1, 1⟩]).minmerPosLookupIndex 7 =
      [⟨5, 7, 0, side.OPEN⟩, ⟨15, 7, 0, side.CLOSE⟩] ∧
    (buildHandleThreadOutput (buildHandleThreadOutput Sketch.empty [⟨7, 5, 10, 0, 1⟩])
        [⟨7, 10, 15, 1, 1⟩]).minmerPosLookupIndex 7 ≠
      (buildHandleThreadOutput Sketch.empty [⟨7, 5, 10, 0, 1⟩]).minmerPosLookupIndex 7 ++
        [⟨10, 7, 1, side.OPEN⟩, ⟨15, 7, 1, side.CLOSE⟩] := by
  decide

end skch

namespace skch

theorem joinLocus_nil (clusterLen : Int) (x : L1_candidateLocus_t) :
    joinLocus clusterLen [] x = [x] := rfl

theorem joinLocus_concat (clusterLen : Int) (init : List L1_candidateLocus_t)
    (back x : L1_candidateLocus_t) :
    joinLocus clusterLen (init ++ [back]) x =
      if x.seqId ≠ back.seqId ∨ x.rangeStartPos > back.rangeEndPos + clusterLen then
        init ++ [back] ++ [x]
      else init ++ [⟨back.seqId, back.rangeStartPos, x.rangeEndPos,
        max x.intersectionSize back.intersectionSize⟩] := by
  unfold joinLocus
  rw [List.getLast?_concat, List.dropLast_concat]

/-- The joining loop only reads and writes the last locus: loci before it stay. -/
theorem foldl_joinLocus_append (clusterLen : Int) : ∀ (localOpts init acc : List L1_candidateLocus_t),
    acc ≠ [] → localOpts.foldl (joinLocus clusterLen) (init ++ acc) =
      init ++ localOpts.foldl (joinLocus clusterLen) acc
  | [], _, _, _ => rfl
  | x :: rest, init, acc, hacc => by
    rw [List.foldl_cons, List.foldl_cons]
    obtain ⟨acc1, back, rfl⟩ : ∃ acc1 back, acc = acc1 ++ [back] := by
      rcases List.eq_nil_or_concat acc with h | ⟨a, b, h⟩
      · exact absurd h hacc
      · exact ⟨a, b, by rw [h, List.concat_eq_append]⟩
    have h1 : joinLocus clusterLen (init ++ (acc1 ++ [back])) x =
        init ++ joinLocus clusterLen (acc1 ++ [back]) x := by
      rw [← List.append_assoc, joinLocus_concat, joinLocus_concat]
      split_ifs <;> simp
    rw [h1]
    apply foldl_joinLocus_append clusterLen rest init
    rw [joinLocus_concat]
    split_ifs <;> simp

theorem joinedFrom_singleton (x : L1_candidateLocus_t) : JoinedFrom [x] x :=
  ⟨fun b hb => by rw [List.mem_singleton] at hb; rw [hb], ⟨x, x, rfl, rfl, rfl, rfl⟩,
    by simp [IsMaxOf]⟩

theorem joinedFrom_concat {g : List L1_candidateLocus_t} {a x : L1_candidateLocus_t}
    (h : JoinedFrom g a) (hx : x.seqId = a.seqId) :
    JoinedFrom (g ++ [x])
      ⟨a.seqId, a.rangeStartPos, x.rangeEndPos, max x.intersectionSize a.intersectionSize⟩ := by
  obtain ⟨h1, ⟨first, last, hf, hl, hs, he⟩, hmax, hle⟩ := h
  refine ⟨?_, ⟨first, x, ?_, List.getLast?_concat _, hs, rfl⟩, ?_, ?_⟩
  · intro b hb
    rw [List.mem_append, List.mem_singleton] at hb
    rcases hb with hb | rfl
    · exact h1 b hb
    · exact hx
  · cases g with
    | nil => simp at hf
    | cons y ys => simpa using hf
  · show max x.intersectionSize a.intersectionSize ∈ _
    rw [List.map_append, List.mem_append]
    rcases le_total x.intersectionSize a.intersectionSize with h2 | h2
    · rw [max_eq_right h2]; exact Or.inl hmax
    · rw [max_eq_left h2]; exact Or.inr (by simp)
  · intro v hv
    show v ≤ max x.intersectionSize a.intersectionSize
    rw [List.map_append, List.mem_append] at hv
    rcases hv with hv | hv
    · exact le_trans (hle v hv) (le_max_right _ _)
    · simp only [List.map_cons, List.map_nil, List.mem_singleton] at hv
      rw [hv]; exact le_max_left _ _

theorem joinInv_step (clusterLen : Int) {done out : List L1_candidateLocus_t}
    (h : JoinInv clusterLen done out) (x : L1_candidateLocus_t) :
    JoinInv clusterLen (done ++ [x]) (joinLocus clusterLen out x) := by
  obtain ⟨hch, joined, hout, hdone, hj⟩ := h
  rcases List.eq_nil_or_concat joined with rfl | ⟨js, ⟨g, back⟩, hc⟩
  · simp only [List.map_nil, List.flatten_nil] at hout hdone
    subst hout hdone
    refine ⟨by simp [joinLocus_nil], [([x], x)], by simp [joinLocus_nil], by simp, ?_⟩
    intro ga hga
    rw [List.mem_singleton] at hga
    subst hga
    exact joinedFrom_singleton x
  · rw [List.concat_eq_append] at hc
    subst hc
    have hout2 : out = js.map Prod.snd ++ [back] := by simp [hout]
    have hgb : JoinedFrom g back := hj (g, back) (by simp)
    rw [hout2, joinLocus_concat]
    rw [hout2] at hch
    split_ifs with hcond
    · refine ⟨?_, js ++ [(g, back)] ++ [([x], x)], by simp, by simp [hdone], ?_⟩
      · refine List.Chain'.append hch (List.chain'_singleton x) ?_
        intro a ha b hb
        rw [List.getLast?_concat, Option.mem_def, Option.some.injEq] at ha
        simp only [List.head?_cons, Option.mem_def, Option.some.injEq] at hb
        subst ha hb
        intro hs
        rcases hcond with h1 | h1
        · exact absurd hs.symm h1
        · exact h1
      · intro ga hga
        rw [List.mem_append, List.mem_singleton] at hga
        rcases hga with hga | rfl
        · exact hj ga hga
        · exact joinedFrom_singleton x
    · push_neg at hcond
      refine ⟨?_, js ++ [(g ++ [x], ⟨back.seqId, back.rangeStartPos, x.rangeEndPos,
        max x.intersectionSize back.intersectionSize⟩)], by simp, by simp [hdone], ?_⟩
      · rw [List.chain'_append] at hch ⊢
        refine ⟨hch.1, List.chain'_singleton _, ?_⟩
        intro a ha b hb
        simp only [List.head?_cons, Option.mem_def, Option.some.injEq] at hb
        subst hb
        exact hch.2.2 a ha back (by simp)
      · intro ga hga
        rw [List.mem_append, List.mem_singleton] at hga
        rcases hga with hga | rfl
        · exact hj ga (List.mem_append_left _ hga)
        · exact joinedFrom_concat hgb hcond.1

theorem joinInv_foldl (clusterLen : Int) : ∀ (rest done out : List L1_candidateLocus_t),
    JoinInv clusterLen done out →
      JoinInv clusterLen (done ++ rest) (rest.foldl (joinLocus clusterLen) out)
  | [], done, out, h => by simpa using h
  | x :: rest, done, out, h => by
    rw [List.foldl_cons]
    have := joinInv_foldl clusterLen rest (done ++ [x]) _ (joinInv_step clusterLen h x)
    simpa using this

theorem joinInv_nil (clusterLen : Int) : JoinInv clusterLen [] [] :=
  ⟨List.chain'_nil, [], rfl, rfl, fun _ h => absurd h (List.not_mem_nil _)⟩

end skch

namespace skch

/-- The trailing loop passes a run of points that lie behind the leading point, stops at the
first point that does not, and handles the `CLOSE` points of the run in order. -/
theorem trailingLoop_spec (windowLen : Int) (leading : IntervalPoint) :
    ∀ (trailing : List IntervalPoint) (s : Sweep), ∃ passed,
      trailing = passed ++ (trailingLoop windowLen leading trailing s).1 ∧
      (∀ x ∈ passed, trailingBehind windowLen x leading = true) ∧
      (∀ y ∈ (trailingLoop windowLen leading trailing s).1.head?,
        trailingBehind windowLen y leading = false) ∧
      (trailingLoop windowLen leading trailing s).2 =
        passed.foldl (fun s t => if t.side = side.CLOSE then closePoint windowLen t s else s) s
  | [], s => ⟨[], rfl, fun _ h => absurd h (List.not_mem_nil _), by simp [trailingLoop], rfl⟩
  | t :: rest, s => by
    by_cases h : trailingBehind windowLen t leading = true
    · obtain ⟨passed, h1, h2, h3, h4⟩ := trailingLoop_spec windowLen leading rest
        (if t.side = side.CLOSE then closePoint windowLen t s else s)
      refine ⟨t :: passed, ?_, ?_, ?_, ?_⟩
      · rw [trailingLoop, if_pos h, List.cons_append, ← h1]
      · intro x hx
        rcases List.mem_cons.mp hx with rfl | hx
        · exact h
        · exact h2 x hx
      · rw [trailingLoop, if_pos h]; exact h3
      · rw [trailingLoop, if_pos h, h4, List.foldl_cons]
    · refine ⟨[], ?_, fun _ hx => absurd hx (List.not_mem_nil _), ?_, ?_⟩
      · rw [trailingLoop, if_neg h]; rfl
      · rw [trailingLoop, if_neg h]
        intro y hy
        simp only [List.head?_cons, Option.mem_def, Option.some.injEq] at hy
        subst hy
        simpa using h
      · rw [trailingLoop, if_neg h]; rfl

/-- The leading loop passes the run of points at `currentPos`, stops at the first point
elsewhere, and handles the `OPEN` points of the run in order. -/
theorem leadingLoop_spec (windowLen currentPos : Int) :
    ∀ (leading : List IntervalPoint) (s : Sweep), ∃ group,
      leading = group ++ (leadingLoop windowLen currentPos leading s).1 ∧
      (∀ x ∈ group, x.pos = currentPos) ∧
      (∀ y ∈ (leadingLoop windowLen currentPos leading s).1.head?, y.pos ≠ currentPos) ∧
      (leadingLoop windowLen currentPos leading s).2 =
        group.foldl (fun s t => if t.side = side.OPEN then openPoint windowLen t s else s) s
  | [], s => ⟨[], rfl, fun _ h => absurd h (List.not_mem_nil _), by simp [leadingLoop], rfl⟩
  | t :: rest, s => by
    by_cases h : t.pos = currentPos
    · obtain ⟨group, h1, h2, h3, h4⟩ := leadingLoop_spec windowLen currentPos rest
        (if t.side = side.OPEN then openPoint windowLen t s else s)
      refine ⟨t :: group, ?_, ?_, ?_, ?_⟩
      · rw [leadingLoop, if_pos h, List.cons_append, ← h1]
      · intro x hx
        rcases List.mem_cons.mp hx with rfl | hx
        · exact h
        · exact h2 x hx
      · rw [leadingLoop, if_pos h]; exact h3
      · rw [leadingLoop, if_pos h, h4, List.foldl_cons]
    · refine ⟨[], ?_, fun _ hx => absurd hx (List.not_mem_nil _), ?_, ?_⟩
      · rw [leadingLoop, if_neg h]; rfl
      · rw [leadingLoop, if_neg h]
        intro y hy
        simp only [List.head?_cons, Option.mem_def, Option.some.injEq] at hy
        subst hy
        exact h
      · rw [leadingLoop, if_neg h]; rfl

/-- A round of the leading loop started on the point it is positioned at consumes that point. -/
theorem length_leadingLoop_lt (windowLen : Int) (p : IntervalPoint) (rest : List IntervalPoint)
    (s : Sweep) : (leadingLoop windowLen p.pos (p :: rest) s).1.length < (p :: rest).length := by
  obtain ⟨group, h1, _, h3, _⟩ := leadingLoop_spec windowLen p.pos (p :: rest) s
  cases group with
  | nil =>
    rw [List.nil_append] at h1
    rw [← h1] at h3
    exact absurd rfl (h3 p (by simp))
  | cons g gs =>
    have := congrArg List.length h1
    simp only [List.length_cons, List.length_append] at this ⊢
    omega

/-- The position the second pass gives to `currentPos` in a round is the position of the
point under the leading iterator. -/
theorem secondPassRound_currentPos (windowLen minimumHits : Int) (stage2_full_scan : Bool)
    (st : SecondPass) (p : IntervalPoint) :
    (secondPassRound windowLen minimumHits stage2_full_scan st p).currentPos.pos = p.pos := by
  simp only [secondPassRound]
  split_ifs with h
  · rfl
  · exact (not_not.mp h).symm

theorem secondPassRound_leadingIt (windowLen minimumHits : Int) (stage2_full_scan : Bool)
    (st : SecondPass) (p : IntervalPoint) :
    (secondPassRound windowLen minimumHits stage2_full_scan st p).leadingIt =
      (leadingLoop windowLen p.pos st.leadingIt
        (trailingLoop windowLen p st.trailingIt st.sweep).2).1 := by
  have h := secondPassRound_currentPos windowLen minimumHits stage2_full_scan st p
  simp only [secondPassRound] at h ⊢
  rw [h]

/-- The rule of the outer loop of the second pass: a property of its variables that holds at
the start and is kept by every round holds when the loop is left, and the loop is left after
at most as many rounds as there are points. -/
theorem secondPassLoop_rule (windowLen minimumHits : Int) (stage2_full_scan : Bool)
    (I : SecondPass → Prop)
    (hstep : ∀ st p rest, st.leadingIt = p :: rest → I st →
      I (secondPassRound windowLen minimumHits stage2_full_scan st p)) :
    ∀ (fuel : Nat) (st : SecondPass), st.leadingIt.length ≤ fuel → I st →
      ∃ st1, I st1 ∧ st1.leadingIt = [] ∧
        secondPassLoop windowLen minimumHits stage2_full_scan fuel st =
          some (st1.localOpts, st1.sweep.history)
  | 0, st, hf, hI => by
    have : st.leadingIt = [] := List.length_eq_zero.mp (Nat.le_zero.mp hf)
    exact ⟨st, hI, this, by rw [secondPassLoop, this]⟩
  | fuel + 1, st, hf, hI => by
    cases hl : st.leadingIt with
    | nil => exact ⟨st, hI, hl, by rw [secondPassLoop, hl]⟩
    | cons p rest =>
      have hlen : (secondPassRound windowLen minimumHits stage2_full_scan st p).leadingIt.length
          ≤ fuel := by
        rw [secondPassRound_leadingIt, hl]
        have := length_leadingLoop_lt windowLen p rest
          (trailingLoop windowLen p st.trailingIt st.sweep).2
        rw [hl] at hf
        simp only [List.length_cons] at this hf
        omega
      obtain ⟨st1, h1, h2, h3⟩ := secondPassLoop_rule windowLen minimumHits stage2_full_scan I
        hstep fuel _ hlen (hstep st p rest hl hI)
      exact ⟨st1, h1, h2, by rw [secondPassLoop, hl]; exact h3⟩

/-- The rule of the outer loop of the first pass. -/
theorem firstPassLoop_rule (windowLen : Int) (I : FirstPass → Prop)
    (hstep : ∀ st p rest, st.leadingIt = p :: rest → I st → I (firstPassRound windowLen st p)) :
    ∀ (fuel : Nat) (st : FirstPass), st.leadingIt.length ≤ fuel → I st →
      ∃ st1, I st1 ∧ st1.leadingIt = [] ∧
        firstPassLoop windowLen fuel st = some (st1.bestIntersectionSize, st1.sweep.history)
  | 0, st, hf, hI => by
    have : st.leadingIt = [] := List.length_eq_zero.mp (Nat.le_zero.mp hf)
    exact ⟨st, hI, this, by rw [firstPassLoop, this]⟩
  | fuel + 1, st, hf, hI => by
    cases hl : st.leadingIt with
    | nil => exact ⟨st, hI, hl, by rw [firstPassLoop, hl]⟩
    | cons p rest =>
      have hlen : (firstPassRound windowLen st p).leadingIt.length ≤ fuel := by
        simp only [firstPassRound]
        rw [hl]
        have := length_leadingLoop_lt windowLen p rest
          (trailingLoop windowLen p st.trailingIt st.sweep).2
        rw [hl] at hf
        simp only [List.length_cons] at this hf
        omega
      obtain ⟨st1, h1, h2, h3⟩ := firstPassLoop_rule windowLen I hstep fuel _ hlen
        (hstep st p rest hl hI)
      exact ⟨st1, h1, h2, by rw [firstPassLoop, hl]; exact h3⟩

end skch

namespace skch

/-- The two outcomes of one round of the joining loop: the local optimum is appended, or it
lies on the sequence of the last locus, within `clusterLen` of its end, and is merged into
it. -/
theorem joinLocus_cases (clusterLen : Int) (acc : List L1_candidateLocus_t)
    (x : L1_candidateLocus_t) :
    joinLocus clusterLen acc x = acc ++ [x] ∨
      ∃ init back, acc = init ++ [back] ∧ x.seqId = back.seqId ∧
        x.rangeStartPos ≤ back.rangeEndPos + clusterLen ∧
        joinLocus clusterLen acc x = init ++ [⟨back.seqId, back.rangeStartPos, x.rangeEndPos,
          max x.intersectionSize back.intersectionSize⟩] := by
  rcases List.eq_nil_or_concat acc with rfl | ⟨init, back, hc⟩
  · exact Or.inl rfl
  · rw [List.concat_eq_append] at hc
    subst hc
    rw [joinLocus_concat]
    split_ifs with h
    · exact Or.inl rfl
    · push_neg at h
      exact Or.inr ⟨init, back, rfl, h.1, h.2, rfl⟩

/-- The loci the joining loop adds behind the `n` loci it started with satisfy every property
that the local optima have and that a merge keeps. -/
theorem foldl_joinLocus_appended (clusterLen : Int) (P : L1_candidateLocus_t → Prop)
    (hmerge : ∀ back x : L1_candidateLocus_t, P back → P x →
      P ⟨back.seqId, back.rangeStartPos, x.rangeEndPos,
        max x.intersectionSize back.intersectionSize⟩) (n : Nat) :
    ∀ (localOpts acc : List L1_candidateLocus_t), (∀ x ∈ localOpts, P x) →
      (∃ kept appended, acc = kept ++ appended ∧ kept.length = n ∧ ∀ a ∈ appended, P a) →
      ∃ kept appended, localOpts.foldl (joinLocus clusterLen) acc = kept ++ appended ∧
        kept.length = n ∧ ∀ a ∈ appended, P a
  | [], _, _, h => h
  | x :: rest, acc, hP, ⟨kept, app, hacc, hlen, happ⟩ => by
    rw [List.foldl_cons]
    apply foldl_joinLocus_appended clusterLen P hmerge n rest _
      (fun y hy => hP y (List.mem_cons_of_mem _ hy))
    have hx := hP x (List.mem_cons_self _ _)
    rcases joinLocus_cases clusterLen acc x with h | ⟨init, back, h1, _, _, h2⟩
    · refine ⟨kept, app ++ [x], by rw [h, hacc, List.append_assoc], hlen, ?_⟩
      intro a ha
      rw [List.mem_append, List.mem_singleton] at ha
      rcases ha with ha | rfl
      · exact happ a ha
      · exact hx
    · rw [h2]
      rcases List.eq_nil_or_concat app with rfl | ⟨app1, b, hc⟩
      · rw [List.append_nil] at hacc
        refine ⟨init ++ [⟨back.seqId, back.rangeStartPos, x.rangeEndPos,
          max x.intersectionSize back.intersectionSize⟩], [], by simp, ?_,
          fun _ h => absurd h (List.not_mem_nil _)⟩
        rw [← hlen, ← hacc, h1]
        simp
      · rw [List.concat_eq_append] at hc
        subst hc
        rw [h1, ← List.append_assoc] at hacc
        obtain ⟨e1, e2⟩ := List.append_inj' hacc rfl
        refine ⟨kept, app1 ++ [⟨back.seqId, back.rangeStartPos, x.rangeEndPos,
          max x.intersectionSize back.intersectionSize⟩], by rw [e1, List.append_assoc], hlen, ?_⟩
        intro a ha
        rw [List.mem_append, List.mem_singleton] at ha
        rcases ha with ha | rfl
        · exact happ a (List.mem_append_left _ ha)
        · have hb : back = b := by simpa using e2
          exact hmerge back x (happ back (by rw [hb]; simp)) hx

/-- Whatever the threshold, the outcome of a round of the second pass keeps the loci under
construction at or above it. -/
theorem recordOverlap_ge (windowLen minimumHits : Int) (stage2_full_scan : Bool)
    (prevOverlap : Int) (prevPos : SeqCoord) (c : Candidate)
    (h1 : ∀ a ∈ c.localOpts, minimumHits ≤ a.intersectionSize)
    (h2 : c.in_candidate = true → minimumHits ≤ c.l1_out.intersectionSize) :
    (∀ a ∈ (recordOverlap windowLen minimumHits stage2_full_scan prevOverlap prevPos
        c).localOpts, minimumHits ≤ a.intersectionSize) ∧
    ((recordOverlap windowLen minimumHits stage2_full_scan prevOverlap prevPos
        c).in_candidate = true →
      minimumHits ≤ (recordOverlap windowLen minimumHits stage2_full_scan prevOverlap prevPos
        c).l1_out.intersectionSize) := by
  have hpush : c.in_candidate = true → ∀ a ∈ c.localOpts ++ [c.l1_out],
      minimumHits ≤ a.intersectionSize := by
    intro hc a ha
    rw [List.mem_append, List.mem_singleton] at ha
    rcases ha with ha | rfl
    · exact h1 a ha
    · exact h2 hc
  unfold recordOverlap
  by_cases hge : prevOverlap ≥ minimumHits
  · rw [if_pos hge]
    by_cases hfl : c.l1_out.seqId ≠ prevPos.seqId ∧ c.in_candidate = true
    · simp only [hfl, ne_eq, not_false_eq_true, and_self, if_true]
      exact ⟨hpush hfl.2, fun _ => hge⟩
    · rw [if_neg hfl]
      dsimp only
      by_cases hin : c.in_candidate = false
      · rw [if_pos hin]
        exact ⟨h1, fun _ => hge⟩
      · rw [if_neg hin]
        have hin2 : c.in_candidate = true := by simpa using hin
        split_ifs
        · exact ⟨h1, fun _ => le_trans hge (le_max_right _ _)⟩
        · exact ⟨h1, fun _ => hge⟩
        · exact ⟨h1, fun _ => h2 hin2⟩
  · rw [if_neg hge]
    split_ifs with hin
    · exact ⟨hpush hin, fun h => absurd h (by simp)⟩
    · exact ⟨h1, fun h => absurd h (by simp)⟩

/-- The second pass returns, and every local optimum it returns reaches its threshold. -/
theorem secondPass_ge (param : Parameters) (stage2_full_scan : Bool) (Q : Q_Info)
    (prevPos0 : SeqCoord) (ip : List IntervalPoint) (minimumHits : Int) (hip : ip ≠ []) :
    ∃ localOpts h, secondPass param stage2_full_scan Q prevPos0 ip minimumHits =
        some (localOpts, h) ∧ ∀ a ∈ localOpts, minimumHits ≤ a.intersectionSize := by
  cases ip with
  | nil => exact absurd rfl hip
  | cons p rest =>
    obtain ⟨st1, ⟨h1, h2⟩, _, h3⟩ := secondPassLoop_rule (windowLenOf param Q) minimumHits
      stage2_full_scan
      (fun st => (∀ a ∈ st.cand.localOpts, minimumHits ≤ a.intersectionSize) ∧
        (st.cand.in_candidate = true → minimumHits ≤ st.cand.l1_out.intersectionSize))
      (fun st q _ _ hI => recordOverlap_ge _ _ _ _ _ _ hI.1 hI.2)
      (p :: rest).length
      ⟨p :: rest, p :: rest, Sweep.start, prevPos0, ⟨p.seqId, p.pos⟩, ⟨false, ⟨0, 0, 0, 0⟩, []⟩⟩
      (Nat.le_refl _)
      ⟨fun _ h => absurd h (List.not_mem_nil _), fun h => absurd h (by simp)⟩
    refine ⟨st1.localOpts, st1.sweep.history, h3, ?_⟩
    intro a ha
    unfold SecondPass.localOpts at ha
    split_ifs at ha with hc
    · rw [List.mem_append, List.mem_singleton] at ha
      rcases ha with ha | rfl
      · exact h1 a ha
      · exact h2 hc
    · exact h1 a ha

/-- The first pass returns. -/
theorem firstPass_returns (param : Parameters) (Q : Q_Info) (ip : List IntervalPoint) :
    ∃ best h, firstPass param Q ip = some (best, h) := by
  obtain ⟨st1, _, _, h⟩ := firstPassLoop_rule (windowLenOf param Q) (fun _ => True)
    (fun _ _ _ _ _ => trivial) ip.length ⟨ip, ip, Sweep.start, 0⟩ (Nat.le_refl _) trivial
  exact ⟨_, _, h⟩

/-- C15. `computeL1CandidateRegions` on a range that holds a point returns; every locus it
appends behind the loci `l1Mappings` held before the call has `intersectionSize` at least the
`minimumHits` passed in, and at least the refined threshold when the top-ANI filter is on; when
the filter is on and the best overlap count found by the first pass is below `minimumHits`,
`l1Mappings` is left as it was. -/
theorem computeL1CandidateRegions_intersectionSize_ge (param : Parameters)
    (stage1_topANI_filter stage2_full_scan : Bool) (cutoff : Int → Int) (Q : Q_Info)
    (prevPos0 : SeqCoord) (ip : List IntervalPoint) (minimumHits : Int)
    (l1Mappings : List L1_candidateLocus_t) (hip : ip ≠ []) :
    ∃ out h best h1,
      computeL1CandidateRegions param stage1_topANI_filter stage2_full_scan cutoff Q prevPos0 ip
        minimumHits l1Mappings = some (out, h) ∧
      firstPass param Q ip = some (best, h1) ∧
      (∃ kept appended, out = kept ++ appended ∧ kept.length = l1Mappings.length ∧
        ∀ a ∈ appended, minimumHits ≤ a.intersectionSize ∧
          (stage1_topANI_filter = true →
            refinedMinimumHits cutoff Q best minimumHits ≤ a.intersectionSize)) ∧
      (stage1_topANI_filter = true → best < minimumHits → out = l1Mappings) := by
  obtain ⟨best, h1, hfirst⟩ := firstPass_returns param Q ip
  have hjoin : ∀ (m : Int) (localOpts : List L1_candidateLocus_t),
      (∀ a ∈ localOpts, m ≤ a.intersectionSize) →
      ∃ kept appended, localOpts.foldl (joinLocus param.segLength) l1Mappings = kept ++ appended ∧
        kept.length = l1Mappings.length ∧ ∀ a ∈ appended, m ≤ a.intersectionSize := by
    intro m localOpts hl
    exact foldl_joinLocus_appended param.segLength (fun a => m ≤ a.intersectionSize)
      (fun back x _ hx => le_trans hx (le_max_left _ _)) l1Mappings.length localOpts l1Mappings hl
      ⟨l1Mappings, [], by simp, rfl, fun _ h => absurd h (List.not_mem_nil _)⟩
  cases hs : stage1_topANI_filter with
  | false =>
    obtain ⟨localOpts, h2, hsec, hge⟩ :=
      secondPass_ge param stage2_full_scan Q prevPos0 ip minimumHits hip
    obtain ⟨kept, app, e1, e2, e3⟩ := hjoin minimumHits localOpts hge
    refine ⟨_, h2, best, h1, ?_, hfirst, ⟨kept, app, e1, e2, fun a ha => ⟨e3 a ha, ?_⟩⟩, ?_⟩
    · simp [computeL1CandidateRegions, hsec]
    · intro h; exact absurd h (by simp)
    · intro h; exact absurd h (by simp)
  | true =>
    by_cases hlt : best < minimumHits
    · refine ⟨l1Mappings, h1, best, h1, ?_, hfirst,
        ⟨l1Mappings, [], by simp, rfl, fun _ h => absurd h (List.not_mem_nil _)⟩, fun _ _ => rfl⟩
      simp [computeL1CandidateRegions, hfirst, hlt]
    · obtain ⟨localOpts, h2, hsec, hge⟩ := secondPass_ge param stage2_full_scan Q prevPos0 ip
        (refinedMinimumHits cutoff Q best minimumHits) hip
      obtain ⟨kept, app, e1, e2, e3⟩ := hjoin _ localOpts hge
      refine ⟨_, h2 ++ h1, best, h1, ?_, hfirst, ⟨kept, app, e1, e2, fun a ha => ⟨?_, ?_⟩⟩, ?_⟩
      · simp [computeL1CandidateRegions, hfirst, hlt, hsec]
      · exact le_trans (le_max_right _ _) (e3 a ha)
      · intro _; exact e3 a ha
      · intro _ h; exact absurd h hlt

theorem computeL1CandidateRegions_intersectionSize_ge_witness :
    ∃ out h best h1,
      computeL1CandidateRegions Parameters.sample true true (fun _ => 3) ⟨105, 3⟩ ⟨0, 0⟩
        IntervalPoint.samplePoints 2 [] = some (out, h) ∧
      firstPass Parameters.sample ⟨105, 3⟩ IntervalPoint.samplePoints = some (best, h1) ∧
      (∃ kept appended, out = kept ++ appended ∧
        kept.length = ([] : List L1_candidateLocus_t).length ∧
        ∀ a ∈ appended, 2 ≤ a.intersectionSize ∧
          (true = true →
            refinedMinimumHits (fun _ => 3) ⟨105, 3⟩ best 2 ≤ a.intersectionSize)) ∧
      (true = true → best < 2 → out = []) :=
  computeL1CandidateRegions_intersectionSize_ge Parameters.sample true true (fun _ => 3) ⟨105, 3⟩
    ⟨0, 0⟩ IntervalPoint.samplePoints 2 [] (by decide)

/-- C18. One call of `computeL1CandidateRegions` on an empty `l1Mappings` returns a list in
which any two consecutive loci with the same `seqId` satisfy
`next.rangeStartPos > prev.rangeEndPos + segLength`; its loci stand for consecutive runs of the
local optima of the second pass (none when the first pass ends the call), each with the largest
`intersectionSize` of its run. -/
theorem computeL1CandidateRegions_separated (param : Parameters)
    (stage1_topANI_filter stage2_full_scan : Bool) (cutoff : Int → Int) (Q : Q_Info)
    (prevPos0 : SeqCoord) (ip : List IntervalPoint) (minimumHits : Int) (hip : ip ≠ []) :
    ∃ out h,
      computeL1CandidateRegions param stage1_topANI_filter stage2_full_scan cutoff Q prevPos0 ip
        minimumHits [] = some (out, h) ∧
      List.Chain' (fun a b : L1_candidateLocus_t =>
        a.seqId = b.seqId → b.rangeStartPos > a.rangeEndPos + param.segLength) out ∧
      ∃ (localOpts : List L1_candidateLocus_t)
        (joined : List (List L1_candidateLocus_t × L1_candidateLocus_t)),
        (localOpts = [] ∨
          ∃ m h2, secondPass param stage2_full_scan Q prevPos0 ip m = some (localOpts, h2)) ∧
        out = joined.map Prod.snd ∧ localOpts = (joined.map Prod.fst).flatten ∧
        ∀ ga ∈ joined, JoinedFrom ga.1 ga.2 := by
  obtain ⟨best, h1, hfirst⟩ := firstPass_returns param Q ip
  have hjoin : ∀ localOpts : List L1_candidateLocus_t,
      JoinInv param.segLength localOpts (localOpts.foldl (joinLocus param.segLength) []) := by
    intro localOpts
    have := joinInv_foldl param.segLength localOpts [] [] (joinInv_nil _)
    simpa using this
  cases hs : stage1_topANI_filter with
  | false =>
    obtain ⟨localOpts, h2, hsec, _⟩ :=
      secondPass_ge param stage2_full_scan Q prevPos0 ip minimumHits hip
    obtain ⟨hch, joined, e1, e2, e3⟩ := hjoin localOpts
    exact ⟨_, h2, by simp [computeL1CandidateRegions, hsec], hch, localOpts, joined,
      Or.inr ⟨_, _, hsec⟩, e1, e2, e3⟩
  | true =>
    by_cases hlt : best < minimumHits
    · exact ⟨[], h1, by simp [computeL1CandidateRegions, hfirst, hlt], List.chain'_nil, [], [],
        Or.inl rfl, rfl, rfl, fun _ h => absurd h (List.not_mem_nil _)⟩
    · obtain ⟨localOpts, h2, hsec, _⟩ := secondPass_ge param stage2_full_scan Q prevPos0 ip
        (refinedMinimumHits cutoff Q best minimumHits) hip
      obtain ⟨hch, joined, e1, e2, e3⟩ := hjoin localOpts
      exact ⟨_, h2 ++ h1, by simp [computeL1CandidateRegions, hfirst, hlt, hsec], hch, localOpts,
        joined, Or.inr ⟨_, _, hsec⟩, e1, e2, e3⟩

theorem computeL1CandidateRegions_separated_witness :
    ∃ out h,
      computeL1CandidateRegions Parameters.sample true true (fun _ => 3) ⟨105, 3⟩ ⟨0, 0⟩
        IntervalPoint.samplePoints 2 [] = some (out, h) ∧
      List.Chain' (fun a b : L1_candidateLocus_t =>
        a.seqId = b.seqId → b.rangeStartPos > a.rangeEndPos + Parameters.sample.segLength) out ∧
      ∃ (localOpts : List L1_candidateLocus_t)
        (joined : List (List L1_candidateLocus_t × L1_candidateLocus_t)),
        (localOpts = [] ∨
          ∃ m h2, secondPass Parameters.sample true ⟨105, 3⟩ ⟨0, 0⟩ IntervalPoint.samplePoints m =
            some (localOpts, h2)) ∧
        out = joined.map Prod.snd ∧ localOpts = (joined.map Prod.fst).flatten ∧
        ∀ ga ∈ joined, JoinedFrom ga.1 ga.2 :=
  computeL1CandidateRegions_separated Parameters.sample true true (fun _ => 3) ⟨105, 3⟩ ⟨0, 0⟩
    IntervalPoint.samplePoints 2 (by decide)

end skch

namespace skch

theorem coordLE_refl (a : IntervalPoint) : coordLE a a := Or.inr ⟨rfl, le_refl _⟩

theorem coordLE_trans {a b c : IntervalPoint} (h1 : coordLE a b) (h2 : coordLE b c) :
    coordLE a c := by
  unfold coordLE at *
  omega

theorem LocusBefore.later {windowLen : Int} {a : L1_candidateLocus_t} {q r : IntervalPoint}
    (h : LocusBefore windowLen a q) (hqr : coordLE q r) : LocusBefore windowLen a r := by
  unfold LocusBefore coordLE at *
  omega

theorem CandInv.advance {windowLen : Int} {ip : List IntervalPoint} {q r : IntervalPoint}
    {c : Candidate} (h : CandInv windowLen ip q c) (hqr : coordLE q r) :
    CandInv windowLen ip r c where
  good := fun a ha => ⟨(h.good a ha).1, (h.good a ha).2.1, (h.good a ha).2.2.later hqr⟩
  good_out := fun hc => ⟨(h.good_out hc).1, (h.good_out hc).2.1, (h.good_out hc).2.2.later hqr⟩
  ordered := h.ordered
  ordered_out := h.ordered_out

/-- Pushing the locus under construction keeps the shape of the loci. -/
theorem CandInv.push {windowLen : Int} {ip : List IntervalPoint} {q : IntervalPoint}
    {c : Candidate} (h : CandInv windowLen ip q c) (hc : c.in_candidate = true)
    (l : L1_candidateLocus_t) :
    CandInv windowLen ip q ⟨false, l, c.localOpts ++ [c.l1_out]⟩ where
  good := by
    intro a ha
    rw [List.mem_append, List.mem_singleton] at ha
    rcases ha with ha | rfl
    · exact h.good a ha
    · exact h.good_out hc
  good_out := fun h1 => absurd h1 (by simp)
  ordered := by
    rw [List.pairwise_append]
    refine ⟨h.ordered, List.pairwise_singleton _ _, ?_⟩
    intro a ha b hb
    rw [List.mem_singleton] at hb
    subst hb
    exact h.ordered_out hc a ha
  ordered_out := fun h1 => absurd h1 (by simp)

/-- Opening a locus at the point `q` keeps the shape of the loci. -/
theorem CandInv.opened {windowLen : Int} {ip : List IntervalPoint} {q : IntervalPoint}
    {c : Candidate} (h : CandInv windowLen ip q c) (hq : q ∈ ip) (v : Int) :
    CandInv windowLen ip q
      ⟨true, ⟨q.seqId, q.pos - windowLen, q.pos - windowLen, v⟩, c.localOpts⟩ where
  good := h.good
  good_out := fun _ => ⟨le_refl _, ⟨q, hq, q, hq, rfl, rfl, rfl, rfl⟩,
    Or.inr ⟨rfl, by show q.pos - windowLen + windowLen ≤ q.pos; omega⟩⟩
  ordered := h.ordered
  ordered_out := by
    intro _ a ha hs
    have := (h.good a ha).2.2
    unfold LocusBefore at this
    show a.rangeStartPos ≤ q.pos - windowLen
    have hs2 : a.seqId = q.seqId := hs
    omega

/-- A round of the second pass that records at the point `q`, the point `currentPos` was at,
keeps the shape of the loci. -/
theorem recordOverlap_candInv (windowLen minimumHits : Int) (stage2_full_scan : Bool)
    (prevOverlap : Int) (ip : List IntervalPoint) (q : IntervalPoint) (hq : q ∈ ip)
    (c : Candidate) (h : CandInv windowLen ip q c) :
    CandInv windowLen ip q
      (recordOverlap windowLen minimumHits stage2_full_scan prevOverlap ⟨q.seqId, q.pos⟩ c) := by
  unfold recordOverlap
  by_cases hge : prevOverlap ≥ minimumHits
  · rw [if_pos hge]
    by_cases hfl : c.l1_out.seqId ≠ q.seqId ∧ c.in_candidate = true
    · simp only [hfl, ne_eq, not_false_eq_true, and_self, if_true]
      exact (h.push hfl.2 ⟨0, 0, 0, 0⟩).opened hq prevOverlap
    · rw [if_neg hfl]
      dsimp only
      by_cases hin : c.in_candidate = false
      · rw [if_pos hin]
        exact h.opened hq prevOverlap
      · rw [if_neg hin]
        have hin2 : c.in_candidate = true := by simpa using hin
        have hseq : c.l1_out.seqId = q.seqId := by
          by_contra hne
          exact hfl ⟨hne, hin2⟩
        obtain ⟨g1, ⟨p1, hp1, p2, hp2, e1, e2, e3, e4⟩, g3⟩ := h.good_out hin2
        have hstart : c.l1_out.rangeStartPos + windowLen ≤ q.pos := by
          unfold LocusBefore at g3
          omega
        split_ifs
        · exact {
            good := h.good
            good_out := fun _ => ⟨by show c.l1_out.rangeStartPos ≤ q.pos - windowLen; omega,
              ⟨p1, hp1, q, hq, e1, hseq.symm, e3, rfl⟩, g3⟩
            ordered := h.ordered
            ordered_out := fun _ a ha => h.ordered_out hin2 a ha }
        · exact {
            good := h.good
            good_out := fun _ => ⟨le_refl _, ⟨q, hq, q, hq, hseq.symm, hseq.symm, rfl, rfl⟩,
              Or.inr ⟨hseq, by show q.pos - windowLen + windowLen ≤ q.pos; omega⟩⟩
            ordered := h.ordered
            ordered_out := by
              intro _ a ha hs
              have := (h.good a ha).2.2
              unfold LocusBefore at this
              show a.rangeStartPos ≤ q.pos - windowLen
              have hs2 : a.seqId = c.l1_out.seqId := hs
              omega }
        · exact h
  · rw [if_neg hge]
    split_ifs with hin
    · exact h.push hin ⟨0, 0, 0, 0⟩
    · exact {
        good := h.good
        good_out := fun h1 => absurd h1 (by simp)
        ordered := h.ordered
        ordered_out := fun h1 => absurd h1 (by simp) }

/-- A round of the second pass whose overlap count is below the threshold keeps the shape of
the loci, whatever `prevPos` holds. -/
theorem recordOverlap_candInv_of_lt (windowLen minimumHits : Int) (stage2_full_scan : Bool)
    (prevOverlap : Int) (prevPos : SeqCoord) (ip : List IntervalPoint) (q : IntervalPoint)
    (c : Candidate) (hlt : prevOverlap < minimumHits) (h : CandInv windowLen ip q c) :
    CandInv windowLen ip q
      (recordOverlap windowLen minimumHits stage2_full_scan prevOverlap prevPos c) := by
  unfold recordOverlap
  rw [if_neg (not_le.mpr hlt)]
  split_ifs with hin
  · exact h.push hin ⟨0, 0, 0, 0⟩
  · exact {
      good := h.good
      good_out := fun h1 => absurd h1 (by simp)
      ordered := h.ordered
      ordered_out := fun h1 => absurd h1 (by simp) }

/-- A round of the second pass keeps its invariant. -/
theorem secondPassRound_inv (windowLen minimumHits : Int) (stage2_full_scan : Bool)
    (hmin : 1 ≤ minimumHits) (ip : List IntervalPoint) (st : SecondPass) (p : IntervalPoint)
    (rest : List IntervalPoint) (hl : st.leadingIt = p :: rest) (q : IntervalPoint)
    (h : SecondPassInv windowLen ip st q) :
    ∃ q1, SecondPassInv windowLen ip
      (secondPassRound windowLen minimumHits stage2_full_scan st p) q1 := by
  obtain ⟨group, h1, _, h3, _⟩ := leadingLoop_spec windowLen p.pos st.leadingIt
    (trailingLoop windowLen p st.trailingIt st.sweep).2
  have hlead := secondPassRound_leadingIt windowLen minimumHits stage2_full_scan st p
  have hcur := secondPassRound_currentPos windowLen minimumHits stage2_full_scan st p
  have hsubl : ∀ x ∈ (secondPassRound windowLen minimumHits stage2_full_scan st p).leadingIt,
      x ∈ st.leadingIt := by
    intro x hx
    rw [hlead] at hx
    rw [h1]
    exact List.mem_append_right _ hx
  have hsorted : (secondPassRound windowLen minimumHits stage2_full_scan st p).leadingIt.Pairwise
      coordLE := by
    rw [hlead]
    have := h.sorted
    rw [h1, List.pairwise_append] at this
    exact this.2.1
  have hmoved : ∀ y ∈ (secondPassRound windowLen minimumHits stage2_full_scan st p).leadingIt.head?,
      y.pos ≠ (secondPassRound windowLen minimumHits stage2_full_scan st p).currentPos.pos := by
    rw [hlead, hcur]
    exact h3
  have hp : p ∈ st.leadingIt := by rw [hl]; exact List.mem_cons_self _ _
  by_cases hpos : p.pos = st.currentPos.pos
  · have hzero : st.sweep.overlapCount = 0 := by
      rcases h.moved with h0 | h0
      · exact h0
      · exact absurd hpos (h0 p (by rw [hl]; simp))
    refine ⟨q, h.mem, ?_, fun x hx => h.before x (hsubl x hx), hsorted,
      fun x hx => h.sub x (hsubl x hx), ?_, Or.inr hmoved⟩
    · simp only [secondPassRound, hpos, ne_eq, not_true_eq_false, if_false]
      exact h.current
    · simp only [secondPassRound, hpos, ne_eq, not_true_eq_false, if_false]
      exact recordOverlap_candInv_of_lt _ _ _ _ _ _ _ _ (by rw [hzero]; omega) h.cand
  · refine ⟨p, h.sub p hp, ?_, ?_, hsorted, fun x hx => h.sub x (hsubl x hx), ?_, Or.inr hmoved⟩
    · simp only [secondPassRound, hpos, ne_eq, not_false_eq_true, if_true]
    · intro x hx
      have hx2 := hsubl x hx
      rw [hl] at hx2
      rcases List.mem_cons.mp hx2 with rfl | hx3
      · exact coordLE_refl _
      · have := h.sorted
        rw [hl, List.pairwise_cons] at this
        exact this.1 x hx3
    · simp only [secondPassRound, hpos, ne_eq, not_false_eq_true, if_true]
      rw [h.current]
      exact (recordOverlap_candInv _ _ _ _ _ _ h.mem _ h.cand).advance (h.before p hp)

/-- The second pass on points in the order of `(seqId, pos)` with a threshold of at least one
returns, and its local optima have their ends in order and at points of their own sequence, and
are ordered by their starts within a sequence. -/
theorem secondPass_ordered (param : Parameters) (stage2_full_scan : Bool) (Q : Q_Info)
    (prevPos0 : SeqCoord) (ip : List IntervalPoint) (minimumHits : Int) (hip : ip ≠ [])
    (hsorted : ip.Pairwise coordLE) (hmin : 1 ≤ minimumHits) :
    ∃ localOpts h, secondPass param stage2_full_scan Q prevPos0 ip minimumHits =
        some (localOpts, h) ∧
      (∀ a ∈ localOpts, a.rangeStartPos ≤ a.rangeEndPos ∧ FromPoints (windowLenOf param Q) ip a) ∧
      localOpts.Pairwise StartsOrdered := by
  cases ip with
  | nil => exact absurd rfl hip
  | cons p rest =>
    obtain ⟨st1, ⟨q, hI⟩, _, h3⟩ := secondPassLoop_rule (windowLenOf param Q) minimumHits
      stage2_full_scan
      (fun st => ∃ q, SecondPassInv (windowLenOf param Q) (p :: rest) st q)
      (fun st p1 rest1 hl hI => by
        obtain ⟨q, hq⟩ := hI
        exact secondPassRound_inv _ _ _ hmin _ st p1 rest1 hl q hq)
      (p :: rest).length
      ⟨p :: rest, p :: rest, Sweep.start, prevPos0, ⟨p.seqId, p.pos⟩, ⟨false, ⟨0, 0, 0, 0⟩, []⟩⟩
      (Nat.le_refl _)
      ⟨p, {
        mem := List.mem_cons_self _ _
        current := rfl
        before := by
          intro x hx
          rcases List.mem_cons.mp hx with rfl | hx
          · exact coordLE_refl _
          · exact (List.pairwise_cons.mp hsorted).1 x hx
        sorted := hsorted
        sub := fun _ hx => hx
        cand := {
          good := fun _ h => absurd h (List.not_mem_nil _)
          good_out := fun h => absurd h (by simp)
          ordered := List.Pairwise.nil
          ordered_out := fun h => absurd h (by simp) }
        moved := Or.inl rfl }⟩
    refine ⟨st1.localOpts, st1.sweep.history, h3, ?_, ?_⟩
    · intro a ha
      unfold SecondPass.localOpts at ha
      split_ifs at ha with hc
      · rw [List.mem_append, List.mem_singleton] at ha
        rcases ha with ha | rfl
        · exact ⟨(hI.cand.good a ha).1, (hI.cand.good a ha).2.1⟩
        · exact ⟨(hI.cand.good_out hc).1, (hI.cand.good_out hc).2.1⟩
      · exact ⟨(hI.cand.good a ha).1, (hI.cand.good a ha).2.1⟩
    · unfold SecondPass.localOpts
      split_ifs with hc
      · exact (hI.cand.push hc ⟨0, 0, 0, 0⟩).ordered
      · exact hI.cand.ordered

end skch

namespace skch

/-- Local optima on other sequences than the loci already in `l1Mappings` are joined among
themselves and appended. -/
theorem foldl_joinLocus_of_ne (clusterLen : Int) (l1Mappings localOpts : List L1_candidateLocus_t)
    (hne : ∀ a ∈ l1Mappings, ∀ x ∈ localOpts, x.seqId ≠ a.seqId) :
    localOpts.foldl (joinLocus clusterLen) l1Mappings =
      l1Mappings ++ localOpts.foldl (joinLocus clusterLen) [] := by
  cases localOpts with
  | nil => simp
  | cons x rest =>
    rw [List.foldl_cons, List.foldl_cons, joinLocus_nil]
    have h1 : joinLocus clusterLen l1Mappings x = l1Mappings ++ [x] := by
      rcases joinLocus_cases clusterLen l1Mappings x with h | ⟨init, back, h1, h2, _, _⟩
      · exact h
      · exact absurd h2 (hne back (by rw [h1]; simp) x (List.mem_cons_self _ _))
    rw [h1]
    exact foldl_joinLocus_append clusterLen rest l1Mappings [x] (by simp)

/-- A locus that stands for a run of local optima with ordered ends, ordered among themselves
by their starts, has its ends in order and at points of its sequence. -/
theorem JoinedFrom.range {windowLen : Int} {ip : List IntervalPoint}
    {g : List L1_candidateLocus_t} {a : L1_candidateLocus_t} (h : JoinedFrom g a)
    (hg : ∀ b ∈ g, b.rangeStartPos ≤ b.rangeEndPos ∧ FromPoints windowLen ip b)
    (hord : g.Pairwise StartsOrdered) :
    a.rangeStartPos ≤ a.rangeEndPos ∧ FromPoints windowLen ip a := by
  obtain ⟨hseq, ⟨first, last, hf, hl, hs, he⟩, _⟩ := h
  cases g with
  | nil => simp at hf
  | cons f tail =>
    simp only [List.head?_cons, Option.some.injEq] at hf
    subst hf
    have hlast : last ∈ f :: tail := List.mem_of_mem_getLast? (Option.mem_def.mpr hl)
    have hfm : f ∈ f :: tail := List.mem_cons_self _ _
    obtain ⟨_, p1, hp1, _, _, e1, _, e3, _⟩ := hg f hfm
    obtain ⟨hle, _, _, p2, hp2, _, e2, _, e4⟩ := hg last hlast
    refine ⟨?_, p1, hp1, p2, hp2, by rw [e1, hseq f hfm], by rw [e2, hseq last hlast],
      by rw [hs, e3], by rw [he, e4]⟩
    rw [hs, he]
    rcases List.mem_cons.mp hlast with rfl | ht
    · exact hle
    · have := (List.pairwise_cons.mp hord).1 last ht
        (by rw [hseq f hfm, hseq last hlast])
      exact le_trans this hle

/-- C17. For interval points in the order of `(seqId, pos)`, a threshold of at least one
(`minimumHits >= 1`, or the top-ANI filter on with a table of cutoffs that are at least one) and
loci already in `l1Mappings` that lie on other sequences than the points,
`computeL1CandidateRegions` returns `l1Mappings` followed by loci that satisfy
`rangeStartPos <= rangeEndPos` and whose two ends are positions of points of the sequence of the
locus, moved back by `windowLen`; the same holds of the local optima of the second pass before
they are joined, with or without the full scan. -/
theorem computeL1CandidateRegions_range_in_order (param : Parameters)
    (stage1_topANI_filter stage2_full_scan : Bool) (cutoff : Int → Int) (Q : Q_Info)
    (prevPos0 : SeqCoord) (ip : List IntervalPoint) (minimumHits : Int)
    (l1Mappings : List L1_candidateLocus_t) (hip : ip ≠ []) (hsorted : ip.Pairwise coordLE)
    (hmin : 1 ≤ minimumHits ∨ (stage1_topANI_filter = true ∧ ∀ x, 1 ≤ cutoff x))
    (hother : ∀ a ∈ l1Mappings, ∀ p ∈ ip, p.seqId ≠ a.seqId) :
    (∃ out h appended,
      computeL1CandidateRegions param stage1_topANI_filter stage2_full_scan cutoff Q prevPos0 ip
        minimumHits l1Mappings = some (out, h) ∧
      out = l1Mappings ++ appended ∧
      ∀ a ∈ appended, a.rangeStartPos ≤ a.rangeEndPos ∧ FromPoints (windowLenOf param Q) ip a) ∧
    ∀ m, 1 ≤ m → ∃ localOpts h2,
      secondPass param stage2_full_scan Q prevPos0 ip m = some (localOpts, h2) ∧
      ∀ a ∈ localOpts, a.rangeStartPos ≤ a.rangeEndPos ∧ FromPoints (windowLenOf param Q) ip a := by
  have hsecond : ∀ m, 1 ≤ m → ∃ localOpts h2,
      secondPass param stage2_full_scan Q prevPos0 ip m = some (localOpts, h2) ∧
      (∀ a ∈ localOpts,
        a.rangeStartPos ≤ a.rangeEndPos ∧ FromPoints (windowLenOf param Q) ip a) ∧
      localOpts.foldl (joinLocus param.segLength) l1Mappings =
        l1Mappings ++ localOpts.foldl (joinLocus param.segLength) [] ∧
      ∀ a ∈ localOpts.foldl (joinLocus param.segLength) [],
        a.rangeStartPos ≤ a.rangeEndPos ∧ FromPoints (windowLenOf param Q) ip a := by
    intro m hm
    obtain ⟨localOpts, h2, hsec, hgood, hord⟩ :=
      secondPass_ordered param stage2_full_scan Q prevPos0 ip m hip hsorted hm
    refine ⟨localOpts, h2, hsec, hgood, ?_, ?_⟩
    · apply foldl_joinLocus_of_ne
      intro a ha x hx
      obtain ⟨_, p, hp, _, _, e, _⟩ := hgood x hx
      rw [← e]
      exact hother a ha p hp
    · have hj := joinInv_foldl param.segLength localOpts [] [] (joinInv_nil _)
      rw [List.nil_append] at hj
      obtain ⟨_, joined, e1, e2, e3⟩ := hj
      intro a ha
      rw [e1, List.mem_map] at ha
      obtain ⟨ga, hga, rfl⟩ := ha
      have hsub : List.Sublist ga.1 localOpts := by
        rw [e2]
        exact List.sublist_flatten_of_mem (List.mem_map_of_mem _ hga)
      exact (e3 ga hga).range (fun b hb => hgood b (hsub.subset hb)) (hord.sublist hsub)
  refine ⟨?_, fun m hm => ?_⟩
  swap
  · obtain ⟨localOpts, h2, hsec, hgood, _⟩ := hsecond m hm
    exact ⟨localOpts, h2, hsec, hgood⟩
  obtain ⟨best, h1, hfirst⟩ := firstPass_returns param Q ip
  cases hs : stage1_topANI_filter with
  | false =>
    have hmin1 : 1 ≤ minimumHits := by
      rcases hmin with h | h
      · exact h
      · rw [hs] at h
        exact absurd h.1 (by simp)
    obtain ⟨localOpts, h2, hsec, _, e1, e2⟩ := hsecond minimumHits hmin1
    exact ⟨_, h2, _, by simp [computeL1CandidateRegions, hsec], e1, e2⟩
  | true =>
    by_cases hlt : best < minimumHits
    · exact ⟨l1Mappings, h1, [], by simp [computeL1CandidateRegions, hfirst, hlt], by simp,
        fun _ h => absurd h (List.not_mem_nil _)⟩
    · obtain ⟨localOpts, h2, hsec, _, e1, e2⟩ :=
        hsecond (refinedMinimumHits cutoff Q best minimumHits) (by
          rcases hmin with h | h
          · exact le_trans h (le_max_right _ _)
          · exact le_trans (h.2 _) (le_max_left _ _))
      exact ⟨_, h2 ++ h1, _, by simp [computeL1CandidateRegions, hfirst, hlt, hsec], e1, e2⟩

theorem computeL1CandidateRegions_range_in_order_witness :
    (∃ out h appended,
      computeL1CandidateRegions Parameters.sample true true (fun _ => 3) ⟨105, 3⟩ ⟨0, 0⟩
        IntervalPoint.samplePoints 2 [⟨7, 1, 2, 3⟩] = some (out, h) ∧
      out = [⟨7, 1, 2, 3⟩] ++ appended ∧
      ∀ a ∈ appended, a.rangeStartPos ≤ a.rangeEndPos ∧
        FromPoints (windowLenOf Parameters.sample ⟨105, 3⟩) IntervalPoint.samplePoints a) ∧
    ∀ m, 1 ≤ m → ∃ localOpts h2,
      secondPass Parameters.sample true ⟨105, 3⟩ ⟨0, 0⟩ IntervalPoint.samplePoints m =
        some (localOpts, h2) ∧
      ∀ a ∈ localOpts, a.rangeStartPos ≤ a.rangeEndPos ∧
        FromPoints (windowLenOf Parameters.sample ⟨105, 3⟩) IntervalPoint.samplePoints a :=
  computeL1CandidateRegions_range_in_order Parameters.sample true true (fun _ => 3) ⟨105, 3⟩
    ⟨0, 0⟩ IntervalPoint.samplePoints 2 [⟨7, 1, 2, 3⟩] (by decide) (by decide)
    (Or.inl (by decide)) (by decide)

end skch

namespace skch

/-- Two predicates that agree on a list without repetition, except at one element of it, pick
as many elements up to that one. -/
theorem length_filter_except {α : Type} [DecidableEq α] (P Q : α → Bool) (x : α) :
    ∀ (l : List α), l.Nodup → x ∈ l → (∀ y ∈ l, y ≠ x → P y = Q y) →
      (l.filter P).length + (if Q x = true then 1 else 0) =
        (l.filter Q).length + (if P x = true then 1 else 0)
  | [], _, hx, _ => absurd hx (List.not_mem_nil _)
  | a :: l, hn, hx, h => by
    have hnl : l.Nodup := (List.nodup_cons.mp hn).2
    have hal : a ∉ l := (List.nodup_cons.mp hn).1
    by_cases hax : a = x
    · subst hax
      have hsame : l.filter P = l.filter Q := by
        apply List.filter_congr
        intro y hy
        exact h y (List.mem_cons_of_mem _ hy) (fun e => hal (e ▸ hy))
      simp only [List.filter_cons, hsame]
      cases P a <;> cases Q a <;> simp
    · have hx2 : x ∈ l := by
        rcases List.mem_cons.mp hx with e | e
        · exact absurd e.symm hax
        · exact e
      have ih := length_filter_except P Q x l hnl hx2
        (fun y hy hyx => h y (List.mem_cons_of_mem _ hy) hyx)
      have ha := h a (List.mem_cons_self _ _) hax
      simp only [List.filter_cons, ha]
      cases Q a <;> simp <;> omega

theorem hash_mem_sketchHashes {ip : List IntervalPoint} {p : IntervalPoint} (hp : p ∈ ip) :
    p.hash ∈ sketchHashes ip :=
  List.mem_dedup.mpr (List.mem_map_of_mem _ hp)

theorem nodup_sketchHashes (ip : List IntervalPoint) : (sketchHashes ip).Nodup :=
  List.nodup_dedup _

/-- With `windowLen != 0` the body of the trailing loop on a `CLOSE` keeps the invariant. -/
theorem closePoint_invN {windowLen : Int} (hw : windowLen ≠ 0) {ip : List IntervalPoint}
    {p : IntervalPoint} (hp : p ∈ ip) {s : Sweep} (h : SweepInvN ip s) :
    SweepInvN ip (closePoint windowLen p s) := by
  have key := length_filter_except (fun h => decide (0 < s.hash_to_freq h))
    (fun h => decide (0 < Function.update s.hash_to_freq p.hash (s.hash_to_freq p.hash - 1) h))
    p.hash (sketchHashes ip) (nodup_sketchHashes ip) (hash_mem_sketchHashes hp)
    (fun y _ hy => by simp [Function.update_noteq hy])
  simp only [Function.update_same, decide_eq_true_eq] at key
  have hle := List.length_filter_le
    (fun h => decide (0 < Function.update s.hash_to_freq p.hash (s.hash_to_freq p.hash - 1) h))
    (sketchHashes ip)
  have hc := h.count
  unfold closePoint
  simp only [hw, ne_eq, not_false_eq_true, if_true, false_or, Function.update_same]
  split_ifs with h0
  · have e1 : ¬ (0 < s.hash_to_freq p.hash - 1) := by omega
    have e2 : 0 < s.hash_to_freq p.hash := by omega
    rw [if_neg e1, if_pos e2] at key
    refine ⟨?_, ?_⟩
    · show s.overlapCount - 1 = ((sketchHashes ip).filter (fun h =>
        decide (0 < Function.update s.hash_to_freq p.hash (s.hash_to_freq p.hash - 1) h))).length
      rw [hc]; omega
    · intro v hv
      rcases List.mem_cons.mp hv with rfl | hv
      · rw [hc]; omega
      · exact h.hist v hv
  · refine ⟨?_, h.hist⟩
    show s.overlapCount = ((sketchHashes ip).filter (fun h =>
        decide (0 < Function.update s.hash_to_freq p.hash (s.hash_to_freq p.hash - 1) h))).length
    by_cases e2 : 0 < s.hash_to_freq p.hash
    · have e1 : 0 < s.hash_to_freq p.hash - 1 := by omega
      rw [if_pos e1, if_pos e2] at key
      rw [hc]; omega
    · have e1 : ¬ (0 < s.hash_to_freq p.hash - 1) := by omega
      rw [if_neg e1, if_neg e2] at key
      rw [hc]; omega

/-- With `windowLen != 0` the body of the leading loop on an `OPEN` keeps the invariant. -/
theorem openPoint_invN {windowLen : Int} (hw : windowLen ≠ 0) {ip : List IntervalPoint}
    {p : IntervalPoint} (hp : p ∈ ip) {s : Sweep} (h : SweepInvN ip s) :
    SweepInvN ip (openPoint windowLen p s) := by
  have key := length_filter_except (fun h => decide (0 < s.hash_to_freq h))
    (fun h => decide (0 < Function.update s.hash_to_freq p.hash (s.hash_to_freq p.hash + 1) h))
    p.hash (sketchHashes ip) (nodup_sketchHashes ip) (hash_mem_sketchHashes hp)
    (fun y _ hy => by simp [Function.update_noteq hy])
  simp only [Function.update_same, decide_eq_true_eq] at key
  have hle := List.length_filter_le
    (fun h => decide (0 < Function.update s.hash_to_freq p.hash (s.hash_to_freq p.hash + 1) h))
    (sketchHashes ip)
  have hc := h.count
  unfold openPoint
  simp only [hw, ne_eq, not_false_eq_true, if_true, false_or]
  split_ifs with h0
  · have e1 : 0 < s.hash_to_freq p.hash + 1 := by omega
    have e2 : ¬ (0 < s.hash_to_freq p.hash) := by omega
    rw [if_pos e1, if_neg e2] at key
    refine ⟨?_, ?_⟩
    · show s.overlapCount + 1 = ((sketchHashes ip).filter (fun h =>
        decide (0 < Function.update s.hash_to_freq p.hash (s.hash_to_freq p.hash + 1) h))).length
      rw [hc]; omega
    · intro v hv
      rcases List.mem_cons.mp hv with rfl | hv
      · rw [hc]; omega
      · exact h.hist v hv
  · refine ⟨?_, h.hist⟩
    show s.overlapCount = ((sketchHashes ip).filter (fun h =>
        decide (0 < Function.update s.hash_to_freq p.hash (s.hash_to_freq p.hash + 1) h))).length
    by_cases e2 : 0 < s.hash_to_freq p.hash
    · have e1 : 0 < s.hash_to_freq p.hash + 1 := by omega
      rw [if_pos e1, if_pos e2] at key
      rw [hc]; omega
    · have e1 : ¬ (0 < s.hash_to_freq p.hash + 1) := by omega
      rw [if_neg e1, if_neg e2] at key
      rw [hc]; omega

theorem trailingLoop_invN {windowLen : Int} (hw : windowLen ≠ 0) {ip : List IntervalPoint}
    (leading : IntervalPoint) : ∀ (trailing : List IntervalPoint) (s : Sweep),
      (∀ x ∈ trailing, x ∈ ip) → SweepInvN ip s →
      SweepInvN ip (trailingLoop windowLen leading trailing s).2 ∧
        ∀ x ∈ (trailingLoop windowLen leading trailing s).1, x ∈ ip
  | [], s, hsub, h => ⟨h, hsub⟩
  | t :: rest, s, hsub, h => by
    rw [trailingLoop]
    split_ifs with hb hc
    · exact trailingLoop_invN hw leading rest _ (fun x hx => hsub x (List.mem_cons_of_mem _ hx))
        (closePoint_invN hw (hsub t (List.mem_cons_self _ _)) h)
    · exact trailingLoop_invN hw leading rest _ (fun x hx => hsub x (List.mem_cons_of_mem _ hx)) h
    · exact ⟨h, hsub⟩

theorem leadingLoop_invN {windowLen : Int} (hw : windowLen ≠ 0) {ip : List IntervalPoint}
    (currentPos : Int) : ∀ (leading : List IntervalPoint) (s : Sweep),
      (∀ x ∈ leading, x ∈ ip) → SweepInvN ip s →
      SweepInvN ip (leadingLoop windowLen currentPos leading s).2 ∧
        ∀ x ∈ (leadingLoop windowLen currentPos leading s).1, x ∈ ip
  | [], s, hsub, h => ⟨h, hsub⟩
  | t :: rest, s, hsub, h => by
    rw [leadingLoop]
    split_ifs with hb hc
    · exact leadingLoop_invN hw currentPos rest _ (fun x hx => hsub x (List.mem_cons_of_mem _ hx))
        (openPoint_invN hw (hsub t (List.mem_cons_self _ _)) h)
    · exact leadingLoop_invN hw currentPos rest _ (fun x hx => hsub x (List.mem_cons_of_mem _ hx)) h
    · exact ⟨h, hsub⟩

end skch

namespace skch

theorem trailingBehind_zero (c o : IntervalPoint) :
    trailingBehind 0 c o = true ↔ (c.seqId = o.seqId ∧ c.pos ≤ o.pos) ∨ c.seqId < o.seqId := by
  simp [trailingBehind]

theorem trailingBehind_zero_false (c o : IntervalPoint) :
    trailingBehind 0 c o = false ↔
      ¬ ((c.seqId = o.seqId ∧ c.pos ≤ o.pos) ∨ c.seqId < o.seqId) := by
  rw [← trailingBehind_zero, Bool.not_eq_true]

namespace WellFormedPoints

variable {ip : List IntervalPoint} {ws : List (IntervalPoint × IntervalPoint)}

theorem mem_iff (h : WellFormedPoints ip ws) (x : IntervalPoint) :
    x ∈ ip ↔ ∃ w ∈ ws, x = w.1 ∨ x = w.2 := by
  rw [h.perm.mem_iff]
  simp [windowPoints, List.mem_flatMap]

theorem open_mem (h : WellFormedPoints ip ws) {w : IntervalPoint × IntervalPoint} (hw : w ∈ ws) :
    w.1 ∈ ip := (h.mem_iff _).mpr ⟨w, hw, Or.inl rfl⟩

theorem close_mem (h : WellFormedPoints ip ws) {w : IntervalPoint × IntervalPoint} (hw : w ∈ ws) :
    w.2 ∈ ip := (h.mem_iff _).mpr ⟨w, hw, Or.inr rfl⟩

/-- Two windows that do not overlap, or lie on different sequences or have different hashes,
share neither their opening nor their closing point. -/
theorem points_ne (h : WellFormedPoints ip ws) {a b : IntervalPoint × IntervalPoint}
    (ha : a ∈ ws) (hb : b ∈ ws)
    (hd : a.1.hash = b.1.hash → a.1.seqId = b.1.seqId → a.2.pos ≤ b.1.pos ∨ b.2.pos ≤ a.1.pos) :
    a.1 ≠ b.1 ∧ a.2 ≠ b.2 := by
  obtain ⟨_, _, a3, a4, a5⟩ := h.window a ha
  obtain ⟨_, _, b3, b4, b5⟩ := h.window b hb
  constructor
  · intro e
    have := hd (by rw [e]) (by rw [e])
    rw [e] at a5
    have e2 : a.1.pos = b.1.pos := by rw [e]
    omega
  · intro e
    have e1 : a.1.hash = b.1.hash := by rw [← a3, ← b3, e]
    have e2 : a.1.seqId = b.1.seqId := by rw [← a4, ← b4, e]
    have := hd e1 e2
    have e3 : a.2.pos = b.2.pos := by rw [e]
    omega

theorem disjoint_of_ne (h : WellFormedPoints ip ws) {a b : IntervalPoint × IntervalPoint}
    (ha : a ∈ ws) (hb : b ∈ ws) (hab : a ≠ b) :
    a.1.hash = b.1.hash → a.1.seqId = b.1.seqId → a.2.pos ≤ b.1.pos ∨ b.2.pos ≤ a.1.pos := by
  have hsym : Symmetric (fun a b : IntervalPoint × IntervalPoint =>
      a.1.hash = b.1.hash → a.1.seqId = b.1.seqId → a.2.pos ≤ b.1.pos ∨ b.2.pos ≤ a.1.pos) := by
    intro x y hxy e1 e2
    exact (hxy e1.symm e2.symm).symm
  exact h.disjoint.forall hsym ha hb hab

theorem eq_of_open_eq (h : WellFormedPoints ip ws) {a b : IntervalPoint × IntervalPoint}
    (ha : a ∈ ws) (hb : b ∈ ws) (e : a.1 = b.1) : a = b := by
  by_contra hab
  exact (h.points_ne ha hb (h.disjoint_of_ne ha hb hab)).1 e

theorem eq_of_close_eq (h : WellFormedPoints ip ws) {a b : IntervalPoint × IntervalPoint}
    (ha : a ∈ ws) (hb : b ∈ ws) (e : a.2 = b.2) : a = b := by
  by_contra hab
  exact (h.points_ne ha hb (h.disjoint_of_ne ha hb hab)).2 e

theorem open_ne_close (h : WellFormedPoints ip ws) {a b : IntervalPoint × IntervalPoint}
    (ha : a ∈ ws) (hb : b ∈ ws) : a.1 ≠ b.2 := by
  intro e
  have h1 := (h.window a ha).1
  have h2 := (h.window b hb).2.1
  rw [e, h2] at h1
  exact absurd h1 (by decide)

theorem nodup_windows (h : WellFormedPoints ip ws) : ws.Nodup := by
  refine h.disjoint.imp_of_mem ?_
  intro a b ha hb hd e
  exact (h.points_ne ha hb hd).1 (by rw [e])

theorem nodup_points (h : WellFormedPoints ip ws) : ip.Nodup := by
  rw [h.perm.nodup_iff]
  unfold windowPoints
  rw [List.nodup_flatMap]
  constructor
  · intro w hw
    have := h.open_ne_close hw hw
    simp [this]
  · refine h.disjoint.imp_of_mem ?_
    intro a b ha hb hd
    have h1 := h.points_ne ha hb hd
    have h2 := h.open_ne_close ha hb
    have h3 := h.open_ne_close hb ha
    simp only [Function.onFun, List.disjoint_cons_left, List.mem_cons, List.mem_singleton,
      List.not_mem_nil, or_false, not_or, List.disjoint_nil_left, and_true]
    exact ⟨⟨h1.1, h2⟩, fun e => h3 e.symm, h1.2⟩

/-- A `CLOSE` among the points is the closing point of a window. -/
theorem close_of_mem (h : WellFormedPoints ip ws) {t : IntervalPoint} (ht : t ∈ ip)
    (hs : t.side = side.CLOSE) : ∃ w ∈ ws, t = w.2 := by
  obtain ⟨w, hw, e | e⟩ := (h.mem_iff t).mp ht
  · rw [e, (h.window w hw).1] at hs
    exact absurd hs (by decide)
  · exact ⟨w, hw, e⟩

/-- A point among the points that is not a `CLOSE` is the opening point of a window. -/
theorem open_of_mem (h : WellFormedPoints ip ws) {t : IntervalPoint} (ht : t ∈ ip)
    (hs : t.side ≠ side.CLOSE) : ∃ w ∈ ws, t = w.1 := by
  obtain ⟨w, hw, e | e⟩ := (h.mem_iff t).mp ht
  · exact ⟨w, hw, e⟩
  · rw [e] at hs
    exact absurd (h.window w hw).2.1 hs

end WellFormedPoints

/-- With `windowLen == 0`, the active windows have different hashes, so there are at most as
many of them as distinct hashes. -/
theorem length_activeWindows_le {ip : List IntervalPoint}
    {ws : List (IntervalPoint × IntervalPoint)} (hwf : WellFormedPoints ip ws)
    {ct trailing cl : List IntervalPoint} (hsplit : ip = ct ++ trailing)
    (hapart : ∀ w ∈ ws, w.2 ∈ trailing → ∀ o ∈ cl, trailingBehind 0 w.2 o = false) :
    (activeWindows ws cl ct).length ≤ (sketchHashes ip).length := by
  have hact : ∀ a ∈ activeWindows ws cl ct, a ∈ ws ∧ a.1 ∈ cl ∧ a.2 ∈ trailing := by
    intro a ha
    unfold activeWindows at ha
    rw [List.mem_filter, decide_eq_true_eq] at ha
    refine ⟨ha.1, ha.2.1, ?_⟩
    have := hwf.close_mem ha.1
    rw [hsplit, List.mem_append] at this
    rcases this with h | h
    · exact absurd h ha.2.2
    · exact h
  have hpair : (activeWindows ws cl ct).Pairwise (fun a b => a.1.hash ≠ b.1.hash) := by
    have h1 : (activeWindows ws cl ct).Pairwise (fun a b => a.1.hash = b.1.hash →
        a.1.seqId = b.1.seqId → a.2.pos ≤ b.1.pos ∨ b.2.pos ≤ a.1.pos) :=
      hwf.disjoint.filter _
    refine h1.imp_of_mem ?_
    intro a b ha hb hd e
    obtain ⟨ha1, ha2, ha3⟩ := hact a ha
    obtain ⟨hb1, hb2, hb3⟩ := hact b hb
    have n1 := (trailingBehind_zero_false _ _).mp (hapart a ha1 ha3 b.1 hb2)
    have n2 := (trailingBehind_zero_false _ _).mp (hapart b hb1 hb3 a.1 ha2)
    have wa := (hwf.window a ha1).2.2.2.1
    have wb := (hwf.window b hb1).2.2.2.1
    have hseq : a.1.seqId = b.1.seqId := by omega
    have := hd e hseq
    omega
  have hnodup : ((activeWindows ws cl ct).map (fun w => w.1.hash)).Nodup := by
    unfold List.Nodup
    rw [List.pairwise_map]
    exact hpair
  have hsub : (activeWindows ws cl ct).map (fun w => w.1.hash) ⊆ sketchHashes ip := by
    intro x hx
    rw [List.mem_map] at hx
    obtain ⟨a, ha, rfl⟩ := hx
    exact hash_mem_sketchHashes (hwf.open_mem (hact a ha).1)
  have := (hnodup.subperm hsub).length_le
  rwa [List.length_map] at this

end skch

namespace skch

theorem closePoint_zero (t : IntervalPoint) (s : Sweep) :
    closePoint 0 t s = ⟨s.hash_to_freq, s.overlapCount - 1, (s.overlapCount - 1) :: s.history⟩ := by
  simp [closePoint]

theorem openPoint_zero (t : IntervalPoint) (s : Sweep) :
    openPoint 0 t s = ⟨s.hash_to_freq, s.overlapCount + 1, (s.overlapCount + 1) :: s.history⟩ := by
  simp [openPoint]

/-- With `windowLen == 0`, one round of the trailing loop keeps the invariant of the sweep. -/
theorem sweepInv0_trailing_step {ip : List IntervalPoint}
    {ws : List (IntervalPoint × IntervalPoint)} (hwf : WellFormedPoints ip ws)
    {ct rest cl leading : List IntervalPoint} {t p : IntervalPoint} {s : Sweep}
    (h : SweepInv0 ip ws ct (t :: rest) cl (p :: leading) s)
    (hb : trailingBehind 0 t p = true) :
    SweepInv0 ip ws (ct ++ [t]) rest cl (p :: leading)
      (if t.side = side.CLOSE then closePoint 0 t s else s) := by
  have hsplit : ip = (ct ++ [t]) ++ rest := by rw [h.split_t]; simp
  have hnd := hwf.nodup_points
  have htct : t ∉ ct := by
    rw [h.split_t] at hnd
    have := (List.nodup_append.mp hnd).2.2
    intro hc
    exact this hc (List.mem_cons_self _ _)
  have hsorted := hwf.sorted
  rw [h.split_l, List.pairwise_append] at hsorted
  have hlead : ∀ x ∈ p :: leading, coordLE p x := by
    intro x hx
    rcases List.mem_cons.mp hx with rfl | hx
    · exact coordLE_refl _
    · exact (List.pairwise_cons.mp hsorted.2.1).1 x hx
  have hclosed : ∀ w ∈ ws, w.2 ∈ ct ++ [t] → w.1 ∈ cl := by
    intro w hw hm
    rw [List.mem_append, List.mem_singleton] at hm
    rcases hm with hm | hm
    · exact h.closed w hw hm
    · have hmem := hwf.open_mem hw
      rw [h.split_l, List.mem_append] at hmem
      rcases hmem with hmem | hmem
      · exact hmem
      · exfalso
        have h1 := hlead _ hmem
        have h2 := (trailingBehind_zero _ _).mp hb
        obtain ⟨_, _, _, w4, w5⟩ := hwf.window w hw
        rw [← hm] at h2
        unfold coordLE at h1
        omega
  have hapart : ∀ w ∈ ws, w.2 ∈ rest → ∀ o ∈ cl, trailingBehind 0 w.2 o = false :=
    fun w hw hm => h.apart w hw (List.mem_cons_of_mem _ hm)
  have hbound := length_activeWindows_le hwf hsplit hapart
  by_cases hs : t.side = side.CLOSE
  · rw [if_pos hs, closePoint_zero]
    have htip : t ∈ ip := by rw [h.split_t]; simp
    obtain ⟨w0, hw0, e0⟩ := hwf.close_of_mem htip hs
    have key := length_filter_except
      (fun w : IntervalPoint × IntervalPoint => decide (w.1 ∈ cl ∧ w.2 ∉ ct))
      (fun w : IntervalPoint × IntervalPoint => decide (w.1 ∈ cl ∧ w.2 ∉ ct ++ [t]))
      w0 ws hwf.nodup_windows hw0 (by
        intro y hy hne
        have : y.2 ≠ t := fun e => hne (hwf.eq_of_close_eq hy hw0 (by rw [e, e0]))
        simp [this])
    have hP : (w0.1 ∈ cl ∧ w0.2 ∉ ct) := ⟨hclosed w0 hw0 (by rw [← e0]; simp), by rw [← e0]; exact htct⟩
    have hQ : ¬ (w0.1 ∈ cl ∧ w0.2 ∉ ct ++ [t]) := by
      intro hq
      exact hq.2 (by rw [← e0]; simp)
    simp only [decide_eq_true_eq, if_pos hP, if_neg hQ] at key
    have hc := h.count
    unfold activeWindows at hc hbound
    exact {
      split_t := hsplit
      split_l := h.split_l
      count := by
        show s.overlapCount - 1 = _
        unfold activeWindows
        rw [hc]; omega
      closed := hclosed
      apart := hapart
      hist := by
        intro v hv
        rcases List.mem_cons.mp hv with rfl | hv
        · rw [hc]; omega
        · exact h.hist v hv }
  · rw [if_neg hs]
    have hsame : activeWindows ws cl (ct ++ [t]) = activeWindows ws cl ct := by
      unfold activeWindows
      apply List.filter_congr
      intro w hw
      have : w.2 ≠ t := by
        intro e
        rw [← e] at hs
        exact hs (hwf.window w hw).2.1
      simp [this]
    exact {
      split_t := hsplit
      split_l := h.split_l
      count := by rw [hsame]; exact h.count
      closed := hclosed
      apart := hapart
      hist := h.hist }

/-- With `windowLen == 0`, one round of the leading loop keeps the invariant of the sweep,
provided no `CLOSE` ahead of the trailing iterator lies behind the point the round passes. -/
theorem sweepInv0_leading_step {ip : List IntervalPoint}
    {ws : List (IntervalPoint × IntervalPoint)} (hwf : WellFormedPoints ip ws)
    {ct trailing cl rest : List IntervalPoint} {g : IntervalPoint} {s : Sweep}
    (h : SweepInv0 ip ws ct trailing cl (g :: rest) s)
    (hg : ∀ w ∈ ws, w.2 ∈ trailing → trailingBehind 0 w.2 g = false) :
    SweepInv0 ip ws ct trailing (cl ++ [g]) rest
      (if g.side = side.OPEN then openPoint 0 g s else s) := by
  have hsplit : ip = (cl ++ [g]) ++ rest := by rw [h.split_l]; simp
  have hnd := hwf.nodup_points
  have hgcl : g ∉ cl := by
    rw [h.split_l] at hnd
    have := (List.nodup_append.mp hnd).2.2
    intro hc
    exact this hc (List.mem_cons_self _ _)
  have hclosed : ∀ w ∈ ws, w.2 ∈ ct → w.1 ∈ cl ++ [g] :=
    fun w hw hm => List.mem_append_left _ (h.closed w hw hm)
  have hapart : ∀ w ∈ ws, w.2 ∈ trailing → ∀ o ∈ cl ++ [g], trailingBehind 0 w.2 o = false := by
    intro w hw hm o ho
    rw [List.mem_append, List.mem_singleton] at ho
    rcases ho with ho | rfl
    · exact h.apart w hw hm o ho
    · exact hg w hw hm
  have hbound := length_activeWindows_le hwf h.split_t hapart
  have hgip : g ∈ ip := by rw [h.split_l]; simp
  by_cases hs : g.side = side.OPEN
  · rw [if_pos hs, openPoint_zero]
    obtain ⟨w0, hw0, e0⟩ := hwf.open_of_mem hgip (by rw [hs]; decide)
    have key := length_filter_except
      (fun w : IntervalPoint × IntervalPoint => decide (w.1 ∈ cl ∧ w.2 ∉ ct))
      (fun w : IntervalPoint × IntervalPoint => decide (w.1 ∈ cl ++ [g] ∧ w.2 ∉ ct))
      w0 ws hwf.nodup_windows hw0 (by
        intro y hy hne
        have : y.1 ≠ g := fun e => hne (hwf.eq_of_open_eq hy hw0 (by rw [e, e0]))
        simp [this])
    have hP : ¬ (w0.1 ∈ cl ∧ w0.2 ∉ ct) := by
      intro hp
      exact hgcl (by rw [e0]; exact hp.1)
    have hQ : (w0.1 ∈ cl ++ [g] ∧ w0.2 ∉ ct) := by
      refine ⟨by rw [← e0]; simp, ?_⟩
      intro hc
      exact hgcl (by rw [e0]; exact h.closed w0 hw0 hc)
    simp only [decide_eq_true_eq, if_neg hP, if_pos hQ] at key
    have hc := h.count
    unfold activeWindows at hc hbound
    exact {
      split_t := h.split_t
      split_l := hsplit
      count := by
        show s.overlapCount + 1 = _
        unfold activeWindows
        rw [hc]; omega
      closed := hclosed
      apart := hapart
      hist := by
        intro v hv
        rcases List.mem_cons.mp hv with rfl | hv
        · rw [hc]; omega
        · exact h.hist v hv }
  · rw [if_neg hs]
    have hsame : activeWindows ws (cl ++ [g]) ct = activeWindows ws cl ct := by
      unfold activeWindows
      apply List.filter_congr
      intro w hw
      have : w.1 ≠ g := by
        intro e
        rw [← e] at hs
        exact hs (hwf.window w hw).1
      simp [this]
    exact {
      split_t := h.split_t
      split_l := hsplit
      count := by rw [hsame]; exact h.count
      closed := hclosed
      apart := hapart
      hist := h.hist }

end skch

namespace skch

/-- With `windowLen == 0`, the trailing loop keeps the invariant of the sweep, and no point it
leaves ahead of the trailing iterator lies behind the leading point. -/
theorem trailingLoop_inv0 {ip : List IntervalPoint} {ws : List (IntervalPoint × IntervalPoint)}
    (hwf : WellFormedPoints ip ws) {cl leading : List IntervalPoint} {p : IntervalPoint} :
    ∀ (trailing ct : List IntervalPoint) (s : Sweep),
      SweepInv0 ip ws ct trailing cl (p :: leading) s →
      ∃ ct1, SweepInv0 ip ws ct1 (trailingLoop 0 p trailing s).1 cl (p :: leading)
          (trailingLoop 0 p trailing s).2 ∧
        ∀ c ∈ (trailingLoop 0 p trailing s).1, trailingBehind 0 c p = false
  | [], ct, s, h => ⟨ct, h, fun _ hc => absurd hc (List.not_mem_nil _)⟩
  | t :: rest, ct, s, h => by
    rw [trailingLoop]
    by_cases hb : trailingBehind 0 t p = true
    · rw [if_pos hb]
      exact trailingLoop_inv0 hwf rest (ct ++ [t]) _ (sweepInv0_trailing_step hwf h hb)
    · rw [if_neg hb]
      refine ⟨ct, h, ?_⟩
      have hsorted := hwf.sorted
      rw [h.split_t, List.pairwise_append] at hsorted
      have hb2 := (trailingBehind_zero_false t p).mp (by simpa using hb)
      intro c hc
      rw [trailingBehind_zero_false]
      rcases List.mem_cons.mp hc with rfl | hc
      · exact hb2
      · have := (List.pairwise_cons.mp hsorted.2.1).1 c hc
        unfold coordLE at this
        omega

/-- With `windowLen == 0`: a `CLOSE` that does not lie behind the point `p` does not lie behind
a point `g` of the run of points at the position of `p` either, on whatever sequence `g`
is. -/
theorem apart_group {ip : List IntervalPoint} {ws : List (IntervalPoint × IntervalPoint)}
    (hwf : WellFormedPoints ip ws) {cl0 grp rest : List IntervalPoint} {g p : IntervalPoint}
    (hsplit : ip = (cl0 ++ grp) ++ g :: rest) (hgrp : ∀ x ∈ grp, x.pos = p.pos)
    (hcl0 : ∀ x ∈ cl0, coordLE x p) (hg : g.pos = p.pos) (hpg : coordLE p g)
    {w : IntervalPoint × IntervalPoint} (hw : w ∈ ws) (hT : trailingBehind 0 w.2 p = false) :
    trailingBehind 0 w.2 g = false := by
  have hsorted := hwf.sorted
  rw [hsplit, List.pairwise_append] at hsorted
  have hplace : ∀ x ∈ ip, coordLE x p ∨ x.pos = p.pos ∨ coordLE g x := by
    intro x hx
    rw [hsplit, List.mem_append, List.mem_append] at hx
    rcases hx with (hx | hx) | hx
    · exact Or.inl (hcl0 x hx)
    · exact Or.inr (Or.inl (hgrp x hx))
    · rcases List.mem_cons.mp hx with rfl | hx
      · exact Or.inr (Or.inl hg)
      · exact Or.inr (Or.inr ((List.pairwise_cons.mp hsorted.2.1).1 x hx))
  have h1 := hplace w.1 (hwf.open_mem hw)
  have h2 := hplace w.2 (hwf.close_mem hw)
  obtain ⟨_, _, _, w4, w5⟩ := hwf.window w hw
  rw [trailingBehind_zero_false] at hT ⊢
  unfold coordLE at h1 h2 hpg
  omega

/-- With `windowLen == 0`, the leading loop started after the trailing loop keeps the invariant
of the sweep. -/
theorem leadingLoop_inv0 {ip : List IntervalPoint} {ws : List (IntervalPoint × IntervalPoint)}
    (hwf : WellFormedPoints ip ws) {ct trailing cl0 : List IntervalPoint} {p : IntervalPoint}
    (hT : ∀ c ∈ trailing, trailingBehind 0 c p = false) (hcl0 : ∀ x ∈ cl0, coordLE x p) :
    ∀ (leading grp : List IntervalPoint) (s : Sweep), (∀ x ∈ grp, x.pos = p.pos) →
      (∀ x ∈ leading, coordLE p x) → SweepInv0 ip ws ct trailing (cl0 ++ grp) leading s →
      ∃ cl1, SweepInv0 ip ws ct trailing cl1 (leadingLoop 0 p.pos leading s).1
        (leadingLoop 0 p.pos leading s).2
  | [], grp, s, _, _, h => ⟨_, h⟩
  | g :: rest, grp, s, hgrp, hlead, h => by
    rw [leadingLoop]
    by_cases hg : g.pos = p.pos
    · rw [if_pos hg]
      have hstep := sweepInv0_leading_step hwf h (fun w hw hm =>
        apart_group hwf h.split_l hgrp hcl0 hg (hlead g (List.mem_cons_self _ _)) hw (hT _ hm))
      rw [List.append_assoc] at hstep
      refine leadingLoop_inv0 hwf hT hcl0 rest (grp ++ [g]) _ ?_
        (fun x hx => hlead x (List.mem_cons_of_mem _ hx)) hstep
      intro x hx
      rw [List.mem_append, List.mem_singleton] at hx
      rcases hx with hx | rfl
      · exact hgrp x hx
      · exact hg
    · rw [if_neg hg]
      exact ⟨_, h⟩

/-- The bounds of `overlapCount` under the invariant of the sweep. -/
theorem SweepInv.count_le {windowLen : Int} {ip : List IntervalPoint}
    {ws : List (IntervalPoint × IntervalPoint)} (hwf : WellFormedPoints ip ws)
    {trailing leading : List IntervalPoint} {s : Sweep}
    (h : SweepInv windowLen ip ws trailing leading s) :
    s.overlapCount ≤ (sketchHashes ip).length ∧
      ∀ v ∈ s.history, 0 ≤ v ∧ v ≤ (sketchHashes ip).length := by
  rcases h with ⟨_, hn, _, _⟩ | ⟨_, ct, cl, h0⟩
  · refine ⟨?_, hn.hist⟩
    rw [hn.count]
    exact_mod_cast List.length_filter_le _ _
  · refine ⟨?_, h0.hist⟩
    rw [h0.count]
    exact_mod_cast length_activeWindows_le hwf h0.split_t h0.apart

/-- The invariant of the sweep holds when a pass starts. -/
theorem sweepInv_start (windowLen : Int) (ip : List IntervalPoint)
    (ws : List (IntervalPoint × IntervalPoint)) :
    SweepInv windowLen ip ws ip ip Sweep.start := by
  by_cases hw : windowLen = 0
  · refine Or.inr ⟨hw, [], [], ?_⟩
    exact {
      split_t := rfl
      split_l := rfl
      count := by simp [Sweep.start, activeWindows]
      closed := fun _ _ h => absurd h (List.not_mem_nil _)
      apart := fun _ _ _ _ h => absurd h (List.not_mem_nil _)
      hist := by
        intro v hv
        simp only [Sweep.start, List.mem_singleton] at hv
        subst hv
        exact ⟨le_refl _, by positivity⟩ }
  · refine Or.inl ⟨hw, ?_, fun _ h => h, fun _ h => h⟩
    exact {
      count := by simp [Sweep.start]
      hist := by
        intro v hv
        simp only [Sweep.start, List.mem_singleton] at hv
        subst hv
        exact ⟨le_refl _, by positivity⟩ }

/-- The trailing loop followed by the leading loop at the position of the leading point, as in
a round of either pass, keeps the invariant of the sweep. -/
theorem sweepInv_round {windowLen : Int} {ip : List IntervalPoint}
    {ws : List (IntervalPoint × IntervalPoint)} (hwf : WellFormedPoints ip ws)
    {trailing rest : List IntervalPoint} {p : IntervalPoint} {s : Sweep}
    (h : SweepInv windowLen ip ws trailing (p :: rest) s) :
    SweepInv windowLen ip ws (trailingLoop windowLen p trailing s).1
      (leadingLoop windowLen p.pos (p :: rest) (trailingLoop windowLen p trailing s).2).1
      (leadingLoop windowLen p.pos (p :: rest) (trailingLoop windowLen p trailing s).2).2 := by
  rcases h with ⟨hw, hn, ht, hl⟩ | ⟨hw, ct, cl, h0⟩
  · obtain ⟨h1, h2⟩ := trailingLoop_invN hw p trailing s ht hn
    obtain ⟨h3, h4⟩ := leadingLoop_invN hw p.pos (p :: rest) _ hl h1
    exact Or.inl ⟨hw, h3, h2, h4⟩
  · subst hw
    obtain ⟨ct1, h1, hT⟩ := trailingLoop_inv0 hwf trailing ct s h0
    have hsorted := hwf.sorted
    rw [h1.split_l, List.pairwise_append] at hsorted
    have hlead : ∀ x ∈ p :: rest, coordLE p x := by
      intro x hx
      rcases List.mem_cons.mp hx with rfl | hx
      · exact coordLE_refl _
      · exact (List.pairwise_cons.mp hsorted.2.1).1 x hx
    have hcl : ∀ x ∈ cl, coordLE x p := fun x hx => hsorted.2.2 x hx p (List.mem_cons_self _ _)
    have h2 : SweepInv0 ip ws ct1 (trailingLoop 0 p trailing s).1 (cl ++ []) (p :: rest)
        (trailingLoop 0 p trailing s).2 := by
      rw [List.append_nil]; exact h1
    obtain ⟨cl1, h3⟩ := leadingLoop_inv0 hwf hT hcl (p :: rest) [] _
      (fun _ h => absurd h (List.not_mem_nil _)) hlead h2
    exact Or.inr ⟨rfl, ct1, cl1, h3⟩

end skch

namespace skch

theorem secondPassRound_sweep (windowLen minimumHits : Int) (stage2_full_scan : Bool)
    (st : SecondPass) (p : IntervalPoint) :
    (secondPassRound windowLen minimumHits stage2_full_scan st p).sweep =
      (leadingLoop windowLen p.pos st.leadingIt
        (trailingLoop windowLen p st.trailingIt st.sweep).2).2 := by
  have h := secondPassRound_currentPos windowLen minimumHits stage2_full_scan st p
  simp only [secondPassRound] at h ⊢
  rw [h]

/-- A round of the second pass whose overlap count is at most `bound` keeps the loci under
construction at or below `bound`. -/
theorem recordOverlap_le (windowLen minimumHits : Int) (stage2_full_scan : Bool)
    (prevOverlap : Int) (prevPos : SeqCoord) (c : Candidate) (bound : Int)
    (hp : prevOverlap ≤ bound) (h1 : ∀ a ∈ c.localOpts, a.intersectionSize ≤ bound)
    (h2 : c.in_candidate = true → c.l1_out.intersectionSize ≤ bound) :
    (∀ a ∈ (recordOverlap windowLen minimumHits stage2_full_scan prevOverlap prevPos
        c).localOpts, a.intersectionSize ≤ bound) ∧
    ((recordOverlap windowLen minimumHits stage2_full_scan prevOverlap prevPos
        c).in_candidate = true →
      (recordOverlap windowLen minimumHits stage2_full_scan prevOverlap prevPos
        c).l1_out.intersectionSize ≤ bound) := by
  have hpush : c.in_candidate = true → ∀ a ∈ c.localOpts ++ [c.l1_out],
      a.intersectionSize ≤ bound := by
    intro hc a ha
    rw [List.mem_append, List.mem_singleton] at ha
    rcases ha with ha | rfl
    · exact h1 a ha
    · exact h2 hc
  unfold recordOverlap
  by_cases hge : prevOverlap ≥ minimumHits
  · rw [if_pos hge]
    by_cases hfl : c.l1_out.seqId ≠ prevPos.seqId ∧ c.in_candidate = true
    · simp only [hfl, ne_eq, not_false_eq_true, and_self, if_true]
      exact ⟨hpush hfl.2, fun _ => hp⟩
    · rw [if_neg hfl]
      dsimp only
      by_cases hin : c.in_candidate = false
      · rw [if_pos hin]
        exact ⟨h1, fun _ => hp⟩
      · rw [if_neg hin]
        have hin2 : c.in_candidate = true := by simpa using hin
        split_ifs
        · exact ⟨h1, fun _ => max_le (h2 hin2) hp⟩
        · exact ⟨h1, fun _ => hp⟩
        · exact ⟨h1, fun _ => h2 hin2⟩
  · rw [if_neg hge]
    split_ifs with hin
    · exact ⟨hpush hin, fun h => absurd h (by simp)⟩
    · exact ⟨h1, fun h => absurd h (by simp)⟩

/-- On well-formed points the first pass returns, and the values `overlapCount` takes in it
lie between `0` and the number of distinct hashes. -/
theorem firstPass_bounded (param : Parameters) (Q : Q_Info) {ip : List IntervalPoint}
    {ws : List (IntervalPoint × IntervalPoint)} (hwf : WellFormedPoints ip ws) :
    ∃ best h, firstPass param Q ip = some (best, h) ∧
      ∀ v ∈ h, 0 ≤ v ∧ v ≤ (sketchHashes ip).length := by
  obtain ⟨st1, h1, _, h3⟩ := firstPassLoop_rule (windowLenOf param Q)
    (fun st => SweepInv (windowLenOf param Q) ip ws st.trailingIt st.leadingIt st.sweep)
    (fun st p rest hl hI => by
      have hI2 : SweepInv (windowLenOf param Q) ip ws st.trailingIt (p :: rest) st.sweep := by
        rw [← hl]; exact hI
      have := sweepInv_round hwf hI2
      simp only [firstPassRound]
      rw [hl]
      exact this)
    ip.length ⟨ip, ip, Sweep.start, 0⟩ (Nat.le_refl _) (sweepInv_start _ ip ws)
  exact ⟨_, _, h3, (SweepInv.count_le hwf h1).2⟩

/-- On well-formed points the second pass returns, the values `overlapCount` takes in it lie
between `0` and the number of distinct hashes, and no local optimum has an `intersectionSize`
above that number. -/
theorem secondPass_bounded (param : Parameters) (stage2_full_scan : Bool) (Q : Q_Info)
    (prevPos0 : SeqCoord) {ip : List IntervalPoint} {ws : List (IntervalPoint × IntervalPoint)}
    (minimumHits : Int) (hip : ip ≠ []) (hwf : WellFormedPoints ip ws) :
    ∃ localOpts h, secondPass param stage2_full_scan Q prevPos0 ip minimumHits =
        some (localOpts, h) ∧
      (∀ v ∈ h, 0 ≤ v ∧ v ≤ (sketchHashes ip).length) ∧
      ∀ a ∈ localOpts, a.intersectionSize ≤ (sketchHashes ip).length := by
  cases hipc : ip with
  | nil => exact absurd hipc hip
  | cons p0 rest0 =>
    rw [← hipc]
    obtain ⟨st1, ⟨h1, h2, h3⟩, _, h4⟩ := secondPassLoop_rule (windowLenOf param Q) minimumHits
      stage2_full_scan
      (fun st => SweepInv (windowLenOf param Q) ip ws st.trailingIt st.leadingIt st.sweep ∧
        (∀ a ∈ st.cand.localOpts, a.intersectionSize ≤ (sketchHashes ip).length) ∧
        (st.cand.in_candidate = true →
          st.cand.l1_out.intersectionSize ≤ (sketchHashes ip).length))
      (fun st p rest hl hI => by
        obtain ⟨hI1, hI2, hI3⟩ := hI
        have hI4 : SweepInv (windowLenOf param Q) ip ws st.trailingIt (p :: rest) st.sweep := by
          rw [← hl]; exact hI1
        have hr := sweepInv_round hwf hI4
        refine ⟨?_, ?_⟩
        · rw [secondPassRound_leadingIt, secondPassRound_sweep, hl]
          exact hr
        · exact recordOverlap_le _ _ _ _ _ _ _ (SweepInv.count_le hwf hI1).1 hI2 hI3)
      ip.length
      ⟨ip, ip, Sweep.start, prevPos0, ⟨p0.seqId, p0.pos⟩, ⟨false, ⟨0, 0, 0, 0⟩, []⟩⟩
      (Nat.le_refl _)
      ⟨sweepInv_start _ ip ws, fun _ h => absurd h (List.not_mem_nil _),
        fun h => absurd h (by simp)⟩
    refine ⟨st1.localOpts, st1.sweep.history, ?_, (SweepInv.count_le hwf h1).2, ?_⟩
    · rw [← h4]
      simp only [secondPass, hipc]
    · intro a ha
      unfold SecondPass.localOpts at ha
      split_ifs at ha with hc
      · rw [List.mem_append, List.mem_singleton] at ha
        rcases ha with ha | rfl
        · exact h2 a ha
        · exact h3 hc
      · exact h2 a ha

/-- C16. For a well-formed list of interval points (the opening and closing points of windows
in the order of `(seqId, pos)`, every `OPEN` matched by a `CLOSE` of the same hash and sequence
at a larger position, windows of one hash on one sequence not overlapping, at most
`Q.sketchSize` distinct hashes), `computeL1CandidateRegions` returns, every value the running
`overlapCount` takes during the sweeps lies in `[0, Q.sketchSize]`, and every locus appended to
`l1Mappings` has `intersectionSize <= Q.sketchSize`. -/
theorem computeL1CandidateRegions_overlap_bounded (param : Parameters)
    (stage1_topANI_filter stage2_full_scan : Bool) (cutoff : Int → Int) (Q : Q_Info)
    (prevPos0 : SeqCoord) (ip : List IntervalPoint) (ws : List (IntervalPoint × IntervalPoint))
    (minimumHits : Int) (l1Mappings : List L1_candidateLocus_t) (hip : ip ≠ [])
    (hwf : WellFormedPoints ip ws) (hsketch : ((sketchHashes ip).length : Int) ≤ Q.sketchSize) :
    ∃ out h,
      computeL1CandidateRegions param stage1_topANI_filter stage2_full_scan cutoff Q prevPos0 ip
        minimumHits l1Mappings = some (out, h) ∧
      (∀ v ∈ h, 0 ≤ v ∧ v ≤ Q.sketchSize) ∧
      ∃ kept appended, out = kept ++ appended ∧ kept.length = l1Mappings.length ∧
        ∀ a ∈ appended, a.intersectionSize ≤ Q.sketchSize := by
  obtain ⟨best, h1, hfirst, hb1⟩ := firstPass_bounded param Q hwf
  have hjoin : ∀ (localOpts : List L1_candidateLocus_t),
      (∀ a ∈ localOpts, a.intersectionSize ≤ (sketchHashes ip).length) →
      ∃ kept appended, localOpts.foldl (joinLocus param.segLength) l1Mappings = kept ++ appended ∧
        kept.length = l1Mappings.length ∧ ∀ a ∈ appended, a.intersectionSize ≤ Q.sketchSize := by
    intro localOpts hl
    exact foldl_joinLocus_appended param.segLength (fun a => a.intersectionSize ≤ Q.sketchSize)
      (fun back x hb hx => max_le hx hb) l1Mappings.length localOpts l1Mappings
      (fun a ha => le_trans (hl a ha) hsketch)
      ⟨l1Mappings, [], by simp, rfl, fun _ h => absurd h (List.not_mem_nil _)⟩
  have hhist : ∀ (h : List Int), (∀ v ∈ h, 0 ≤ v ∧ v ≤ ((sketchHashes ip).length : Int)) →
      ∀ v ∈ h, 0 ≤ v ∧ v ≤ Q.sketchSize :=
    fun h hh v hv => ⟨(hh v hv).1, le_trans (hh v hv).2 hsketch⟩
  cases hs : stage1_topANI_filter with
  | false =>
    obtain ⟨localOpts, h2, hsec, hb2, hloc⟩ :=
      secondPass_bounded param stage2_full_scan Q prevPos0 minimumHits hip hwf
    exact ⟨_, h2, by simp [computeL1CandidateRegions, hsec], hhist h2 hb2, hjoin localOpts hloc⟩
  | true =>
    by_cases hlt : best < minimumHits
    · exact ⟨l1Mappings, h1, by simp [computeL1CandidateRegions, hfirst, hlt], hhist h1 hb1,
        l1Mappings, [], by simp, rfl, fun _ h => absurd h (List.not_mem_nil _)⟩
    · obtain ⟨localOpts, h2, hsec, hb2, hloc⟩ := secondPass_bounded param stage2_full_scan Q
        prevPos0 (refinedMinimumHits cutoff Q best minimumHits) hip hwf
      refine ⟨_, h2 ++ h1, by simp [computeL1CandidateRegions, hfirst, hlt, hsec], ?_,
        hjoin localOpts hloc⟩
      intro v hv
      rw [List.mem_append] at hv
      rcases hv with hv | hv
      · exact hhist h2 hb2 v hv
      · exact hhist h1 hb1 v hv

theorem computeL1CandidateRegions_overlap_bounded_witness :
    ∃ out h,
      computeL1CandidateRegions Parameters.sample true true (fun _ => 3) ⟨100, 3⟩ ⟨0, 0⟩
        IntervalPoint.samplePoints 2 [] = some (out, h) ∧
      (∀ v ∈ h, 0 ≤ v ∧ v ≤ (⟨100, 3⟩ : Q_Info).sketchSize) ∧
      ∃ kept appended, out = kept ++ appended ∧
        kept.length = ([] : List L1_candidateLocus_t).length ∧
        ∀ a ∈ appended, a.intersectionSize ≤ (⟨100, 3⟩ : Q_Info).sketchSize :=
  computeL1CandidateRegions_overlap_bounded Parameters.sample true true (fun _ => 3) ⟨100, 3⟩
    ⟨0, 0⟩ IntervalPoint.samplePoints IntervalPoint.sampleWindows 2 [] (by decide)
    ⟨by decide, by decide, by decide, by decide⟩ (by decide)

end skch

/-! ## The filters on mappings -/


namespace skch

theorem mem_eraseRemoveIf {α : Type} (pred : α → Bool) (v : List α) (e : α) :
    e ∈ eraseRemoveIf pred v ↔ e ∈ v ∧ pred e = false := by
  simp [eraseRemoveIf]

theorem eraseRemoveIf_sublist {α : Type} (pred : α → Bool) (v : List α) :
    List.Sublist (eraseRemoveIf pred v) v :=
  List.filter_sublist v

/-- The integer quotient of a non-negative value by a positive one is the floor of the exact
quotient. -/
theorem tdiv_eq_floor {a b : Int} (ha : 0 ≤ a) (hb : 0 < b) :
    Int.tdiv a b = ⌊(a : ℚ) / (b : ℚ)⌋ := by
  rw [Int.tdiv_eq_ediv ha (le_of_lt hb)]
  obtain ⟨n, rfl⟩ := Int.eq_ofNat_of_zero_le (le_of_lt hb)
  exact (Rat.floor_intCast_div_natCast a n).symm

/-- C23. The weak-mapping filter step of `filterMaximallyMerged`, for a non-negative
`block_length` and a positive `segLength`: the result is the input without the mappings removed,
in the original order and unmodified, and a mapping is retained exactly when
`blockLength >= block_length` and `n_merged >= floor(block_length / segLength)`. -/
theorem filterMaximallyMergedWeak_retains (param : Parameters) (block_length : Int)
    (readMappings : List MappingResult) (hb : 0 ≤ block_length) (hs : 0 < param.segLength) :
    filterMaximallyMergedWeak param block_length readMappings =
      readMappings.filter (fun e => decide (e.blockLength ≥ block_length ∧
        e.n_merged ≥ ⌊(block_length : ℚ) / (param.segLength : ℚ)⌋)) ∧
    List.Sublist (filterMaximallyMergedWeak param block_length readMappings) readMappings ∧
    ∀ e, e ∈ filterMaximallyMergedWeak param block_length readMappings ↔
      e ∈ readMappings ∧ e.blockLength ≥ block_length ∧
        e.n_merged ≥ ⌊(block_length : ℚ) / (param.segLength : ℚ)⌋ := by
  have hfl := tdiv_eq_floor hb hs
  have heq : filterMaximallyMergedWeak param block_length readMappings =
      readMappings.filter (fun e => decide (e.blockLength ≥ block_length ∧
        e.n_merged ≥ ⌊(block_length : ℚ) / (param.segLength : ℚ)⌋)) := by
    unfold filterMaximallyMergedWeak filterWeakMappings eraseRemoveIf
    rw [hfl]
    apply List.filter_congr
    intro e _
    by_cases h1 : e.blockLength < block_length
    · simp [h1]
    · by_cases h2 : e.n_merged < ⌊(block_length : ℚ) / (param.segLength : ℚ)⌋
      · simp [h1, h2]
      · simp only [h1, h2, or_self, decide_False, Bool.not_false, ge_iff_le]
        symm
        rw [decide_eq_true_eq]
        exact ⟨not_lt.mp h1, not_lt.mp h2⟩
  refine ⟨heq, ?_, ?_⟩
  · rw [heq]; exact List.filter_sublist _
  · intro e
    rw [heq, List.mem_filter, decide_eq_true_eq]

theorem filterMaximallyMergedWeak_retains_witness :
    filterMaximallyMergedWeak Parameters.sample 250 MappingResult.sampleBlocks =
      MappingResult.sampleBlocks.filter (fun e => decide (e.blockLength ≥ 250 ∧
        e.n_merged ≥ ⌊((250 : Int) : ℚ) / (Parameters.sample.segLength : ℚ)⌋)) ∧
    List.Sublist (filterMaximallyMergedWeak Parameters.sample 250 MappingResult.sampleBlocks)
      MappingResult.sampleBlocks ∧
    ∀ e, e ∈ filterMaximallyMergedWeak Parameters.sample 250 MappingResult.sampleBlocks ↔
      e ∈ MappingResult.sampleBlocks ∧ e.blockLength ≥ 250 ∧
        e.n_merged ≥ ⌊((250 : Int) : ℚ) / (Parameters.sample.segLength : ℚ)⌋ :=
  filterMaximallyMergedWeak_retains Parameters.sample 250 MappingResult.sampleBlocks
    (by decide) (by decide)

/-- The value `len_id_bound` in terms of the two lengths `r` and `q`. -/
theorem len_id_bound_eq (e : MappingResult) :
    len_id_bound e =
      1 - |((e.refEndPos - e.refStartPos : Int) : ℚ) - ((e.queryEndPos - e.queryStartPos : Int) : ℚ)| /
        ((((e.refEndPos - e.refStartPos : Int) : ℚ) + ((e.queryEndPos - e.queryStartPos : Int) : ℚ)) / 2) := by
  unfold len_id_bound
  simp only
  rw [Nat.cast_natAbs, Int.cast_abs, add_comm ((e.queryEndPos - e.queryStartPos : Int) : ℚ)]
  push_cast
  rfl

/-- C24. With `r = refEndPos - refStartPos` and `q = queryEndPos - queryStartPos`,
`filterFalseHighIdentity` removes a mapping of its input if and only if
`1 - |r - q| / ((r + q) / 2) < min(0.7, percentageIdentity ^ 3)` in exact arithmetic; every
mapping with `r == q > 0` is kept, whatever `percentageIdentity` is. -/
theorem filterFalseHighIdentity_removes_iff (percentageIdentity : ℚ)
    (readMappings : List MappingResult) (e : MappingResult) (he : e ∈ readMappings)
    (_hpos : 0 < (e.refEndPos - e.refStartPos) + (e.queryEndPos - e.queryStartPos)) :
    (e ∉ filterFalseHighIdentity percentageIdentity readMappings ↔
      1 - |((e.refEndPos - e.refStartPos : Int) : ℚ) - ((e.queryEndPos - e.queryStartPos : Int) : ℚ)| /
          ((((e.refEndPos - e.refStartPos : Int) : ℚ) +
            ((e.queryEndPos - e.queryStartPos : Int) : ℚ)) / 2) <
        min (7 / 10) (percentageIdentity ^ 3)) ∧
    (e.refEndPos - e.refStartPos = e.queryEndPos - e.queryStartPos →
      e ∈ filterFalseHighIdentity percentageIdentity readMappings) ∧
    List.Sublist (filterFalseHighIdentity percentageIdentity readMappings) readMappings := by
  have hmem : e ∈ filterFalseHighIdentity percentageIdentity readMappings ↔
      ¬ (len_id_bound e < min (7 / 10) (percentageIdentity ^ 3)) := by
    unfold filterFalseHighIdentity
    rw [mem_eraseRemoveIf, decide_eq_false_iff_not]
    exact ⟨fun h => h.2, fun h => ⟨he, h⟩⟩
  refine ⟨?_, ?_, eraseRemoveIf_sublist _ _⟩
  · rw [hmem, not_not, len_id_bound_eq]
  · intro heq
    rw [hmem, len_id_bound_eq, heq, sub_self, abs_zero, zero_div, sub_zero, not_lt]
    exact le_trans (min_le_left _ _) (by norm_num)

theorem filterFalseHighIdentity_removes_iff_witness :
    ((MappingResult.sample 0 100 0 100 1 0) ∉
        filterFalseHighIdentity (9 / 10) [MappingResult.sample 0 100 0 100 1 0] ↔
      1 - |(((MappingResult.sample 0 100 0 100 1 0).refEndPos -
            (MappingResult.sample 0 100 0 100 1 0).refStartPos : Int) : ℚ) -
          (((MappingResult.sample 0 100 0 100 1 0).queryEndPos -
            (MappingResult.sample 0 100 0 100 1 0).queryStartPos : Int) : ℚ)| /
          (((((MappingResult.sample 0 100 0 100 1 0).refEndPos -
            (MappingResult.sample 0 100 0 100 1 0).refStartPos : Int) : ℚ) +
            (((MappingResult.sample 0 100 0 100 1 0).queryEndPos -
              (MappingResult.sample 0 100 0 100 1 0).queryStartPos : Int) : ℚ)) / 2) <
        min (7 / 10) ((9 / 10 : ℚ) ^ 3)) ∧
    ((MappingResult.sample 0 100 0 100 1 0).refEndPos -
        (MappingResult.sample 0 100 0 100 1 0).refStartPos =
      (MappingResult.sample 0 100 0 100 1 0).queryEndPos -
        (MappingResult.sample 0 100 0 100 1 0).queryStartPos →
      (MappingResult.sample 0 100 0 100 1 0) ∈
        filterFalseHighIdentity (9 / 10) [MappingResult.sample 0 100 0 100 1 0]) ∧
    List.Sublist (filterFalseHighIdentity (9 / 10) [MappingResult.sample 0 100 0 100 1 0])
      [MappingResult.sample 0 100 0 100 1 0] :=
  filterFalseHighIdentity_removes_iff (9 / 10) [MappingResult.sample 0 100 0 100 1 0]
    (MappingResult.sample 0 100 0 100 1 0) (List.mem_singleton.mpr rfl) (by decide)

/-- C25. For each of `filterWeakMappings`, `filterFalseHighIdentity`,
`filterFailedSubMappings` and `sparsifyMappings` and every input list, the output is a sub-list
of the input (its mappings are input mappings, unmodified and in their relative order) and is
not longer than the input. -/
theorem filters_sublist (block_length min_count : Int) (percentageIdentity : ℚ)
    (kept_chains : List Int) (hash : MappingResult → Nat) (sparsity_hash_threshold : Nat)
    (readMappings : List MappingResult) :
    (List.Sublist (filterWeakMappings block_length readMappings min_count) readMappings ∧
      (filterWeakMappings block_length readMappings min_count).length ≤ readMappings.length) ∧
    (List.Sublist (filterFalseHighIdentity percentageIdentity readMappings) readMappings ∧
      (filterFalseHighIdentity percentageIdentity readMappings).length ≤ readMappings.length) ∧
    (List.Sublist (filterFailedSubMappings readMappings kept_chains) readMappings ∧
      (filterFailedSubMappings readMappings kept_chains).length ≤ readMappings.length) ∧
    (List.Sublist (sparsifyMappings hash sparsity_hash_threshold readMappings) readMappings ∧
      (sparsifyMappings hash sparsity_hash_threshold readMappings).length ≤
        readMappings.length) := by
  have hsp : List.Sublist (sparsifyMappings hash sparsity_hash_threshold readMappings)
      readMappings := by
    unfold sparsifyMappings
    split_ifs
    · exact eraseRemoveIf_sublist _ _
    · exact List.Sublist.refl _
  exact ⟨⟨eraseRemoveIf_sublist _ _, (eraseRemoveIf_sublist _ _).length_le⟩,
    ⟨eraseRemoveIf_sublist _ _, (eraseRemoveIf_sublist _ _).length_le⟩,
    ⟨eraseRemoveIf_sublist _ _, (eraseRemoveIf_sublist _ _).length_le⟩,
    ⟨hsp, hsp.length_le⟩⟩

/-- After the block `reference end pos` the end of a mapping on the reference is below the
length of the reference, never equal to it. -/
theorem sanitizeRefEnd_lt (len : Int) (e : MappingResult) (h : e.refStartPos < len) :
    (sanitizeRefEnd len e).refEndPos < len := by
  unfold sanitizeRefEnd
  by_cases h1 : e.refEndPos < e.refStartPos
  · by_cases h2 : e.refStartPos ≥ len
    · simp [h1, h2]
    · simpa [h1, h2] using h
  · by_cases h2 : e.refEndPos ≥ len
    · simp [h1, h2]
    · have h3 : e.refEndPos < len := not_le.mp h2
      simpa [h1, h2] using h3

/-- C26. Scenario S1: the mapping with `queryStart = 0`, `queryEnd = 28`, `refStart = 0`,
`refEnd = 28` on a reference and a query of 28 bases leaves `mappingBoundarySanityCheck` with
`refEnd = 27`; the three other coordinates stay, and the query block keeps `queryEnd = 28`. -/
theorem mappingBoundarySanityCheck_moves_refEnd :
    (mappingBoundarySanityCheck (fun _ => 28) 28 [MappingResult.sample 0 28 0 28 1 0]).map
        (fun e => (e.queryStartPos, e.queryEndPos, e.refStartPos, e.refEndPos)) =
      [(0, 28, 0, 27)] ∧
    (mappingBoundarySanityCheck (fun _ => 28) 28 [MappingResult.sample 0 28 0 28 1 0]).map
        (fun e => e.refEndPos) ≠ [28] := by
  decide

end skch

/-! ## Concrete instances -/

namespace skch

theorem mappingBoundarySanityCheck_bounds_witness :
    ∃ e, (mappingBoundarySanityCheck (fun _ => 28) 28
        [MappingResult.sample (-5) 40 (-3) 50 1 0])[0]? = some e ∧
      0 ≤ e.queryStartPos ∧ e.queryStartPos ≤ e.queryEndPos ∧ e.queryEndPos ≤ 28 ∧
      0 ≤ e.refStartPos ∧ e.refStartPos ≤ e.refEndPos ∧
      e.refEndPos ≤ 28 :=
  mappingBoundarySanityCheck_bounds (fun _ => 28) 28 [MappingResult.sample (-5) 40 (-3) 50 1 0]
    (fun _ _ => show (1 : Int) ≤ 28 by decide) (by decide) 0 (by decide)

theorem mergeMappingsInRange_chain_statistics_witness :
    ∃ out, mergeMappingsInRange Parameters.sample MappingResult.samplePair 50 = some out ∧
      ∀ a ∈ out.1, ∀ b ∈ out.1, a.splitMappingId = b.splitMappingId →
        a.blockLength = b.blockLength ∧ a.blockNucIdentity = b.blockNucIdentity ∧
          a.n_merged = b.n_merged :=
  mergeMappingsInRange_chain_statistics Parameters.sample MappingResult.samplePair 50
    (by decide) (by decide)

theorem mergeMappingsInRange_same_id_iff_linked_witness :
    ∃ labelled out, labelChains Parameters.sample MappingResult.samplePair 50 = some labelled ∧
      mergeMappingsInRange Parameters.sample MappingResult.samplePair 50 = some out ∧
      (∀ (k : Nat) (m : MappingResult), labelled[k]? = some m →
        ∃ m0, (stdSort queryRefLess MappingResult.samplePair)[k]? = some m0 ∧
          m.core = m0.core) ∧
      (∀ (x y : Nat) (a b : MappingResult), labelled[x]? = some a → labelled[y]? = some b →
        (a.splitMappingId = b.splitMappingId ↔
          Relation.EqvGen (HasPredecessor labelled) x y)) ∧
      (∀ (k j : Nat) (a b : MappingResult), labelled[k]? = some b → labelled[j]? = some a →
        HasPredecessor labelled k j → b.splitMappingId = a.splitMappingId) ∧
      (∀ m ∈ out.1, ∃ m0 ∈ labelled, m0.tag = m.tag) :=
  mergeMappingsInRange_same_id_iff_linked Parameters.sample MappingResult.samplePair 50
    (by decide) (by decide)

theorem mergeMappingsInRange_chain_ref_strand_witness :
    ∃ out, mergeMappingsInRange Parameters.sample MappingResult.samplePair 50 = some out ∧
      (∀ a ∈ out.1, ∀ b ∈ out.1, a.splitMappingId = b.splitMappingId →
        a.refSeqId = b.refSeqId ∧ a.strand = b.strand) ∧
      (∀ a ∈ out.2, ∀ b ∈ out.2, a.splitMappingId = b.splitMappingId →
        a.refSeqId = b.refSeqId ∧ a.strand = b.strand) :=
  mergeMappingsInRange_chain_ref_strand Parameters.sample MappingResult.samplePair 50
    (by decide)

theorem mergeMappingsInRange_blockLength_witness :
    ∃ out, mergeMappingsInRange Parameters.sample MappingResult.samplePair 50 = some out ∧
      ∀ m ∈ out.1, ∃ qs qe rs re : Int,
        IsMinOf qs ((out.1.filter (fun e => decide (e.splitMappingId = m.splitMappingId))).map
          (fun e => e.queryStartPos)) ∧
        IsMaxOf qe ((out.1.filter (fun e => decide (e.splitMappingId = m.splitMappingId))).map
          (fun e => e.queryEndPos)) ∧
        IsMinOf rs ((out.1.filter (fun e => decide (e.splitMappingId = m.splitMappingId))).map
          (fun e => e.refStartPos)) ∧
        IsMaxOf re ((out.1.filter (fun e => decide (e.splitMappingId = m.splitMappingId))).map
          (fun e => e.refEndPos)) ∧
        m.blockLength = max (re - rs) (qe - qs) ∧
        (out.1.filter (fun e => decide (e.splitMappingId = m.splitMappingId)) = [m] →
          m.blockLength =
            max (m.refEndPos - m.refStartPos) (m.queryEndPos - m.queryStartPos)) :=
  mergeMappingsInRange_blockLength Parameters.sample MappingResult.samplePair 50
    (by decide) (by decide)
    (by
      intro m hm
      simp only [MappingResult.samplePair, List.mem_cons, List.mem_singleton, List.not_mem_nil,
        or_false] at hm
      rcases hm with rfl | rfl <;>
        simp [MappingResult.InRange, MappingResult.sample, Parameters.sample])

end skch

/-! ## Reference groups, short reference sequences and sketch cut-offs -/

namespace skch

theorem find_last_of_none (s : List Char) (c : Char) (h : c ∉ s) : find_last_of s c = none := by
  induction s with
  | nil => rfl
  | cons x s ih =>
    have hx : ¬ x = c := fun e => h (by simp [e])
    have hs : c ∉ s := fun e => h (List.mem_cons_of_mem _ e)
    simp [find_last_of, ih hs, hx]

/-- The prefix of a name without the delimiter is the whole name. -/
theorem prefixOf_of_not_mem (s : List Char) (c : Char) (h : c ∉ s) : prefixOf s c = s := by
  simp [prefixOf, find_last_of_none s c h, substr]

theorem getRefGroupFrom_none (prefix_delim : Char) (refIdGroup : List Int)
    (queryPrefix : List Char) (metadata : List (List Char)) :
    ∀ k, (∀ name ∈ metadata, prefixOf name prefix_delim ≠ queryPrefix) →
      getRefGroupFrom prefix_delim refIdGroup queryPrefix k metadata = some (-1) := by
  induction metadata with
  | nil => intro k _; rfl
  | cons name metadata ih =>
    intro k h
    have h1 : ¬ queryPrefix = prefixOf name prefix_delim :=
      fun e => h name (List.mem_cons_self _ _) e.symm
    simp only [getRefGroupFrom, h1, if_false]
    exact ih (k + 1) (fun n hn => h n (List.mem_cons_of_mem _ hn))

theorem getRefGroupFrom_first (prefix_delim : Char) (refIdGroup : List Int)
    (queryPrefix : List Char) (metadata : List (List Char)) :
    ∀ k i name, metadata[i]? = some name → prefixOf name prefix_delim = queryPrefix →
      (∀ j other, j < i → metadata[j]? = some other →
        prefixOf other prefix_delim ≠ queryPrefix) →
      getRefGroupFrom prefix_delim refIdGroup queryPrefix k metadata = refIdGroup[k + i]? := by
  induction metadata with
  | nil => intro k i name h; simp at h
  | cons head metadata ih =>
    intro k i name hi hp hfirst
    cases i with
    | zero =>
      simp only [List.getElem?_cons_zero, Option.some.injEq] at hi
      subst hi
      simp [getRefGroupFrom, hp]
    | succ i =>
      have h1 : ¬ queryPrefix = prefixOf head prefix_delim :=
        fun e => hfirst 0 head (Nat.succ_pos i) (by simp) e.symm
      simp only [getRefGroupFrom, h1, if_false]
      rw [ih (k + 1) i name (by simpa using hi) hp
        (fun j other hj hjo => hfirst (j + 1) other (Nat.succ_lt_succ hj) (by simpa using hjo))]
      congr 1
      omega

/-- C29 (as the code has it). For a query name without the delimiter character,
`getRefGroup` returns `-1` when no reference name has its prefix equal to the query name, and
otherwise the entry of `refIdGroup` of the first reference whose prefix is the query name. -/
theorem getRefGroup_no_delimiter (prefix_delim : Char) (metadata : List (List Char))
    (refIdGroup : List Int) (seqName : List Char) (hno : prefix_delim ∉ seqName)
    (hlen : refIdGroup.length = metadata.length) :
    ((∀ name ∈ metadata, prefixOf name prefix_delim ≠ seqName) →
      getRefGroup prefix_delim metadata refIdGroup seqName = some (-1)) ∧
    (∀ (i : Nat) (name : List Char), metadata[i]? = some name →
      prefixOf name prefix_delim = seqName →
      (∀ (j : Nat) (other : List Char), j < i → metadata[j]? = some other → prefixOf other prefix_delim ≠ seqName) →
      ∃ group, refIdGroup[i]? = some group ∧
        getRefGroup prefix_delim metadata refIdGroup seqName = some group) := by
  have hq := prefixOf_of_not_mem seqName prefix_delim hno
  refine ⟨fun h => ?_, fun i name hi hp hfirst => ?_⟩
  · unfold getRefGroup
    rw [hq]
    exact getRefGroupFrom_none prefix_delim refIdGroup seqName metadata 0 h
  · have hlt : i < refIdGroup.length := by
      rw [hlen]
      exact (List.getElem?_eq_some_iff.mp hi).1
    refine ⟨refIdGroup[i], List.getElem?_eq_getElem hlt, ?_⟩
    unfold getRefGroup
    rw [hq, getRefGroupFrom_first prefix_delim refIdGroup seqName metadata 0 i name hi hp hfirst,
      Nat.zero_add]
    exact List.getElem?_eq_getElem hlt

theorem getRefGroup_no_delimiter_witness :
    ((∀ name ∈ [['a', '#', '1'], ['b', '#', '1']], prefixOf name '#' ≠ ['b']) →
      getRefGroup '#' [['a', '#', '1'], ['b', '#', '1']] [0, 1] ['b'] = some (-1)) ∧
    (∀ (i : Nat) (name : List Char), [['a', '#', '1'], ['b', '#', '1']][i]? = some name →
      prefixOf name '#' = ['b'] →
      (∀ (j : Nat) (other : List Char), j < i → [['a', '#', '1'], ['b', '#', '1']][j]? = some other →
        prefixOf other '#' ≠ ['b']) →
      ∃ group, ([0, 1] : List Int)[i]? = some group ∧
        getRefGroup '#' [['a', '#', '1'], ['b', '#', '1']] [0, 1] ['b'] = some group) :=
  getRefGroup_no_delimiter '#' [['a', '#', '1'], ['b', '#', '1']] [0, 1] ['b'] (by decide)
    (by decide)

/-- C29 fails as stated: the query name `chr1` holds no `#`, the only reference is
named `chr1` and is in group `0` (what a zero-initialised `refIdGroup` and `setRefGroups` both
give), and `getRefGroup` returns `0`, not `-1`. -/
theorem getRefGroup_counterexample :
    '#' ∉ ['c', 'h', 'r', '1'] ∧
    getRefGroup '#' [['c', 'h', 'r', '1']] [0] ['c', 'h', 'r', '1'] = some 0 ∧
    getRefGroup '#' [['c', 'h', 'r', '1']] [0] ['c', 'h', 'r', '1'] ≠ some (-1) := by
  decide

end skch

namespace skch

theorem toU64_of_nonneg (v : Int) (h0 : 0 ≤ v) (h1 : v < 2 ^ 63) : toU64 v = v.toNat := by
  unfold toU64
  rw [Int.emod_eq_of_lt h0 (by omega)]

/-- The test `seq.length() >= param.segLength` of `build` and `reader_thread`, for a segment
length in the non-negative range of a signed 64-bit value. -/
theorem length_ge_segLength_iff (param : Parameters) (seq : List Char)
    (h0 : 0 ≤ param.segLength) (h1 : param.segLength < 2 ^ 63) :
    seq.length ≥ toU64 param.segLength ↔ (seq.length : Int) ≥ param.segLength := by
  rw [toU64_of_nonneg _ h0 h1]
  omega

theorem build_foldl (param : Parameters) (getSequenceId : List Char → Int)
    (h0 : 0 ≤ param.segLength) (h1 : param.segLength < 2 ^ 63)
    (seqs : List (List Char × List Char)) :
    ∀ st : BuildLoop,
      (seqs.foldl (fun st s => buildVisit param getSequenceId st s.1 s.2) st).submitted =
        st.submitted ++ (seqs.filter
          (fun s => decide ((s.2.length : Int) ≥ param.segLength))).map
          (fun s => (⟨s.2, s.1, getSequenceId s.1⟩ : InputSeqContainer)) ∧
      (seqs.foldl (fun st s => buildVisit param getSequenceId st s.1 s.2) st).warnings =
        st.warnings ++ (seqs.filter
          (fun s => decide ((s.2.length : Int) < param.segLength))).map (fun s => s.1) ∧
      (seqs.foldl (fun st s => buildVisit param getSequenceId st s.1 s.2) st).totalSeqProcessed =
        st.totalSeqProcessed + (seqs.filter
          (fun s => decide ((s.2.length : Int) ≥ param.segLength))).length ∧
      (seqs.foldl (fun st s => buildVisit param getSequenceId st s.1 s.2) st).totalSeqSkipped =
        st.totalSeqSkipped + (seqs.filter
          (fun s => decide ((s.2.length : Int) < param.segLength))).length := by
  induction seqs with
  | nil => intro st; simp
  | cons s seqs ih =>
    intro st
    rw [List.foldl_cons]
    obtain ⟨i1, i2, i3, i4⟩ := ih (buildVisit param getSequenceId st s.1 s.2)
    rw [i1, i2, i3, i4]
    by_cases h : (s.2.length : Int) ≥ param.segLength
    · have h' : s.2.length ≥ toU64 param.segLength :=
        (length_ge_segLength_iff param s.2 h0 h1).mpr h
      have hn : ¬ ((s.2.length : Int) < param.segLength) := not_lt.mpr h
      simp [buildVisit, h', h, hn, List.filter_cons, Nat.add_assoc, Nat.add_comm 1]
    · have h' : ¬ s.2.length ≥ toU64 param.segLength :=
        fun e => h ((length_ge_segLength_iff param s.2 h0 h1).mp e)
      have hn : (s.2.length : Int) < param.segLength := not_le.mp h
      simp [buildVisit, h', h, hn, List.filter_cons, Nat.add_assoc, Nat.add_comm 1]

theorem reader_foldl (param : Parameters) (getSequenceId : List Char → Int)
    (h0 : 0 ≤ param.segLength) (h1 : param.segLength < 2 ^ 63)
    (seqs : List (List Char × List Char)) :
    ∀ q : List InputSeqContainer,
      seqs.foldl (fun q s => readerVisit param getSequenceId q s.1 s.2) q =
        q ++ (seqs.filter (fun s => decide ((s.2.length : Int) ≥ param.segLength))).map
          (fun s => (⟨s.2, s.1, getSequenceId s.1⟩ : InputSeqContainer)) := by
  induction seqs with
  | nil => intro q; simp
  | cons s seqs ih =>
    intro q
    rw [List.foldl_cons, ih]
    by_cases h : (s.2.length : Int) ≥ param.segLength
    · have h' : s.2.length ≥ toU64 param.segLength :=
        (length_ge_segLength_iff param s.2 h0 h1).mpr h
      simp [readerVisit, h', h, List.filter_cons]
    · have h' : ¬ s.2.length ≥ toU64 param.segLength :=
        fun e => h ((length_ge_segLength_iff param s.2 h0 h1).mp e)
      simp [readerVisit, h', h, List.filter_cons]

/-- C27 (as the code has it). During index build, for a segment length `0 <= segLength < 2^63`,
the sequences handed to the sketcher are exactly those of length `>= param.segLength`, in
order, and the sequences skipped (counted in `totalSeqSkipped`, each with a warning) are exactly
those of length `< param.segLength`; `reader_thread` queues the same sequences as `build`
hands over. -/
theorem build_skips_below_segLength (param : Parameters) (getSequenceId : List Char → Int)
    (seqs : List (List Char × List Char))
    (h0 : 0 ≤ param.segLength) (h1 : param.segLength < 2 ^ 63) :
    (build param getSequenceId seqs).submitted =
      (seqs.filter (fun s => decide ((s.2.length : Int) ≥ param.segLength))).map
        (fun s => (⟨s.2, s.1, getSequenceId s.1⟩ : InputSeqContainer)) ∧
    (build param getSequenceId seqs).warnings =
      (seqs.filter (fun s => decide ((s.2.length : Int) < param.segLength))).map (fun s => s.1) ∧
    (build param getSequenceId seqs).totalSeqProcessed =
      (seqs.filter (fun s => decide ((s.2.length : Int) ≥ param.segLength))).length ∧
    (build param getSequenceId seqs).totalSeqSkipped =
      (seqs.filter (fun s => decide ((s.2.length : Int) < param.segLength))).length ∧
    reader_thread param getSequenceId seqs = (build param getSequenceId seqs).submitted := by
  obtain ⟨i1, i2, i3, i4⟩ := build_foldl param getSequenceId h0 h1 seqs BuildLoop.start
  have i5 := reader_foldl param getSequenceId h0 h1 seqs []
  unfold build reader_thread
  rw [i1, i2, i3, i4, i5]
  simp [BuildLoop.start]

theorem build_skips_below_segLength_witness :
    (build Parameters.sample (fun _ => 0) BuildLoop.sampleSeqs).submitted =
      (BuildLoop.sampleSeqs.filter
        (fun s => decide ((s.2.length : Int) ≥ Parameters.sample.segLength))).map
        (fun s => (⟨s.2, s.1, (fun _ => 0) s.1⟩ : InputSeqContainer)) ∧
    (build Parameters.sample (fun _ => 0) BuildLoop.sampleSeqs).warnings =
      (BuildLoop.sampleSeqs.filter
        (fun s => decide ((s.2.length : Int) < Parameters.sample.segLength))).map
        (fun s => s.1) ∧
    (build Parameters.sample (fun _ => 0) BuildLoop.sampleSeqs).totalSeqProcessed =
      (BuildLoop.sampleSeqs.filter
        (fun s => decide ((s.2.length : Int) ≥ Parameters.sample.segLength))).length ∧
    (build Parameters.sample (fun _ => 0) BuildLoop.sampleSeqs).totalSeqSkipped =
      (BuildLoop.sampleSeqs.filter
        (fun s => decide ((s.2.length : Int) < Parameters.sample.segLength))).length ∧
    reader_thread Parameters.sample (fun _ => 0) BuildLoop.sampleSeqs =
      (build Parameters.sample (fun _ => 0) BuildLoop.sampleSeqs).submitted :=
  build_skips_below_segLength Parameters.sample (fun _ => 0) BuildLoop.sampleSeqs
    (by decide) (by decide)

/-- C27 fails as stated: with `segLength = 100` and a k-mer size of `15`, a
reference sequence of 50 bases is not shorter than `k`, and `build` skips it with a warning
and `reader_thread` does not queue it. -/
theorem build_skips_counterexample :
    ¬ ((List.replicate 50 'A').length < 15) ∧
    Parameters.sample.segLength = 100 ∧
    (build Parameters.sample (fun _ => 0) [(['s'], List.replicate 50 'A')]).submitted = [] ∧
    (build Parameters.sample (fun _ => 0) [(['s'], List.replicate 50 'A')]).totalSeqSkipped = 1 ∧
    (build Parameters.sample (fun _ => 0) [(['s'], List.replicate 50 'A')]).warnings = [['s']] ∧
    reader_thread Parameters.sample (fun _ => 0) [(['s'], List.replicate 50 'A')] = [] := by
  decide

end skch

namespace skch

/-- The binary search returns, with a position between `first` and `first + len`, whatever the
comparison answers. -/
theorem upperBoundLoop_spec (comp : Int → Bool) :
    ∀ fuel first len, len ≤ fuel →
      ∃ r, upperBoundLoop comp fuel first len = some r ∧ first ≤ r ∧ r ≤ first + len := by
  intro fuel
  induction fuel with
  | zero =>
    intro first len h
    have : len = 0 := by omega
    subst this
    exact ⟨first, rfl, le_refl _, by omega⟩
  | succ fuel ih =>
    intro first len h
    cases len with
    | zero => exact ⟨first, rfl, le_refl _, by omega⟩
    | succ len =>
      simp only [upperBoundLoop]
      have hhalf : (len + 1) / 2 ≤ len := by omega
      split_ifs
      · obtain ⟨r, hr, h1, h2⟩ := ih first ((len + 1) / 2) (by omega)
        exact ⟨r, hr, h1, by omega⟩
      · obtain ⟨r, hr, h1, h2⟩ := ih (first + (len + 1) / 2 + 1)
          (len + 1 - (len + 1) / 2 - 1) (by omega)
        exact ⟨r, hr, by omega, by omega⟩

theorem upper_bound_spec (comp : Int → Bool) (ss : Nat) :
    ∃ r, upper_bound comp ss = some r ∧ r ≤ ss := by
  obtain ⟨r, hr, _, h2⟩ := upperBoundLoop_spec comp ss 0 ss (le_refl _)
  exact ⟨r, hr, by omega⟩

/-- One round of `setProbs` returns, keeps the size of the table, and every entry is an old
entry or lies in `[1, max(1, ss)]`. -/
theorem setProbsRound_spec (distDiff : Int → Int → Bool) (ss : Int) (t : List Int)
    (cmax : Int) :
    ∃ t2, setProbsRound distDiff ss t cmax = some t2 ∧ t2.length = t.length ∧
      ∀ v ∈ t2, v ∈ t ∨ (1 ≤ v ∧ v ≤ max 1 ss) := by
  obtain ⟨ci, hci, hle⟩ := upper_bound_spec (fun ci => distDiff cmax ci) ss.toNat
  have hle2 : (ci : Int) ≤ max 1 ss := by
    have : (ci : Int) ≤ (ss.toNat : Int) := by exact_mod_cast hle
    omega
  unfold setProbsRound
  rw [hci]
  dsimp only
  by_cases hk : cmax.toNat < t.length
  · by_cases h0 : ci = 0
    · subst h0
      refine ⟨t.set cmax.toNat 1, ?_, by simp, ?_⟩
      · simp [List.getElem?_set, hk]
      · intro v hv
        rcases List.mem_or_eq_of_mem_set hv with h | h
        · exact Or.inl h
        · exact Or.inr ⟨by omega, by omega⟩
    · refine ⟨t.set cmax.toNat (ci : Int), ?_, by simp, ?_⟩
      · have : ¬ ((ci : Int) = 0) := by omega
        simp [List.getElem?_set, hk, this]
      · intro v hv
        rcases List.mem_or_eq_of_mem_set hv with h | h
        · exact Or.inl h
        · exact Or.inr ⟨by omega, by omega⟩
  · have hset : ∀ x : Int, t.set cmax.toNat x = t := by
      intro x
      exact List.set_eq_of_length_le (by omega)
    refine ⟨t, ?_, rfl, fun v hv => Or.inl hv⟩
    rw [hset, hset]
    have : t[cmax.toNat]? = none := List.getElem?_eq_none (by omega)
    simp [this]

theorem setProbsLoop_spec (distDiff : Int → Int → Bool) (ss : Int) (cmaxs : List Int) :
    ∀ t : List Int, ∃ t2, setProbsLoop distDiff ss t cmaxs = some t2 ∧ t2.length = t.length ∧
      ∀ v ∈ t2, v ∈ t ∨ (1 ≤ v ∧ v ≤ max 1 ss) := by
  induction cmaxs with
  | nil => intro t; exact ⟨t, rfl, rfl, fun v hv => Or.inl hv⟩
  | cons cmax cmaxs ih =>
    intro t
    obtain ⟨t1, h1, hl1, hv1⟩ := setProbsRound_spec distDiff ss t cmax
    obtain ⟨t2, h2, hl2, hv2⟩ := ih t1
    refine ⟨t2, ?_, by omega, ?_⟩
    · simp only [setProbsLoop, h1]
      exact h2
    · intro v hv
      rcases hv2 v hv with h | h
      · exact hv1 v h
      · exact Or.inr h

/-- C28. For every sketch size, every `ss_table_max` and every answer of the probability
oracle, the constructor of `Map` leaves a table `sketchCutoffs` (with `setProbs` or without),
and every entry `sketchCutoffs[cmax]` with `1 <= cmax <= ss` exists and lies in `[1, ss]`. -/
theorem sketchCutoffs_in_range (distDiff : Int → Int → Bool) (stage1_topANI_filter : Bool)
    (sketchSize ss_table_max : Int) :
    ∃ t, Map.sketchCutoffs distDiff stage1_topANI_filter sketchSize ss_table_max = some t ∧
      ∀ cmax : Int, 1 ≤ cmax → cmax ≤ ssOf sketchSize ss_table_max →
        ∃ v, t[cmax.toNat]? = some v ∧ 1 ≤ v ∧ v ≤ ssOf sketchSize ss_table_max := by
  have hinit : ∀ v ∈ sketchCutoffsInit sketchSize ss_table_max, v = 1 := by
    intro v hv
    exact List.eq_of_mem_replicate hv
  have hlen : (sketchCutoffsInit sketchSize ss_table_max).length =
      (ssOf sketchSize ss_table_max + 1).toNat := by
    simp [sketchCutoffsInit]
  have key : ∃ t, Map.sketchCutoffs distDiff stage1_topANI_filter sketchSize ss_table_max =
      some t ∧ t.length = (ssOf sketchSize ss_table_max + 1).toNat ∧
      ∀ v ∈ t, 1 ≤ v ∧ v ≤ max 1 (ssOf sketchSize ss_table_max) := by
    unfold Map.sketchCutoffs
    by_cases hs : stage1_topANI_filter = true
    · obtain ⟨t, ht, hl, hv⟩ := setProbsLoop_spec distDiff (ssOf sketchSize ss_table_max)
        ((List.range (ssOf sketchSize ss_table_max).toNat).map (fun i => (i : Int) + 1))
        (sketchCutoffsInit sketchSize ss_table_max)
      refine ⟨t, ?_, by omega, ?_⟩
      · simp only [hs, if_true, setProbs]
        exact ht
      · intro v hvt
        rcases hv v hvt with h | h
        · rw [hinit v h]
          exact ⟨le_refl _, le_max_left _ _⟩
        · exact h
    · refine ⟨sketchCutoffsInit sketchSize ss_table_max, by simp [hs], hlen, ?_⟩
      intro v hv
      rw [hinit v hv]
      exact ⟨le_refl _, le_max_left _ _⟩
  obtain ⟨t, ht, hl, hv⟩ := key
  refine ⟨t, ht, ?_⟩
  intro cmax h1 h2
  have hlt : cmax.toNat < t.length := by omega
  refine ⟨t[cmax.toNat], List.getElem?_eq_getElem hlt, ?_⟩
  have := hv _ (List.getElem_mem hlt)
  omega

end skch

/-! ## Writing and reading the index file -/

namespace skch

theorem readArray_map {α : Type} (get : StreamObject → Option α) (mk : α → StreamObject)
    (hget : ∀ a, get (mk a) = some a) (l : List α) (rest : List StreamObject) :
    readArray get l.length (l.map mk ++ rest) = Except.ok (l, rest) := by
  induction l with
  | nil => cases rest <;> rfl
  | cons a l ih =>
    simp only [List.length_cons, List.map_cons, List.cons_append, readArray, hget,
      List.append_eq, ih]

theorem readNames_write (names : List (List Char)) :
    ∀ (acc : List (List Char)) (rest : List StreamObject),
      readNames names.length acc (names.flatMap writeName ++ rest) =
        Except.ok (acc ++ names, rest) := by
  induction names with
  | nil => intro acc rest; simp [readNames]
  | cons name names ih =>
    intro acc rest
    have h := readArray_map StreamObject.chr? StreamObject.chr (fun _ => rfl) name
      (names.flatMap writeName ++ rest)
    simp only [List.length_cons, List.flatMap_cons, writeName, List.cons_append,
      List.append_assoc, readNames, readU64, h, ih]
    simp

theorem lookup_eq_none_of_not_mem (m : List (Nat × List IntervalPoint)) (key : Nat)
    (h : key ∉ m.map Prod.fst) : m.lookup key = none := by
  induction m with
  | nil => rfl
  | cons e m ih =>
    obtain ⟨k, v⟩ := e
    simp only [List.map_cons, List.mem_cons, not_or] at h
    have hk : (key == k) = false := by simpa using h.1
    simp [List.lookup, hk, ih h.2]

theorem assignEntry_new (m : List (Nat × List IntervalPoint)) (key : Nat)
    (v : List IntervalPoint) (h : key ∉ m.map Prod.fst) :
    assignEntry m key v = m ++ [(key, v)] := by
  simp [assignEntry, lookup_eq_none_of_not_mem m key h]

/-- The loop of `readPosListBinary` on the entries that `writePosListBinary` wrote: it assigns
them one after the other, unless the counter `idx` would pass `2^31 - 1`. -/
theorem readPosListLoop_write (es : List (Nat × List IntervalPoint)) :
    ∀ (idx : Int) (m : List (Nat × List IntervalPoint)) (rest : List StreamObject),
      0 ≤ idx → idx < 2 ^ 31 →
      readPosListLoop es.length idx m (es.flatMap writePosListEntry ++ rest) =
        if idx + es.length < 2 ^ 31 then
          Except.ok (es.foldl (fun m e => assignEntry m e.1 e.2) m, rest)
        else Except.error ReadError.undefined := by
  induction es with
  | nil =>
    intro idx m rest _ h1
    simp only [readPosListLoop, List.length_nil, List.flatMap_nil, List.nil_append,
      List.foldl_nil, Nat.cast_zero, add_zero]
    rw [if_pos h1]
  | cons e es ih =>
    intro idx m rest h0 h1
    obtain ⟨key, v⟩ := e
    have h := readArray_map StreamObject.point? StreamObject.point (fun _ => rfl) v
      (es.flatMap writePosListEntry ++ rest)
    simp only [List.length_cons, List.flatMap_cons, writePosListEntry, List.cons_append,
      List.append_assoc, readPosListLoop, readU64, h, List.foldl_cons, Nat.cast_add,
      Nat.cast_one]
    by_cases hidx : idx + 1 > 2 ^ 31 - 1
    · have hn : ¬ (idx + ((es.length : Int) + 1) < 2 ^ 31) := by omega
      rw [if_pos hidx, if_neg hn]
    · rw [if_neg hidx, ih (idx + 1) (assignEntry m key v) rest (by omega) (by omega)]
      by_cases hlt : idx + 1 + (es.length : Int) < 2 ^ 31
      · have hlt2 : idx + ((es.length : Int) + 1) < 2 ^ 31 := by omega
        rw [if_pos hlt, if_pos hlt2]
      · have hlt2 : ¬ (idx + ((es.length : Int) + 1) < 2 ^ 31) := by omega
        rw [if_neg hlt, if_neg hlt2]

/-- Entries with distinct new keys are appended in order. -/
theorem foldl_assignEntry_new (es : List (Nat × List IntervalPoint)) :
    ∀ m : List (Nat × List IntervalPoint), (es.map Prod.fst).Nodup →
      (∀ key ∈ es.map Prod.fst, key ∉ m.map Prod.fst) →
      es.foldl (fun m e => assignEntry m e.1 e.2) m = m ++ es := by
  induction es with
  | nil => intro m _ _; simp
  | cons e es ih =>
    intro m hnd hnew
    obtain ⟨key, v⟩ := e
    simp only [List.map_cons, List.nodup_cons] at hnd
    have hkey : key ∉ m.map Prod.fst := hnew key (by simp)
    rw [List.foldl_cons, assignEntry_new m key v hkey, ih (m ++ [(key, v)]) hnd.2]
    · simp
    · intro k hk
      simp only [List.map_append, List.map_cons, List.map_nil, List.mem_append,
        List.mem_singleton, not_or]
      refine ⟨hnew k (by simp [hk]), ?_⟩
      rintro rfl
      exact hnd.1 hk

/-- The function `readIndex` on a complete sub-index stream followed by `rest`, read into an
empty `Sketch`. -/
theorem readIndex_subIndexStream (param stored : IndexParameters) (s : SketchIndex)
    (magic : Nat) (names target : List (List Char)) (rest : List StreamObject) :
    readIndex param SketchIndex.empty target (subIndexStream magic names stored s ++ rest) =
      if magic ≠ magic_number ∨ names ≠ target ∨ stored ≠ param then
        Except.error ReadError.exit1
      else if (s.minmerPosLookupIndex.length : Int) < 2 ^ 31 then
        Except.ok (⟨s.minmerIndex,
          s.minmerPosLookupIndex.foldl (fun m e => assignEntry m e.1 e.2) []⟩, rest)
      else Except.error ReadError.undefined := by
  have hn := readNames_write names []
    (writeParameters stored ++ writeSketchBinary s ++ writePosListBinary s ++ rest)
  have ha := readArray_map StreamObject.minmer? StreamObject.minmer (fun _ => rfl) s.minmerIndex
    (writePosListBinary s ++ rest)
  have hp := readPosListLoop_write s.minmerPosLookupIndex 0 [] rest (le_refl _) (by norm_num)
  rw [zero_add] at hp
  unfold readIndex readSubIndexHeader subIndexStream
  simp only [List.cons_append, List.append_assoc, readU64]
  by_cases hm : magic ≠ magic_number
  · simp [hm]
  · simp only [hm, if_false, writeNames, List.cons_append, readU64, false_or]
    simp only [List.append_assoc] at hn
    rw [hn]
    simp only [List.nil_append]
    by_cases hnames : names = target
    · subst hnames
      simp only [decide_True, Bool.not_true, ne_eq, not_true_eq_false, false_or]
      simp only [readParameters, writeParameters, List.cons_append, List.nil_append,
        readParameter]
      by_cases hpar : stored = param
      · subst hpar
        simp only [ne_eq, not_true_eq_false, or_self, if_false]
        simp only [readSketchBinary, writeSketchBinary, List.cons_append, readU64]
        rw [ha]
        simp only [readPosListBinary, writePosListBinary, List.cons_append, readU64,
          SketchIndex.empty]
        rw [hp]
        by_cases hlt : (s.minmerPosLookupIndex.length : Int) < 2 ^ 31
        · rw [if_pos hlt, if_pos hlt]
          simp
        · rw [if_neg hlt, if_neg hlt]
          simp
      · have hne : param.segLength ≠ stored.segLength ∨ param.sketchSize ≠ stored.sketchSize ∨
            param.kmerSize ≠ stored.kmerSize := by
          by_contra hc
          push_neg at hc
          apply hpar
          cases stored; cases param
          simp only [IndexParameters.mk.injEq]
          simp only at hc
          exact ⟨hc.1.symm, hc.2.1.symm, hc.2.2.symm⟩
        simp [hne, hpar]
    · simp [hnames]

/-- The function `readIndex` on a complete sub-index stream whose map has distinct keys, fewer
than `2^31`. -/
theorem readIndex_subIndexStream_map (param stored : IndexParameters) (s : SketchIndex)
    (magic : Nat) (names target : List (List Char)) (rest : List StreamObject)
    (hnd : (s.minmerPosLookupIndex.map Prod.fst).Nodup)
    (hsize : s.minmerPosLookupIndex.length < 2 ^ 31) :
    readIndex param SketchIndex.empty target (subIndexStream magic names stored s ++ rest) =
      if magic ≠ magic_number ∨ names ≠ target ∨ stored ≠ param then
        Except.error ReadError.exit1
      else Except.ok (s, rest) := by
  have hlt : (s.minmerPosLookupIndex.length : Int) < 2 ^ 31 := by exact_mod_cast hsize
  rw [readIndex_subIndexStream, if_pos hlt,
    foldl_assignEntry_new s.minmerPosLookupIndex [] hnd (by simp), List.nil_append]

end skch

namespace skch

theorem writeIndex_eq_subIndexStream (param : IndexParameters) (s : SketchIndex)
    (target_subset : List (List Char)) :
    writeIndex param s target_subset = subIndexStream magic_number target_subset param s := by
  simp [writeIndex, subIndexStream, writeSubIndexHeader]

/-- C21. For every index whose map has distinct keys and fewer than `2^31` of them, every
target name list and every parameter triple, `readIndex` on what `writeIndex` wrote (followed by
anything), with the same names and parameters and into an empty `Sketch`, succeeds, loads a
`minmerIndex` equal to the written one and a `minmerPosLookupIndex` equal to the written one as a
map, and stops at the end of what was written. -/
theorem readIndex_writeIndex (param : IndexParameters) (s : SketchIndex)
    (names : List (List Char)) (rest : List StreamObject)
    (hnd : (s.minmerPosLookupIndex.map Prod.fst).Nodup)
    (hsize : s.minmerPosLookupIndex.length < 2 ^ 31) :
    ∃ loaded : SketchIndex,
      readIndex param SketchIndex.empty names (writeIndex param s names ++ rest) =
        Except.ok (loaded, rest) ∧
      loaded.minmerIndex = s.minmerIndex ∧
      ∀ hash, loaded.find hash = s.find hash := by
  refine ⟨s, ?_, rfl, fun _ => rfl⟩
  rw [writeIndex_eq_subIndexStream,
    readIndex_subIndexStream_map param param s magic_number names names rest hnd hsize]
  simp

theorem readIndex_writeIndex_witness :
    ∃ loaded : SketchIndex,
      readIndex ⟨100, 3, 15⟩ SketchIndex.empty [['c', 'h', 'r', '1']]
          (writeIndex ⟨100, 3, 15⟩ SketchIndex.sample [['c', 'h', 'r', '1']] ++ []) =
        Except.ok (loaded, []) ∧
      loaded.minmerIndex = SketchIndex.sample.minmerIndex ∧
      ∀ hash, loaded.find hash = SketchIndex.sample.find hash :=
  readIndex_writeIndex ⟨100, 3, 15⟩ SketchIndex.sample [['c', 'h', 'r', '1']] [] (by decide)
    (by decide)

/-- C22. On a complete sub-index stream (leading `uint64_t`, name list, parameters, window list
and positional map), followed by anything, `readIndex` ends in `exit(1)` if and only if the
leading `uint64_t` is not `0xDEADBEEFCAFEBABE`, or the stored name list differs from the
expected target names, or one of the stored `segLength`, `sketchSize`, `kmerSize` differs from
the current parameters; otherwise, the map having distinct keys and fewer than `2^31` of them,
it loads the window list and the positional map of the stream. -/
theorem readIndex_exit_iff (param stored : IndexParameters) (s : SketchIndex) (magic : Nat)
    (names target : List (List Char)) (rest : List StreamObject) :
    (readIndex param SketchIndex.empty target (subIndexStream magic names stored s ++ rest) =
        Except.error ReadError.exit1 ↔
      magic ≠ 0xDEADBEEFCAFEBABE ∨ names ≠ target ∨ stored.segLength ≠ param.segLength ∨
        stored.sketchSize ≠ param.sketchSize ∨ stored.kmerSize ≠ param.kmerSize) ∧
    (¬ (magic ≠ 0xDEADBEEFCAFEBABE ∨ names ≠ target ∨ stored.segLength ≠ param.segLength ∨
        stored.sketchSize ≠ param.sketchSize ∨ stored.kmerSize ≠ param.kmerSize) →
      (s.minmerPosLookupIndex.map Prod.fst).Nodup → s.minmerPosLookupIndex.length < 2 ^ 31 →
      readIndex param SketchIndex.empty target (subIndexStream magic names stored s ++ rest) =
        Except.ok (s, rest)) := by
  have hpar : stored ≠ param ↔ stored.segLength ≠ param.segLength ∨
      stored.sketchSize ≠ param.sketchSize ∨ stored.kmerSize ≠ param.kmerSize := by
    cases stored; cases param
    simp only [ne_eq, IndexParameters.mk.injEq]
    tauto
  have hcond : (magic ≠ magic_number ∨ names ≠ target ∨ stored ≠ param) ↔
      (magic ≠ 0xDEADBEEFCAFEBABE ∨ names ≠ target ∨ stored.segLength ≠ param.segLength ∨
        stored.sketchSize ≠ param.sketchSize ∨ stored.kmerSize ≠ param.kmerSize) := by
    rw [hpar]
    rfl
  constructor
  · rw [readIndex_subIndexStream param stored s magic names target rest]
    constructor
    · intro h
      by_contra hc
      rw [if_neg (fun h2 => hc (hcond.mp h2))] at h
      by_cases hlt : (s.minmerPosLookupIndex.length : Int) < 2 ^ 31
      · rw [if_pos hlt] at h
        cases h
      · rw [if_neg hlt] at h
        cases h
    · intro h
      rw [if_pos (hcond.mpr h)]
  · intro h hnd hsize
    rw [readIndex_subIndexStream_map param stored s magic names target rest hnd hsize,
      if_neg (fun h2 => h (hcond.mp h2))]

end skch

/-! ## The L2 regions of a candidate -/

namespace skch

theorem l2Inv_of_sameLoci {σ : Type} {st st2 : L2Sweep σ} (h : SameLoci st st2)
    (hi : L2Inv st) : L2Inv st2 := by
  obtain ⟨h1, h2, h3, h4, h5⟩ := h
  unfold L2Inv at hi ⊢
  rw [h1, h2, h3, h4, h5]
  exact hi

theorem sameLoci_refl {σ : Type} (st : L2Sweep σ) : SameLoci st st :=
  ⟨rfl, rfl, rfl, rfl, rfl⟩

theorem sameLoci_trans {σ : Type} {a b c : L2Sweep σ} (h1 : SameLoci a b) (h2 : SameLoci b c) :
    SameLoci a c :=
  ⟨h2.1.trans h1.1, h2.2.1.trans h1.2.1, h2.2.2.1.trans h1.2.2.1,
    h2.2.2.2.1.trans h1.2.2.2.1, h2.2.2.2.2.trans h1.2.2.2.2⟩

theorem saveLocus_ne_nil (segLength : Int) (v : List L2_mapLocus_t) (o : L2_mapLocus_t) :
    saveLocus segLength v o ≠ [] := by
  unfold saveLocus
  cases v.getLast? with
  | none => simp
  | some back =>
    dsimp only
    split_ifs <;> simp

theorem saveLocus_shared (segLength : Int) (v : List L2_mapLocus_t) (o : L2_mapLocus_t)
    (b : Int) (hv : ∀ l ∈ v, l.sharedSketchSize = b) (ho : o.sharedSketchSize = b) :
    ∀ l ∈ saveLocus segLength v o, l.sharedSketchSize = b := by
  unfold saveLocus
  cases hl : v.getLast? with
  | none =>
    intro l hl2
    simp only [List.mem_singleton] at hl2
    rw [hl2, ho]
  | some back =>
    have hback : back ∈ v := List.mem_of_mem_getLast? (Option.mem_def.mpr hl)
    dsimp only
    split_ifs
    · intro l hl2
      rcases List.mem_append.mp hl2 with h | h
      · exact hv l h
      · simp only [List.mem_singleton] at h
        rw [h, ho]
    · intro l hl2
      rcases List.mem_append.mp hl2 with h | h
      · exact hv l (List.mem_of_mem_dropLast h)
      · simp only [List.mem_singleton] at h
        rw [h]
        exact hv back hback

theorem closeLocus_shared (o : L2_mapLocus_t) (seqId votes : Int) :
    (closeLocus o seqId votes).sharedSketchSize = o.sharedSketchSize := rfl

/-- The comparison with `bestSketchSize` keeps the invariant on the loci. -/
theorem compareBest_inv {σ : Type} (M : SlideMapper σ) (param : Parameters) (windowLen : Int)
    (votes : Int) (st : L2Sweep σ) (w : MinmerInfo) (hi : L2Inv st) :
    L2Inv (compareBest M param windowLen votes st w) := by
  obtain ⟨ha, hb, hc, hd, he, hf⟩ := hi
  unfold compareBest
  dsimp only
  by_cases h1 : M.sharedSketchElements st.slideMap > st.bestSketchSize
  · rw [if_pos h1]
    refine ⟨by simp, fun _ => rfl, by dsimp only; omega, ?_, Or.inr (by simp), by simp⟩
    intro v hv
    dsimp only at hv ⊢
    rcases List.mem_append.mp hv with h | h
    · have := hd v h
      omega
    · simp only [List.mem_singleton] at h
      omega
  · rw [if_neg h1]
    by_cases h2 : M.sharedSketchElements st.slideMap = st.bestSketchSize
    · rw [if_pos h2]
      refine ⟨ha, ?_, hc, ?_, Or.inr (by simp [h2]), by simp [h2]⟩
      · intro _
        dsimp only
        by_cases hin : st.in_candidate = true
        · simp only [hin, if_true]
          exact hb hin
        · simp only [hin]
          exact h2
      · intro v hv
        dsimp only at hv ⊢
        rcases List.mem_append.mp hv with h | h
        · exact hd v h
        · simp only [List.mem_singleton] at h
          omega
    · rw [if_neg h2]
      have hlt : M.sharedSketchElements st.slideMap < st.bestSketchSize := by omega
      have hmem : st.bestSketchSize ∈ st.evaluated ++ [M.sharedSketchElements st.slideMap] ↔
          st.bestSketchSize ∈ st.evaluated := by
        simp only [List.mem_append, List.mem_singleton]
        constructor
        · rintro (h | h)
          · exact h
          · omega
        · exact Or.inl
      have hle : ∀ v ∈ st.evaluated ++ [M.sharedSketchElements st.slideMap],
          v ≤ st.bestSketchSize := by
        intro v hv
        rcases List.mem_append.mp hv with h | h
        · exact hd v h
        · simp only [List.mem_singleton] at h
          omega
      by_cases hin : st.in_candidate = true
      · rw [if_pos hin]
        refine ⟨?_, by simp, hc, hle, ?_, ?_⟩
        · exact saveLocus_shared _ _ _ _ ha (hb hin)
        · dsimp only
          rcases he with h | h
          · exact Or.inl h
          · exact Or.inr (hmem.mpr h)
        · dsimp only
          rw [hmem]
          constructor
          · intro _
            exact hf.mp (Or.inl hin)
          · intro _
            exact Or.inr (saveLocus_ne_nil _ _ _)
      · rw [if_neg hin]
        refine ⟨ha, by simp, hc, hle, ?_, ?_⟩
        · dsimp only
          rcases he with h | h
          · exact Or.inl h
          · exact Or.inr (hmem.mpr h)
        · dsimp only
          rw [hmem, ← hf]
          simp [hin]

end skch

namespace skch

theorem heapFront_mem : ∀ (l : List MinmerInfo) (f : MinmerInfo), heapFront l = some f → f ∈ l
  | [], f, h => by simp [heapFront] at h
  | e :: es, f, h => by
    unfold heapFront at h
    cases hes : heapFront es with
    | none =>
      rw [hes] at h
      simp only [Option.some.injEq] at h
      simp [h]
    | some g =>
      rw [hes] at h
      dsimp only at h
      split_ifs at h
      · simp only [Option.some.injEq] at h
        subst h
        exact List.mem_cons_of_mem _ (heapFront_mem es g hes)
      · simp only [Option.some.injEq] at h
        simp [h]

theorem heapFront_eq_none (l : List MinmerInfo) (h : heapFront l = none) : l = [] := by
  cases l with
  | nil => rfl
  | cons e es =>
    unfold heapFront at h
    cases hes : heapFront es with
    | none => rw [hes] at h; simp at h
    | some g =>
      rw [hes] at h
      dsimp only at h
      split_ifs at h

theorem sum_update_of_not_mem (f : Nat → Int) (h : Nat) (v : Int) (l : List MinmerInfo)
    (hn : h ∉ l.map (fun e => e.hash)) :
    (l.map (fun e => Function.update f h v e.hash)).sum = (l.map (fun e => f e.hash)).sum := by
  congr 1
  apply List.map_congr_left
  intro e he
  have : e.hash ≠ h := fun hc => hn (by rw [← hc]; exact List.mem_map_of_mem _ he)
  exact Function.update_noteq this _ _

theorem sum_map_erase (g : MinmerInfo → Int) (l : List MinmerInfo) (a : MinmerInfo)
    (ha : a ∈ l) : (l.map g).sum = g a + ((l.erase a).map g).sum := by
  have hp := (List.perm_cons_erase ha).map g
  rw [hp.sum_eq, List.map_cons, List.sum_cons]

theorem nodup_hash_erase (l : List MinmerInfo) (a : MinmerInfo) (ha : a ∈ l)
    (hnd : (l.map (fun e => e.hash)).Nodup) :
    a.hash ∉ (l.erase a).map (fun e => e.hash) ∧
      ((l.erase a).map (fun e => e.hash)).Nodup := by
  have hp := (List.perm_cons_erase ha).map (fun e => e.hash)
  have := hp.nodup_iff.mp hnd
  rw [List.map_cons, List.nodup_cons] at this
  exact this

theorem sum_freq_nonneg (f : Nat → Int) (l : List MinmerInfo)
    (hpos : ∀ e ∈ l, 1 ≤ f e.hash) : 0 ≤ (l.map (fun e => f e.hash)).sum := by
  apply List.sum_nonneg
  intro x hx
  obtain ⟨e, he, rfl⟩ := List.mem_map.mp hx
  have := hpos e he
  omega

/-- The inner loop for `windowLen == 0`: every round removes the front, so it returns within as
many rounds as the heap has windows. -/
theorem expireLoop_zero {σ : Type} (M : SlideMapper σ) (bound : Int) :
    ∀ (fuel : Nat) (st : L2Sweep σ), st.slidingWindow.length ≤ fuel →
      ∃ st2, expireLoop M 0 bound fuel st = some st2 ∧
        st2.slidingWindow.length ≤ st.slidingWindow.length ∧ SameLoci st st2 := by
  intro fuel
  induction fuel with
  | zero =>
    intro st h
    have hnil : st.slidingWindow = [] := List.length_eq_zero.mp (Nat.le_zero.mp h)
    refine ⟨st, ?_, le_refl _, sameLoci_refl st⟩
    simp [expireLoop, hnil, heapFront]
  | succ fuel ih =>
    intro st h
    unfold expireLoop
    cases hf : heapFront st.slidingWindow with
    | none => exact ⟨st, rfl, le_refl _, sameLoci_refl st⟩
    | some front =>
      dsimp only
      by_cases hb : front.wpos_end ≤ bound
      · have hmem := heapFront_mem _ _ hf
        have hlen := List.length_erase_of_mem hmem
        simp only [hb, if_true, lt_self_iff_false, if_false, true_or]
        obtain ⟨st2, h1, h2, h3⟩ := ih
          { st with
            hash_to_freq := st.hash_to_freq
            slideMap := M.delete_minmer st.slideMap front
            slidingWindow := st.slidingWindow.erase front }
          (by
            dsimp only
            have : 0 < st.slidingWindow.length := List.length_pos_of_mem hmem
            omega)
        refine ⟨st2, h1, ?_, ?_⟩
        · dsimp only at h2
          omega
        · exact sameLoci_trans ⟨rfl, rfl, rfl, rfl, rfl⟩ h3
      · simp only [hb, if_false]
        exact ⟨st, rfl, le_refl _, sameLoci_refl st⟩

end skch

namespace skch

/-- The inner loop for `windowLen > 0`: every round takes one from the frequency of the hash of
the front, so it returns within as many rounds as the frequencies of the heap add up to. -/
theorem expireLoop_pos {σ : Type} (M : SlideMapper σ) (windowLen bound : Int)
    (hw : 0 < windowLen) :
    ∀ (fuel : Nat) (st : L2Sweep σ),
      (st.slidingWindow.map (fun e => e.hash)).Nodup →
      (∀ e ∈ st.slidingWindow, 1 ≤ st.hash_to_freq e.hash) →
      (st.slidingWindow.map (fun e => st.hash_to_freq e.hash)).sum ≤ (fuel : Int) →
      ∃ st2, expireLoop M windowLen bound fuel st = some st2 ∧
        (st2.slidingWindow.map (fun e => e.hash)).Nodup ∧
        (∀ e ∈ st2.slidingWindow, 1 ≤ st2.hash_to_freq e.hash) ∧
        (st2.slidingWindow.map (fun e => st2.hash_to_freq e.hash)).sum ≤
          (st.slidingWindow.map (fun e => st.hash_to_freq e.hash)).sum ∧
        st2.slidingWindow.length ≤ st.slidingWindow.length ∧ SameLoci st st2 := by
  have hw0 : ¬ windowLen = 0 := by omega
  intro fuel
  induction fuel with
  | zero =>
    intro st hnd hpos hsum
    refine ⟨st, ?_, hnd, hpos, le_refl _, le_refl _, sameLoci_refl st⟩
    unfold expireLoop
    cases hf : heapFront st.slidingWindow with
    | none => rfl
    | some front =>
      exfalso
      have hmem := heapFront_mem _ _ hf
      have h1 := sum_map_erase (fun e => st.hash_to_freq e.hash) _ _ hmem
      have h2 := sum_freq_nonneg st.hash_to_freq (st.slidingWindow.erase front)
        (fun e he => hpos e (List.mem_of_mem_erase he))
      have h3 := hpos front hmem
      simp only [Nat.cast_zero] at hsum
      dsimp only at h1
      omega
  | succ fuel ih =>
    intro st hnd hpos hsum
    unfold expireLoop
    cases hf : heapFront st.slidingWindow with
    | none => exact ⟨st, rfl, hnd, hpos, le_refl _, le_refl _, sameLoci_refl st⟩
    | some front =>
      dsimp only
      by_cases hb : front.wpos_end ≤ bound
      · have hmem := heapFront_mem _ _ hf
        have h1 := sum_map_erase (fun e => st.hash_to_freq e.hash) _ _ hmem
        dsimp only at h1
        obtain ⟨hnot, hnd2⟩ := nodup_hash_erase _ _ hmem hnd
        have hfront := hpos front hmem
        have hsame : ((st.slidingWindow.erase front).map (fun e =>
            Function.update st.hash_to_freq front.hash (st.hash_to_freq front.hash - 1)
              e.hash)).sum =
            ((st.slidingWindow.erase front).map (fun e => st.hash_to_freq e.hash)).sum :=
          sum_update_of_not_mem _ _ _ _ hnot
        simp only [hb, if_true, hw, hw0, false_or, Function.update_same]
        by_cases hz : st.hash_to_freq front.hash - 1 = 0
        · rw [if_pos hz]
          obtain ⟨st2, e1, e2, e3, e4, e5, e6⟩ := ih
            { st with
              hash_to_freq := Function.update st.hash_to_freq front.hash
                (st.hash_to_freq front.hash - 1)
              slideMap := M.delete_minmer st.slideMap front
              slidingWindow := st.slidingWindow.erase front }
            hnd2
            (by
              intro e he
              dsimp only at he ⊢
              have hne : e.hash ≠ front.hash :=
                fun hc => hnot (by rw [← hc]; exact List.mem_map_of_mem _ he)
              rw [Function.update_noteq hne]
              exact hpos e (List.mem_of_mem_erase he))
            (by
              dsimp only
              rw [hsame]
              push_cast at hsum
              omega)
          refine ⟨st2, e1, e2, e3, ?_, ?_, sameLoci_trans ⟨rfl, rfl, rfl, rfl, rfl⟩ e6⟩
          · dsimp only at e4
            rw [hsame] at e4
            omega
          · dsimp only at e5
            have := List.length_erase_of_mem hmem
            omega
        · rw [if_neg hz]
          have hsum2 : (st.slidingWindow.map (fun e =>
              Function.update st.hash_to_freq front.hash (st.hash_to_freq front.hash - 1)
                e.hash)).sum =
              (st.slidingWindow.map (fun e => st.hash_to_freq e.hash)).sum - 1 := by
            rw [sum_map_erase (fun e => Function.update st.hash_to_freq front.hash
              (st.hash_to_freq front.hash - 1) e.hash) _ _ hmem]
            rw [hsame, Function.update_same]
            omega
          obtain ⟨st2, e1, e2, e3, e4, e5, e6⟩ := ih
            { st with
              hash_to_freq := Function.update st.hash_to_freq front.hash
                (st.hash_to_freq front.hash - 1) }
            hnd
            (by
              intro e he
              dsimp only at he ⊢
              by_cases hc : e.hash = front.hash
              · rw [hc, Function.update_same]
                omega
              · rw [Function.update_noteq hc]
                exact hpos e he)
            (by
              dsimp only
              rw [hsum2]
              push_cast at hsum
              omega)
          refine ⟨st2, e1, e2, e3, ?_, e5, sameLoci_trans ⟨rfl, rfl, rfl, rfl, rfl⟩ e6⟩
          dsimp only at e4
          rw [hsum2] at e4
          omega
      · simp only [hb, if_false]
        exact ⟨st, rfl, hnd, hpos, le_refl _, le_refl _, sameLoci_refl st⟩

/-- The inner loop returns when `fuel` is at least the number of windows counted so far, and
keeps the invariants. -/
theorem expireLoop_returns {σ : Type} (M : SlideMapper σ) (windowLen bound : Int)
    (hw : 0 ≤ windowLen) (n fuel : Nat) (hfuel : n ≤ fuel) (st : L2Sweep σ)
    (hh : HeapInv windowLen n st) :
    ∃ st2, expireLoop M windowLen bound fuel st = some st2 ∧ HeapInv windowLen n st2 ∧
      SameLoci st st2 := by
  by_cases h0 : windowLen = 0
  · subst h0
    obtain ⟨st2, e1, e2, e3⟩ := expireLoop_zero M bound fuel st (le_trans hh.1 hfuel)
    exact ⟨st2, e1, ⟨le_trans e2 hh.1, fun h => absurd h (lt_irrefl _)⟩, e3⟩
  · have hpos : 0 < windowLen := by omega
    obtain ⟨hnd, hp, hs⟩ := hh.2 hpos
    obtain ⟨st2, e1, e2, e3, e4, e5, e6⟩ := expireLoop_pos M windowLen bound hpos fuel st hnd hp
      (by have : (n : Int) ≤ (fuel : Int) := by exact_mod_cast hfuel
          omega)
    exact ⟨st2, e1, ⟨le_trans e5 hh.1, fun _ => ⟨e2, e3, le_trans e4 hs⟩⟩, e6⟩

theorem openWindow_sameLoci {σ : Type} (M : SlideMapper σ) (windowLen : Int) (st : L2Sweep σ)
    (w : MinmerInfo) : SameLoci st (openWindow M windowLen st w).1 := by
  unfold openWindow
  dsimp only
  split_ifs <;> exact ⟨rfl, rfl, rfl, rfl, rfl⟩

/-- Counting one more window keeps the invariant on the heap. -/
theorem openWindow_heapInv {σ : Type} (M : SlideMapper σ) (windowLen : Int) (n : Nat)
    (st : L2Sweep σ) (w : MinmerInfo) (hh : HeapInv windowLen n st) :
    HeapInv windowLen (n + 1) (openWindow M windowLen st w).1 := by
  obtain ⟨hlen, hrest⟩ := hh
  unfold openWindow
  dsimp only
  by_cases h0 : windowLen = 0
  · subst h0
    simp only [true_or, if_true, lt_self_iff_false, if_false]
    refine ⟨by simp; omega, fun h => absurd h (lt_irrefl _)⟩
  · by_cases hpos : 0 < windowLen
    · obtain ⟨hnd, hp, hs⟩ := hrest hpos
      simp only [gt_iff_lt, hpos, if_true, h0, false_or, Function.update_same]
      by_cases h1 : st.hash_to_freq w.hash + 1 = 1
      · rw [if_pos h1]
        have hnot : w.hash ∉ st.slidingWindow.map (fun e => e.hash) := by
          intro hc
          obtain ⟨e, he, heq⟩ := List.mem_map.mp hc
          have := hp e he
          rw [heq] at this
          omega
        refine ⟨by simp; omega, fun _ => ⟨?_, ?_, ?_⟩⟩
        · dsimp only
          rw [List.map_append, List.map_cons, List.map_nil]
          exact List.Nodup.append hnd (List.nodup_singleton _)
            (by
              intro a ha hb
              simp only [List.mem_singleton] at hb
              exact hnot (hb ▸ ha))
        · intro e he
          dsimp only at he ⊢
          rcases List.mem_append.mp he with h | h
          · have hne : e.hash ≠ w.hash :=
              fun hc => hnot (by rw [← hc]; exact List.mem_map_of_mem _ h)
            rw [Function.update_noteq hne]
            exact hp e h
          · simp only [List.mem_singleton] at h
            rw [h, Function.update_same]
            omega
        · dsimp only
          rw [List.map_append, List.sum_append, sum_update_of_not_mem _ _ _ _ hnot]
          simp only [List.map_cons, List.map_nil, List.sum_cons, List.sum_nil,
            Function.update_same]
          push_cast
          omega
      · rw [if_neg h1]
        refine ⟨by dsimp only; omega, fun _ => ⟨hnd, ?_, ?_⟩⟩
        · intro e he
          dsimp only at he ⊢
          by_cases hc : e.hash = w.hash
          · rw [hc, Function.update_same]
            have := hp e he
            rw [hc] at this
            omega
          · rw [Function.update_noteq hc]
            exact hp e he
        · dsimp only
          by_cases hin : w.hash ∈ st.slidingWindow.map (fun e => e.hash)
          · obtain ⟨e, he, heq⟩ := List.mem_map.mp hin
            obtain ⟨hnot, _⟩ := nodup_hash_erase _ _ he hnd
            rw [heq] at hnot
            rw [sum_map_erase (fun e => Function.update st.hash_to_freq w.hash
              (st.hash_to_freq w.hash + 1) e.hash) _ _ he]
            rw [sum_update_of_not_mem _ _ _ _ hnot, heq, Function.update_same]
            have h2 := sum_map_erase (fun e => st.hash_to_freq e.hash) _ _ he
            dsimp only at h2
            rw [heq] at h2
            push_cast
            omega
          · rw [sum_update_of_not_mem _ _ _ _ hin]
            push_cast
            omega
    · have hneg : ¬ windowLen > 0 := hpos
      simp only [hneg, if_false, h0, false_or]
      split_ifs
      · exact ⟨by simp; omega, fun h => absurd h hpos⟩
      · exact ⟨by dsimp only; omega, fun h => absurd h hpos⟩

theorem heapInv_weaken {σ : Type} {windowLen : Int} {n m : Nat} {st : L2Sweep σ}
    (hh : HeapInv windowLen n st) (hnm : n ≤ m) : HeapInv windowLen m st := by
  refine ⟨le_trans hh.1 hnm, fun hpos => ?_⟩
  obtain ⟨a, b, c⟩ := hh.2 hpos
  refine ⟨a, b, ?_⟩
  have : (n : Int) ≤ (m : Int) := by exact_mod_cast hnm
  omega

theorem compareBest_heapInv {σ : Type} (M : SlideMapper σ) (param : Parameters)
    (windowLen votes : Int) (n : Nat) (st : L2Sweep σ) (w : MinmerInfo)
    (hh : HeapInv windowLen n st) :
    HeapInv windowLen n (compareBest M param windowLen votes st w) := by
  unfold compareBest
  dsimp only
  split_ifs <;> exact hh

theorem compareBest_in_candidate {σ : Type} (M : SlideMapper σ) (param : Parameters)
    (windowLen votes : Int) (st : L2Sweep σ) (w : MinmerInfo) :
    (compareBest M param windowLen votes st w).slideMap = st.slideMap := by
  unfold compareBest
  dsimp only
  split_ifs <;> rfl

end skch

namespace skch

/-- The binary search of `std::lower_bound` returns a position of `minmerIndex` or its end,
whatever the order `lt` is. -/
theorem lowerBoundLoop_spec (lt : MinmerInfo → MinmerInfo → Bool)
    (minmerIndex : List MinmerInfo) (value : MinmerInfo) :
    ∀ fuel first len, len ≤ fuel → first + len ≤ minmerIndex.length →
      ∃ r, lowerBoundLoop lt minmerIndex value fuel first len = some r ∧
        r ≤ minmerIndex.length := by
  intro fuel
  induction fuel with
  | zero =>
    intro first len h hb
    have : len = 0 := by omega
    subst this
    exact ⟨first, rfl, by omega⟩
  | succ fuel ih =>
    intro first len h hb
    cases len with
    | zero => exact ⟨first, rfl, by omega⟩
    | succ len =>
      have hhalf : (len + 1) / 2 ≤ len := by omega
      have hlt : first + (len + 1) / 2 < minmerIndex.length := by omega
      simp only [lowerBoundLoop, List.getElem?_eq_getElem hlt]
      split_ifs
      · exact ih (first + (len + 1) / 2 + 1) (len + 1 - (len + 1) / 2 - 1) (by omega)
          (by omega)
      · exact ih first ((len + 1) / 2) (by omega) (by omega)

theorem lower_bound_spec (lt : MinmerInfo → MinmerInfo → Bool) (minmerIndex : List MinmerInfo)
    (value : MinmerInfo) :
    ∃ r, lower_bound lt minmerIndex value = some r ∧ r ≤ minmerIndex.length :=
  lowerBoundLoop_spec lt minmerIndex value minmerIndex.length 0 minmerIndex.length (le_refl _)
    (by omega)

/-- The set-up loop keeps the invariant on the heap and does not touch the loci. -/
theorem setUpLoop_spec {σ : Type} (M : SlideMapper σ) (candidateLocus : L1_candidateLocus_t)
    (windowLen : Int) :
    ∀ (ws : List MinmerInfo) (st : L2Sweep σ) (before : Option MinmerInfo) (n : Nat),
      HeapInv windowLen n st →
      ∃ n2, HeapInv windowLen n2 (setUpLoop M candidateLocus windowLen st before ws).1 ∧
        n2 + (setUpLoop M candidateLocus windowLen st before ws).2.2.length ≤ n + ws.length ∧
        SameLoci st (setUpLoop M candidateLocus windowLen st before ws).1 := by
  intro ws
  induction ws with
  | nil =>
    intro st before n hh
    exact ⟨n, hh, le_refl _, sameLoci_refl st⟩
  | cons w ws ih =>
    intro st before n hh
    unfold setUpLoop
    by_cases hc : w.seqId = candidateLocus.seqId ∧ w.wpos < candidateLocus.rangeStartPos
    · rw [if_pos hc]
      by_cases he : w.wpos_end > candidateLocus.rangeStartPos
      · rw [if_pos he]
        obtain ⟨n2, h1, h2, h3⟩ := ih (openWindow M windowLen st w).1 (some w) (n + 1)
          (openWindow_heapInv M windowLen n st w hh)
        refine ⟨n2, h1, ?_, sameLoci_trans (openWindow_sameLoci M windowLen st w) h3⟩
        simp only [List.length_cons]
        omega
      · rw [if_neg he]
        obtain ⟨n2, h1, h2, h3⟩ := ih st (some w) n hh
        refine ⟨n2, h1, ?_, h3⟩
        simp only [List.length_cons]
        omega
    · rw [if_neg hc]
      exact ⟨n, hh, le_refl _, sameLoci_refl st⟩

/-- The main loop returns when `fuel` is at least the number of windows counted and to come,
and keeps the invariant on the loci. -/
theorem mainLoop_spec {σ : Type} (M : SlideMapper σ) (param : Parameters)
    (candidateLocus : L1_candidateLocus_t) (windowLen : Int) (hw : 0 ≤ windowLen)
    (fuel : Nat) :
    ∀ (ws : List MinmerInfo) (st : L2Sweep σ) (before : Option MinmerInfo) (n : Nat),
      HeapInv windowLen n st → n + ws.length ≤ fuel → L2Inv st →
      (st.in_candidate = true → before ≠ none) →
      ∃ st2 before2, mainLoop M param candidateLocus windowLen fuel st before ws =
          some (st2, before2) ∧ L2Inv st2 ∧ (st2.in_candidate = true → before2 ≠ none) := by
  intro ws
  induction ws with
  | nil =>
    intro st before n _ _ hi hb
    exact ⟨st, before, rfl, hi, hb⟩
  | cons w ws ih =>
    intro st before n hh hfuel hi hb
    simp only [List.length_cons] at hfuel
    unfold mainLoop
    by_cases hc : w.seqId = candidateLocus.seqId ∧
        w.wpos ≤ candidateLocus.rangeEndPos + windowLen
    · rw [if_pos hc]
      obtain ⟨st1, e1, e2, e3⟩ := expireLoop_returns M windowLen (w.wpos - windowLen) hw n fuel
        (by omega) st hh
      simp only [e1]
      have hi1 : L2Inv st1 := l2Inv_of_sameLoci e3 hi
      have ho := openWindow_heapInv M windowLen n st1 w e2
      have hio : L2Inv (openWindow M windowLen st1 w).1 :=
        l2Inv_of_sameLoci (openWindow_sameLoci M windowLen st1 w) hi1
      by_cases hp : (openWindow M windowLen st1 w).2 = true
      · rw [if_pos hp]
        exact ih _ (some w) (n + 1) (compareBest_heapInv M param windowLen _ (n + 1) _ w ho)
          (by omega) (compareBest_inv M param windowLen _ _ w hio) (fun _ => by simp)
      · rw [if_neg hp]
        exact ih _ (some w) (n + 1) ho (by omega) hio (fun _ => by simp)
    · rw [if_neg hc]
      exact ⟨st, before, rfl, hi, hb⟩

theorem L2Sweep.start_inv {σ : Type} (M : SlideMapper σ) (Q : Q_Info) (windowLen : Int) :
    L2Inv (L2Sweep.start M Q []) ∧ HeapInv windowLen 0 (L2Sweep.start M Q []) ∧
      (L2Sweep.start M Q []).in_candidate = false := by
  refine ⟨?_, ?_, rfl⟩
  · unfold L2Inv L2Sweep.start
    simp
  · unfold HeapInv L2Sweep.start
    simp

theorem sameWindow_refl {σ : Type} (st : L2Sweep σ) : SameWindow st st :=
  ⟨rfl, rfl, rfl⟩

theorem sameWindow_symm {σ : Type} {a b : L2Sweep σ} (h : SameWindow a b) : SameWindow b a :=
  ⟨h.1.symm, h.2.1.symm, h.2.2.symm⟩

theorem sameWindow_trans {σ : Type} {a b c : L2Sweep σ} (h1 : SameWindow a b)
    (h2 : SameWindow b c) : SameWindow a c :=
  ⟨h2.1.trans h1.1, h2.2.1.trans h1.2.1, h2.2.2.trans h1.2.2⟩

/-- The inner loop takes states with the same heap, frequencies and `slideMap` to such states,
and returns on both or on neither. -/
theorem expireLoop_sameWindow {σ : Type} (M : SlideMapper σ) (windowLen bound : Int) :
    ∀ (fuel : Nat) (st st2 : L2Sweep σ), SameWindow st st2 →
      (expireLoop M windowLen bound fuel st = none ∧
        expireLoop M windowLen bound fuel st2 = none) ∨
      ∃ r r2, expireLoop M windowLen bound fuel st = some r ∧
        expireLoop M windowLen bound fuel st2 = some r2 ∧ SameWindow r r2 := by
  intro fuel
  induction fuel with
  | zero =>
    intro st st2 h
    obtain ⟨h1, h2, h3⟩ := h
    unfold expireLoop
    rw [h1]
    cases heapFront st.slidingWindow with
    | none => exact Or.inr ⟨st, st2, rfl, rfl, h1, h2, h3⟩
    | some front =>
      dsimp only
      by_cases hb : front.wpos_end ≤ bound
      · rw [if_pos hb, if_pos hb]
        exact Or.inl ⟨rfl, rfl⟩
      · rw [if_neg hb, if_neg hb]
        exact Or.inr ⟨st, st2, rfl, rfl, h1, h2, h3⟩
  | succ fuel ih =>
    intro st st2 h
    obtain ⟨h1, h2, h3⟩ := h
    unfold expireLoop
    rw [h1]
    cases heapFront st.slidingWindow with
    | none => exact Or.inr ⟨st, st2, rfl, rfl, h1, h2, h3⟩
    | some front =>
      dsimp only
      by_cases hb : front.wpos_end ≤ bound
      · rw [if_pos hb, if_pos hb, h2, h3]
        split_ifs <;> exact ih _ _ ⟨rfl, rfl, rfl⟩
      · rw [if_neg hb, if_neg hb]
        exact Or.inr ⟨st, st2, rfl, rfl, h1, h2, h3⟩

/-- The inner loop does not touch the variables of the comparison with `bestSketchSize`. -/
theorem expireLoop_sameLoci {σ : Type} (M : SlideMapper σ) (windowLen bound : Int) :
    ∀ (fuel : Nat) (st r : L2Sweep σ), expireLoop M windowLen bound fuel st = some r →
      SameLoci st r := by
  intro fuel
  induction fuel with
  | zero =>
    intro st r h
    unfold expireLoop at h
    split at h
    · cases h
      exact sameLoci_refl st
    · split_ifs at h
      cases h
      exact sameLoci_refl st
  | succ fuel ih =>
    intro st r h
    unfold expireLoop at h
    split at h
    · cases h
      exact sameLoci_refl st
    · dsimp only at h
      split_ifs at h <;> first
        | (have h2 := ih _ r h
           exact ⟨h2.1, h2.2.1, h2.2.2.1, h2.2.2.2.1, h2.2.2.2.2⟩)
        | (cases h; exact sameLoci_refl st)

theorem openWindow_sameWindow {σ : Type} (M : SlideMapper σ) (windowLen : Int)
    {st st2 : L2Sweep σ} (h : SameWindow st st2) (w : MinmerInfo) :
    (openWindow M windowLen st2 w).2 = (openWindow M windowLen st w).2 ∧
      SameWindow (openWindow M windowLen st w).1 (openWindow M windowLen st2 w).1 := by
  obtain ⟨h1, h2, h3⟩ := h
  unfold openWindow
  dsimp only
  rw [h1, h2, h3]
  split_ifs <;> exact ⟨rfl, rfl, rfl, rfl⟩

/-- The comparison with `bestSketchSize` records the shared sketch elements of `slideMap` and
leaves the heap, the frequencies and `slideMap` as they are. -/
theorem compareBest_window {σ : Type} (M : SlideMapper σ) (param : Parameters)
    (windowLen votes : Int) (st : L2Sweep σ) (w : MinmerInfo) :
    (compareBest M param windowLen votes st w).evaluated =
        st.evaluated ++ [M.sharedSketchElements st.slideMap] ∧
      SameWindow st (compareBest M param windowLen votes st w) := by
  unfold compareBest
  dsimp only
  split_ifs <;> exact ⟨rfl, rfl, rfl, rfl⟩

/-- The values the main loop compares with `bestSketchSize` are the shared sketch elements of
the `slideMap` at the leading windows of `windowLoop`, in order. -/
theorem mainLoop_compared {σ : Type} (M : SlideMapper σ) (param : Parameters)
    (candidateLocus : L1_candidateLocus_t) (windowLen : Int) (fuel : Nat) :
    ∀ (ws : List MinmerInfo) (st st2 : L2Sweep σ) (before : Option MinmerInfo)
      (r : L2Sweep σ × Option MinmerInfo), SameWindow st st2 →
      mainLoop M param candidateLocus windowLen fuel st before ws = some r →
      ∃ compared, windowLoop M candidateLocus windowLen fuel st2 ws = some compared ∧
        r.1.evaluated = st.evaluated ++ compared.map (fun p => M.sharedSketchElements p.2) := by
  intro ws
  induction ws with
  | nil =>
    intro st st2 before r _ h
    unfold mainLoop at h
    cases h
    exact ⟨[], rfl, by simp⟩
  | cons w ws ih =>
    intro st st2 before r hsw h
    unfold mainLoop at h
    unfold windowLoop
    by_cases hc : w.seqId = candidateLocus.seqId ∧
        w.wpos ≤ candidateLocus.rangeEndPos + windowLen
    · rw [if_pos hc] at h ⊢
      dsimp only at h
      rcases expireLoop_sameWindow M windowLen (w.wpos - windowLen) fuel st st2 hsw with
        ⟨e1, _⟩ | ⟨st1, st1b, e1, e2, hsw1⟩
      · rw [e1] at h
        cases h
      · rw [e1] at h
        rw [e2]
        dsimp only at h ⊢
        have hl1 := expireLoop_sameLoci M windowLen (w.wpos - windowLen) fuel st st1 e1
        have hl2 := openWindow_sameLoci M windowLen st1 w
        have hev : (openWindow M windowLen st1 w).1.evaluated = st.evaluated :=
          hl2.2.2.2.2.trans hl1.2.2.2.2
        obtain ⟨o1, o2⟩ := openWindow_sameWindow M windowLen hsw1 w
        by_cases hp : (openWindow M windowLen st1 w).2 = true
        · rw [if_pos hp] at h
          obtain ⟨c1, c2⟩ := compareBest_window M param windowLen (M.strand_votes st.slideMap)
            (openWindow M windowLen st1 w).1 w
          obtain ⟨compared, i1, i2⟩ := ih _ (openWindow M windowLen st1b w).1 (some w) r
            (sameWindow_trans (sameWindow_symm c2) o2) h
          refine ⟨(w, (openWindow M windowLen st1b w).1.slideMap) :: compared, ?_, ?_⟩
          · rw [i1]
            dsimp only
            rw [o1, if_pos hp]
          · rw [i2, c1, hev, List.map_cons, o2.2.2, List.append_assoc]
            rfl
        · rw [if_neg hp] at h
          obtain ⟨compared, i1, i2⟩ := ih _ (openWindow M windowLen st1b w).1 (some w) r o2 h
          refine ⟨compared, ?_, by rw [i2, hev]⟩
          rw [i1]
          dsimp only
          rw [o1, if_neg hp]
    · rw [if_neg hc] at h ⊢
      cases h
      exact ⟨[], rfl, by simp⟩

/-- The leading windows of `windowLoop` are windows of the list it scans, on the sequence of the
candidate and not beyond the end of its range. -/
theorem windowLoop_mem {σ : Type} (M : SlideMapper σ) (candidateLocus : L1_candidateLocus_t)
    (windowLen : Int) (fuel : Nat) :
    ∀ (ws : List MinmerInfo) (st : L2Sweep σ) (compared : List (MinmerInfo × σ)),
      windowLoop M candidateLocus windowLen fuel st ws = some compared →
      ∀ p ∈ compared, p.1 ∈ ws ∧ p.1.seqId = candidateLocus.seqId ∧
        p.1.wpos ≤ candidateLocus.rangeEndPos + windowLen := by
  intro ws
  induction ws with
  | nil =>
    intro st compared h p hp
    unfold windowLoop at h
    cases h
    cases hp
  | cons w ws ih =>
    intro st compared h p hp
    unfold windowLoop at h
    by_cases hc : w.seqId = candidateLocus.seqId ∧
        w.wpos ≤ candidateLocus.rangeEndPos + windowLen
    · rw [if_pos hc] at h
      cases he : expireLoop M windowLen (w.wpos - windowLen) fuel st with
      | none => rw [he] at h; cases h
      | some st1 =>
        rw [he] at h
        dsimp only at h
        cases hw : windowLoop M candidateLocus windowLen fuel
            (openWindow M windowLen st1 w).1 ws with
        | none => rw [hw] at h; cases h
        | some rest =>
          rw [hw] at h
          dsimp only at h
          have hrest := ih _ rest hw
          split_ifs at h
          · cases h
            rcases List.mem_cons.mp hp with rfl | hp
            · exact ⟨List.mem_cons_self _ _, hc.1, hc.2⟩
            · obtain ⟨a, b, c⟩ := hrest p hp
              exact ⟨List.mem_cons_of_mem _ a, b, c⟩
          · cases h
            obtain ⟨a, b, c⟩ := hrest p hp
            exact ⟨List.mem_cons_of_mem _ a, b, c⟩
    · rw [if_neg hc] at h
      cases h
      cases hp

/-- The windows the set-up loop leaves for the main loop are windows of the list it scans. -/
theorem setUpLoop_mem {σ : Type} (M : SlideMapper σ) (candidateLocus : L1_candidateLocus_t)
    (windowLen : Int) :
    ∀ (ws : List MinmerInfo) (st : L2Sweep σ) (before : Option MinmerInfo),
      ∀ w ∈ (setUpLoop M candidateLocus windowLen st before ws).2.2, w ∈ ws := by
  intro ws
  induction ws with
  | nil =>
    intro st before w hw
    simp [setUpLoop] at hw
  | cons x ws ih =>
    intro st before w hw
    unfold setUpLoop at hw
    by_cases hc : x.seqId = candidateLocus.seqId ∧ x.wpos < candidateLocus.rangeStartPos
    · rw [if_pos hc] at hw
      exact List.mem_cons_of_mem _ (ih _ _ w hw)
    · rw [if_neg hc] at hw
      exact hw

/-- C30. `computeL2MappedRegions` on an empty `l2_vec_out` returns, for every `SlideMapper`,
index and candidate, and so does the sweep of its evaluated leading positions
(`comparedSlideMaps`), which are windows of the index on the sequence of the candidate, not
beyond `rangeEndPos + windowLen`; the values it compared with `bestSketchSize` are the
`sharedSketchElements` of the `SlideMapper` at these positions; all loci it returns have the
same `sharedSketchSize`, which is the largest of these values; and it returns a locus exactly
when one of these values is `>= 1`. -/
theorem computeL2MappedRegions_best_shared {σ : Type} (M : SlideMapper σ) (param : Parameters)
    (lt : MinmerInfo → MinmerInfo → Bool) (minmerIndex : List MinmerInfo) (Q : Q_Info)
    (candidateLocus : L1_candidateLocus_t) :
    ∃ (out : List L2_mapLocus_t) (compared : List (MinmerInfo × σ)),
      computeL2MappedRegions M param lt minmerIndex Q candidateLocus [] =
        some (out, compared.map (fun p => M.sharedSketchElements p.2)) ∧
      comparedSlideMaps M param lt minmerIndex Q candidateLocus = some compared ∧
      (∀ p ∈ compared, p.1 ∈ minmerIndex ∧ p.1.seqId = candidateLocus.seqId ∧
        p.1.wpos ≤ candidateLocus.rangeEndPos + max 0 (Q.len - param.segLength)) ∧
      (∀ l ∈ out,
        IsMaxOf l.sharedSketchSize (compared.map (fun p => M.sharedSketchElements p.2))) ∧
      (∀ l ∈ out, ∀ l2 ∈ out, l.sharedSketchSize = l2.sharedSketchSize) ∧
      (out ≠ [] ↔ ∃ p ∈ compared, 1 ≤ M.sharedSketchElements p.2) := by
  obtain ⟨i, hi, hile⟩ := lower_bound_spec lt minmerIndex
    ⟨0, candidateLocus.rangeStartPos - param.segLength - 1, 0, candidateLocus.seqId, 0⟩
  have hw : (0 : Int) ≤ max 0 (Q.len - param.segLength) := le_max_left _ _
  obtain ⟨hs1, hs2, hs3⟩ := L2Sweep.start_inv M Q (max 0 (Q.len - param.segLength))
  obtain ⟨n2, g1, g2, g3⟩ := setUpLoop_spec M candidateLocus (max 0 (Q.len - param.segLength))
    (minmerIndex.drop i) (L2Sweep.start M Q []) (windowBefore minmerIndex i) 0 hs2
  generalize hr : setUpLoop M candidateLocus (max 0 (Q.len - param.segLength))
    (L2Sweep.start M Q []) (windowBefore minmerIndex i) (minmerIndex.drop i) = r at g1 g2 g3
  have hin : r.1.in_candidate = false := by rw [g3.2.1, hs3]
  obtain ⟨st, before, m1, m2, m3⟩ := mainLoop_spec M param candidateLocus
    (max 0 (Q.len - param.segLength)) hw minmerIndex.length r.2.2 r.1 r.2.1 n2 g1
    (by
      have : (minmerIndex.drop i).length ≤ minmerIndex.length := by
        rw [List.length_drop]
        omega
      omega)
    (l2Inv_of_sameLoci g3 hs1) (fun h => by rw [hin] at h; cases h)
  -- the values compared are those of the sweep of the leading positions
  obtain ⟨compared, w1, w2⟩ := mainLoop_compared M param candidateLocus
    (max 0 (Q.len - param.segLength)) minmerIndex.length r.2.2 r.1 r.1 r.2.1 (st, before)
    (sameWindow_refl r.1) m1
  have hev0 : r.1.evaluated = [] := g3.2.2.2.2
  have hev : st.evaluated = compared.map (fun p => M.sharedSketchElements p.2) := by
    have := w2
    rw [hev0, List.nil_append] at this
    exact this
  have hcmp : comparedSlideMaps M param lt minmerIndex Q candidateLocus = some compared := by
    unfold comparedSlideMaps
    simp only [hi, hr]
    exact w1
  have hpos : ∀ p ∈ compared, p.1 ∈ minmerIndex ∧ p.1.seqId = candidateLocus.seqId ∧
      p.1.wpos ≤ candidateLocus.rangeEndPos + max 0 (Q.len - param.segLength) := by
    intro p hp
    obtain ⟨p1, p2, p3⟩ := windowLoop_mem M candidateLocus _ _ r.2.2 r.1 compared w1 p hp
    refine ⟨?_, p2, p3⟩
    rw [← hr] at p1
    exact List.mem_of_mem_drop (setUpLoop_mem M candidateLocus _ _ _ _ _ p1)
  obtain ⟨ha, hb, hc, hd, he, hf⟩ := m2
  have hmax : st.bestSketchSize ∈ st.evaluated → IsMaxOf st.bestSketchSize st.evaluated :=
    fun h => ⟨h, hd⟩
  have hex : (∃ p ∈ compared, 1 ≤ M.sharedSketchElements p.2) ↔
      st.bestSketchSize ∈ st.evaluated := by
    constructor
    · rintro ⟨p, hp, h1⟩
      have hv : M.sharedSketchElements p.2 ∈ st.evaluated := by
        rw [hev]
        exact List.mem_map_of_mem (fun p => M.sharedSketchElements p.2) hp
      rcases he with h | h
      · have := hd _ hv
        have hv1 : M.sharedSketchElements p.2 = st.bestSketchSize := by omega
        rw [← hv1]
        exact hv
      · exact h
    · intro h
      rw [hev] at h
      obtain ⟨p, hp, e⟩ := List.mem_map.mp h
      exact ⟨p, hp, by rw [e]; exact hc⟩
  unfold computeL2MappedRegions
  simp only [hi, hr, m1]
  by_cases hcand : st.in_candidate = true
  · rw [if_pos hcand]
    obtain ⟨w, hw2⟩ := Option.ne_none_iff_exists.mp (m3 hcand)
    rw [← hw2]
    have hbest := hf.mp (Or.inl hcand)
    have hall := saveLocus_shared param.segLength st.l2_vec_out
      (closeLocus st.l2_out w.seqId (M.strand_votes st.slideMap)) st.bestSketchSize ha
      (hb hcand)
    refine ⟨_, compared, by rw [hev], hcmp, hpos, ?_, ?_, ?_⟩
    · intro l hl
      rw [hall l hl, ← hev]
      exact hmax hbest
    · intro l hl l2 hl2
      rw [hall l hl, hall l2 hl2]
    · rw [hex]
      exact ⟨fun _ => hbest, fun _ => saveLocus_ne_nil _ _ _⟩
  · rw [if_neg hcand]
    refine ⟨_, compared, by rw [hev], hcmp, hpos, ?_, ?_, ?_⟩
    · intro l hl
      rw [ha l hl, ← hev]
      exact hmax (hf.mp (Or.inr (List.ne_nil_of_mem hl)))
    · intro l hl l2 hl2
      rw [ha l hl, ha l2 hl2]
    · rw [hex, ← hf]
      simp [hcand]

end skch

/-! ## The wavefront penalties and the two-piece affine kernels -/

namespace wfa

/-- C40. `wavefronts_penalties_set_affine2p` exits if and only if `match > 0` or one of
`mismatch`, `gap_opening1`, `gap_extension1`, `gap_opening2`, `gap_extension2` is `<= 0`;
otherwise the five wavefront penalties are the five input penalties, all `> 0`; and the result
is the same for both values of `penalties_strategy`. -/
theorem wavefronts_penalties_set_affine2p_spec (wavefronts_penalties : wavefronts_penalties_t)
    (p : affine2p_penalties_t) (penalties_strategy : wf_penalties_strategy_type) :
    (wavefronts_penalties_set_affine2p wavefronts_penalties p penalties_strategy = none ↔
      p.match_ > 0 ∨ p.mismatch ≤ 0 ∨ p.gap_opening1 ≤ 0 ∨ p.gap_extension1 ≤ 0 ∨
        p.gap_opening2 ≤ 0 ∨ p.gap_extension2 ≤ 0) ∧
    (∀ r, wavefronts_penalties_set_affine2p wavefronts_penalties p penalties_strategy = some r →
      r = ⟨p.mismatch, p.gap_opening1, p.gap_extension1, p.gap_opening2, p.gap_extension2⟩ ∧
        0 < r.mismatch ∧ 0 < r.gap_opening1 ∧ 0 < r.gap_extension1 ∧ 0 < r.gap_opening2 ∧
        0 < r.gap_extension2) ∧
    wavefronts_penalties_set_affine2p wavefronts_penalties p
        wf_penalties_strategy_type.wavefronts_penalties_force_zero_match =
      wavefronts_penalties_set_affine2p wavefronts_penalties p
        wf_penalties_strategy_type.wavefronts_penalties_shifted_penalties := by
  unfold wavefronts_penalties_set_affine2p
  by_cases hm : p.match_ > 0
  · simp [hm]
  · by_cases hx : p.mismatch ≤ 0 ∨ p.gap_opening1 ≤ 0 ∨ p.gap_extension1 ≤ 0 ∨
        p.gap_opening2 ≤ 0 ∨ p.gap_extension2 ≤ 0
    · simp only [hm, if_false, hx, if_true, false_or, true_and]
      exact ⟨by simp, trivial⟩
    · simp only [hm, if_false, hx, false_and, false_or, Option.some.injEq]
      refine ⟨by simp, ?_, trivial⟩
      intro r hr
      subst hr
      refine ⟨rfl, ?_⟩
      dsimp only
      omega

end wfa

namespace wflambda

theorem MAX_eq_max (a b : Int) : MAX a b = max a b := by
  unfold MAX
  split_ifs with h
  · exact (max_eq_left h).symm
  · exact (max_eq_right (by omega)).symm

theorem MAX_comm (a b : Int) : MAX a b = MAX b a := by
  rw [MAX_eq_max, MAX_eq_max, max_comm]

theorem piggybackGap_offsets (out o e : wavefront_t) (k j inc : Int) (push : Nat → Nat) :
    (piggybackGap out o e k j inc push).offsets =
      Function.update out.offsets k (MAX (o.offsets j) (e.offsets j) + inc) := by
  unfold piggybackGap MAX wavefront_t.setOffset wavefront_t.setBt
  by_cases h : e.offsets j ≥ o.offsets j
  · rw [if_pos h]
    by_cases h2 : o.offsets j ≥ e.offsets j
    · rw [if_pos h2]
      have : e.offsets j = o.offsets j := by omega
      rw [this]
    · rw [if_neg h2]
  · rw [if_neg h, if_pos (by omega)]

theorem piggybackPick_offsets (out_m : wavefront_t) (k max v : Int) (w : wavefront_t) :
    (piggybackPick out_m k max v w).offsets = out_m.offsets := by
  unfold piggybackPick wavefront_t.setBt
  split_ifs <;> rfl

/-- One round of the plain kernel stores `nextOffsets` at `k` and keeps the in wavefronts. -/
theorem idmUnboundedRound_spec (s : wavefront_set_t) (k : Int) :
    SameOffsets (storeNext s k) (idmUnboundedRound s k) :=
  ⟨⟨rfl, rfl, rfl, rfl, rfl, rfl, rfl⟩, rfl, rfl, rfl, rfl, rfl⟩

/-- One round of the piggyback kernel stores the same offsets. -/
theorem idmPiggybackRound_spec (s : wavefront_set_t) (k : Int) :
    SameOffsets (storeNext s k) (idmPiggybackRound s k) := by
  refine ⟨⟨rfl, rfl, rfl, rfl, rfl, rfl, rfl⟩, ?_, ?_, ?_, ?_, ?_⟩
  · simp only [storeNext, idmPiggybackRound, wavefront_t.setOffset, wavefront_t.setBt,
      piggybackPick_offsets, piggybackGap_offsets, Function.update_same, nextOffsets, add_zero]
  · simp only [storeNext, idmPiggybackRound, wavefront_t.setOffset, piggybackGap_offsets, nextOffsets]
  · simp only [storeNext, idmPiggybackRound, wavefront_t.setOffset, piggybackGap_offsets, nextOffsets]
  · simp only [storeNext, idmPiggybackRound, wavefront_t.setOffset, piggybackGap_offsets, nextOffsets,
      add_zero]
  · simp only [storeNext, idmPiggybackRound, wavefront_t.setOffset, piggybackGap_offsets, nextOffsets,
      add_zero]

theorem sameOffsets_trans {a b c : wavefront_set_t} (h1 : SameOffsets a b)
    (h2 : SameOffsets b c) : SameOffsets a c := by
  obtain ⟨⟨a1, a2, a3, a4, a5, a6, a7⟩, a8, a9, a10, a11, a12⟩ := h1
  obtain ⟨⟨b1, b2, b3, b4, b5, b6, b7⟩, b8, b9, b10, b11, b12⟩ := h2
  exact ⟨⟨b1.trans a1, b2.trans a2, b3.trans a3, b4.trans a4, b5.trans a5, b6.trans a6,
    b7.trans a7⟩, b8.trans a8, b9.trans a9, b10.trans a10, b11.trans a11, b12.trans a12⟩

theorem sameOffsets_symm {a b : wavefront_set_t} (h : SameOffsets a b) : SameOffsets b a := by
  obtain ⟨⟨a1, a2, a3, a4, a5, a6, a7⟩, a8, a9, a10, a11, a12⟩ := h
  exact ⟨⟨a1.symm, a2.symm, a3.symm, a4.symm, a5.symm, a6.symm, a7.symm⟩, a8.symm, a9.symm,
    a10.symm, a11.symm, a12.symm⟩

theorem nextOffsets_congr {s t : wavefront_set_t} (h : SameOffsets s t) (k : Int) :
    nextOffsets t k = nextOffsets s k := by
  obtain ⟨⟨a1, a2, a3, a4, a5, a6, a7⟩, _⟩ := h
  unfold nextOffsets
  rw [a1, a2, a3, a4, a5, a6, a7]

theorem storeNext_congr {s t : wavefront_set_t} (h : SameOffsets s t) (k : Int) :
    SameOffsets (storeNext s k) (storeNext t k) := by
  have hn := nextOffsets_congr h k
  obtain ⟨⟨a1, a2, a3, a4, a5, a6, a7⟩, a8, a9, a10, a11, a12⟩ := h
  refine ⟨⟨a1, a2, a3, a4, a5, a6, a7⟩, ?_, ?_, ?_, ?_, ?_⟩ <;>
    simp only [storeNext, wavefront_t.setOffset, hn, a8, a9, a10, a11, a12]

/-- A loop whose body stores `nextOffsets` leaves the offsets of the loop of `storeNext`. -/
theorem kernelLoop_sameOffsets (body : wavefront_set_t → Int → wavefront_set_t)
    (hbody : ∀ s k, SameOffsets (storeNext s k) (body s k)) :
    ∀ (n : Nat) (k : Int) (s t : wavefront_set_t), SameOffsets s t →
      SameOffsets (kernelLoop storeNext n k s) (kernelLoop body n k t) := by
  intro n
  induction n with
  | zero => intro k s t h; exact h
  | succ n ih =>
    intro k s t h
    exact ih (k + 1) _ _ (sameOffsets_trans (storeNext_congr h k) (hbody t k))

theorem storeNext_sameIn (s : wavefront_set_t) (k : Int) :
    nextOffsets (storeNext s k) = nextOffsets s := rfl

/-- The loop of `storeNext` does not touch the diagonals below `k` and leaves `nextOffsets`
on the `n` diagonals from `k` on. -/
theorem kernelLoop_storeNext :
    ∀ (n : Nat) (k : Int) (s : wavefront_set_t),
      nextOffsets (kernelLoop storeNext n k s) = nextOffsets s ∧
      ∀ j : Int,
        (j < k →
          (kernelLoop storeNext n k s).out_i1wavefront.offsets j = s.out_i1wavefront.offsets j ∧
          (kernelLoop storeNext n k s).out_i2wavefront.offsets j = s.out_i2wavefront.offsets j ∧
          (kernelLoop storeNext n k s).out_d1wavefront.offsets j = s.out_d1wavefront.offsets j ∧
          (kernelLoop storeNext n k s).out_d2wavefront.offsets j = s.out_d2wavefront.offsets j ∧
          (kernelLoop storeNext n k s).out_mwavefront.offsets j = s.out_mwavefront.offsets j) ∧
        (k ≤ j → j < k + n →
          (kernelLoop storeNext n k s).out_i1wavefront.offsets j = (nextOffsets s j).1 ∧
          (kernelLoop storeNext n k s).out_i2wavefront.offsets j = (nextOffsets s j).2.1 ∧
          (kernelLoop storeNext n k s).out_d1wavefront.offsets j = (nextOffsets s j).2.2.1 ∧
          (kernelLoop storeNext n k s).out_d2wavefront.offsets j = (nextOffsets s j).2.2.2.1 ∧
          (kernelLoop storeNext n k s).out_mwavefront.offsets j = (nextOffsets s j).2.2.2.2) := by
  intro n
  induction n with
  | zero =>
    intro k s
    refine ⟨rfl, fun j => ⟨fun _ => ⟨rfl, rfl, rfl, rfl, rfl⟩, fun h1 h2 => ?_⟩⟩
    simp only [Nat.cast_zero, add_zero] at h2
    omega
  | succ n ih =>
    intro k s
    obtain ⟨hin, hout⟩ := ih (k + 1) (storeNext s k)
    simp only [kernelLoop]
    refine ⟨hin.trans (storeNext_sameIn s k), fun j => ⟨fun hj => ?_, fun h1 h2 => ?_⟩⟩
    · obtain ⟨e1, e2, e3, e4, e5⟩ := (hout j).1 (by omega)
      have hne : j ≠ k := by omega
      rw [e1, e2, e3, e4, e5]
      simp [storeNext, wavefront_t.setOffset, Function.update_noteq hne]
    · by_cases hjk : j = k
      · subst hjk
        obtain ⟨e1, e2, e3, e4, e5⟩ := (hout j).1 (by omega)
        rw [e1, e2, e3, e4, e5]
        simp [storeNext, wavefront_t.setOffset]
      · have := (hout j).2 (by omega) (by push_cast at h2; omega)
        rw [storeNext_sameIn] at this
        exact this

end wflambda

namespace wflambda

theorem sameOffsets_refl (s : wavefront_set_t) : SameOffsets s s :=
  ⟨⟨rfl, rfl, rfl, rfl, rfl, rfl, rfl⟩, rfl, rfl, rfl, rfl, rfl⟩

theorem max_regroup (i1 i2 d1 d2 sub : Int) :
    max (max d1 d2) (max sub (max i1 i2)) = max (max (max (max i1 i2) d1) d2) sub := by
  omega

/-- C39. For the same wavefront set and every range `[lo, hi]`,
`wavefront_compute_affine2p_idm_piggyback_unbounded` leaves the same offsets in `out_m`,
`out_i1`, `out_i2`, `out_d1` and `out_d2` as `wavefront_compute_affine2p_idm_unbounded`, on
every diagonal, and for `lo <= k <= hi` the offset `out_m[k]` is the largest of `out_i1[k]`,
`out_i2[k]`, `out_d1[k]`, `out_d2[k]` and `m_sub[k] + 1`. -/
theorem idm_piggyback_same_offsets (wavefront_set : wavefront_set_t) (lo hi : Int) :
    (∀ k : Int,
      (wavefront_compute_affine2p_idm_piggyback_unbounded wavefront_set lo
          hi).out_mwavefront.offsets k =
        (wavefront_compute_affine2p_idm_unbounded wavefront_set lo hi).out_mwavefront.offsets k ∧
      (wavefront_compute_affine2p_idm_piggyback_unbounded wavefront_set lo
          hi).out_i1wavefront.offsets k =
        (wavefront_compute_affine2p_idm_unbounded wavefront_set lo hi).out_i1wavefront.offsets k ∧
      (wavefront_compute_affine2p_idm_piggyback_unbounded wavefront_set lo
          hi).out_i2wavefront.offsets k =
        (wavefront_compute_affine2p_idm_unbounded wavefront_set lo hi).out_i2wavefront.offsets k ∧
      (wavefront_compute_affine2p_idm_piggyback_unbounded wavefront_set lo
          hi).out_d1wavefront.offsets k =
        (wavefront_compute_affine2p_idm_unbounded wavefront_set lo hi).out_d1wavefront.offsets k ∧
      (wavefront_compute_affine2p_idm_piggyback_unbounded wavefront_set lo
          hi).out_d2wavefront.offsets k =
        (wavefront_compute_affine2p_idm_unbounded wavefront_set lo
          hi).out_d2wavefront.offsets k) ∧
    (∀ k : Int, lo ≤ k → k ≤ hi →
      (wavefront_compute_affine2p_idm_piggyback_unbounded wavefront_set lo
          hi).out_mwavefront.offsets k =
        max (max (max (max
          ((wavefront_compute_affine2p_idm_piggyback_unbounded wavefront_set lo
            hi).out_i1wavefront.offsets k)
          ((wavefront_compute_affine2p_idm_piggyback_unbounded wavefront_set lo
            hi).out_i2wavefront.offsets k))
          ((wavefront_compute_affine2p_idm_piggyback_unbounded wavefront_set lo
            hi).out_d1wavefront.offsets k))
          ((wavefront_compute_affine2p_idm_piggyback_unbounded wavefront_set lo
            hi).out_d2wavefront.offsets k))
          (wavefront_set.in_mwavefront_sub.offsets k + 1)) := by
  have hA := kernelLoop_sameOffsets idmUnboundedRound idmUnboundedRound_spec
    (hi + 1 - lo).toNat lo wavefront_set wavefront_set (sameOffsets_refl _)
  have hB := kernelLoop_sameOffsets idmPiggybackRound idmPiggybackRound_spec
    (hi + 1 - lo).toNat lo wavefront_set wavefront_set (sameOffsets_refl _)
  obtain ⟨_, hC⟩ := kernelLoop_storeNext (hi + 1 - lo).toNat lo wavefront_set
  unfold wavefront_compute_affine2p_idm_piggyback_unbounded
    wavefront_compute_affine2p_idm_unbounded
  obtain ⟨_, a1, a2, a3, a4, a5⟩ := hA
  obtain ⟨_, b1, b2, b3, b4, b5⟩ := hB
  constructor
  · intro k
    rw [a1, a2, a3, a4, a5, b1, b2, b3, b4, b5]
    exact ⟨rfl, rfl, rfl, rfl, rfl⟩
  · intro k h1 h2
    have hn : ((hi + 1 - lo).toNat : Int) = hi + 1 - lo := Int.toNat_of_nonneg (by omega)
    obtain ⟨c1, c2, c3, c4, c5⟩ := (hC k).2 h1 (by rw [hn]; omega)
    rw [b1, b2, b3, b4, b5, c1, c2, c3, c4, c5]
    simp only [nextOffsets, MAX_eq_max]
    exact max_regroup _ _ _ _ _

end wflambda

/-! ## `computeMap.hpp`: fragments of a query, and the adjustment of neighbours -/

namespace skch

/-- C37. For a query of length `len > segLength > 0` with splitting enabled, `mapModule` maps
the fragments `[i * S, (i + 1) * S)` for `0 <= i < floor(len / S)`, followed by the tail
fragment `[len - S, len)` exactly when `len mod S != 0`; every fragment has length `S` and lies
in `[0, len]`, the fragments before the tail are pairwise disjoint, and a position lies in a
fragment exactly when it lies in `[0, len)`. -/
theorem mapModuleFragments_cover (param : Parameters) (len : Int) (hS : 0 < param.segLength)
    (hlen : param.segLength < len) :
    mapModuleFragments param true len =
      (List.range (len / param.segLength).toNat).map
          (fun i : Nat => ((i : Int) * param.segLength, param.segLength)) ++
        (if len % param.segLength ≠ 0 then [(len - param.segLength, param.segLength)]
          else []) ∧
    (∀ f ∈ mapModuleFragments param true len,
      f.2 = param.segLength ∧ 0 ≤ f.1 ∧ f.1 + f.2 ≤ len) ∧
    List.Pairwise (fun f g : Int × Int => f.1 + f.2 ≤ g.1)
      ((List.range (len / param.segLength).toNat).map
        (fun i : Nat => ((i : Int) * param.segLength, param.segLength))) ∧
    (∀ x : Int, (0 ≤ x ∧ x < len) ↔
      ∃ f ∈ mapModuleFragments param true len, f.1 ≤ x ∧ x < f.1 + f.2) := by
  have hlen0 : 0 ≤ len := by omega
  have hdiv : Int.tdiv len param.segLength = len / param.segLength :=
    Int.tdiv_eq_ediv hlen0 (le_of_lt hS)
  have hmod : Int.tmod len param.segLength = len % param.segLength :=
    Int.tmod_eq_emod hlen0 (le_of_lt hS)
  have hdm : param.segLength * (len / param.segLength) + len % param.segLength = len :=
    Int.ediv_add_emod len param.segLength
  have hr0 : 0 ≤ len % param.segLength := Int.emod_nonneg _ (by omega)
  have hr1 : len % param.segLength < param.segLength := Int.emod_lt_of_pos _ hS
  have hq1 : 1 ≤ len / param.segLength := by
    by_contra hc
    have hq : len / param.segLength ≤ 0 := by omega
    have : param.segLength * (len / param.segLength) ≤ 0 :=
      mul_nonpos_of_nonneg_of_nonpos (le_of_lt hS) hq
    omega
  have hqn : (((len / param.segLength).toNat : Nat) : Int) = len / param.segLength :=
    Int.toNat_of_nonneg (by omega)
  have heq : mapModuleFragments param true len =
      (List.range (len / param.segLength).toNat).map
          (fun i : Nat => ((i : Int) * param.segLength, param.segLength)) ++
        (if len % param.segLength ≠ 0 then [(len - param.segLength, param.segLength)]
          else []) := by
    unfold mapModuleFragments
    have h1 : ¬ (true = false ∨ len ≤ param.segLength) := by
      simp only [Bool.true_eq_false, false_or, not_le]
      exact hlen
    rw [if_neg h1]
    simp only [hdiv, hmod, ge_iff_le, hq1, true_and]
  have hmem : ∀ f : Int × Int, f ∈ (List.range (len / param.segLength).toNat).map
      (fun i : Nat => ((i : Int) * param.segLength, param.segLength)) ↔
      ∃ i : Int, 0 ≤ i ∧ i < len / param.segLength ∧
        f = (i * param.segLength, param.segLength) := by
    intro f
    simp only [List.mem_map, List.mem_range]
    constructor
    · rintro ⟨i, hi, rfl⟩
      exact ⟨(i : Int), by omega, by omega, rfl⟩
    · rintro ⟨i, h0, h1, rfl⟩
      refine ⟨i.toNat, by omega, ?_⟩
      rw [Int.toNat_of_nonneg h0]
  have hmul : ∀ i : Int, i < len / param.segLength →
      i * param.segLength + param.segLength ≤ param.segLength * (len / param.segLength) := by
    intro i hi
    have : (i + 1) * param.segLength ≤ (len / param.segLength) * param.segLength :=
      mul_le_mul_of_nonneg_right (by omega) (le_of_lt hS)
    linarith
  refine ⟨heq, ?_, ?_, ?_⟩
  · intro f hf
    rw [heq] at hf
    rcases List.mem_append.mp hf with h | h
    · obtain ⟨i, h0, h1, rfl⟩ := (hmem f).mp h
      have := hmul i h1
      have h3 : 0 ≤ i * param.segLength := mul_nonneg h0 (le_of_lt hS)
      exact ⟨rfl, h3, by dsimp only; omega⟩
    · split_ifs at h with hr
      · simp only [List.mem_singleton] at h
        subst h
        exact ⟨rfl, by dsimp only; omega, by dsimp only; omega⟩
      · simp at h
  · rw [List.pairwise_map]
    refine List.Pairwise.imp_of_mem ?_ (List.pairwise_lt_range _)
    intro i j _ _ hij
    dsimp only
    have : ((i : Int) + 1) * param.segLength ≤ (j : Int) * param.segLength :=
      mul_le_mul_of_nonneg_right (by omega) (le_of_lt hS)
    linarith
  · intro x
    rw [heq]
    constructor
    · rintro ⟨hx0, hx1⟩
      have hxd : param.segLength * (x / param.segLength) + x % param.segLength = x :=
        Int.ediv_add_emod x param.segLength
      have hxr0 : 0 ≤ x % param.segLength := Int.emod_nonneg _ (by omega)
      have hxr1 : x % param.segLength < param.segLength := Int.emod_lt_of_pos _ hS
      have hxq0 : 0 ≤ x / param.segLength := Int.ediv_nonneg hx0 (le_of_lt hS)
      by_cases hi : x / param.segLength < len / param.segLength
      · refine ⟨((x / param.segLength) * param.segLength, param.segLength),
          List.mem_append_left _ ((hmem _).mpr ⟨_, hxq0, hi, rfl⟩), ?_, ?_⟩
        · dsimp only
          linarith
        · dsimp only
          linarith
      · have hge : param.segLength * (len / param.segLength) ≤
            param.segLength * (x / param.segLength) :=
          mul_le_mul_of_nonneg_left (by omega) (le_of_lt hS)
        have hr : len % param.segLength ≠ 0 := by
          intro hc
          omega
        refine ⟨(len - param.segLength, param.segLength), List.mem_append_right _ ?_, ?_, ?_⟩
        · rw [if_pos hr]
          exact List.mem_singleton.mpr rfl
        · dsimp only
          omega
        · dsimp only
          omega
    · rintro ⟨f, hf, h1, h2⟩
      rcases List.mem_append.mp hf with h | h
      · obtain ⟨i, h0, hi, rfl⟩ := (hmem f).mp h
        have := hmul i hi
        have h3 : 0 ≤ i * param.segLength := mul_nonneg h0 (le_of_lt hS)
        dsimp only at h1 h2
        exact ⟨by omega, by omega⟩
      · split_ifs at h with hr
        · simp only [List.mem_singleton] at h
          subst h
          dsimp only at h1 h2
          exact ⟨by omega, by omega⟩
        · simp at h

theorem mapModuleFragments_cover_witness :
    mapModuleFragments Parameters.sample true 250 =
      (List.range ((250 : Int) / Parameters.sample.segLength).toNat).map
          (fun i : Nat => ((i : Int) * Parameters.sample.segLength, Parameters.sample.segLength)) ++
        (if (250 : Int) % Parameters.sample.segLength ≠ 0 then
          [(250 - Parameters.sample.segLength, Parameters.sample.segLength)]
          else []) ∧
    (∀ f ∈ mapModuleFragments Parameters.sample true 250,
      f.2 = Parameters.sample.segLength ∧ 0 ≤ f.1 ∧ f.1 + f.2 ≤ 250) ∧
    List.Pairwise (fun f g : Int × Int => f.1 + f.2 ≤ g.1)
      ((List.range ((250 : Int) / Parameters.sample.segLength).toNat).map
        (fun i : Nat => ((i : Int) * Parameters.sample.segLength, Parameters.sample.segLength))) ∧
    (∀ x : Int, (0 ≤ x ∧ x < 250) ↔
      ∃ f ∈ mapModuleFragments Parameters.sample true 250, f.1 ≤ x ∧ x < f.1 + f.2) :=
  mapModuleFragments_cover Parameters.sample 250 (by decide) (by decide)

end skch

namespace skch

theorem toInt_of_range {v : Int} (h1 : -(2 ^ 31) ≤ v) (h2 : v < 2 ^ 31) : toInt v = v := by
  unfold toInt
  omega

theorem adjusts_congr {threshold : Int} {a a2 b : MappingResult}
    (h1 : a2.refSeqId = a.refSeqId) (h2 : a2.strand = a.strand)
    (h3 : a2.queryEndPos = a.queryEndPos) (h4 : a2.refEndPos = a.refEndPos) :
    Adjusts threshold a2 b ↔ Adjusts threshold a b := by
  unfold Adjusts
  rw [h1, h2, h3, h4]

/-- The gaps of two mappings with coordinates in the range of an `int` are stored in an `int`
as they are. -/
theorem toInt_gaps {prev curr : MappingResult} (hp : prev.InInt) (hc : curr.InInt) :
    toInt (curr.queryStartPos - prev.queryEndPos) = curr.queryStartPos - prev.queryEndPos ∧
    toInt (curr.refStartPos - prev.refEndPos) = curr.refStartPos - prev.refEndPos := by
  unfold MappingResult.InInt at hp hc
  exact ⟨toInt_of_range (by omega) (by omega), toInt_of_range (by omega) (by omega)⟩

theorem adjustLoop_cons_adjusts {threshold : Int} {prev curr : MappingResult}
    (rest : List MappingResult) (hp : prev.InInt) (hc : curr.InInt)
    (h : Adjusts threshold prev curr) :
    adjustLoop threshold prev (curr :: rest) =
      adjustedPrev prev curr :: adjustLoop threshold (adjustedCurr prev curr) rest := by
  obtain ⟨g1, g2⟩ := toInt_gaps hp hc
  unfold Adjusts at h
  rw [adjustLoop, if_neg h.1, g1, g2, if_pos h.2]

theorem adjustLoop_cons_keeps {threshold : Int} {prev curr : MappingResult}
    (rest : List MappingResult) (hp : prev.InInt) (hc : curr.InInt)
    (h : ¬ Adjusts threshold prev curr) :
    adjustLoop threshold prev (curr :: rest) = prev :: adjustLoop threshold curr rest := by
  obtain ⟨g1, g2⟩ := toInt_gaps hp hc
  unfold Adjusts at h
  rw [adjustLoop, g1, g2]
  by_cases h1 : prev.refSeqId ≠ curr.refSeqId ∨ prev.strand ≠ curr.strand
  · rw [if_pos h1]
  · rw [if_neg h1, if_neg (fun h2 => h ⟨h1, h2⟩)]

theorem adjustedCurr_blockLength (prev curr : MappingResult) :
    BlockLengthOfSpans (adjustedCurr prev curr) := rfl

theorem adjustedPrev_blockLength (prev curr : MappingResult) :
    BlockLengthOfSpans (adjustedPrev prev curr) := rfl

/-- The midpoint of two coordinates in the range of an `int`, the first below the second, is
stored in an `int` as it is, and is the floor of half their sum. -/
theorem toInt_mid {a b : Int} (ha : 0 ≤ a) (hb : b < 2 ^ 31) (h : a < b) :
    toInt ((a + b).tdiv 2) = (a + b) / 2 ∧ a ≤ (a + b) / 2 ∧ (a + b) / 2 ≤ b := by
  rw [Int.tdiv_eq_ediv (by omega) (by norm_num)]
  refine ⟨toInt_of_range (by omega) (by omega), by omega, by omega⟩

/-- The two members of an adjusted pair with coordinates in the range of an `int`: the facing
coordinates are the floors of the midpoints, and the coordinates stay in that range. -/
theorem adjusted_mid {threshold : Int} {prev curr : MappingResult} (hp : prev.InInt)
    (hc : curr.InInt) (h : Adjusts threshold prev curr) :
    (adjustedPrev prev curr).queryEndPos = (prev.queryEndPos + curr.queryStartPos) / 2 ∧
    (adjustedPrev prev curr).refEndPos = (prev.refEndPos + curr.refStartPos) / 2 ∧
    (adjustedCurr prev curr).queryStartPos = (prev.queryEndPos + curr.queryStartPos) / 2 ∧
    (adjustedCurr prev curr).refStartPos = (prev.refEndPos + curr.refStartPos) / 2 ∧
    prev.queryEndPos ≤ (prev.queryEndPos + curr.queryStartPos) / 2 ∧
    (prev.queryEndPos + curr.queryStartPos) / 2 ≤ curr.queryStartPos ∧
    prev.refEndPos ≤ (prev.refEndPos + curr.refStartPos) / 2 ∧
    (prev.refEndPos + curr.refStartPos) / 2 ≤ curr.refStartPos ∧
    (adjustedPrev prev curr).InInt ∧ (adjustedCurr prev curr).InInt := by
  obtain ⟨p1, p2, p3, p4, _⟩ := adjustedPrev_fields prev curr
  obtain ⟨q1, q2, q3, q4, _⟩ := adjustedCurr_fields prev curr
  have hp2 := hp
  have hc2 := hc
  unfold MappingResult.InInt at hp2 hc2
  obtain ⟨m1, m2, m3⟩ := toInt_mid (a := prev.queryEndPos) (b := curr.queryStartPos)
    (by omega) (by omega) (by have := h.2.1; omega)
  obtain ⟨r1, r2, r3⟩ := toInt_mid (a := prev.refEndPos) (b := curr.refStartPos)
    (by omega) (by omega) (by have := h.2.2.1; omega)
  refine ⟨p2.trans m1, p4.trans r1, q1.trans m1, q3.trans r1, m2, m3, r2, r3, ?_, ?_⟩
  · unfold MappingResult.InInt
    rw [p1, p2, p3, p4, m1, r1]
    omega
  · unfold MappingResult.InInt
    rw [q1, q2, q3, q4, m1, r1]
    omega

/-- The first mapping that the loop leaves, for coordinates in the range of an `int`: its start
is the start of `prev`, its end is not before the end of `prev`, and its `blockLength` is the
larger span when that of `prev` is. -/
theorem adjustLoop_head (threshold : Int) (rest : List MappingResult) (prev : MappingResult)
    (hp : prev.InInt) (hr : ∀ m ∈ rest, m.InInt) :
    ∃ h tail, adjustLoop threshold prev rest = h :: tail ∧
      h.queryStartPos = prev.queryStartPos ∧ h.refStartPos = prev.refStartPos ∧
      prev.queryEndPos ≤ h.queryEndPos ∧ prev.refEndPos ≤ h.refEndPos ∧
      (BlockLengthOfSpans prev → BlockLengthOfSpans h) := by
  cases rest with
  | nil => exact ⟨prev, [], rfl, rfl, rfl, le_refl _, le_refl _, fun h => h⟩
  | cons curr rest =>
    have hc := hr curr (List.mem_cons_self _ _)
    by_cases h : Adjusts threshold prev curr
    · obtain ⟨e1, e2, _, _, b1, _, b3, _, _, _⟩ := adjusted_mid hp hc h
      refine ⟨_, _, adjustLoop_cons_adjusts rest hp hc h, rfl, rfl, ?_, ?_,
        fun _ => adjustedPrev_blockLength prev curr⟩
      · rw [e1]; exact b1
      · rw [e2]; exact b3
    · exact ⟨_, _, adjustLoop_cons_keeps rest hp hc h, rfl, rfl, le_refl _, le_refl _,
        fun h => h⟩

/-- No mapping shrinks, for coordinates in the range of an `int`: every mapping the loop leaves
starts at or before, and ends at or after, the mapping it comes from. -/
theorem adjustLoop_grows (threshold : Int) (rest : List MappingResult) :
    ∀ (prev : MappingResult), prev.InInt → (∀ m ∈ rest, m.InInt) →
      ∀ (i : Nat) (m : MappingResult), (prev :: rest)[i]? = some m →
      ∃ o, (adjustLoop threshold prev rest)[i]? = some o ∧
        o.queryStartPos ≤ m.queryStartPos ∧ m.queryEndPos ≤ o.queryEndPos ∧
        o.refStartPos ≤ m.refStartPos ∧ m.refEndPos ≤ o.refEndPos := by
  induction rest with
  | nil =>
    intro prev _ _ i m hm
    cases i with
    | zero =>
      simp only [List.getElem?_cons_zero, Option.some.injEq] at hm
      subst hm
      exact ⟨prev, rfl, le_refl _, le_refl _, le_refl _, le_refl _⟩
    | succ i => simp at hm
  | cons curr rest ih =>
    intro prev hp hr i m hm
    have hc := hr curr (List.mem_cons_self _ _)
    have hrest : ∀ m ∈ rest, m.InInt := fun m hm => hr m (List.mem_cons_of_mem _ hm)
    by_cases h : Adjusts threshold prev curr
    · rw [adjustLoop_cons_adjusts rest hp hc h]
      obtain ⟨e1, e2, e3, e4, b1, b2, b3, b4, _, hci⟩ := adjusted_mid hp hc h
      cases i with
      | zero =>
        simp only [List.getElem?_cons_zero, Option.some.injEq] at hm
        subst hm
        exact ⟨adjustedPrev prev curr, List.getElem?_cons_zero, le_refl _,
          by rw [e1]; exact b1, le_refl _, by rw [e2]; exact b3⟩
      | succ i =>
        simp only [List.getElem?_cons_succ] at hm ⊢
        cases i with
        | zero =>
          simp only [List.getElem?_cons_zero, Option.some.injEq] at hm
          subst hm
          obtain ⟨o, ho, h1, h2, h3, h4⟩ :=
            ih (adjustedCurr prev curr) hci hrest 0 (adjustedCurr prev curr)
              List.getElem?_cons_zero
          rw [e3] at h1
          rw [e4] at h3
          exact ⟨o, ho, le_trans h1 b2, h2, le_trans h3 b4, h4⟩
        | succ i =>
          exact ih (adjustedCurr prev curr) hci hrest (i + 1) m (by simpa using hm)
    · rw [adjustLoop_cons_keeps rest hp hc h]
      cases i with
      | zero =>
        simp only [List.getElem?_cons_zero, Option.some.injEq] at hm
        subst hm
        exact ⟨prev, List.getElem?_cons_zero, le_refl _, le_refl _, le_refl _, le_refl _⟩
      | succ i =>
        simp only [List.getElem?_cons_succ] at hm ⊢
        exact ih curr hc hrest i m hm

end skch

namespace skch

/-- What the loop of `adjustConsecutiveMappings` does to each pair of neighbours `a`, `b`, for
coordinates in the range of an `int`, in terms of their coordinates when their round starts. -/
theorem adjustLoop_pairs (threshold : Int) (rest : List MappingResult) :
    ∀ (prev : MappingResult), prev.InInt → (∀ m ∈ rest, m.InInt) →
      ∀ (i : Nat) (a b : MappingResult),
      (prev :: rest)[i]? = some a → (prev :: rest)[i + 1]? = some b →
      ∃ x y, (adjustLoop threshold prev rest)[i]? = some x ∧
        (adjustLoop threshold prev rest)[i + 1]? = some y ∧
        (Adjusts threshold a b →
          x.queryEndPos = (a.queryEndPos + b.queryStartPos) / 2 ∧
          y.queryStartPos = (a.queryEndPos + b.queryStartPos) / 2 ∧
          x.refEndPos = (a.refEndPos + b.refStartPos) / 2 ∧
          y.refStartPos = (a.refEndPos + b.refStartPos) / 2 ∧
          BlockLengthOfSpans x ∧ BlockLengthOfSpans y) ∧
        (¬ Adjusts threshold a b →
          x.queryEndPos = a.queryEndPos ∧ x.refEndPos = a.refEndPos ∧
          y.queryStartPos = b.queryStartPos ∧ y.refStartPos = b.refStartPos) := by
  induction rest with
  | nil =>
    intro prev _ _ i a b _ hb
    simp at hb
  | cons curr rest ih =>
    intro prev hp hr i a b ha hb
    have hc := hr curr (List.mem_cons_self _ _)
    have hrest : ∀ m ∈ rest, m.InInt := fun m hm => hr m (List.mem_cons_of_mem _ hm)
    by_cases h : Adjusts threshold prev curr
    · rw [adjustLoop_cons_adjusts rest hp hc h]
      obtain ⟨e1, e2, e3, e4, _, _, _, _, _, hci⟩ := adjusted_mid hp hc h
      cases i with
      | zero =>
        simp only [List.getElem?_cons_zero, Option.some.injEq] at ha
        simp only [zero_add, List.getElem?_cons_succ, List.getElem?_cons_zero,
          Option.some.injEq] at hb
        subst ha
        subst hb
        obtain ⟨y, tail, hy, y1, y2, _, _, y5⟩ :=
          adjustLoop_head threshold rest (adjustedCurr prev curr) hci hrest
        refine ⟨adjustedPrev prev curr, y, List.getElem?_cons_zero, ?_, ?_,
          fun hn => absurd h hn⟩
        · simp only [zero_add, List.getElem?_cons_succ, hy, List.getElem?_cons_zero]
        · intro _
          exact ⟨e1, y1.trans e3, e2, y2.trans e4, adjustedPrev_blockLength prev curr,
            y5 (adjustedCurr_blockLength prev curr)⟩
      | succ j =>
        simp only [List.getElem?_cons_succ] at ha hb ⊢
        cases j with
        | zero =>
          simp only [List.getElem?_cons_zero, Option.some.injEq] at ha
          subst ha
          obtain ⟨x, y, hx, hy, h1, h2⟩ := ih (adjustedCurr prev curr) hci hrest 0
            (adjustedCurr prev curr) b List.getElem?_cons_zero (by simpa using hb)
          have hcg : Adjusts threshold (adjustedCurr prev curr) b ↔ Adjusts threshold curr b :=
            adjusts_congr rfl rfl rfl rfl
          exact ⟨x, y, hx, hy, fun hadj => h1 (hcg.mpr hadj), fun hadj => h2 (mt hcg.mp hadj)⟩
        | succ j =>
          exact ih (adjustedCurr prev curr) hci hrest (j + 1) a b (by simpa using ha)
            (by simpa using hb)
    · rw [adjustLoop_cons_keeps rest hp hc h]
      cases i with
      | zero =>
        simp only [List.getElem?_cons_zero, Option.some.injEq] at ha
        simp only [zero_add, List.getElem?_cons_succ, List.getElem?_cons_zero,
          Option.some.injEq] at hb
        subst ha
        subst hb
        obtain ⟨y, tail, hy, y1, y2, _, _, _⟩ := adjustLoop_head threshold rest curr hc hrest
        refine ⟨prev, y, List.getElem?_cons_zero, ?_, fun hadj => absurd hadj h, ?_⟩
        · simp only [zero_add, List.getElem?_cons_succ, hy, List.getElem?_cons_zero]
        · intro _
          exact ⟨rfl, rfl, y1, y2⟩
      | succ j =>
        simp only [List.getElem?_cons_succ] at ha hb ⊢
        exact ih curr hc hrest j a b ha (by simpa using hb)

/-- While all coordinates are non-negative values of an `int` and the threshold is a value of
an `int`, `adjustConsecutiveMappings` does to every pair of neighbours `prev`, `curr` what the
midpoint rule says: a pair on the same reference sequence and strand with both gaps `> 0` and
`<= threshold` leaves with `prev.queryEndPos == curr.queryStartPos` at the floor of the
midpoint, likewise on the reference, and with `blockLength` the larger span of each; for every
other pair these four coordinates are unchanged; no mapping starts later or ends earlier than
before. -/
theorem adjustConsecutiveMappings_midpoints_in_int (threshold : Int) (l : List MappingResult)
    (i : Nat) (prev curr : MappingResult) (hint : ∀ m ∈ l, m.InInt)
    (ht : -(2 ^ 31) ≤ threshold ∧ threshold < 2 ^ 31) (hp : l[i]? = some prev)
    (hc : l[i + 1]? = some curr) :
    ∃ p c, (adjustConsecutiveMappings threshold l)[i]? = some p ∧
      (adjustConsecutiveMappings threshold l)[i + 1]? = some c ∧
      (Adjusts threshold prev curr →
        p.queryEndPos = c.queryStartPos ∧ p.refEndPos = c.refStartPos ∧
        p.queryEndPos = (prev.queryEndPos + curr.queryStartPos) / 2 ∧
        p.refEndPos = (prev.refEndPos + curr.refStartPos) / 2 ∧
        p.blockLength = max (p.refEndPos - p.refStartPos) (p.queryEndPos - p.queryStartPos) ∧
        c.blockLength = max (c.refEndPos - c.refStartPos) (c.queryEndPos - c.queryStartPos)) ∧
      (¬ Adjusts threshold prev curr →
        p.queryEndPos = prev.queryEndPos ∧ p.refEndPos = prev.refEndPos ∧
        c.queryStartPos = curr.queryStartPos ∧ c.refStartPos = curr.refStartPos) ∧
      (p.queryStartPos ≤ prev.queryStartPos ∧ prev.queryEndPos ≤ p.queryEndPos ∧
        p.refStartPos ≤ prev.refStartPos ∧ prev.refEndPos ≤ p.refEndPos) ∧
      (c.queryStartPos ≤ curr.queryStartPos ∧ curr.queryEndPos ≤ c.queryEndPos ∧
        c.refStartPos ≤ curr.refStartPos ∧ curr.refEndPos ≤ c.refEndPos) := by
  cases l with
  | nil => simp at hp
  | cons first rest =>
    have hf := hint first (List.mem_cons_self _ _)
    have hr : ∀ m ∈ rest, m.InInt := fun m hm => hint m (List.mem_cons_of_mem _ hm)
    unfold adjustConsecutiveMappings
    rw [toInt_of_range ht.1 ht.2]
    obtain ⟨x, y, hx, hy, h1, h2⟩ :=
      adjustLoop_pairs threshold rest first hf hr i prev curr hp hc
    obtain ⟨o1, ho1, g1⟩ := adjustLoop_grows threshold rest first hf hr i prev hp
    obtain ⟨o2, ho2, g2⟩ := adjustLoop_grows threshold rest first hf hr (i + 1) curr hc
    rw [hx] at ho1
    rw [hy] at ho2
    cases ho1
    cases ho2
    refine ⟨x, y, hx, hy, ?_, h2, g1, g2⟩
    intro hadj
    obtain ⟨e1, e2, e3, e4, e5, e6⟩ := h1 hadj
    exact ⟨e1.trans e2.symm, e3.trans e4.symm, e1, e3, e5, e6⟩

/-- C35. Two inputs on which `adjustConsecutiveMappings` with threshold 100 leaves the midpoint
rule.  Two mappings around position 3000000000 with gaps of 10 on both axes: the midpoint
3000000005 is stored in an `int`, and `prev.queryEndPos`, `curr.queryStartPos`,
`prev.refEndPos` and `curr.refStartPos` become -1294967291.  Two mappings with a query gap of
`2 ^ 32 + 5` and a reference gap of 5: the query gap is stored in an `int` as 5, the pair is
adjusted although its query gap is above the threshold, and `prev.queryEndPos` and
`curr.queryStartPos` become -2147483546. -/
theorem adjustConsecutiveMappings_narrows_midpoint :
    (adjustConsecutiveMappings 100 MappingResult.sampleFar).map
        (fun m => (m.queryStartPos, m.queryEndPos, m.refStartPos, m.refEndPos)) =
      [(2999999900, -1294967291, 2999999900, -1294967291),
        (-1294967291, 3000000110, -1294967291, 3000000110)] ∧
    ((2999999900 + 100 : Int) + 3000000010) / 2 = 3000000005 ∧
    (adjustConsecutiveMappings 100 MappingResult.sampleFarGap).map
        (fun m => (m.queryStartPos, m.queryEndPos, m.refStartPos, m.refEndPos)) =
      [(0, -2147483546, 0, 102), (-2147483546, 4294967501, 102, 205)] ∧
    ¬ Adjusts 100 (MappingResult.sample 0 100 0 100 1 0)
      (MappingResult.sample 4294967401 4294967501 105 205 1 0) := by
  refine ⟨by decide, by decide, by decide, ?_⟩
  unfold Adjusts
  decide

end skch
namespace skch

/-- A flag of `is_cuttable` that is cleared stays cleared in the first loop of
`processChainWithSplits`. -/
theorem markCuttable_false (param : Parameters) (rest : List MappingResult) :
    ∀ (prev : MappingResult) (i : Nat) (cut : List Bool) (k : Nat),
      cut[k]? = some false → (markCuttable param prev rest i cut)[k]? = some false := by
  induction rest with
  | nil => intro prev i cut k h; simpa [markCuttable] using h
  | cons it rest ih =>
    intro prev i cut k h
    unfold markCuttable
    have hk : k < cut.length := by
      rcases Nat.lt_or_ge k cut.length with h1 | h1
      · exact h1
      · rw [List.getElem?_eq_none h1] at h; cases h
    split_ifs
    · apply ih
      simp only [List.getElem?_set, List.length_set]
      split_ifs <;> simp_all
    · exact ih it (i + 1) cut k h

/-- The first loop of `processChainWithSplits` clears `is_cuttable` on both sides of every gap
of more than `segLength / 5`. -/
theorem markCuttable_gap (param : Parameters) (rest : List MappingResult) :
    ∀ (prev : MappingResult) (i : Nat) (cut : List Bool) (j : Nat) (a b : MappingResult),
      1 ≤ i → i + rest.length ≤ cut.length →
      (prev :: rest)[j]? = some a → (prev :: rest)[j + 1]? = some b →
      (b.queryStartPos - a.queryEndPos > param.segLength.tdiv 5 ∨
        b.refStartPos - a.refEndPos > param.segLength.tdiv 5) →
      (markCuttable param prev rest i cut)[i - 1 + j]? = some false ∧
        (markCuttable param prev rest i cut)[i + j]? = some false := by
  induction rest with
  | nil => intro prev i cut j a b _ _ _ hb; simp at hb
  | cons it rest ih =>
    intro prev i cut j a b hi hlen ha hb hgap
    simp only [List.length_cons] at hlen
    cases j with
    | zero =>
      simp only [List.getElem?_cons_zero, Option.some.injEq] at ha
      simp only [zero_add, List.getElem?_cons_succ, List.getElem?_cons_zero,
        Option.some.injEq] at hb
      subst ha
      subst hb
      unfold markCuttable
      rw [if_pos hgap]
      constructor
      · apply markCuttable_false
        simp only [List.getElem?_set, List.length_set, add_zero]
        split_ifs <;> first | rfl | omega
      · apply markCuttable_false
        simp only [List.getElem?_set, List.length_set, add_zero]
        split_ifs <;> first | rfl | omega
    | succ j =>
      have h := fun cut2 (hc : i + 1 + rest.length ≤ cut2.length) =>
        ih it (i + 1) cut2 j a b (by omega) hc (by simpa using ha) (by simpa using hb) hgap
      have e1 : i - 1 + (j + 1) = i + 1 - 1 + j := by omega
      have e2 : i + (j + 1) = i + 1 + j := by omega
      unfold markCuttable
      rw [e1, e2]
      split_ifs
      · exact h _ (by simp only [List.length_set]; omega)
      · exact h _ (by omega)

/-- The vector `is_cuttable` is cleared at both members of every pair of neighbours of the chain
separated by more than `segLength / 5` on either axis. -/
theorem isCuttable_gap (param : Parameters) (chain : List MappingResult) (i : Nat)
    (a b : MappingResult) (ha : chain[i]? = some a) (hb : chain[i + 1]? = some b)
    (hgap : b.queryStartPos - a.queryEndPos > param.segLength.tdiv 5 ∨
      b.refStartPos - a.refEndPos > param.segLength.tdiv 5) :
    (isCuttable param chain)[i]? = some false ∧ (isCuttable param chain)[i + 1]? = some false := by
  cases chain with
  | nil => simp at ha
  | cons first rest =>
    unfold isCuttable
    have := markCuttable_gap param rest first 1 (List.replicate (rest.length + 1) true) i a b
      (le_refl 1) (by simp; omega) ha hb hgap
    simpa [Nat.add_comm] using this

end skch
namespace skch

/-- The first range the second loop of `processChainWithSplits` hands on holds the whole
fragment open at its start and, when a mapping is left to visit, that mapping too. -/
theorem splitLoop_first (param : Parameters) (l : List (MappingResult × Bool)) :
    ∀ (fragment : List MappingResult) (acc : Int), fragment ≠ [] ∨ l ≠ [] →
      ∃ F post, splitLoop param l fragment acc = F :: post ∧
        fragment.length + min 1 l.length ≤ F.length := by
  induction l with
  | nil =>
    intro fragment acc h
    have hf : fragment ≠ [] := by simpa using h
    refine ⟨processMappingFragment fragment, [], ?_, ?_⟩
    · unfold splitLoop
      rw [if_pos hf]
    · simp [length_processMappingFragment]
  | cons x rest ih =>
    obtain ⟨it, cut⟩ := x
    intro fragment acc _
    unfold splitLoop
    simp only []
    split_ifs
    · exact ⟨_, _, rfl, by simp [length_processMappingFragment]⟩
    · obtain ⟨F, post, h1, h2⟩ := ih (fragment ++ [it])
        (acc + (it.queryEndPos - it.queryStartPos)) (Or.inl (by simp))
      refine ⟨F, post, h1, ?_⟩
      simp only [List.length_append, List.length_singleton, List.length_cons] at h2 ⊢
      omega

/-- A mapping whose `is_cuttable` flag is cleared and the mapping after it end up in the same
range of the second loop of `processChainWithSplits`. -/
theorem splitLoop_keeps (param : Parameters) (l : List (MappingResult × Bool)) :
    ∀ (fragment : List MappingResult) (acc : Int) (j : Nat),
      (l.map Prod.snd)[j]? = some false → j + 1 < l.length →
      ∃ pre F post, splitLoop param l fragment acc = pre ++ F :: post ∧
        (pre.map List.length).sum ≤ fragment.length + j ∧
        fragment.length + j + 1 < (pre.map List.length).sum + F.length := by
  induction l with
  | nil => intro fragment acc j _ h; simp at h
  | cons x rest ih =>
    obtain ⟨it, cut⟩ := x
    intro fragment acc j hj hlen
    simp only [List.length_cons] at hlen
    cases j with
    | zero =>
      simp only [List.map_cons, List.getElem?_cons_zero, Option.some.injEq] at hj
      subst hj
      have hrest : rest ≠ [] := by
        intro h
        rw [h] at hlen
        simp at hlen
      obtain ⟨F, post, h1, h2⟩ := splitLoop_first param rest (fragment ++ [it])
        (acc + (it.queryEndPos - it.queryStartPos)) (Or.inr hrest)
      refine ⟨[], F, post, ?_, by simp, ?_⟩
      · unfold splitLoop
        simp only [Bool.false_eq_true, and_false, if_false, List.nil_append]
        exact h1
      · have : 1 ≤ rest.length := by omega
        simp only [List.length_append, List.length_singleton] at h2
        simp only [List.map_nil, List.sum_nil]
        omega
    | succ j =>
      simp only [List.map_cons, List.getElem?_cons_succ] at hj
      unfold splitLoop
      simp only []
      split_ifs
      · obtain ⟨pre, F, post, h1, h2, h3⟩ := ih [] 0 j hj (by omega)
        refine ⟨processMappingFragment (fragment ++ [it]) :: pre, F, post, ?_, ?_, ?_⟩
        · rw [h1]; rfl
        · simp only [List.map_cons, List.sum_cons, length_processMappingFragment,
            List.length_append, List.length_singleton, List.length_nil] at h2 ⊢
          omega
        · simp only [List.map_cons, List.sum_cons, length_processMappingFragment,
            List.length_append, List.length_singleton, List.length_nil] at h3 ⊢
          omega
      · obtain ⟨pre, F, post, h1, h2, h3⟩ := ih (fragment ++ [it])
          (acc + (it.queryEndPos - it.queryStartPos)) j hj (by omega)
        refine ⟨pre, F, post, h1, ?_, ?_⟩
        · simp only [List.length_append, List.length_singleton] at h2
          omega
        · simp only [List.length_append, List.length_singleton] at h3
          omega

/-- A range of the second loop of `processChainWithSplits` that is followed by another range
ends at a mapping whose `is_cuttable` flag is set, and the query lengths of its mappings add up
to `max_mapping_length` or more. -/
theorem splitLoop_cut (param : Parameters) (l : List (MappingResult × Bool)) :
    ∀ (fragment : List MappingResult) (acc : Int),
      acc = (fragment.map (fun m => m.queryEndPos - m.queryStartPos)).sum →
      ∀ (pre : List (List MappingResult)) (F : List MappingResult)
        (post : List (List MappingResult)),
        splitLoop param l fragment acc = pre ++ F :: post → post ≠ [] →
        fragment.length < (pre.map List.length).sum + F.length ∧
        (l.map Prod.snd)[(pre.map List.length).sum + F.length - 1 - fragment.length]? =
          some true ∧
        param.max_mapping_length ≤
          ((((fragment ++ l.map Prod.fst).drop (pre.map List.length).sum).take F.length).map
            (fun m => m.queryEndPos - m.queryStartPos)).sum := by
  induction l with
  | nil =>
    intro fragment acc _ pre F post h hpost
    unfold splitLoop at h
    exfalso
    have hl := congrArg List.length h
    have : 0 < post.length := List.length_pos.mpr hpost
    split_ifs at hl <;> simp at hl <;> omega
  | cons x rest ih =>
    obtain ⟨it, cut⟩ := x
    intro fragment acc hacc pre F post h hpost
    unfold splitLoop at h
    simp only [] at h
    split_ifs at h with hc
    · cases pre with
      | nil =>
        simp only [List.nil_append, List.cons.injEq] at h
        obtain ⟨hF, _⟩ := h
        subst hF
        simp only [List.map_nil, List.sum_nil, zero_add, length_processMappingFragment,
          List.length_append, List.length_singleton, List.drop_zero, List.map_cons]
        refine ⟨by omega, ?_, ?_⟩
        · have : fragment.length + 1 - 1 - fragment.length = 0 := by omega
          rw [this, List.getElem?_cons_zero, hc.2]
        · have : (fragment ++ it :: List.map Prod.fst rest).take (fragment.length + 1) =
              fragment ++ [it] := by
            rw [List.take_append_eq_append_take]
            simp
          rw [this]
          simp only [List.map_append, List.sum_append, List.map_cons, List.map_nil,
            List.sum_cons, List.sum_nil, add_zero]
          rw [← hacc]
          exact hc.1
      | cons P pre =>
        simp only [List.cons_append, List.cons.injEq] at h
        obtain ⟨hP, h⟩ := h
        subst hP
        obtain ⟨h1, h2, h3⟩ := ih [] 0 (by simp) pre F post h hpost
        simp only [List.length_nil, Nat.sub_zero, List.nil_append] at h1 h2 h3
        simp only [List.map_cons, List.sum_cons, length_processMappingFragment,
          List.length_append, List.length_singleton]
        refine ⟨by omega, ?_, ?_⟩
        · have : fragment.length + 1 + (pre.map List.length).sum + F.length - 1 -
              fragment.length = ((pre.map List.length).sum + F.length - 1) + 1 := by omega
          rw [this, List.getElem?_cons_succ]
          exact h2
        · have : (fragment ++ it :: List.map Prod.fst rest).drop
              (fragment.length + 1 + (pre.map List.length).sum) =
              (List.map Prod.fst rest).drop (pre.map List.length).sum := by
            rw [List.drop_append_eq_append_drop]
            have e1 : fragment.length + 1 + (pre.map List.length).sum - fragment.length =
                (pre.map List.length).sum + 1 := by omega
            rw [e1, List.drop_succ_cons, List.drop_of_length_le (by omega), List.nil_append]
          rw [this]
          exact h3
    · obtain ⟨h1, h2, h3⟩ := ih (fragment ++ [it])
        (acc + (it.queryEndPos - it.queryStartPos)) (by simp [hacc]) pre F post h hpost
      simp only [List.length_append, List.length_singleton] at h1 h2
      refine ⟨by omega, ?_, ?_⟩
      · have : (pre.map List.length).sum + F.length - 1 - fragment.length =
            ((pre.map List.length).sum + F.length - 1 - (fragment.length + 1)) + 1 := by omega
        rw [this, List.map_cons, List.getElem?_cons_succ]
        exact h2
      · simpa [List.append_assoc] using h3

end skch
namespace skch

theorem map_snd_zip_isCuttable (param : Parameters) (chain : List MappingResult) :
    ((adjustConsecutiveMappings param.segLength chain).zip (isCuttable param chain)).map
      Prod.snd = isCuttable param chain := by
  apply List.map_snd_zip
  rw [length_adjustConsecutiveMappings, length_isCuttable]

/-- For a segment length `S >= 0`, an integer gap is more than `S / 5` exactly when the test
`gap > segLength / 5` of the code, with its truncating division, holds. -/
theorem gap_gt_fifth {S : Int} (hS : 0 ≤ S) (g : Int) : g > S.tdiv 5 ↔ S < 5 * g := by
  rw [Int.tdiv_eq_ediv hS (by norm_num)]
  omega

/-- C34. In `processChainWithSplits` (segment length `>= 0`): when the chain members `i` and
`i + 1` are separated by more than `segLength / 5` on the query axis or on the reference axis,
`is_cuttable` is cleared at both, the two are in the same range given to
`processMappingFragment`, and no range that is followed by another one ends at `i` or at
`i + 1`; and every range that is followed by another one ends at a member whose `is_cuttable`
flag is set, with the query lengths of its members (after `adjustConsecutiveMappings`) adding
up to `max_mapping_length` or more. -/
theorem processChainWithSplits_boundaries (param : Parameters) (chain : List MappingResult)
    (hS : 0 ≤ param.segLength) :
    processChainWithSplits param chain =
      (if chain = [] then [] else
        computeChainStatistics param (chainFragments param chain).flatten) ∧
    (∀ (i : Nat) (prev curr : MappingResult), chain[i]? = some prev →
      chain[i + 1]? = some curr →
      (param.segLength < 5 * (curr.queryStartPos - prev.queryEndPos) ∨
        param.segLength < 5 * (curr.refStartPos - prev.refEndPos)) →
      (isCuttable param chain)[i]? = some false ∧
      (isCuttable param chain)[i + 1]? = some false ∧
      (∃ pre F post, chainFragments param chain = pre ++ F :: post ∧
        (pre.map List.length).sum ≤ i ∧ i + 1 < (pre.map List.length).sum + F.length) ∧
      (∀ (pre : List (List MappingResult)) (F : List MappingResult)
        (post : List (List MappingResult)),
        chainFragments param chain = pre ++ F :: post → post ≠ [] →
        (pre.map List.length).sum + F.length ≠ i + 1 ∧
          (pre.map List.length).sum + F.length ≠ i + 1 + 1)) ∧
    (∀ (pre : List (List MappingResult)) (F : List MappingResult)
      (post : List (List MappingResult)),
      chainFragments param chain = pre ++ F :: post → post ≠ [] →
      0 < (pre.map List.length).sum + F.length ∧
      (isCuttable param chain)[(pre.map List.length).sum + F.length - 1]? = some true ∧
      param.max_mapping_length ≤
        ((((adjustConsecutiveMappings param.segLength chain).drop
            (pre.map List.length).sum).take F.length).map
          (fun m => m.queryEndPos - m.queryStartPos)).sum) := by
  have hcut : ∀ (pre : List (List MappingResult)) (F : List MappingResult)
      (post : List (List MappingResult)),
      chainFragments param chain = pre ++ F :: post → post ≠ [] →
      0 < (pre.map List.length).sum + F.length ∧
      (isCuttable param chain)[(pre.map List.length).sum + F.length - 1]? = some true ∧
      param.max_mapping_length ≤
        ((((adjustConsecutiveMappings param.segLength chain).drop
            (pre.map List.length).sum).take F.length).map
          (fun m => m.queryEndPos - m.queryStartPos)).sum := by
    intro pre F post h hpost
    unfold chainFragments at h
    have := splitLoop_cut param _ [] 0 (by simp) pre F post h hpost
    simpa [map_snd_zip_isCuttable, map_fst_zip_isCuttable] using this
  refine ⟨rfl, ?_, hcut⟩
  intro i prev curr hp hc hgap
  have hgap2 : curr.queryStartPos - prev.queryEndPos > param.segLength.tdiv 5 ∨
      curr.refStartPos - prev.refEndPos > param.segLength.tdiv 5 := by
    rcases hgap with h | h
    · exact Or.inl ((gap_gt_fifth hS _).mpr h)
    · exact Or.inr ((gap_gt_fifth hS _).mpr h)
  obtain ⟨c1, c2⟩ := isCuttable_gap param chain i prev curr hp hc hgap2
  refine ⟨c1, c2, ?_, ?_⟩
  · have hlen : i + 1 < chain.length := by
      rcases Nat.lt_or_ge (i + 1) chain.length with h | h
      · exact h
      · rw [List.getElem?_eq_none h] at hc; cases hc
    have := splitLoop_keeps param
      ((adjustConsecutiveMappings param.segLength chain).zip (isCuttable param chain)) [] 0 i
      (by rw [map_snd_zip_isCuttable]; exact c1)
      (by simp [length_adjustConsecutiveMappings, length_isCuttable]; exact hlen)
    simpa [chainFragments] using this
  · intro pre F post h hpost
    obtain ⟨h0, h1, _⟩ := hcut pre F post h hpost
    constructor
    · intro e
      have e2 : (pre.map List.length).sum + F.length - 1 = i := by omega
      rw [e2, c1] at h1
      cases h1
    · intro e
      have e2 : (pre.map List.length).sum + F.length - 1 = i + 1 := by omega
      rw [e2, c2] at h1
      cases h1

end skch
namespace skch

theorem processChainWithSplits_boundaries_witness :
    0 ≤ Parameters.sample.segLength ∧
    (processChainWithSplits Parameters.sample MappingResult.sampleWide =
      (if MappingResult.sampleWide = [] then [] else
        computeChainStatistics Parameters.sample
          (chainFragments Parameters.sample MappingResult.sampleWide).flatten) ∧
    (∀ (i : Nat) (prev curr : MappingResult), MappingResult.sampleWide[i]? = some prev →
      MappingResult.sampleWide[i + 1]? = some curr →
      (Parameters.sample.segLength < 5 * (curr.queryStartPos - prev.queryEndPos) ∨
        Parameters.sample.segLength < 5 * (curr.refStartPos - prev.refEndPos)) →
      (isCuttable Parameters.sample MappingResult.sampleWide)[i]? = some false ∧
      (isCuttable Parameters.sample MappingResult.sampleWide)[i + 1]? = some false ∧
      (∃ pre F post, chainFragments Parameters.sample MappingResult.sampleWide =
          pre ++ F :: post ∧
        (pre.map List.length).sum ≤ i ∧ i + 1 < (pre.map List.length).sum + F.length) ∧
      (∀ (pre : List (List MappingResult)) (F : List MappingResult)
        (post : List (List MappingResult)),
        chainFragments Parameters.sample MappingResult.sampleWide = pre ++ F :: post →
        post ≠ [] →
        (pre.map List.length).sum + F.length ≠ i + 1 ∧
          (pre.map List.length).sum + F.length ≠ i + 1 + 1)) ∧
    (∀ (pre : List (List MappingResult)) (F : List MappingResult)
      (post : List (List MappingResult)),
      chainFragments Parameters.sample MappingResult.sampleWide = pre ++ F :: post →
      post ≠ [] →
      0 < (pre.map List.length).sum + F.length ∧
      (isCuttable Parameters.sample MappingResult.sampleWide)[
        (pre.map List.length).sum + F.length - 1]? = some true ∧
      Parameters.sample.max_mapping_length ≤
        ((((adjustConsecutiveMappings Parameters.sample.segLength
            MappingResult.sampleWide).drop
            (pre.map List.length).sum).take F.length).map
          (fun m => m.queryEndPos - m.queryStartPos)).sum)) :=
  ⟨by decide, processChainWithSplits_boundaries Parameters.sample MappingResult.sampleWide
    (by decide)⟩

/-- C36. A chain of two reverse-strand mappings, each with `queryStartPos <= queryEndPos` and
`refStartPos <= refEndPos`: `mergeMappingsInRange` returns one maximally merged mapping of two
members, with `refStartPos = 1000` taken from the first member of the chain and
`refEndPos = 900` taken from the last, so `refStartPos > refEndPos`. -/
theorem mergeMappingsInRange_reverse_chain :
    (∀ m ∈ MappingResult.sampleReverse,
      m.queryStartPos ≤ m.queryEndPos ∧ m.refStartPos ≤ m.refEndPos) ∧
    (mergeMappingsInRange Parameters.sample MappingResult.sampleReverse 2000).map
        (fun out => out.2.map (fun m =>
          (m.queryStartPos, m.queryEndPos, m.refStartPos, m.refEndPos, m.n_merged))) =
      some [(0, 200, 1000, 900, 2)] := by
  refine ⟨?_, by decide⟩
  intro m hm
  simp only [MappingResult.sampleReverse, List.mem_cons, List.mem_singleton,
    List.not_mem_nil, or_false] at hm
  rcases hm with rfl | rfl <;> decide

end skch

/-! ## `computeMap.hpp`: expiry in the L2 sweep -/

namespace skch

/-- C31. A query of 120 bases with segments of 100 (`windowLen = 20`) on a candidate range
`[0, 50]` of a reference with two windows of hash 7, `[0, 10)` and `[12, 25)`, and a window of
hash 8 at `wpos = 30`: when the main loop reaches the third window, the second one is still open
(`25 > 30 - 20`), yet the expiry of the first one takes the frequency of hash 7 from 2 to 0 and
deletes the hash from the `SlideMapper`, which then holds the third window only, and the shared
sketch elements compared with `bestSketchSize` are 1 and 1. -/
theorem computeL2MappedRegions_deletes_open_hash :
    (∃ w ∈ MinmerInfo.sampleRepeat.take 2, w.hash = 7 ∧ w.wpos_end > 30 - 20) ∧
    (mainLoop SlideMapper.sample Parameters.sample ⟨0, 0, 50, 0⟩ 20 2
        (L2Sweep.start SlideMapper.sample ⟨120, 3⟩ []) none (MinmerInfo.sampleRepeat.take 2)).map
        (fun r => (r.1.slideMap, r.1.hash_to_freq 7, r.1.slidingWindow, r.1.evaluated)) =
      some ([⟨7, 0, 10, 0, 1⟩], 2, [⟨7, 0, 10, 0, 1⟩], [1]) ∧
    (mainLoop SlideMapper.sample Parameters.sample ⟨0, 0, 50, 0⟩ 20 3
        (L2Sweep.start SlideMapper.sample ⟨120, 3⟩ []) none MinmerInfo.sampleRepeat).map
        (fun r => (r.1.slideMap, r.1.hash_to_freq 7, r.1.slidingWindow, r.1.evaluated)) =
      some ([⟨8, 30, 40, 0, 1⟩], 0, [⟨8, 30, 40, 0, 1⟩], [1, 1]) ∧
    (computeL2MappedRegions SlideMapper.sample Parameters.sample MinmerInfo.sampleLt
        MinmerInfo.sampleRepeat ⟨120, 3⟩ ⟨0, 0, 50, 0⟩ []).map Prod.snd = some [1, 1] := by
  refine ⟨⟨⟨7, 12, 25, 0, 1⟩, by decide, by decide⟩, by decide, by decide, by decide⟩

end skch

/-! ## `computeMap.hpp`: the links of a chain -/

namespace skch

/-- One round of the chaining scan that returns leaves the mappings with the best successor of
`it` recorded. -/
theorem chainOuter_one (param : Parameters) (max_dist : Int) {i : Nat}
    {ms ms2 : List MappingResult} {d d2 : dsets.DisjointSets} {it : MappingResult}
    (hit : ms[i]? = some it) (h : chainOuter param max_dist 1 i ms d = some (ms2, d2)) :
    ms2 = recordPair ms
      (chainInner param max_dist it (ms.drop (i + 1)) (i + 1) Score.dblMax none).2
      (chainInner param max_dist it (ms.drop (i + 1)) (i + 1) Score.dblMax none).1
      it.splitMappingId := by
  rw [chainOuter] at h
  simp only [hit] at h
  split at h
  · cases h
  · rw [chainOuter] at h
    simp only [Option.some.injEq, Prod.mk.injEq] at h
    exact h.1.symm

/-- The chaining scan from a state that satisfies the scan invariant: it returns in a state
that satisfies the invariant at `i = n`; the mappings up to index `i` are as before; the calls
of `unite` are the recorded links of the mappings from `i` on in the final state; and when no
mapping is the recorded predecessor of two mappings before, none is afterwards. -/
theorem chainOuter_unions (param : Parameters) (max_dist : Int) (n : Nat) :
    ∀ (remaining i : Nat) (ms : List MappingResult) (d : dsets.DisjointSets),
      ScanInv param max_dist n i ms d → i + remaining = n →
      ∃ ms2 d2, chainOuter param max_dist remaining i ms d = some (ms2, d2) ∧
        ScanInv param max_dist n n ms2 d2 ∧
        (∀ u, u ≤ i → ms2[u]? = ms[u]?) ∧
        chainOuterUnions param max_dist remaining i ms =
          (List.range' i remaining).filterMap (recordedLink ms2) ∧
        ((∀ k k2 j, HasPredecessor ms k j → HasPredecessor ms k2 j → k = k2) →
          ∀ k k2 j, HasPredecessor ms2 k j → HasPredecessor ms2 k2 j → k = k2) := by
  intro remaining
  induction remaining with
  | zero =>
    intro i ms d hinv hi
    have : i = n := by omega
    subst this
    exact ⟨ms, d, rfl, hinv, fun _ _ => rfl, rfl, fun h => h⟩
  | succ remaining ih =>
    intro i ms d hinv hi
    obtain ⟨ms1, d1, hstep, hinv1, _⟩ := chainOuter_step param max_dist hinv (by omega)
    have hlen := hinv.len
    have hit : ms[i]? = some ms[i] := List.getElem?_eq_getElem (by omega)
    generalize ms[i] = it at hit
    have hone : chainOuter param max_dist 1 i ms d = some (ms1, d1) := by
      rw [hstep 0]; rfl
    have hms1 := chainOuter_one param max_dist hit hone
    have hbest := chainInner_spec param max_dist ms i it (ms.drop (i + 1)) (i + 1)
      Score.dblMax none (by omega)
      (by intro k b hk; rw [List.getElem?_drop] at hk; exact hk)
      (Or.inl ⟨rfl, rfl⟩)
    generalize hbd : chainInner param max_dist it (ms.drop (i + 1)) (i + 1) Score.dblMax none =
      best at hbest hms1
    have hid : it.splitMappingId = (i : Int) := hinv.ids i it hit
    have hn64 : n < 2 ^ 64 := hinv.dn ▸ hinv.dinv.n_lt
    have hsame : ∀ u, u ≤ i → ms1[u]? = ms[u]? := by
      intro u hu
      rw [hms1]
      rcases hbest with ⟨h, _⟩ | ⟨j2, b, h, hj2, _⟩
      · rw [h]; rfl
      · rw [h]; exact getElem?_recordPair_ne ms j2 _ _ u (by omega)
    obtain ⟨ms2, d2, hrun, hinv2, hpre, hun, hinj⟩ := ih (i + 1) ms1 d1 hinv1 (by omega)
    refine ⟨ms2, d2, (hstep remaining).trans hrun, hinv2, ?_, ?_, ?_⟩
    · intro u hu
      rw [hpre u (by omega), hsame u hu]
    · rw [chainOuterUnions]
      simp only [hit, hbd]
      rw [← hms1, hun, List.range'_succ, List.filterMap_cons]
      have h2 : ms2[i]? = some it := by rw [hpre i (by omega), hsame i (le_refl i), hit]
      have h3 : toU64 it.splitMappingId = i := by rw [hid]; exact toU64_natCast i (by omega)
      unfold recordedLink
      simp only [h2, h3]
      split_ifs <;> rfl
    · intro hold
      apply hinj
      intro k k2 j hk hk2
      -- the links of `ms1`: that of the best successor, or a link of `ms`
      have hlink : ∀ k j, HasPredecessor ms1 k j →
          (best.2 = some k ∧ j = i) ∨ (HasPredecessor ms k j ∧ j < i) := by
        intro k j ⟨b, hb, hb1, hb2⟩
        rw [hms1] at hb
        have hold2 : ms[k]? = some b → HasPredecessor ms k j ∧ j < i := by
          intro hb0
          obtain ⟨j0, _, _, hj0, hcp, _⟩ := hinv.links k b hb0 hb1
          have : (j : Int) = (j0 : Int) := hb2.symm.trans hcp
          have : j = j0 := by exact_mod_cast this
          exact ⟨⟨b, hb0, hb1, hb2⟩, by omega⟩
        rcases hbest with ⟨h, _⟩ | ⟨j2, b2, h, hj2, hb2j, _⟩
        · rw [h] at hb
          exact Or.inr (hold2 hb)
        · rw [h] at hb
          by_cases hkj : k = j2
          · subst hkj
            rw [getElem?_recordPair_eq ms k _ _ b2 hb2j] at hb
            cases hb
            left
            refine ⟨h, ?_⟩
            have : (j : Int) = (i : Int) := hb2.symm.trans hid
            exact_mod_cast this
          · rw [getElem?_recordPair_ne ms j2 _ _ k hkj] at hb
            exact Or.inr (hold2 hb)
      rcases hlink k j hk with ⟨a1, a2⟩ | ⟨a1, a2⟩ <;>
        rcases hlink k2 j hk2 with ⟨b1, b2⟩ | ⟨b1, b2⟩
      · rw [a1] at b1
        exact Option.some.inj b1
      · omega
      · omega
      · exact hold k k2 j a1 b1

end skch

namespace skch

/-- In a relation on indices that only leads to smaller indices, every index reaches one from
which the relation leads nowhere. -/
theorem forest_root_exists {P : Nat → Nat → Prop} (hdec : ∀ k j, P k j → j < k) :
    ∀ x, ∃ r, Relation.ReflTransGen P x r ∧ ∀ j, ¬ P r j := by
  intro x
  induction x using Nat.strong_induction_on with
  | _ x ih =>
    by_cases h : ∃ j, P x j
    · obtain ⟨j, hj⟩ := h
      obtain ⟨r, hr, hroot⟩ := ih j (hdec x j hj)
      exact ⟨r, Relation.ReflTransGen.head hj hr, hroot⟩
    · exact ⟨x, Relation.ReflTransGen.refl, fun j hj => h ⟨j, hj⟩⟩

theorem forest_root_self {P : Nat → Nat → Prop} {x r : Nat} (hroot : ∀ j, ¬ P x j)
    (h : Relation.ReflTransGen P x r) : r = x := by
  rcases Relation.ReflTransGen.cases_head h with h1 | ⟨c, hc, _⟩
  · exact h1.symm
  · exact absurd hc (hroot c)

theorem forest_root_unique {P : Nat → Nat → Prop}
    (hfun : ∀ k j j2, P k j → P k j2 → j = j2) {x r1 r2 : Nat}
    (h1 : Relation.ReflTransGen P x r1) (hr1 : ∀ j, ¬ P r1 j)
    (h2 : Relation.ReflTransGen P x r2) (hr2 : ∀ j, ¬ P r2 j) : r1 = r2 := by
  induction h1 using Relation.ReflTransGen.head_induction_on with
  | refl => exact (forest_root_self hr1 h2).symm
  | head hab _ ih =>
    rcases Relation.ReflTransGen.cases_head h2 with h3 | ⟨c, hc, hcr⟩
    · subst h3
      exact absurd hab (hr2 _)
    · have := hfun _ _ _ hab hc
      subst this
      exact ih hcr

/-- Two indices connected by links, each index with at most one link to a smaller index, reach
the same index without a link. -/
theorem forest_eqvGen_root {P : Nat → Nat → Prop} (hdec : ∀ k j, P k j → j < k)
    (hfun : ∀ k j j2, P k j → P k j2 → j = j2) {x y : Nat} (h : Relation.EqvGen P x y) :
    ∃ r, Relation.ReflTransGen P x r ∧ Relation.ReflTransGen P y r ∧ ∀ j, ¬ P r j := by
  induction h with
  | rel a b hab =>
    obtain ⟨r, hr, hroot⟩ := forest_root_exists hdec b
    exact ⟨r, Relation.ReflTransGen.head hab hr, hr, hroot⟩
  | refl a =>
    obtain ⟨r, hr, hroot⟩ := forest_root_exists hdec a
    exact ⟨r, hr, hr, hroot⟩
  | symm a b _ ih =>
    obtain ⟨r, h1, h2, hroot⟩ := ih
    exact ⟨r, h2, h1, hroot⟩
  | trans a b c _ _ ih1 ih2 =>
    obtain ⟨r, h1, h2, hroot⟩ := ih1
    obtain ⟨r2, h3, h4, hroot2⟩ := ih2
    have := forest_root_unique hfun h2 hroot h3 hroot2
    subst this
    exact ⟨r, h1, h4, hroot⟩

theorem forest_roots_eq {P : Nat → Nat → Prop} (hdec : ∀ k j, P k j → j < k)
    (hfun : ∀ k j j2, P k j → P k j2 → j = j2) {x y : Nat} (h : Relation.EqvGen P x y)
    (hx : ∀ j, ¬ P x j) (hy : ∀ j, ¬ P y j) : x = y := by
  obtain ⟨r, h1, h2, _⟩ := forest_eqvGen_root hdec hfun h
  rw [← forest_root_self hx h1, ← forest_root_self hy h2]

theorem reflTransGen_le {P : Nat → Nat → Prop} (hdec : ∀ k j, P k j → j < k) {x r : Nat}
    (h : Relation.ReflTransGen P x r) : r ≤ x := by
  induction h with
  | refl => exact le_refl _
  | tail _ hbc ih => exact le_trans (le_of_lt (hdec _ _ hbc)) ih

theorem eqvGen_of_reflTransGen {P : Nat → Nat → Prop} {x r : Nat}
    (h : Relation.ReflTransGen P x r) : Relation.EqvGen P x r := by
  induction h with
  | refl => exact Relation.EqvGen.refl _
  | tail _ hbc ih => exact Relation.EqvGen.trans _ _ _ ih (Relation.EqvGen.rel _ _ hbc)

/-- The links taken from a list of indices and restricted to a set of indices are as many as
the indices of the set with a link. -/
theorem length_filter_links (ms : List MappingResult) (q : Nat → Bool) (l : List Nat) :
    ((l.filterMap (recordedLink ms)).filter (fun u => q u.1)).length =
      ((l.filter q).filter (fun k => (recordedLink ms k).isSome)).length := by
  induction l with
  | nil => rfl
  | cons k l ih =>
    rw [List.filterMap_cons]
    cases h : recordedLink ms k with
    | none =>
      simp only []
      rw [ih]
      by_cases hq : q k = true
      · rw [List.filter_cons_of_pos hq, List.filter_cons_of_neg (by simp [h])]
      · rw [List.filter_cons_of_neg hq]
    | some u =>
      simp only []
      have hu : u.1 = k := by
        unfold recordedLink at h
        split at h
        · cases h
        · split_ifs at h
          cases h
          rfl
      by_cases hq : q k = true
      · rw [List.filter_cons_of_pos (by simp [hu, hq]), List.filter_cons_of_pos hq,
          List.filter_cons_of_pos (by simp [h]), List.length_cons, List.length_cons, ih]
      · rw [List.filter_cons_of_neg (by simp [hu, hq]), List.filter_cons_of_neg hq, ih]

/-- A list without repetition whose elements all are `r`, and which has an element, has length
one. -/
theorem length_eq_one_of_all_eq {l : List Nat} (hn : l.Nodup) (hne : l ≠ []) {r : Nat}
    (h : ∀ k ∈ l, k = r) : l.length = 1 := by
  cases l with
  | nil => exact absurd rfl hne
  | cons a l =>
    cases l with
    | nil => rfl
    | cons b l =>
      exfalso
      have ha := h a (List.mem_cons_self _ _)
      have hb := h b (List.mem_cons_of_mem _ (List.mem_cons_self _ _))
      rw [List.nodup_cons] at hn
      exact hn.1 (by rw [ha, ← hb]; exact List.mem_cons_self _ _)

end skch

namespace skch

/-- The first part of `mergeMappingsInRange` returns; the calls of `unite` of its scan are the
recorded links of the final state, mapping by mapping; no mapping is the recorded predecessor of
two mappings; and the relabelling changes `splitMappingId` only. -/
theorem labelChains_unions (param : Parameters) (readMappings : List MappingResult)
    (max_dist : Int) (hlen : readMappings.length < 2 ^ 63) :
    ∃ scanned d labelled, labelChains param readMappings max_dist = some labelled ∧
      ScanInv param max_dist readMappings.length readMappings.length scanned d ∧
      labelled.length = readMappings.length ∧
      (∀ (k : Nat) (m : MappingResult), scanned[k]? = some m →
        ∃ r : Nat, labelled[k]? = some { m with splitMappingId := (r : Int) }) ∧
      chainOuterUnions param max_dist readMappings.length 0
          (assignIds (stdSort queryRefLess readMappings) 0) =
        (List.range readMappings.length).filterMap (recordedLink scanned) ∧
      (∀ k k2 j, HasPredecessor scanned k j → HasPredecessor scanned k2 j → k = k2) := by
  have hsl : (stdSort queryRefLess readMappings).length = readMappings.length := by
    unfold stdSort
    exact List.length_insertionSort _ _
  have h0 := scanInv_init param max_dist (stdSort queryRefLess readMappings)
    (by rw [hsl]; omega)
  rw [hsl] at h0
  obtain ⟨scanned, d, hscan, hinv, _, hun, hinj⟩ := chainOuter_unions param max_dist
    readMappings.length readMappings.length 0 _ _ h0 (by omega)
  have hids : ∀ (k : Nat) (m : MappingResult), scanned[k]? = some m →
      toU64 m.splitMappingId = k ∧ k < readMappings.length := by
    intro k m hm
    have hk : k < readMappings.length := by
      by_contra h
      rw [List.getElem?_eq_none (by rw [hinv.len]; omega)] at hm
      simp at hm
    rw [hinv.ids k m hm]
    exact ⟨toU64_natCast k (by omega), hk⟩
  obtain ⟨labelled, d2, hrel, hll, hout⟩ := relabel_spec scanned d hinv.dinv (by
    intro m hm
    obtain ⟨k, hk⟩ := List.getElem?_of_mem hm
    rw [(hids k m hk).1, hinv.dn]
    exact (hids k m hk).2)
  refine ⟨scanned, d, labelled, ?_, hinv, hll.trans hinv.len, ?_, ?_, ?_⟩
  · unfold labelChains
    simp only [length_assignIds, hsl, hscan, hrel, Option.map_some']
  · intro k m hm
    obtain ⟨r, hr, _, hlab⟩ := hout k m hm
    rw [hinv.dn] at hr
    rw [ofU64_of_lt r (by omega)] at hlab
    exact ⟨r, hlab⟩
  · rw [hun, List.range_eq_range']
  · apply hinj
    intro k k2 j ⟨b, hb, hb1, _⟩
    exfalso
    rw [getElem?_assignIds] at hb
    cases h : (stdSort queryRefLess readMappings)[k]? with
    | none => rw [h] at hb; simp at hb
    | some x =>
      rw [h] at hb
      simp only [Option.map_some', Option.some.injEq] at hb
      subst hb
      exact hb1 rfl

end skch

namespace skch

theorem inChain_iff (ms : List MappingResult) (c : Int) (k : Nat) :
    inChain ms c k = true ↔ ∃ m, ms[k]? = some m ∧ m.splitMappingId = c := by
  unfold inChain
  simp only [decide_eq_true_eq, Option.map_eq_some']

/-- C38. After the chaining scan of `mergeMappingsInRange` (fewer than `2^63` mappings): every
mapping has at most one recorded predecessor, no mapping is the recorded predecessor of two
mappings, and a recorded predecessor comes before its successor in the sorted order; the calls
of `unite` made by the scan are the recorded links, one for each mapping with a recorded
predecessor, in the order of the mappings; and the calls of `unite` for the members of a chain
are one fewer than its members. -/
theorem mergeMappingsInRange_chain_links (param : Parameters)
    (readMappings : List MappingResult) (max_dist : Int)
    (hlen : readMappings.length < 2 ^ 63) :
    ∃ labelled, labelChains param readMappings max_dist = some labelled ∧
      labelled.length = readMappings.length ∧
      (∀ k j j2, HasPredecessor labelled k j → HasPredecessor labelled k j2 → j = j2) ∧
      (∀ k k2 j, HasPredecessor labelled k j → HasPredecessor labelled k2 j → k = k2) ∧
      (∀ k j, HasPredecessor labelled k j → j < k) ∧
      chainOuterUnions param max_dist readMappings.length 0
          (assignIds (stdSort queryRefLess readMappings) 0) =
        (List.range readMappings.length).filterMap (recordedLink labelled) ∧
      (∀ (k : Nat) (u : Nat × Nat),
        recordedLink labelled k = some u ↔ (u.1 = k ∧ HasPredecessor labelled k u.2)) ∧
      (∀ (x : Nat) (a : MappingResult), labelled[x]? = some a →
        ((chainOuterUnions param max_dist readMappings.length 0
            (assignIds (stdSort queryRefLess readMappings) 0)).filter
          (fun u => inChain labelled a.splitMappingId u.1)).length + 1 =
        ((List.range readMappings.length).filter
          (inChain labelled a.splitMappingId)).length) := by
  obtain ⟨scanned, d, labelled, hlab, hinv, hll, hrel, hun, hinj⟩ :=
    labelChains_unions param readMappings max_dist hlen
  obtain ⟨labelled2, hlab2, _, _, hiff, hlinks⟩ :=
    labelChains_links param readMappings max_dist hlen
  rw [hlab] at hlab2
  cases hlab2
  have hsl := hinv.len
  -- the relabelling keeps the recorded links
  have hback : ∀ (k : Nat) (b : MappingResult), labelled[k]? = some b →
      ∃ s, scanned[k]? = some s ∧ b.chainPairScore = s.chainPairScore ∧
        b.chainPairId = s.chainPairId := by
    intro k b hb
    have hk : k < scanned.length := by
      by_contra h
      rw [List.getElem?_eq_none (by omega)] at hb
      cases hb
    obtain ⟨r, hr⟩ := hrel k scanned[k] (List.getElem?_eq_getElem hk)
    rw [hb] at hr
    cases hr
    exact ⟨scanned[k], List.getElem?_eq_getElem hk, rfl, rfl⟩
  have hpred : ∀ u v, HasPredecessor labelled u v ↔ HasPredecessor scanned u v := by
    intro u v
    constructor
    · rintro ⟨b, hb, h1, h2⟩
      obtain ⟨s, hs, e1, e2⟩ := hback u b hb
      exact ⟨s, hs, by rw [← e1]; exact h1, by rw [← e2]; exact h2⟩
    · rintro ⟨s, hs, h1, h2⟩
      obtain ⟨r, hr⟩ := hrel u s hs
      exact ⟨_, hr, h1, h2⟩
  have hrl : recordedLink labelled = recordedLink scanned := by
    funext k
    unfold recordedLink
    cases hs : scanned[k]? with
    | none =>
      have hk : labelled.length ≤ k := by
        by_contra h
        rw [List.getElem?_eq_getElem (by omega)] at hs
        cases hs
      rw [List.getElem?_eq_none hk]
    | some s =>
      obtain ⟨r, hr⟩ := hrel k s hs
      rw [hr]
  have hfun : ∀ k j j2, HasPredecessor labelled k j → HasPredecessor labelled k j2 →
      j = j2 := by
    rintro k j j2 ⟨b, hb, _, h1⟩ ⟨b2, hb2, _, h2⟩
    rw [hb] at hb2
    cases hb2
    have : (j : Int) = (j2 : Int) := h1.symm.trans h2
    exact_mod_cast this
  have hdec : ∀ k j, HasPredecessor labelled k j → j < k := by
    rintro k j ⟨b, hb, h1, h2⟩
    obtain ⟨j2, _, hjk, hcp, _⟩ := hlinks k b hb h1
    have : (j : Int) = (j2 : Int) := h2.symm.trans hcp
    have : j = j2 := by exact_mod_cast this
    omega
  have hinj2 : ∀ k k2 j, HasPredecessor labelled k j → HasPredecessor labelled k2 j →
      k = k2 :=
    fun k k2 j h1 h2 => hinj k k2 j ((hpred k j).mp h1) ((hpred k2 j).mp h2)
  have hlt : ∀ (k : Nat) (b : MappingResult), labelled[k]? = some b →
      k < readMappings.length := by
    intro k b hb
    by_contra h
    rw [List.getElem?_eq_none (by omega)] at hb
    cases hb
  have hlink : ∀ (k : Nat) (u : Nat × Nat),
      recordedLink labelled k = some u ↔ (u.1 = k ∧ HasPredecessor labelled k u.2) := by
    intro k u
    constructor
    · intro h
      unfold recordedLink at h
      split at h
      · cases h
      · rename_i b hb
        split_ifs at h with hs
        cases h
        obtain ⟨j2, _, hjk, hcp, _⟩ := hlinks k b hb hs
        have hk := hlt k b hb
        refine ⟨rfl, b, hb, hs, ?_⟩
        show b.chainPairId = ((toU64 b.chainPairId : Nat) : Int)
        rw [hcp, toU64_natCast j2 (by omega)]
    · rintro ⟨h1, b, hb, hs, hcp⟩
      have hk := hlt k b hb
      have hj := hdec k u.2 ⟨b, hb, hs, hcp⟩
      unfold recordedLink
      simp only [hb, hs, ne_eq, not_false_eq_true, if_true, Option.some.injEq]
      rw [hcp, toU64_natCast u.2 (by omega), ← h1]
  refine ⟨labelled, hlab, hll, hfun, hinj2, hdec, by rw [hun, hrl], hlink, ?_⟩
  intro x a ha
  rw [hun, ← hrl, length_filter_links]
  have hx := hlt x a ha
  have hroot : ∀ k, (recordedLink labelled k).isSome = false ↔
      ∀ j, ¬ HasPredecessor labelled k j := by
    intro k
    constructor
    · intro h j hj
      rw [(hlink k (k, j)).mpr ⟨rfl, hj⟩] at h
      cases h
    · intro h
      cases hr : recordedLink labelled k with
      | none => rfl
      | some u => exact absurd ((hlink k u).mp hr).2 (h u.2)
  obtain ⟨r, hxr, hr⟩ := forest_root_exists hdec x
  have hrx : r ≤ x := reflTransGen_le hdec hxr
  have hrn : r < labelled.length := by omega
  have har : labelled[r]? = some labelled[r] := List.getElem?_eq_getElem hrn
  generalize labelled[r] = ar at har
  have hida : ar.splitMappingId = a.splitMappingId :=
    (hiff r x ar a har ha).mpr (Relation.EqvGen.symm _ _ (eqvGen_of_reflTransGen hxr))
  have hone : (((List.range readMappings.length).filter
      (inChain labelled a.splitMappingId)).filter
      (fun k => !(recordedLink labelled k).isSome)).length = 1 := by
    apply length_eq_one_of_all_eq (r := r)
    · exact ((List.nodup_range _).filter _).filter _
    · apply List.ne_nil_of_mem (a := r)
      rw [List.mem_filter, List.mem_filter, List.mem_range, inChain_iff]
      exact ⟨⟨by omega, ar, har, hida⟩, by rw [(hroot r).mpr hr]; rfl⟩
    · intro k hk
      rw [List.mem_filter, List.mem_filter, inChain_iff] at hk
      obtain ⟨⟨_, ak, hak, hidk⟩, hk2⟩ := hk
      have hk3 : (recordedLink labelled k).isSome = false := by simpa using hk2
      exact forest_roots_eq hdec hfun
        ((hiff k r ak ar hak har).mp (hidk.trans hida.symm)) ((hroot k).mp hk3) hr
  have hsplit := List.length_eq_length_filter_add
    (l := (List.range readMappings.length).filter (inChain labelled a.splitMappingId))
    (fun k => (recordedLink labelled k).isSome)
  rw [hsplit]
  simp only [Bool.not_eq_true] at hone ⊢
  omega

theorem mergeMappingsInRange_chain_links_witness :
    ∃ labelled, labelChains Parameters.sample MappingResult.samplePair 50 = some labelled ∧
      labelled.length = MappingResult.samplePair.length ∧
      (∀ k j j2, HasPredecessor labelled k j → HasPredecessor labelled k j2 → j = j2) ∧
      (∀ k k2 j, HasPredecessor labelled k j → HasPredecessor labelled k2 j → k = k2) ∧
      (∀ k j, HasPredecessor labelled k j → j < k) ∧
      chainOuterUnions Parameters.sample 50 MappingResult.samplePair.length 0
          (assignIds (stdSort queryRefLess MappingResult.samplePair) 0) =
        (List.range MappingResult.samplePair.length).filterMap (recordedLink labelled) ∧
      (∀ (k : Nat) (u : Nat × Nat),
        recordedLink labelled k = some u ↔ (u.1 = k ∧ HasPredecessor labelled k u.2)) ∧
      (∀ (x : Nat) (a : MappingResult), labelled[x]? = some a →
        ((chainOuterUnions Parameters.sample 50 MappingResult.samplePair.length 0
            (assignIds (stdSort queryRefLess MappingResult.samplePair) 0)).filter
          (fun u => inChain labelled a.splitMappingId u.1)).length + 1 =
        ((List.range MappingResult.samplePair.length).filter
          (inChain labelled a.splitMappingId)).length) :=
  mergeMappingsInRange_chain_links Parameters.sample MappingResult.samplePair 50 (by decide)

end skch

/-! ## `computeMap.hpp`: the order of refinement in `doL2Mapping` -/

namespace skch

/-- The function `computeL2MappedRegions` returns on an empty `l2_vec_out`, for every
`SlideMapper`, index and candidate. -/
theorem computeL2MappedRegions_returns {σ : Type} (M : SlideMapper σ) (param : Parameters)
    (lt : MinmerInfo → MinmerInfo → Bool) (minmerIndex : List MinmerInfo) (Q : Q_Info)
    (candidateLocus : L1_candidateLocus_t) :
    ∃ out, computeL2MappedRegions M param lt minmerIndex Q candidateLocus [] = some out := by
  obtain ⟨i, hi, hile⟩ := lower_bound_spec lt minmerIndex
    ⟨0, candidateLocus.rangeStartPos - param.segLength - 1, 0, candidateLocus.seqId, 0⟩
  have hw : (0 : Int) ≤ max 0 (Q.len - param.segLength) := le_max_left _ _
  obtain ⟨hs1, hs2, hs3⟩ := L2Sweep.start_inv M Q (max 0 (Q.len - param.segLength))
  obtain ⟨n2, g1, g2, g3⟩ := setUpLoop_spec M candidateLocus (max 0 (Q.len - param.segLength))
    (minmerIndex.drop i) (L2Sweep.start M Q []) (windowBefore minmerIndex i) 0 hs2
  generalize hr : setUpLoop M candidateLocus (max 0 (Q.len - param.segLength))
    (L2Sweep.start M Q []) (windowBefore minmerIndex i) (minmerIndex.drop i) = r at g1 g2 g3
  have hin : r.1.in_candidate = false := by rw [g3.2.1, hs3]
  obtain ⟨st, before, m1, m2, m3⟩ := mainLoop_spec M param candidateLocus
    (max 0 (Q.len - param.segLength)) hw minmerIndex.length r.2.2 r.1 r.2.1 n2 g1
    (by
      have : (minmerIndex.drop i).length ≤ minmerIndex.length := by
        rw [List.length_drop]
        omega
      omega)
    (l2Inv_of_sameLoci g3 hs1) (fun h => by rw [hin] at h; cases h)
  unfold computeL2MappedRegions
  simp only [hi, hr, m1]
  by_cases hcand : st.in_candidate = true
  · rw [if_pos hcand]
    obtain ⟨w, hw2⟩ := Option.ne_none_iff_exists.mp (m3 hcand)
    rw [← hw2]
    exact ⟨_, rfl⟩
  · rw [if_neg hcand]
    exact ⟨_, rfl⟩

theorem heapTop_isHeapTop : IsHeapTop heapTop := by
  intro l
  induction l with
  | nil =>
    refine ⟨by simp [heapTop], ?_⟩
    intro c h
    simp [heapTop] at h
  | cons e es ih =>
    obtain ⟨ih1, ih2⟩ := ih
    constructor
    · constructor
      · intro h
        unfold heapTop at h
        split at h
        · cases h
        · split_ifs at h
      · intro h
        cases h
    · intro c h
      unfold heapTop at h
      split at h
      · rename_i hn
        cases h
        have := ih1.mp hn
        subst this
        exact ⟨List.mem_cons_self _ _, by simp⟩
      · rename_i f hf
        obtain ⟨hfm, hfmax⟩ := ih2 f hf
        split_ifs at h with hlt
        · cases h
          refine ⟨List.mem_cons_of_mem _ hfm, ?_⟩
          intro x hx
          rcases List.mem_cons.mp hx with rfl | hx
          · omega
          · exact hfmax x hx
        · cases h
          refine ⟨List.mem_cons_self _ _, ?_⟩
          intro x hx
          rcases List.mem_cons.mp hx with rfl | hx
          · exact le_refl _
          · have := hfmax x hx
            omega

theorem reportLocus_range (S : Stat) (p2 : L2Parameters) (Q : Q_Info)
    (l2_vec : List L2_mapLocus_t) :
    ∀ st : L2Walk, (l2_vec.foldl (reportLocus S p2 Q) st).range = st.range ∧
      (l2_vec.foldl (reportLocus S p2 Q) st).refined = st.refined := by
  induction l2_vec with
  | nil => intro st; exact ⟨rfl, rfl⟩
  | cons l2 rest ih =>
    intro st
    rw [List.foldl_cons]
    obtain ⟨h1, h2⟩ := ih (reportLocus S p2 Q st l2)
    rw [h1, h2]
    unfold reportLocus
    dsimp only
    split_ifs <;> exact ⟨rfl, rfl⟩

/-- The loop of `doL2Mapping` with the top-ANI filter, from a state whose refined candidates are
in non-increasing order of `intersectionSize` and not below any candidate of the range. -/
theorem doL2Loop_spec {σ : Type} (M : SlideMapper σ) (param : Parameters) (p2 : L2Parameters)
    (S : Stat) (lt : MinmerInfo → MinmerInfo → Bool) (minmerIndex : List MinmerInfo)
    (Q : Q_Info) (top : List L1_candidateLocus_t → Option L1_candidateLocus_t)
    (hfilter : p2.stage1_topANI_filter = true) (htop : IsHeapTop top) :
    ∀ (remaining : Nat) (st : L2Walk), st.range.length ≤ remaining →
      st.refined.Pairwise (fun a b => b.intersectionSize ≤ a.intersectionSize) →
      (∀ r ∈ st.refined, ∀ x ∈ st.range, x.intersectionSize ≤ r.intersectionSize) →
      ∃ st2 failed, doL2Loop M param p2 S lt minmerIndex Q top remaining st =
          some (st2, failed) ∧
        st2.refined.Pairwise (fun a b => b.intersectionSize ≤ a.intersectionSize) ∧
        (st2.refined ++ st2.range).Perm (st.refined ++ st.range) ∧
        (failed = none → st2.range = []) ∧
        (∀ c, failed = some c → c ∈ st2.range ∧
          belowCutoff S p2 Q st2.bestJaccardNumerator c = true ∧
          ∀ x ∈ st2.range, x.intersectionSize ≤ c.intersectionSize) ∧
        (∀ r ∈ st2.refined, ∀ x ∈ st2.range, x.intersectionSize ≤ r.intersectionSize) := by
  intro remaining
  induction remaining with
  | zero =>
    intro st hlen hpw hle
    have hnil : st.range = [] := List.length_eq_zero.mp (by omega)
    refine ⟨st, none, ?_, hpw, List.Perm.refl _, fun _ => hnil, ?_, hle⟩
    · unfold doL2Loop
      rw [if_pos hnil]
    · intro c hc
      cases hc
  | succ remaining ih =>
    intro st hlen hpw hle
    unfold doL2Loop
    simp only [hfilter, if_true, true_and]
    cases hc : top st.range with
    | none =>
      have hnil := (htop st.range).1.mp hc
      exact ⟨st, none, rfl, hpw, List.Perm.refl _, fun _ => hnil,
        fun c h => (by cases h), hle⟩
    | some c =>
      obtain ⟨hmem, hmax⟩ := (htop st.range).2 c hc
      simp only []
      by_cases hcut : belowCutoff S p2 Q st.bestJaccardNumerator c = true
      · rw [if_pos hcut]
        refine ⟨st, some c, rfl, hpw, List.Perm.refl _, fun h => (by cases h), ?_, hle⟩
        intro c2 h2
        cases h2
        exact ⟨hmem, hcut, hmax⟩
      · rw [if_neg hcut]
        obtain ⟨out, hout⟩ := computeL2MappedRegions_returns M param lt minmerIndex Q c
        rw [hout]
        simp only []
        obtain ⟨hr1, hr2⟩ := reportLocus_range S p2 Q out.1 st
        obtain ⟨st2, failed, h1, h2, h3, h4, h5, h6⟩ := ih
          { List.foldl (reportLocus S p2 Q) st out.1 with
            range := (List.foldl (reportLocus S p2 Q) st out.1).range.erase c
            refined := (List.foldl (reportLocus S p2 Q) st out.1).refined ++ [c] }
          (by
            simp only [hr1]
            rw [List.length_erase_of_mem hmem]
            omega)
          (by
            simp only [hr2]
            rw [List.pairwise_append]
            refine ⟨hpw, List.pairwise_singleton _ _, ?_⟩
            intro r hr x hx
            rw [List.mem_singleton] at hx
            subst hx
            exact hle r hr x hmem)
          (by
            simp only [hr1, hr2]
            intro r hr x hx
            have hx2 := List.mem_of_mem_erase hx
            rcases List.mem_append.mp hr with hr | hr
            · exact hle r hr x hx2
            · rw [List.mem_singleton] at hr
              subst hr
              exact hmax x hx2)
        refine ⟨st2, failed, h1, h2, ?_, h4, h5, h6⟩
        refine h3.trans ?_
        simp only [hr1, hr2, List.append_assoc, List.singleton_append]
        exact List.Perm.append_left _ (List.perm_cons_erase hmem).symm

/-- C33. With the top-ANI filter enabled and a heap whose top is a candidate of the greatest
`intersectionSize`, `doL2Mapping` returns for every range of candidates; the candidates it gives
to `computeL2MappedRegions` are in non-increasing order of `intersectionSize`; together with the
candidates left in the range they are the candidates of the range, each once; the range is left
non-empty only at a candidate that fails the cutoff test, and then no candidate left in the
range has a greater `intersectionSize` than that one, and none than any refined candidate. -/
theorem doL2Mapping_refines_in_order {σ : Type} (M : SlideMapper σ) (param : Parameters)
    (p2 : L2Parameters) (S : Stat) (lt : MinmerInfo → MinmerInfo → Bool)
    (minmerIndex : List MinmerInfo) (Q : Q_Info)
    (top : List L1_candidateLocus_t → Option L1_candidateLocus_t)
    (l1 : List L1_candidateLocus_t)
    (hfilter : p2.stage1_topANI_filter = true) (htop : IsHeapTop top) :
    ∃ st failed, doL2Mapping M param p2 S lt minmerIndex Q top l1 = some (st, failed) ∧
      st.refined.Pairwise (fun a b => b.intersectionSize ≤ a.intersectionSize) ∧
      (st.refined ++ st.range).Perm l1 ∧
      (failed = none → st.range = []) ∧
      (∀ c, failed = some c → c ∈ st.range ∧
        belowCutoff S p2 Q st.bestJaccardNumerator c = true ∧
        ∀ x ∈ st.range, x.intersectionSize ≤ c.intersectionSize) ∧
      (∀ r ∈ st.refined, ∀ x ∈ st.range, x.intersectionSize ≤ r.intersectionSize) := by
  have := doL2Loop_spec M param p2 S lt minmerIndex Q top hfilter htop l1.length
    ⟨l1, 0, [], []⟩ (le_refl _) List.Pairwise.nil (fun r hr => by cases hr)
  simpa [doL2Mapping] using this

end skch

namespace skch

theorem doL2Mapping_refines_in_order_witness :
    L2Parameters.sample.stage1_topANI_filter = true ∧ IsHeapTop heapTop ∧
    ∃ st failed, doL2Mapping SlideMapper.sample Parameters.sample L2Parameters.sample
        Stat.sample MinmerInfo.sampleLt MinmerInfo.sampleRepeat ⟨120, 3⟩ heapTop
        L1_candidateLocus_t.sampleRange = some (st, failed) ∧
      st.refined.Pairwise (fun a b => b.intersectionSize ≤ a.intersectionSize) ∧
      (st.refined ++ st.range).Perm L1_candidateLocus_t.sampleRange ∧
      (failed = none → st.range = []) ∧
      (∀ c, failed = some c → c ∈ st.range ∧
        belowCutoff Stat.sample L2Parameters.sample ⟨120, 3⟩ st.bestJaccardNumerator c = true ∧
        ∀ x ∈ st.range, x.intersectionSize ≤ c.intersectionSize) ∧
      (∀ r ∈ st.refined, ∀ x ∈ st.range, x.intersectionSize ≤ r.intersectionSize) :=
  ⟨rfl, heapTop_isHeapTop,
    doL2Mapping_refines_in_order SlideMapper.sample Parameters.sample L2Parameters.sample
      Stat.sample MinmerInfo.sampleLt MinmerInfo.sampleRepeat ⟨120, 3⟩ heapTop
      L1_candidateLocus_t.sampleRange rfl heapTop_isHeapTop⟩

end skch

/-! ## `computeMap.hpp`: the merge of the seed interval points -/

namespace skch

theorem advance_mem {E : List (List IntervalPoint)} {rest c : List IntervalPoint}
    (h : c ∈ (if rest = [] then E else E ++ [rest])) : c ∈ E ∨ (c = rest ∧ rest ≠ []) := by
  split_ifs at h with hr
  · exact Or.inl h
  · rcases List.mem_append.mp h with h | h
    · exact Or.inl h
    · exact Or.inr ⟨List.mem_singleton.mp h, hr⟩

theorem advance_sum (E : List (List IntervalPoint)) (rest : List IntervalPoint) :
    ((if rest = [] then E else E ++ [rest]).map List.length).sum =
      (E.map List.length).sum + rest.length := by
  split_ifs with hr
  · simp [hr]
  · simp

theorem advance_flatten (E : List (List IntervalPoint)) (rest : List IntervalPoint) :
    (if rest = [] then E else E ++ [rest]).flatten = E.flatten ++ rest := by
  split_ifs with hr
  · simp [hr]
  · simp

theorem perm_cons_erase_cursor {pq : List (List IntervalPoint)} {c : List IntervalPoint}
    (h : c ∈ pq) : pq.Perm (c :: pq.erase c) := by
  obtain ⟨l1, l2, _, e1, e2⟩ := List.exists_erase_eq h
  rw [e2]
  nth_rewrite 1 [e1]
  exact List.perm_middle

theorem sum_length_erase {pq : List (List IntervalPoint)} {c : List IntervalPoint}
    (h : c ∈ pq) : (pq.map List.length).sum = c.length + ((pq.erase c).map List.length).sum := by
  have := ((perm_cons_erase_cursor h).map List.length).sum_eq
  simpa using this

/-- The loop of `getSeedIntervalPoints` on a heap of sorted cursors that do not stand at their
end: it returns, and appends the points of the cursors in the order `lt`, without those that
`skip_mapping` excludes. -/
theorem drainLoop_spec (lt : IntervalPoint → IntervalPoint → Bool)
    (ptrLt : List IntervalPoint → List IntervalPoint → Bool) (F : SeedFilter)
    (front : List (List IntervalPoint) → Option (List IntervalPoint))
    (htrans : ∀ a b c, lt b a = false → lt c b = false → lt c a = false)
    (hptr : ∀ a l b m, ptrLt (a :: l) (b :: m) = lt a b)
    (hfront : IsHeapFront ptrLt front) (out : List IntervalPoint) :
    ∀ (remaining : Nat) (pq : List (List IntervalPoint)) (merged : List IntervalPoint),
      (pq.map List.length).sum ≤ remaining →
      (∀ c ∈ pq, c ≠ [] ∧ c.Pairwise (fun a b => lt b a = false)) →
      merged.Pairwise (fun a b => lt b a = false) →
      (∀ m ∈ merged, ∀ c ∈ pq, ∀ x ∈ c, lt x m = false) →
      ∃ merged2 : List IntervalPoint, drainLoop F front remaining pq
          (out ++ merged.filter (fun ip => !skip_mapping F ip)) =
          some (out ++ merged2.filter (fun ip => !skip_mapping F ip)) ∧
        merged2.Pairwise (fun a b => lt b a = false) ∧
        merged2.Perm (merged ++ pq.flatten) := by
  intro remaining
  induction remaining with
  | zero =>
    intro pq merged hsum hpq hpw _
    have hnil : pq = [] := by
      cases pq with
      | nil => rfl
      | cons c cs =>
        exfalso
        have hc := (hpq c (List.mem_cons_self _ _)).1
        have : 0 < c.length := List.length_pos.mpr hc
        simp only [List.map_cons, List.sum_cons] at hsum
        omega
    subst hnil
    exact ⟨merged, by simp [drainLoop], hpw, by simp⟩
  | succ remaining ih =>
    intro pq merged hsum hpq hpw hle
    unfold drainLoop
    cases hf : front pq with
    | none =>
      have hnil := (hfront pq).1.mp hf
      subst hnil
      exact ⟨merged, rfl, hpw, by simp⟩
    | some c =>
      obtain ⟨hmem, hmin⟩ := (hfront pq).2 c hf
      have hmin := hmin (fun d hd => (hpq d hd).1)
      obtain ⟨hcne, hcpw⟩ := hpq c hmem
      cases c with
      | nil => exact absurd rfl hcne
      | cons ip rest =>
        simp only []
        rw [List.pairwise_cons] at hcpw
        -- the point picked is not after any point of the heap
        have hip : ∀ d ∈ pq, ∀ x ∈ d, lt x ip = false := by
          intro d hd x hx
          obtain ⟨hdne, hdpw⟩ := hpq d hd
          cases d with
          | nil => exact absurd rfl hdne
          | cons y ys =>
            have h1 : lt y ip = false := by
              rw [← hptr y ys ip rest]
              exact hmin _ hd
            rw [List.pairwise_cons] at hdpw
            rcases List.mem_cons.mp hx with rfl | hx
            · exact h1
            · exact htrans ip y x h1 (hdpw.1 x hx)
        have hout : (if skip_mapping F ip = false then
            (out ++ merged.filter (fun ip => !skip_mapping F ip)) ++ [ip]
            else out ++ merged.filter (fun ip => !skip_mapping F ip)) =
            out ++ (merged ++ [ip]).filter (fun ip => !skip_mapping F ip) := by
          rw [List.filter_append]
          by_cases hs : skip_mapping F ip = false
          · rw [if_pos hs, List.filter_cons_of_pos (by simp [hs])]
            simp
          · rw [if_neg hs, List.filter_cons_of_neg (by simpa using hs)]
            simp
        rw [hout]
        have hsum2 := sum_length_erase hmem
        obtain ⟨merged2, h1, h2, h3⟩ := ih
          (if rest = [] then pq.erase (ip :: rest) else pq.erase (ip :: rest) ++ [rest])
          (merged ++ [ip])
          (by
            rw [advance_sum]
            simp only [List.length_cons] at hsum2
            omega)
          (by
            intro c hc
            rcases advance_mem hc with h | ⟨h, hne⟩
            · exact hpq c (List.mem_of_mem_erase h)
            · subst h
              exact ⟨hne, hcpw.2⟩)
          (by
            rw [List.pairwise_append]
            refine ⟨hpw, List.pairwise_singleton _ _, ?_⟩
            intro m hm x hx
            rw [List.mem_singleton] at hx
            subst hx
            exact hle m hm _ hmem x (List.mem_cons_self _ _))
          (by
            intro m hm c hc x hx
            have hx2 : ∃ d ∈ pq, x ∈ d := by
              rcases advance_mem hc with h | ⟨h, _⟩
              · exact ⟨c, List.mem_of_mem_erase h, hx⟩
              · subst h
                exact ⟨_, hmem, List.mem_cons_of_mem _ hx⟩
            obtain ⟨d, hd, hxd⟩ := hx2
            rcases List.mem_append.mp hm with hm | hm
            · exact hle m hm d hd x hxd
            · rw [List.mem_singleton] at hm
              subst hm
              exact hip d hd x hxd)
        refine ⟨merged2, h1, h2, h3.trans ?_⟩
        rw [advance_flatten, List.append_assoc]
        apply List.Perm.append_left
        have hp := (perm_cons_erase_cursor hmem).flatten
        simp only [List.flatten_cons] at hp
        refine List.Perm.trans ?_ hp.symm
        simp only [List.singleton_append, List.cons_append, List.nil_append]
        exact List.Perm.cons _ List.perm_append_comm

end skch

namespace skch

theorem firstFront_isHeapFront (lt : IntervalPoint → IntervalPoint → Bool)
    (htotal : ∀ a b, lt a b = false ∨ lt b a = false)
    (htrans : ∀ a b c, lt b a = false → lt c b = false → lt c a = false) :
    IsHeapFront (IntervalPoint.cursorLt lt) (firstFront lt) := by
  intro pq
  induction pq with
  | nil =>
    refine ⟨by simp [firstFront], ?_⟩
    intro c h
    simp [firstFront] at h
  | cons e es ih =>
    obtain ⟨ih1, ih2⟩ := ih
    constructor
    · constructor
      · intro h
        unfold firstFront at h
        split at h
        · cases h
        · split_ifs at h
      · intro h
        cases h
    · intro c h
      unfold firstFront at h
      split at h
      · rename_i hn
        cases h
        have := ih1.mp hn
        subst this
        refine ⟨List.mem_cons_self _ _, ?_⟩
        intro hne d hd
        rw [List.mem_singleton] at hd
        subst hd
        cases d with
        | nil => rfl
        | cons x xs => exact (htotal x x).elim id id
      · rename_i f hf
        obtain ⟨hfm, hfmin⟩ := ih2 f hf
        split_ifs at h with hlt
        · cases h
          refine ⟨List.mem_cons_of_mem _ hfm, ?_⟩
          intro hne d hd
          rcases List.mem_cons.mp hd with rfl | hd
          · cases d with
            | nil => rfl
            | cons x xs =>
              cases c with
              | nil => rfl
              | cons y ys =>
                simp only [IntervalPoint.cursorLt] at hlt ⊢
                rcases htotal x y with h1 | h1
                · exact h1
                · rw [h1] at hlt
                  cases hlt
          · exact hfmin (fun d hd => hne d (List.mem_cons_of_mem _ hd)) d hd
        · cases h
          refine ⟨List.mem_cons_self _ _, ?_⟩
          intro hne d hd
          have hfc : IntervalPoint.cursorLt lt f e = false := by simpa using hlt
          rcases List.mem_cons.mp hd with rfl | hd
          · cases d with
            | nil => rfl
            | cons x xs => exact (htotal x x).elim id id
          · have hdf := hfmin (fun d hd => hne d (List.mem_cons_of_mem _ hd)) d hd
            have hfne := hne f (List.mem_cons_of_mem _ hfm)
            cases d with
            | nil => rfl
            | cons x xs =>
              cases e with
              | nil => rfl
              | cons y ys =>
                cases f with
                | nil => exact absurd rfl hfne
                | cons z zs =>
                  simp only [IntervalPoint.cursorLt] at hfc hdf ⊢
                  exact htrans y z x hfc hdf

theorem lexLt_total (a b : IntervalPoint) :
    IntervalPoint.lexLt a b = false ∨ IntervalPoint.lexLt b a = false := by
  obtain ⟨ap, ah, as, ad⟩ := a
  obtain ⟨bp, bh, bs, bd⟩ := b
  unfold IntervalPoint.lexLt
  simp only [decide_eq_false_iff_not]
  cases ad <;> cases bd <;> simp <;> omega

theorem lexLt_trans (a b c : IntervalPoint) (h1 : IntervalPoint.lexLt b a = false)
    (h2 : IntervalPoint.lexLt c b = false) : IntervalPoint.lexLt c a = false := by
  obtain ⟨ap, ah, as, ad⟩ := a
  obtain ⟨bp, bh, bs, bd⟩ := b
  obtain ⟨cp, ch, cs, cd⟩ := c
  unfold IntervalPoint.lexLt at *
  simp only [decide_eq_false_iff_not] at *
  cases ad <;> cases bd <;> cases cd <;> simp at h1 h2 ⊢ <;> omega

theorem skip_mapping_iff (F : SeedFilter) (ip : IntervalPoint) :
    skip_mapping F ip = true ↔
      (F.skip_self = true ∧ F.seqName = F.refName ip.seqId) ∨
      (F.skip_prefix = true ∧ F.refIdGroup ip.seqId = F.refGroup) ∨
      (F.lower_triangular = true ∧ F.seqCounter ≤ ip.seqId) := by
  unfold skip_mapping
  dsimp only
  split_ifs with h1 h2 h3 <;> simp_all

/-- C32. For an order `lt` of the interval points whose `>=` is transitive, cursors ordered by
the point they stand at, a heap whose front is a cursor that no cursor is `<`, and an index
whose vectors are non-empty and sorted by `lt`:
`getSeedIntervalPoints` returns and appends to `intervalPoints` a sequence `merged` without the
points for which `skip_mapping` is set, where `merged` is in non-decreasing order and holds the
points of the vectors of the query minmers found in the index, each vector once for each such
minmer; `skip_mapping` is set exactly by `skip_self`, `skip_prefix` or `lower_triangular`; and
with the three flags off the whole of `merged` is appended. -/
theorem getSeedIntervalPoints_merges (lt : IntervalPoint → IntervalPoint → Bool)
    (ptrLt : List IntervalPoint → List IntervalPoint → Bool)
    (F : SeedFilter) (front : List (List IntervalPoint) → Option (List IntervalPoint))
    (find : Nat → Option (List IntervalPoint)) (minmerTableQuery : List MinmerInfo)
    (intervalPoints : List IntervalPoint)
    (htrans : ∀ a b c, lt b a = false → lt c b = false → lt c a = false)
    (hptr : ∀ a l b m, ptrLt (a :: l) (b :: m) = lt a b)
    (hfront : IsHeapFront ptrLt front)
    (hsorted : ∀ hash v, find hash = some v →
      v ≠ [] ∧ v.Pairwise (fun a b => lt b a = false)) :
    ∃ merged : List IntervalPoint,
      getSeedIntervalPoints F front find minmerTableQuery intervalPoints =
        some (intervalPoints ++ merged.filter (fun ip => !skip_mapping F ip)) ∧
      merged.Pairwise (fun a b => lt b a = false) ∧
      merged.Perm ((minmerTableQuery.filterMap (fun it => find it.hash)).flatten) ∧
      (∀ ip, skip_mapping F ip = true ↔
        (F.skip_self = true ∧ F.seqName = F.refName ip.seqId) ∨
        (F.skip_prefix = true ∧ F.refIdGroup ip.seqId = F.refGroup) ∨
        (F.lower_triangular = true ∧ F.seqCounter ≤ ip.seqId)) ∧
      (F.skip_self = false → F.skip_prefix = false → F.lower_triangular = false →
        getSeedIntervalPoints F front find minmerTableQuery intervalPoints =
          some (intervalPoints ++ merged)) := by
  have hmain : ∃ merged : List IntervalPoint,
      getSeedIntervalPoints F front find minmerTableQuery intervalPoints =
        some (intervalPoints ++ merged.filter (fun ip => !skip_mapping F ip)) ∧
      merged.Pairwise (fun a b => lt b a = false) ∧
      merged.Perm ((minmerTableQuery.filterMap (fun it => find it.hash)).flatten) := by
    unfold getSeedIntervalPoints
    by_cases h0 : minmerTableQuery.length = 0
    · rw [if_pos h0]
      have : minmerTableQuery = [] := List.length_eq_zero.mp h0
      subst this
      exact ⟨[], by simp, List.Pairwise.nil, by simp⟩
    · rw [if_neg h0]
      have := drainLoop_spec lt ptrLt F front htrans hptr hfront intervalPoints
        ((minmerTableQuery.filterMap (fun it => find it.hash)).map List.length).sum
        (minmerTableQuery.filterMap (fun it => find it.hash)) [] (le_refl _)
        (by
          intro c hc
          obtain ⟨it, _, hit⟩ := List.mem_filterMap.mp hc
          exact hsorted it.hash c hit)
        List.Pairwise.nil (fun m hm => by cases hm)
      simpa using this
  obtain ⟨merged, h1, h2, h3⟩ := hmain
  refine ⟨merged, h1, h2, h3, skip_mapping_iff F, ?_⟩
  intro f1 f2 f3
  rw [h1]
  congr 2
  rw [List.filter_eq_self]
  intro ip _
  have : skip_mapping F ip = false := by
    rw [← Bool.not_eq_true, skip_mapping_iff]
    simp [f1, f2, f3]
  simp [this]

theorem sampleFind_sorted (hash : Nat) (v : List IntervalPoint)
    (h : IntervalPoint.sampleFind hash = some v) :
    v ≠ [] ∧ v.Pairwise (fun a b => IntervalPoint.lexLt b a = false) := by
  unfold IntervalPoint.sampleFind at h
  split_ifs at h <;> cases h <;> decide

theorem getSeedIntervalPoints_merges_witness :
    (∀ a b c, IntervalPoint.lexLt b a = false → IntervalPoint.lexLt c b = false →
      IntervalPoint.lexLt c a = false) ∧
    (∀ a l b m, IntervalPoint.cursorLt IntervalPoint.lexLt (a :: l) (b :: m) =
      IntervalPoint.lexLt a b) ∧
    IsHeapFront (IntervalPoint.cursorLt IntervalPoint.lexLt)
      (firstFront IntervalPoint.lexLt) ∧
    (∀ hash v, IntervalPoint.sampleFind hash = some v →
      v ≠ [] ∧ v.Pairwise (fun a b => IntervalPoint.lexLt b a = false)) ∧
    ∃ merged : List IntervalPoint,
      getSeedIntervalPoints SeedFilter.sample (firstFront IntervalPoint.lexLt)
          IntervalPoint.sampleFind [⟨7, 0, 10, 0, 1⟩, ⟨9, 0, 10, 0, 1⟩, ⟨11, 0, 10, 0, 1⟩] [] =
        some ([] ++ merged.filter (fun ip => !skip_mapping SeedFilter.sample ip)) ∧
      merged.Pairwise (fun a b => IntervalPoint.lexLt b a = false) ∧
      merged.Perm ((([⟨7, 0, 10, 0, 1⟩, ⟨9, 0, 10, 0, 1⟩, ⟨11, 0, 10, 0, 1⟩] :
        List MinmerInfo).filterMap (fun it => IntervalPoint.sampleFind it.hash)).flatten) ∧
      (∀ ip, skip_mapping SeedFilter.sample ip = true ↔
        (SeedFilter.sample.skip_self = true ∧
          SeedFilter.sample.seqName = SeedFilter.sample.refName ip.seqId) ∨
        (SeedFilter.sample.skip_prefix = true ∧
          SeedFilter.sample.refIdGroup ip.seqId = SeedFilter.sample.refGroup) ∨
        (SeedFilter.sample.lower_triangular = true ∧
          SeedFilter.sample.seqCounter ≤ ip.seqId)) ∧
      (SeedFilter.sample.skip_self = false → SeedFilter.sample.skip_prefix = false →
        SeedFilter.sample.lower_triangular = false →
        getSeedIntervalPoints SeedFilter.sample (firstFront IntervalPoint.lexLt)
            IntervalPoint.sampleFind [⟨7, 0, 10, 0, 1⟩, ⟨9, 0, 10, 0, 1⟩, ⟨11, 0, 10, 0, 1⟩]
            [] =
          some ([] ++ merged)) :=
  ⟨lexLt_trans, fun _ _ _ _ => rfl, firstFront_isHeapFront _ lexLt_total lexLt_trans,
    sampleFind_sorted,
    getSeedIntervalPoints_merges IntervalPoint.lexLt
      (IntervalPoint.cursorLt IntervalPoint.lexLt) SeedFilter.sample
      (firstFront IntervalPoint.lexLt) IntervalPoint.sampleFind
      [⟨7, 0, 10, 0, 1⟩, ⟨9, 0, 10, 0, 1⟩, ⟨11, 0, 10, 0, 1⟩] [] lexLt_trans
      (fun _ _ _ _ => rfl) (firstFront_isHeapFront _ lexLt_total lexLt_trans)
      sampleFind_sorted⟩

end skch
